import Mathlib

/-!
CVSNT buffer layer (`src/buffer.cpp`) and log option parsing (`src/log.cpp`): embedding
and verified properties

The linked chain of `struct buffer_data` nodes of a `struct buffer` is embedded as a
Lean list (the `next` links are the list order, `NULL` is the empty list).  Every node
keeps its address so that the tail pointer `buf->last` can be embedded as an optional
address: dereferencing `buf->last` is defined only when it holds the address of the
final node of the chain; every other dereference is reported as `result.undefined`.
A pointer into a chain is embedded as the index of the node it points to, `NULL`
being the length of the chain.

`int` quantities (`size`, `bufp - text`, `want`, `need`, status codes) are `Int`.
`BUFFER_DATA_SIZE` and `PACKET_SLOP` come from `buffer.h` and are parameters of the
development, as are the byte order of the host and the value of `ENOMEM`.
`sizeof (int)` is 4.

Every callback invocation made through a buffer is appended to its `calls` log, which
is how statements about what is handed to, or asked from, a backend are expressed.

A packetizing buffer is embedded as its closure, the `struct packetizing_buffer`, which
holds the underlying buffer.  Its callbacks `packetizing_buffer_output` and
`packetizing_buffer_input` use the free list, so they take and return the pool; the
translation functions `outfn` and `inpfn` return the bytes they store in `OUTPUT`.
-/

namespace cvsnt

/-- A `char` of the C program. -/
abbrev Byte := Fin 256

/-- Outcome of running a piece of the C program: normal completion with a value, a call
of `abort ()`, a fatal `error (1, ...)`, behaviour the C standard leaves undefined, or
exhaustion of the fuel that bounds a `while (1)` loop in the embedding. -/
inductive result (α : Type) where
  | ok (v : α) : result α
  | abort : result α
  | fatal : result α
  | undefined : result α
  | out_of_fuel : result α

/-- Sequencing of two computations. -/
def result.bind {α β : Type} (r : result α) (f : α → result β) : result β :=
  match r with
  | result.ok v => f v
  | result.abort => result.abort
  | result.fatal => result.fatal
  | result.undefined => result.undefined
  | result.out_of_fuel => result.out_of_fuel

/-- The node `struct buffer_data` of `buffer.h`: `text` is the backing array of
`BUFFER_DATA_SIZE` bytes, `bufp` is the offset `bufp - text` of the read cursor, `size`
the number of used bytes from `bufp` on.  `addr` is the address of the node. -/
structure buffer_data where
  addr : Nat
  text : List Byte
  bufp : Int
  size : Int
deriving DecidableEq, Repr

/-- The static free list `free_buffer_data` together with the allocator behind
`xmalloc`: `brk` is the next unused node address, `xmalloc_left` the number of blocks
`xmalloc` can still give, to `allocate_buffer_datas` and to the other callers (`none`:
`xmalloc` never returns `NULL`). -/
structure pool where
  free_buffer_data : List buffer_data
  brk : Nat
  xmalloc_left : Option Nat
deriving DecidableEq, Repr

/-- One invocation of a callback stored in a `struct buffer`, with its arguments. -/
inductive callback where
  | input (need size : Int) : callback
  | output (data : List Byte) : callback
  | flush : callback
  | block (b : Int) : callback
  | shutdown : callback
  | memory_error : callback
deriving DecidableEq, Repr

/-- The `struct buffer` of `buffer.h`.  A callback receives the closure and returns it
updated; `input` returns the status and the bytes it stored (`*got` is their number),
`output` returns the status and `*wrote`.  `calls` logs every callback invocation made
through this buffer, oldest first (`memory_error` is taken to return to its caller). -/
structure buffer (σ : Type) where
  data : List buffer_data
  last : Option Nat
  nonblocking : Int
  input : Option (σ → Int → Int → Int × List Byte × σ)
  output : Option (σ → List Byte → Int × Int × σ)
  flush : Option (σ → Int × σ)
  block : Option (σ → Int → Int × σ)
  shutdown : Option (σ → Int × σ)
  closure : σ
  calls : List callback

/-- The call `memcpy (text + off, src, len)` where `src` holds `len` bytes. -/
def memcpy (text : List Byte) (off : Int) (src : List Byte) : List Byte :=
  text.take off.toNat ++ src ++ text.drop (off.toNat + src.length)

/-- The bytes `bufp[0 .. size-1]` of a node. -/
def seg_bytes (d : buffer_data) : List Byte :=
  (d.text.drop d.bufp.toNat).take d.size.toNat

/-- The content of a chain: the used bytes of its nodes, in chain order. -/
def chain_bytes : List buffer_data → List Byte
  | [] => []
  | d :: rest => seg_bytes d ++ chain_bytes rest

/-- The body of the `for` loop of `allocate_buffer_datas`, run for the nodes
`alc[0 .. n-1]`: each is pushed on the free list.  Fresh memory is taken as zeroed. -/
def allocate_loop (BUFFER_DATA_SIZE : Nat) (base : Nat) : Nat → List buffer_data → List buffer_data
  | 0, free => free
  | n + 1, free =>
    { addr := base + n, text := List.replicate BUFFER_DATA_SIZE 0, bufp := 0, size := 0 }
      :: allocate_loop BUFFER_DATA_SIZE base n free

/-- The function `allocate_buffer_datas`: a block of `ALLOC_COUNT = 16` nodes is put on
the free list, unless `xmalloc` fails. -/
def allocate_buffer_datas (BUFFER_DATA_SIZE : Nat) (p : pool) : pool :=
  match p.xmalloc_left with
  | some 0 => p
  | left =>
    { free_buffer_data := allocate_loop BUFFER_DATA_SIZE p.brk 16 p.free_buffer_data,
      brk := p.brk + 16,
      xmalloc_left := left.map (fun n => n - 1) }

/-- The function `get_buffer_data`: pops the head of the free list (refilled when
empty) and resets it; `none` is the `NULL` return. -/
def get_buffer_data (BUFFER_DATA_SIZE : Nat) (p : pool) : Option buffer_data × pool :=
  let p1 := if p.free_buffer_data = [] then allocate_buffer_datas BUFFER_DATA_SIZE p else p
  match p1.free_buffer_data with
  | [] => (none, p1)
  | ret :: rest =>
    (some { ret with size := 0, text := List.replicate BUFFER_DATA_SIZE 0, bufp := 0 },
     { p1 with free_buffer_data := rest })

/-- A call of `xmalloc` or `xrealloc`: `none` when it returns `NULL`. -/
def xmalloc (p : pool) : Option pool :=
  match p.xmalloc_left with
  | some 0 => none
  | left => some { p with xmalloc_left := left.map (fun n => n - 1) }

/-- The node `*buf->last`, defined when `buf->last` is the address of the final node of
the chain. -/
def last_data {σ : Type} (buf : buffer σ) : Option buffer_data :=
  match buf.data.getLast?, buf.last with
  | some d, some a => if a = d.addr then some d else none
  | _, _ => none

/-- Assignment to the fields of `*buf->last`. -/
def set_last {σ : Type} (buf : buffer σ) (d : buffer_data) : buffer σ :=
  { buf with data := buf.data.dropLast ++ [d] }

/-- The statements
`if (buf->data == NULL) buf->data = newdata; else buf->last->next = newdata;`
`newdata->next = NULL; buf->last = newdata;`. -/
def link_last {σ : Type} (buf : buffer σ) (newdata : buffer_data) : result (buffer σ) :=
  match buf.data with
  | [] => result.ok { buf with data := [newdata], last := some newdata.addr }
  | _ :: _ =>
    match last_data buf with
    | none => result.undefined
    | some _ => result.ok { buf with data := buf.data ++ [newdata], last := some newdata.addr }

/-- The `while (1)` loop of `buf_output`; `data` is what remains to be added. -/
def buf_output_loop {σ : Type} (BUFFER_DATA_SIZE : Nat) :
    Nat → buffer σ → pool → List Byte → result (buffer σ × pool)
  | 0, _, _, _ => result.out_of_fuel
  | fuel + 1, buf, p, data =>
    match get_buffer_data BUFFER_DATA_SIZE p with
    | (none, p1) => result.ok ({ buf with calls := buf.calls ++ [callback.memory_error] }, p1)
    | (some newdata, p1) =>
      if (data.length : Int) ≤ BUFFER_DATA_SIZE then
        let d : buffer_data :=
          { newdata with bufp := 0, size := data.length, text := memcpy newdata.text 0 data }
        (link_last buf d).bind fun buf1 => result.ok (buf1, p1)
      else
        let d : buffer_data :=
          { newdata with bufp := 0, size := BUFFER_DATA_SIZE,
                         text := memcpy newdata.text 0 (data.take BUFFER_DATA_SIZE) }
        (link_last buf d).bind fun buf1 =>
          buf_output_loop BUFFER_DATA_SIZE fuel buf1 p1 (data.drop BUFFER_DATA_SIZE)

/-- The function `buf_output (buf, data, len)`, `data` being the `len` bytes to add. -/
def buf_output {σ : Type} (BUFFER_DATA_SIZE : Nat) (buf : buffer σ) (p : pool)
    (data : List Byte) : result (buffer σ × pool) :=
  match buf.data with
  | [] => buf_output_loop BUFFER_DATA_SIZE (data.length + 1) buf p data
  | _ :: _ =>
    match last_data buf with
    | none => result.undefined
    | some l =>
      if (BUFFER_DATA_SIZE : Int) - (l.bufp + l.size) ≥ data.length then
        result.ok (set_last buf { l with text := memcpy l.text (l.bufp + l.size) data,
                                         size := l.size + data.length }, p)
      else buf_output_loop BUFFER_DATA_SIZE (data.length + 1) buf p data

/-- The sum of the sizes of the nodes of a chain, as an integer without bound. -/
def chain_size : List buffer_data → Int
  | [] => 0
  | d :: rest => d.size + chain_size rest

/-- An `int` value brought back to 32 bits, two's complement: what an addition of `int`s
leaves in an `int` on the hosts of the program, where overflow wraps. -/
def int_wrap (n : Int) : Int :=
  (n + 2147483648) % 4294967296 - 2147483648

/-- The loop `while (buf) { size += buf->size; buf = buf->next; }` of
`buf_chain_length`, `size` being an `int`. -/
def buf_chain_length_loop : Int → List buffer_data → Int
  | size, [] => size
  | size, d :: rest => buf_chain_length_loop (int_wrap (size + d.size)) rest

/-- The function `buf_chain_length`. -/
def buf_chain_length (buf : List buffer_data) : Int :=
  buf_chain_length_loop 0 buf

/-- The function `buf_length`. -/
def buf_length {σ : Type} (buf : buffer σ) : Int :=
  buf_chain_length buf.data

/-- The conversion of an `int` to `char` on assignment. -/
def char_of_int (ch : Int) : Byte :=
  ⟨(ch % 256).toNat, by omega⟩

/-- The function `buf_append_char`. -/
def buf_append_char {σ : Type} (BUFFER_DATA_SIZE : Nat) (buf : buffer σ) (p : pool)
    (ch : Int) : result (buffer σ × pool) :=
  match buf.data with
  | [] => buf_output BUFFER_DATA_SIZE buf p [char_of_int ch]
  | _ :: _ =>
    match last_data buf with
    | none => result.undefined
    | some l =>
      if (BUFFER_DATA_SIZE : Int) ≠ l.bufp + l.size then
        result.ok (set_last buf { l with text := memcpy l.text (l.bufp + l.size) [char_of_int ch],
                                         size := l.size + 1 }, p)
      else buf_output BUFFER_DATA_SIZE buf p [char_of_int ch]

/-- The statements that discard a chain on an output error in `buf_send_output`:
`if (buf->last) buf->last->next = free_buffer_data; free_buffer_data = buf->data;`
`buf->data = NULL; buf->last = NULL;`. -/
def discard_chain {σ : Type} (buf : buffer σ) (p : pool) : result (buffer σ × pool) :=
  match buf.last with
  | none =>
    result.ok ({ buf with data := [], last := none }, { p with free_buffer_data := buf.data })
  | some _ =>
    match last_data buf with
    | none => result.undefined
    | some _ =>
      result.ok ({ buf with data := [], last := none },
                 { p with free_buffer_data := buf.data ++ p.free_buffer_data })

/-- The `while (buf->data != NULL)` loop of `buf_send_output` followed by the final
`buf->last = NULL; return 0;`.  The first argument is the chain `buf->data`. -/
def buf_send_output_loop {σ : Type} (output : σ → List Byte → Int × Int × σ) :
    List buffer_data → buffer σ → pool → result (Int × buffer σ × pool)
  | [], buf, p => result.ok (0, { buf with data := [], last := none }, p)
  | d :: rest, buf, p =>
    if d.size > 0 then
      match output buf.closure (seg_bytes d) with
      | (status, nbytes, cl) =>
        let buf1 : buffer σ :=
          { buf with data := d :: rest, closure := cl,
                     calls := buf.calls ++ [callback.output (seg_bytes d)] }
        if status ≠ 0 then
          (discard_chain buf1 p).bind fun r => result.ok (status, r.1, r.2)
        else if nbytes ≠ d.size then
          result.ok (0, { buf1 with data := { d with size := d.size - nbytes,
                                                      bufp := d.bufp + nbytes } :: rest }, p)
        else
          buf_send_output_loop output rest { buf1 with data := rest }
            { p with free_buffer_data := d :: p.free_buffer_data }
    else
      buf_send_output_loop output rest { buf with data := rest }
        { p with free_buffer_data := d :: p.free_buffer_data }

/-- The function `buf_send_output`. -/
def buf_send_output {σ : Type} (buf : buffer σ) (p : pool) : result (Int × buffer σ × pool) :=
  match buf.output with
  | none => result.abort
  | some output => buf_send_output_loop output buf.data buf p

/-- The number `sizeof (int)`. -/
def sizeof_int : Nat := 4

/-- The object representation of an `int` (32 bits, two's complement) in host byte
order. -/
def int_bytes (big_endian : Bool) (n : Int) : List Byte :=
  let u : Nat := (n % 4294967296).toNat
  let le : List Byte :=
    [⟨u % 256, by omega⟩, ⟨u / 256 % 256, by omega⟩,
     ⟨u / 65536 % 256, by omega⟩, ⟨u / 16777216 % 256, by omega⟩]
  if big_endian then le.reverse else le

/-- The unsigned value of a little-endian byte string. -/
def le_value : List Byte → Nat
  | [] => 0
  | b :: rest => b.val + 256 * le_value rest

/-- The `int` whose object representation in host byte order is `bs`. -/
def int_of_bytes (big_endian : Bool) (bs : List Byte) : Int :=
  let u : Nat := le_value (if big_endian then bs.reverse else bs)
  if u < 2147483648 then (u : Int) else (u : Int) - 4294967296

/-- The statements shared by `buf_send_counted` and `buf_send_special_count` once the
new node `data` has been obtained: it is put in front of the chain with the `int`
`count` stored in it, and the buffer is sent.  Storing an `int` in a backing array of
fewer than `sizeof (int)` bytes is undefined. -/
def send_count {σ : Type} (big_endian : Bool) (buf : buffer σ) (p : pool)
    (data : buffer_data) (count : Int) : result (Int × buffer σ × pool) :=
  if data.text.length < sizeof_int then result.undefined
  else
    let d : buffer_data :=
      { data with bufp := 0, size := sizeof_int,
                  text := memcpy data.text 0 (int_bytes big_endian count) }
    buf_send_output
      { buf with data := d :: buf.data,
                 last := match buf.last with
                         | none => some data.addr
                         | some a => some a } p

/-- The function `buf_send_counted`.  The sum `size` of the sizes of the nodes is taken
without bound: it is the `int` of the source as long as the sizes add up to less than
2^31. -/
def buf_send_counted {σ : Type} (BUFFER_DATA_SIZE : Nat) (big_endian : Bool) (ENOMEM : Int)
    (buf : buffer σ) (p : pool) : result (Int × buffer σ × pool) :=
  let size : Int := chain_size buf.data
  if size = 0 then result.ok (0, buf, p)
  else
    match get_buffer_data BUFFER_DATA_SIZE p with
    | (none, p1) =>
      result.ok (ENOMEM, { buf with calls := buf.calls ++ [callback.memory_error] }, p1)
    | (some data, p1) => send_count big_endian buf p1 data size

/-- The function `buf_append_data (buf, data, last)`: `data` is the chain that starts at
the node `data`, `last` the pointer passed as third argument. -/
def buf_append_data {σ : Type} (buf : buffer σ) (data : List buffer_data) (last : Option Nat) :
    result (buffer σ) :=
  match data with
  | [] => result.ok buf
  | _ :: _ =>
    match buf.data with
    | [] => result.ok { buf with data := data, last := last }
    | _ :: _ =>
      match last_data buf with
      | none => result.undefined
      | some _ => result.ok { buf with data := buf.data ++ data, last := last }

/-- The first loop of `buf_read_data`, which frees the leading nodes of size 0.  The
first argument is the chain `buf->data`. -/
def read_data_skip {σ : Type} : List buffer_data → buffer σ → pool → buffer σ × pool
  | [], buf, p => ({ buf with data := [] }, p)
  | d :: rest, buf, p =>
    if d.size = 0 then
      read_data_skip rest { buf with data := rest, last := if rest = [] then none else buf.last }
        { p with free_buffer_data := d :: p.free_buffer_data }
    else ({ buf with data := d :: rest }, p)

/-- The end of `buf_read_data`: the view `*retdata`, `*got` and the update of the
first node of the chain. -/
def read_data_take {σ : Type} (buf : buffer σ) (p : pool) (want : Int) :
    result ((Int × List Byte × Int) × buffer σ × pool) :=
  match buf.data with
  | [] => result.undefined
  | d :: rest =>
    if want < d.size then
      result.ok ((0, (d.text.drop d.bufp.toNat).take want.toNat, want),
        { buf with data := { d with size := d.size - want, bufp := d.bufp + want } :: rest }, p)
    else
      result.ok ((0, (d.text.drop d.bufp.toNat).take d.size.toNat, d.size),
        { buf with data := { d with size := 0 } :: rest }, p)

/-- The function `buf_read_data (buf, want, retdata, got)`; the value is the status
returned, the bytes of the view `*retdata` and `*got` (no view and `*got` untouched,
given here as `[]` and `0`, when the status is not 0). -/
def buf_read_data {σ : Type} (BUFFER_DATA_SIZE : Nat) (buf : buffer σ) (p : pool) (want : Int) :
    result ((Int × List Byte × Int) × buffer σ × pool) :=
  match buf.input with
  | none => result.abort
  | some input =>
    match read_data_skip buf.data buf p with
    | (buf1, p1) =>
      match buf1.data with
      | [] =>
        match get_buffer_data BUFFER_DATA_SIZE p1 with
        | (none, p2) =>
          result.ok ((-2, [], 0),
            { buf1 with calls := buf1.calls ++ [callback.memory_error] }, p2)
        | (some data, p2) =>
          let get : Int := if want < BUFFER_DATA_SIZE then want else BUFFER_DATA_SIZE
          match input buf1.closure get BUFFER_DATA_SIZE with
          | (status, bytes, cl) =>
            let buf2 : buffer σ :=
              { buf1 with data := [{ data with bufp := 0, size := 0,
                                               text := memcpy data.text 0 bytes }],
                          last := some data.addr, closure := cl,
                          calls := buf1.calls ++ [callback.input get BUFFER_DATA_SIZE] }
            if status ≠ 0 then result.ok ((status, [], 0), buf2, p2)
            else
              read_data_take
                { buf2 with data := [{ data with bufp := 0, size := bytes.length,
                                                 text := memcpy data.text 0 bytes }] } p2 want
      | _ :: _ => read_data_take buf1 p1 want

/-- The bytes `bufp[0 .. n-1]` of a node. -/
def peek (d : buffer_data) (n : Int) : List Byte :=
  (d.text.drop d.bufp.toNat).take n.toNat

/-- The call `memchr (s, c, n)` on the `n` bytes `bs` at `s`: the offset of the first
occurrence of `c`, `none` for `NULL`. -/
def memchr : List Byte → Byte → Option Nat
  | [], _ => none
  | b :: rest, c => if b = c then some 0 else (memchr rest c).map (fun k => k + 1)

/-- The `for` loop of `buf_read_line` that looks for a newline, entered at the node of
index `i` with `len` bytes before it: the index of `nldata`, `finallen` and `len`. -/
def read_line_scan : List buffer_data → Int → Nat → Option (Nat × Int × Int)
  | [], _, _ => none
  | d :: rest, len, i =>
    match memchr (seg_bytes d) 10 with
    | some k => some (i, (k : Int), len + k)
    | none => read_line_scan rest (len + d.size) (i + 1)

/-- The block of `buf_read_line` (and of `buf_input_data`) that makes room at the tail:
`if (buf->data == NULL || buf->last->bufp + buf->last->size == buf->last->text + BUFFER_DATA_SIZE)`
a node is obtained from the pool and linked at the tail.  The buffer is `none` when
`get_buffer_data` returned `NULL`. -/
def tail_room {σ : Type} (BUFFER_DATA_SIZE : Nat) (buf : buffer σ) (p : pool) :
    result (Option (buffer σ) × pool) :=
  let fresh : result (Option (buffer σ) × pool) :=
    match get_buffer_data BUFFER_DATA_SIZE p with
    | (none, p1) => result.ok (none, p1)
    | (some data, p1) =>
      (link_last buf { data with bufp := 0, size := 0 }).bind fun b => result.ok (some b, p1)
  match buf.data with
  | [] => fresh
  | _ :: _ =>
    match last_data buf with
    | none => result.undefined
    | some l => if l.bufp + l.size = BUFFER_DATA_SIZE then fresh else result.ok (some buf, p)

/-- The inner `while (1)` loop of `buf_read_line`, which reads more data until a
newline arrives: `some status` when the function returns `status` from inside the
loop, `none` when the loop is left by `break`. -/
def read_line_more {σ : Type} (BUFFER_DATA_SIZE : Nat)
    (input : σ → Int → Int → Int × List Byte × σ) :
    Nat → buffer σ → pool → result (Option Int × buffer σ × pool)
  | 0, _, _ => result.out_of_fuel
  | fuel + 1, buf, p =>
    (tail_room BUFFER_DATA_SIZE buf p).bind fun r =>
      match r with
      | (none, p1) =>
        result.ok (some (-2), { buf with calls := buf.calls ++ [callback.memory_error] }, p1)
      | (some buf1, p1) =>
        match last_data buf1 with
        | none => result.undefined
        | some l =>
          let mem : Int := l.bufp + l.size
          let size : Int := BUFFER_DATA_SIZE - mem
          match input buf1.closure 1 size with
          | (status, bytes, cl) =>
            let buf2 : buffer σ :=
              { set_last buf1 { l with text := memcpy l.text mem bytes } with
                  closure := cl, calls := buf1.calls ++ [callback.input 1 size] }
            if status ≠ 0 then result.ok (some status, buf2, p1)
            else
              let buf3 : buffer σ :=
                { set_last buf1 { l with text := memcpy l.text mem bytes,
                                         size := l.size + bytes.length } with
                    closure := cl, calls := buf1.calls ++ [callback.input 1 size] }
              let found : Bool :=
                if bytes.length = 1 then bytes.head? = some 10
                else (memchr bytes 10).isSome
              if found then result.ok (none, buf3, p1)
              else read_line_more BUFFER_DATA_SIZE input fuel buf3 p1

/-- The outer `while (1)` loop of `buf_read_line`.  The value is the status returned,
`*line` (`none` for `NULL`) and `*lenp` (`none` when it is not assigned).  When a
newline is found the memory of the line is obtained with `xmalloc`; the function
returns -2, everything else being as it was, when that call returns `NULL`. -/
def buf_read_line_loop {σ : Type} (BUFFER_DATA_SIZE : Nat)
    (input : σ → Int → Int → Int × List Byte × σ) :
    Nat → buffer σ → pool → result ((Int × Option (List Byte) × Option Int) × buffer σ × pool)
  | 0, _, _ => result.out_of_fuel
  | fuel + 1, buf, p =>
    match read_line_scan buf.data 0 0 with
    | some (i, finallen, len) =>
      match buf.data[i]? with
      | none => result.undefined
      | some nldata =>
        match xmalloc p with
        | none => result.ok ((-2, none, none), buf, p)
        | some p1 =>
          let line : List Byte := chain_bytes (buf.data.take i) ++ peek nldata finallen
          result.ok ((0, some line, some len),
            { buf with data := { nldata with size := nldata.size - (finallen + 1),
                                             bufp := nldata.bufp + finallen + 1 }
                                 :: buf.data.drop (i + 1) },
            { p1 with free_buffer_data := (buf.data.take i).reverse ++ p1.free_buffer_data })
    | none =>
      (read_line_more BUFFER_DATA_SIZE input fuel buf p).bind fun r =>
        match r with
        | (some status, buf1, p1) => result.ok ((status, none, none), buf1, p1)
        | (none, buf1, p1) => buf_read_line_loop BUFFER_DATA_SIZE input fuel buf1 p1

/-- The function `buf_read_line (buf, line, lenp)`; `fuel` bounds the number of
iterations of its `while (1)` loops. -/
def buf_read_line {σ : Type} (BUFFER_DATA_SIZE : Nat) (fuel : Nat) (buf : buffer σ) (p : pool) :
    result ((Int × Option (List Byte) × Option Int) × buffer σ × pool) :=
  match buf.input with
  | none => result.abort
  | some input => buf_read_line_loop BUFFER_DATA_SIZE input fuel buf p

/-- The `for` loop of `buf_copy_lines` that looks for a newline, entered at the node of
index `i`: the index of `nldata` and the offset `nl - nldata->bufp`. -/
def copy_lines_scan : List buffer_data → Nat → Option (Nat × Nat)
  | [], _ => none
  | d :: rest, i =>
    match memchr (seg_bytes d) 10 with
    | some k => some (i, k)
    | none => copy_lines_scan rest (i + 1)

/-- The block `if (inbuf->data != nldata) { ... }` of `buf_copy_lines`, `nldata` being
the node of index `i`: the nodes before `nldata` are moved to `outbuf`. -/
def copy_lines_before {σ τ : Type} (outbuf : buffer σ) (inbuf : buffer τ) (i : Nat) :
    result (buffer σ × buffer τ) :=
  if i ≠ 0 then
    (buf_append_data outbuf (inbuf.data.take i)
      ((inbuf.data[i - 1]?).map fun d => d.addr)).bind fun o =>
      result.ok (o, { inbuf with data := inbuf.data.drop i })
  else result.ok (outbuf, inbuf)

/-- The end of an iteration of `buf_copy_lines`, when `inbuf->data` is `nldata` and the
newline is at offset `k`: the node is moved to `outbuf` when the newline is its last
byte, else the bytes up to the newline are copied. -/
def copy_lines_end {σ τ : Type} (BUFFER_DATA_SIZE : Nat) (outbuf : buffer σ) (inbuf : buffer τ)
    (p : pool) (k : Nat) : result (buffer σ × buffer τ × pool) :=
  match inbuf.data with
  | [] => result.undefined
  | nldata :: rest =>
    let len : Int := (k : Int) + 1
    if len = nldata.size then
      (buf_append_data outbuf [nldata] (some nldata.addr)).bind fun o =>
        result.ok (o, { inbuf with data := rest,
                                   last := if rest = [] then none else inbuf.last }, p)
    else
      (buf_output BUFFER_DATA_SIZE outbuf p (peek nldata len)).bind fun r =>
        result.ok (r.1, { inbuf with data := { nldata with bufp := nldata.bufp + len,
                                                           size := nldata.size - len } :: rest },
                   r.2)

/-- The `while (1)` loop of `buf_copy_lines`. -/
def buf_copy_lines_loop {σ τ : Type} (BUFFER_DATA_SIZE : Nat) :
    Nat → buffer σ → buffer τ → pool → Int → result (buffer σ × buffer τ × pool)
  | 0, _, _, _, _ => result.out_of_fuel
  | fuel + 1, outbuf, inbuf, p, command =>
    match copy_lines_scan inbuf.data 0 with
    | none => result.ok (outbuf, inbuf, p)
    | some (i, k) =>
      (buf_append_char BUFFER_DATA_SIZE outbuf p command).bind fun r1 =>
      (buf_append_char BUFFER_DATA_SIZE r1.1 r1.2 32).bind fun r2 =>
      (copy_lines_before r2.1 inbuf i).bind fun r3 =>
      (copy_lines_end BUFFER_DATA_SIZE r3.1 r3.2 r2.2 k).bind fun r4 =>
        buf_copy_lines_loop BUFFER_DATA_SIZE fuel r4.1 r4.2.1 r4.2.2 command

/-- The function `buf_copy_lines (outbuf, inbuf, command)`.  Every iteration of its loop
but the last removes a newline from `inbuf`, which bounds their number. -/
def buf_copy_lines {σ τ : Type} (BUFFER_DATA_SIZE : Nat) (outbuf : buffer σ) (inbuf : buffer τ)
    (p : pool) (command : Int) : result (buffer σ × buffer τ × pool) :=
  buf_copy_lines_loop BUFFER_DATA_SIZE ((chain_bytes inbuf.data).length + 1) outbuf inbuf p
    command

/-- The first `for` loop of `buf_copy_counted`, which gathers the bytes of the count
into `u.intbuf`, entered at the node of index `i`: the index of the node on which the
loop stops (`none` when it reaches `NULL`), `need` and the bytes gathered. -/
def copy_counted_count : List buffer_data → Int → List Byte → Nat → Option Nat × Int × List Byte
  | [], need, intbuf, _ => (none, need, intbuf)
  | d :: rest, need, intbuf, i =>
    if d.size ≥ need then (some i, need, intbuf ++ peek d need)
    else copy_counted_count rest (need - d.size) (intbuf ++ peek d d.size) (i + 1)

/-- The second `for` loop of `buf_copy_counted`, which looks for the node holding the
end of the data, entered at the node of index `j`: the index of the node on which the
loop stops (`none` when it reaches `NULL`) and `need`. -/
def copy_counted_stop : List buffer_data → Int → Nat → Option Nat × Int
  | [], need, _ => (none, need)
  | d :: rest, need, j =>
    if need ≤ d.size then (some j, need)
    else copy_counted_stop rest (need - d.size) (j + 1)

/-- The first part of an iteration of the `while (1)` loop of `buf_copy_counted`, up to
the computation of `stop` and `stopwant`: `Sum.inl need` when the function returns
`need` because bytes are missing, else `start`, `startoff`, `count`, `stop` and
`stopwant`.  The pointers `start` and `stop` are indices into the chain of `inbuf`. -/
def copy_counted_locate (big_endian : Bool) (chain : List buffer_data) :
    result (Sum Int (Nat × Int × Int × Nat × Int)) :=
  match copy_counted_count chain sizeof_int [] 0 with
  | (none, need, _) => result.ok (Sum.inl need)
  | (some start, startoff, intbuf) =>
    let count : Int := int_of_bytes big_endian intbuf
    match chain[start]? with
    | none => result.undefined
    | some sd =>
      if count < 0 then result.ok (Sum.inr (start, startoff, count, start, 0))
      else
        let need : Int := count - (sd.size - startoff)
        if need ≤ 0 then result.ok (Sum.inr (start, startoff, count, start, count))
        else
          match copy_counted_stop (chain.drop (start + 1)) need (start + 1) with
          | (none, need1) => result.ok (Sum.inl need1)
          | (some stop, need1) => result.ok (Sum.inr (start, startoff, count, stop, need1))

/-- The statements `start->bufp += startoff; start->size -= startoff;`
`if (start->size == 0) start = start->next;`
`if (stop->size == stopwant) { stop = stop->next; stopwant = 0; }` of
`buf_copy_counted`: the chain after the update of `*start`, and the new `start`, `stop`
and `stopwant`. -/
def copy_counted_strip (chain : List buffer_data) (start : Nat) (startoff : Int) (stop : Nat)
    (stopwant : Int) : result (List buffer_data × Nat × Nat × Int) :=
  match chain[start]? with
  | none => result.undefined
  | some sd =>
    let chain1 :=
      chain.set start { sd with bufp := sd.bufp + startoff, size := sd.size - startoff }
    let start1 : Nat := if sd.size - startoff = 0 then start + 1 else start
    match chain1[stop]? with
    | none => result.undefined
    | some st =>
      if st.size = stopwant then result.ok (chain1, start1, stop + 1, 0)
      else result.ok (chain1, start1, stop, stopwant)

/-- The block `if (start != stop) { ... }` of `buf_copy_counted`: the nodes from `start`
up to the one before `stop` are moved to `outbuf`.  `chain` is the chain of `inbuf`
before the nodes ahead of `start` were freed. -/
def copy_counted_splice {σ τ : Type} (outbuf : buffer σ) (inbuf : buffer τ)
    (chain : List buffer_data) (start stop : Nat) : result (buffer σ × buffer τ) :=
  if start ≠ stop then
    if start < stop then
      (buf_append_data outbuf ((chain.take stop).drop start)
        ((chain[stop - 1]?).map fun d => d.addr)).bind fun o =>
        result.ok (o, { inbuf with data := chain.drop stop })
    else result.undefined
  else result.ok (outbuf, inbuf)

/-- The block `if (stopwant > 0) { ... }` of `buf_copy_counted`: `stopwant` bytes of
`*stop` are copied to `outbuf` and removed from `*stop`. -/
def copy_counted_copy {σ τ : Type} (BUFFER_DATA_SIZE : Nat) (outbuf : buffer σ)
    (inbuf : buffer τ) (p : pool) (chain : List buffer_data) (stop : Nat) (stopwant : Int) :
    result (buffer σ × buffer τ × pool) :=
  if stopwant > 0 then
    match chain[stop]? with
    | none => result.undefined
    | some st =>
      (buf_output BUFFER_DATA_SIZE outbuf p (peek st stopwant)).bind fun r =>
        result.ok (r.1,
          { inbuf with data := { st with bufp := st.bufp + stopwant, size := st.size - stopwant }
                                :: chain.drop (stop + 1) }, r.2)
  else result.ok (outbuf, inbuf, p)

/-- The end of an iteration of `buf_copy_counted`, from `if (start != stop)` on. -/
def copy_counted_move {σ τ : Type} (BUFFER_DATA_SIZE : Nat) (outbuf : buffer σ)
    (inbuf : buffer τ) (p : pool) (chain : List buffer_data) (start stop : Nat)
    (stopwant : Int) : result (buffer σ × buffer τ × pool) :=
  (copy_counted_splice outbuf inbuf chain start stop).bind fun r =>
    copy_counted_copy BUFFER_DATA_SIZE r.1 r.2 p chain stop stopwant

/-- One iteration of the `while (1)` loop of `buf_copy_counted`: `Sum.inl (r, special)`
when the function returns `r` with `*special = special`, `Sum.inr ()` when the
iteration ends and the loop goes on. -/
def buf_copy_counted_step {σ τ : Type} (BUFFER_DATA_SIZE : Nat) (big_endian : Bool)
    (outbuf : buffer σ) (inbuf : buffer τ) (p : pool) :
    result (Sum (Int × Int) Unit × buffer σ × buffer τ × pool) :=
  (copy_counted_locate big_endian inbuf.data).bind fun loc =>
    match loc with
    | Sum.inl need => result.ok (Sum.inl (need, 0), outbuf, inbuf, p)
    | Sum.inr (start, startoff, count, stop, stopwant) =>
      (copy_counted_strip inbuf.data start startoff stop stopwant).bind fun s =>
        match s with
        | (chain1, start1, stop1, stopwant1) =>
          let p1 : pool :=
            { p with free_buffer_data := (chain1.take start1).reverse ++ p.free_buffer_data }
          let inbuf1 : buffer τ := { inbuf with data := chain1.drop start1 }
          if count < 0 then result.ok (Sum.inl (0, count), outbuf, inbuf1, p1)
          else
            (copy_counted_move BUFFER_DATA_SIZE outbuf inbuf1 p1 chain1 start1 stop1
              stopwant1).bind fun r => result.ok (Sum.inr (), r.1, r.2.1, r.2.2)

/-- The `while (1)` loop of `buf_copy_counted`. -/
def buf_copy_counted_loop {σ τ : Type} (BUFFER_DATA_SIZE : Nat) (big_endian : Bool) :
    Nat → buffer σ → buffer τ → pool → result ((Int × Int) × buffer σ × buffer τ × pool)
  | 0, _, _, _ => result.out_of_fuel
  | fuel + 1, outbuf, inbuf, p =>
    (buf_copy_counted_step BUFFER_DATA_SIZE big_endian outbuf inbuf p).bind fun r =>
      match r with
      | (Sum.inl v, o, i, p1) => result.ok (v, o, i, p1)
      | (Sum.inr _, o, i, p1) => buf_copy_counted_loop BUFFER_DATA_SIZE big_endian fuel o i p1

/-- The function `buf_copy_counted (outbuf, inbuf, special)`; the value is the `int`
returned and `*special`.  Every iteration of its loop but the last removes the
`sizeof (int)` bytes of a count from `inbuf`, which bounds their number. -/
def buf_copy_counted {σ τ : Type} (BUFFER_DATA_SIZE : Nat) (big_endian : Bool)
    (outbuf : buffer σ) (inbuf : buffer τ) (p : pool) :
    result ((Int × Int) × buffer σ × buffer τ × pool) :=
  buf_copy_counted_loop BUFFER_DATA_SIZE big_endian ((chain_bytes inbuf.data).length + 1)
    outbuf inbuf p

/-- An empty buffer, as `buf_initialize` returns it. -/
def buf_initialize {σ : Type} (input : Option (σ → Int → Int → Int × List Byte × σ))
    (output : Option (σ → List Byte → Int × Int × σ)) (flush : Option (σ → Int × σ))
    (block : Option (σ → Int → Int × σ)) (shutdown : Option (σ → Int × σ)) (closure : σ) :
    buffer σ :=
  { data := [], last := none, nonblocking := 0, input := input, output := output,
    flush := flush, block := block, shutdown := shutdown, closure := closure, calls := [] }

/-- The function `buf_nonio_initialize`. -/
def buf_nonio_initialize : buffer Unit :=
  buf_initialize none none none none none ()

/-- The allocator behind the pool never fails. -/
def never_exhausted (p : pool) : Prop := p.xmalloc_left = none

instance (p : pool) : Decidable (never_exhausted p) := by
  unfold never_exhausted; infer_instance

/-- The cursor and the used bytes of a node lie inside its backing array of
`BUFFER_DATA_SIZE` bytes. -/
def seg_ok (BUFFER_DATA_SIZE : Nat) (d : buffer_data) : Prop :=
  d.text.length = BUFFER_DATA_SIZE ∧ 0 ≤ d.bufp ∧ 0 ≤ d.size ∧ d.bufp + d.size ≤ BUFFER_DATA_SIZE

instance (B : Nat) (d : buffer_data) : Decidable (seg_ok B d) := by
  unfold seg_ok; infer_instance

/-- Every node of a chain satisfies `seg_ok`. -/
def chain_ok (BUFFER_DATA_SIZE : Nat) (l : List buffer_data) : Prop :=
  ∀ d ∈ l, seg_ok BUFFER_DATA_SIZE d

instance (B : Nat) (l : List buffer_data) : Decidable (chain_ok B l) := by
  unfold chain_ok; infer_instance

/-- The tail pointer `last` holds the address of the final node of the chain `l` when
the chain is not empty. -/
def tail_ok (l : List buffer_data) (last : Option Nat) : Prop :=
  match l.getLast? with
  | none => True
  | some d => last = some d.addr

instance (l : List buffer_data) (last : Option Nat) : Decidable (tail_ok l last) := by
  unfold tail_ok; cases l.getLast? <;> infer_instance

/-- The well-formedness of a buffer that the operations rely on. -/
def buf_ok {σ : Type} (BUFFER_DATA_SIZE : Nat) (buf : buffer σ) : Prop :=
  chain_ok BUFFER_DATA_SIZE buf.data ∧ tail_ok buf.data buf.last

instance {σ : Type} (B : Nat) (buf : buffer σ) : Decidable (buf_ok B buf) := by
  unfold buf_ok; infer_instance

/-- Successive calls of `buf_output`, one for each piece, in order. -/
def buf_output_all {σ : Type} (BUFFER_DATA_SIZE : Nat) :
    List (List Byte) → buffer σ → pool → result (buffer σ × pool)
  | [], buf, p => result.ok (buf, p)
  | piece :: rest, buf, p =>
    (buf_output BUFFER_DATA_SIZE buf p piece).bind fun r =>
      buf_output_all BUFFER_DATA_SIZE rest r.1 r.2

/-- Successive calls of `buf_read_data`, the `k`-th one asking for `wants k` bytes, made
until `remaining` bytes have been returned (or a call returns a status other than 0);
the value lists what each call returned. -/
def read_data_drain {σ : Type} (BUFFER_DATA_SIZE : Nat) (wants : Nat → Int) :
    Nat → Nat → Nat → buffer σ → pool →
      result (List (Int × List Byte × Int) × buffer σ × pool)
  | _, _, 0, buf, p => result.ok ([], buf, p)
  | 0, _, _ + 1, _, _ => result.out_of_fuel
  | fuel + 1, k, remaining + 1, buf, p =>
    (buf_read_data BUFFER_DATA_SIZE buf p (wants k)).bind fun r =>
      if r.1.1 ≠ 0 then result.ok ([r.1], r.2.1, r.2.2)
      else
        (read_data_drain BUFFER_DATA_SIZE wants fuel (k + 1)
            (remaining + 1 - r.1.2.2.toNat) r.2.1 r.2.2).bind fun rs =>
          result.ok (r.1 :: rs.1, rs.2.1, rs.2.2)

/-- A backend input function that reports end of file on every call. -/
def eof_input : Unit → Int → Int → Int × List Byte × Unit :=
  fun cl _ _ => (-1, [], cl)

/-- A buffer with the given chain and tail pointer and no callback but `input`. -/
def chain_buffer {σ : Type} (data : List buffer_data) (last : Option Nat)
    (input : Option (σ → Int → Int → Int × List Byte × σ)) (closure : σ) : buffer σ :=
  { buf_initialize input none none none none closure with data := data, last := last }

/-- The pieces of a record stream are appended to `src` one at a time with
`buf_output`, and `buf_copy_counted (dest, src, ...)` is called after each append. -/
def feed_copy_counted {σ τ : Type} (BUFFER_DATA_SIZE : Nat) (big_endian : Bool) :
    List (List Byte) → buffer σ → buffer τ → pool → result (buffer σ × buffer τ × pool)
  | [], dest, src, p => result.ok (dest, src, p)
  | piece :: rest, dest, src, p =>
    (buf_output BUFFER_DATA_SIZE src p piece).bind fun r =>
      (buf_copy_counted BUFFER_DATA_SIZE big_endian dest r.1 r.2).bind fun r2 =>
        feed_copy_counted BUFFER_DATA_SIZE big_endian rest r2.2.1 r2.2.2.1 r2.2.2.2

/-- The bytes handed to the backend output function by the logged callbacks, in call
order. -/
def sent_bytes : List callback → List Byte
  | [] => []
  | callback.output data :: rest => data ++ sent_bytes rest
  | _ :: rest => sent_bytes rest

/-- The backend output function accepts every byte offered: it returns status 0 and
reports all the bytes as written. -/
def accepts_all {σ : Type} (output : σ → List Byte → Int × Int × σ) : Prop :=
  ∀ cl data, (output cl data).1 = 0 ∧ (output cl data).2.1 = data.length

/-- A backend output function that accepts every byte offered and keeps nothing. -/
def accept_all_output : Unit → List Byte → Int × Int × Unit :=
  fun cl data => (0, data.length, cl)

/-- The calls `buf_send_output` makes for a chain whose every non-empty node is taken in
full: one call of the output callback per node of positive size, with the used bytes of
that node. -/
def output_calls (chain : List buffer_data) : List callback :=
  (chain.filter (fun d => decide (0 < d.size))).map (fun d => callback.output (seg_bytes d))

/-- The closure of a backend after it has been offered the non-empty nodes of a chain in
order and has taken each in full with status 0; `none` when some call did not. -/
def accepted_run {σ : Type} (output : σ → List Byte → Int × Int × σ) :
    List buffer_data → σ → Option σ
  | [], cl => some cl
  | d :: rest, cl =>
    if d.size > 0 then
      match output cl (seg_bytes d) with
      | (status, nbytes, cl1) =>
        if status = 0 ∧ nbytes = d.size then accepted_run output rest cl1 else none
    else accepted_run output rest cl

/-- A buffer with the chain `data`, the tail pointer `last` and the output callback
`output` (no other callback). -/
def output_buffer {σ : Type} (data : List buffer_data) (last : Option Nat)
    (output : σ → List Byte → Int × Int × σ) (closure : σ) : buffer σ :=
  { buf_initialize none (some output) none none none closure with data := data, last := last }

/-- A backend that takes all it is offered until it has been called `n` times, and
reports the status `e` from then on; the closure counts the calls still to succeed. -/
def failing_output (e : Int) : Nat → List Byte → Int × Int × Nat
  | 0, _ => (e, 0, 0)
  | n + 1, data => (0, data.length, n)

/-- The function `set_nonblock`; the value is the status returned. -/
def set_nonblock {σ : Type} (buf : buffer σ) : result (Int × buffer σ) :=
  if buf.nonblocking ≠ 0 then result.ok (0, buf)
  else
    match buf.block with
    | none => result.abort
    | some block =>
      match block buf.closure 0 with
      | (status, cl) =>
        let buf1 : buffer σ := { buf with closure := cl, calls := buf.calls ++ [callback.block 0] }
        if status ≠ 0 then result.ok (status, buf1)
        else result.ok (0, { buf1 with nonblocking := 1 })

/-- The function `set_block`; the value is the status returned. -/
def set_block {σ : Type} (buf : buffer σ) : result (Int × buffer σ) :=
  if buf.nonblocking = 0 then result.ok (0, buf)
  else
    match buf.block with
    | none => result.abort
    | some block =>
      match block buf.closure 1 with
      | (status, cl) =>
        let buf1 : buffer σ := { buf with closure := cl, calls := buf.calls ++ [callback.block 1] }
        if status ≠ 0 then result.ok (status, buf1)
        else result.ok (0, { buf1 with nonblocking := 0 })

/-- The statements `status = buf_send_output (buf);`
`if (status == 0) status = (*buf->flush) (buf->closure);` of `buf_flush`. -/
def flush_send {σ : Type} (flush : σ → Int × σ) (buf : buffer σ) (p : pool) :
    result (Int × buffer σ × pool) :=
  (buf_send_output buf p).bind fun r =>
    if r.1 = 0 then
      match flush r.2.1.closure with
      | (status, cl) =>
        result.ok (status, { r.2.1 with closure := cl, calls := r.2.1.calls ++ [callback.flush] },
                   r.2.2)
    else result.ok r

/-- The end of `buf_flush`: `if (nonblocking && block) { blockstat = set_nonblock (buf);`
`if (status == 0) status = blockstat; } return status;`, `r` holding `status`. -/
def flush_restore {σ : Type} (nonblocking block : Int) (r : Int × buffer σ × pool) :
    result (Int × buffer σ × pool) :=
  if nonblocking ≠ 0 ∧ block ≠ 0 then
    (set_nonblock r.2.1).bind fun b => result.ok (if r.1 = 0 then b.1 else r.1, b.2, r.2.2)
  else result.ok r

/-- The function `buf_flush (buf, block)`. -/
def buf_flush {σ : Type} (buf : buffer σ) (p : pool) (block : Int) :
    result (Int × buffer σ × pool) :=
  match buf.flush with
  | none => result.abort
  | some flush =>
    let nonblocking : Int := buf.nonblocking
    if nonblocking ≠ 0 ∧ block ≠ 0 then
      (set_block buf).bind fun s =>
        if s.1 ≠ 0 then result.ok (s.1, s.2, p)
        else (flush_send flush s.2 p).bind (flush_restore nonblocking block)
    else (flush_send flush buf p).bind (flush_restore nonblocking block)

/-- A buffer with the chain `data`, the tail pointer `last`, the flag `nonblocking` and
the callbacks `output`, `flush` and `block`. -/
def flush_buffer {σ : Type} (data : List buffer_data) (last : Option Nat) (nonblocking : Int)
    (output : σ → List Byte → Int × Int × σ) (flush : σ → Int × σ) (block : σ → Int → Int × σ)
    (closure : σ) : buffer σ :=
  { buf_initialize none (some output) (some flush) (some block) none closure with
    data := data, last := last, nonblocking := nonblocking }

/-- A flush callback that always reports status 0. -/
def flush_done : Nat → Int × Nat := fun cl => (0, cl)

/-- A block callback that always reports status 0. -/
def block_done : Nat → Int → Int × Nat := fun cl _ => (0, cl)

/-- The predicate: the logged call is a call of the output or of the flush callback. -/
def output_or_flush : callback → Prop
  | callback.output _ => True
  | callback.flush => True
  | _ => False

instance (c : callback) : Decidable (output_or_flush c) := by
  cases c <;> unfold output_or_flush <;> infer_instance

/-- The `struct packetizing_buffer`, closure of a packetizing buffer.  `buf` is the
underlying buffer, `holdbuf` the array of `holdbufsize` bytes, `holddata` the offset
`holddata - holdbuf`.  A translation function receives its closure, which it returns
updated, and the bytes of `INPUT`; it returns its status and the bytes it stored in
`OUTPUT`, whose number is what `outfn` reports in `*translated`. -/
structure packetizing_buffer (τ φ : Type) where
  buf : buffer τ
  inpfn : Option (φ → List Byte → Int × List Byte × φ)
  outfn : Option (φ → List Byte → Int × List Byte × φ)
  fnclosure : φ
  translated : Int
  holdsize : Int
  holdbuf : List Byte
  holdbufsize : Int
  holddata : Int

/-- The two bytes `(n >> 8) & 0xff` and `n & 0xff`. -/
def be16 (n : Int) : List Byte :=
  [char_of_int (n / 256), char_of_int n]

/-- The number `((b0 & 0xff) << 8) + (b1 & 0xff)`. -/
def be16_value (b0 b1 : Byte) : Int :=
  (b0.val : Int) * 256 + (b1.val : Int)

/-- The end of `packetizing_buffer_output` once the translated data `T` is at
`outbuf + 2`: the count is stored in front of it, the packet is added to the underlying
buffer (`outdata` is the node translated into, `none` when `outbuf` is `stack_outbuf`),
`*wrote` is set and the underlying buffer is sent.  The value is the status returned and
`*wrote`. -/
def packetizing_queue {τ φ : Type} (BUFFER_DATA_SIZE : Nat) (pb : packetizing_buffer τ φ)
    (p : pool) (outdata : Option buffer_data) (T : List Byte) (have_ : Int) :
    result ((Int × Int) × packetizing_buffer τ φ × pool) :=
  let queued : result (buffer τ × pool) :=
    match outdata with
    | none => buf_output BUFFER_DATA_SIZE pb.buf p (be16 T.length ++ T)
    | some od =>
      let d : buffer_data :=
        { od with bufp := 0, size := (T.length : Int) + 2,
                  text := memcpy (memcpy od.text 2 T) 0 (be16 T.length) }
      (buf_append_data pb.buf [d] (some d.addr)).bind fun b => result.ok (b, p)
  queued.bind fun q =>
    (buf_send_output q.1 q.2).bind fun s =>
      result.ok ((s.1, have_), { pb with buf := s.2.1 }, s.2.2)

/-- The call of the translation function in `packetizing_buffer_output` and what
follows it; `room` is the number of bytes of the array behind `outbuf + 2`.  Storing
more than `room` bytes is undefined. -/
def packetizing_translate {τ φ : Type} (BUFFER_DATA_SIZE PACKET_SLOP : Nat)
    (pb : packetizing_buffer τ φ) (p : pool) (outdata : Option buffer_data) (room : Int)
    (inbuf : List Byte) (have_ : Int) : result ((Int × Int) × packetizing_buffer τ φ × pool) :=
  match pb.outfn with
  | none => result.undefined
  | some outfn =>
    match outfn pb.fnclosure inbuf with
    | (status, T, cl) =>
      if (T.length : Int) > room then result.undefined
      else if status ≠ 0 then result.ok ((status, 0), { pb with fnclosure := cl }, p)
      else if (T.length : Int) > (inbuf.length : Int) + PACKET_SLOP then result.abort
      else packetizing_queue BUFFER_DATA_SIZE { pb with fnclosure := cl } p outdata T have_

/-- The function `packetizing_buffer_output (closure, data, have, wrote)`, `data` being
the `have` bytes to send.  The value is the status returned and `*wrote` (given as 0
where the function returns without setting it). -/
def packetizing_buffer_output {τ φ : Type} (BUFFER_DATA_SIZE PACKET_SLOP : Nat) (ENOMEM : Int)
    (pb : packetizing_buffer τ φ) (p : pool) (data : List Byte) :
    result ((Int × Int) × packetizing_buffer τ φ × pool) :=
  let have_ : Int := data.length
  if have_ > BUFFER_DATA_SIZE then result.abort
  else
    let inbuf : List Byte := be16 have_ ++ data
    let size : Int := have_ + 2
    if size + PACKET_SLOP + 2 > BUFFER_DATA_SIZE then
      packetizing_translate BUFFER_DATA_SIZE PACKET_SLOP pb p none
        ((BUFFER_DATA_SIZE : Int) + PACKET_SLOP + 2) inbuf have_
    else
      match get_buffer_data BUFFER_DATA_SIZE p with
      | (none, p1) =>
        result.ok ((ENOMEM, 0),
          { pb with buf := { pb.buf with calls := pb.buf.calls ++ [callback.memory_error] } }, p1)
      | (some outdata, p1) =>
        packetizing_translate BUFFER_DATA_SIZE PACKET_SLOP pb p1 (some outdata)
          ((outdata.text.length : Int) - 2) inbuf have_

/-- The function `buf_send_output` for a buffer whose output callback is a function of
this program that uses the free list and need not return, given as `output`: its
`while (buf->data != NULL)` loop and final `buf->last = NULL; return 0;`. -/
def buf_send_output_with {σ : Type}
    (output : σ → pool → List Byte → result ((Int × Int) × σ × pool)) :
    List buffer_data → buffer σ → pool → result (Int × buffer σ × pool)
  | [], buf, p => result.ok (0, { buf with data := [], last := none }, p)
  | d :: rest, buf, p =>
    if d.size > 0 then
      (output buf.closure p (seg_bytes d)).bind fun r =>
        let buf1 : buffer σ :=
          { buf with data := d :: rest, closure := r.2.1,
                     calls := buf.calls ++ [callback.output (seg_bytes d)] }
        if r.1.1 ≠ 0 then
          (discard_chain buf1 r.2.2).bind fun r2 => result.ok (r.1.1, r2.1, r2.2)
        else if r.1.2 ≠ d.size then
          result.ok (0, { buf1 with data := { d with size := d.size - r.1.2,
                                                      bufp := d.bufp + r.1.2 } :: rest }, r.2.2)
        else
          buf_send_output_with output rest { buf1 with data := rest }
            { r.2.2 with free_buffer_data := d :: r.2.2.free_buffer_data }
    else
      buf_send_output_with output rest { buf with data := rest }
        { p with free_buffer_data := d :: p.free_buffer_data }

/-- The function `buf_send_output` on a buffer made by `packetizing_buffer_initialize`
with an output translation function: its `output` is `packetizing_buffer_output`. -/
def packetizing_send_output {τ φ : Type} (BUFFER_DATA_SIZE PACKET_SLOP : Nat) (ENOMEM : Int)
    (buf : buffer (packetizing_buffer τ φ)) (p : pool) :
    result (Int × buffer (packetizing_buffer τ φ) × pool) :=
  buf_send_output_with (packetizing_buffer_output BUFFER_DATA_SIZE PACKET_SLOP ENOMEM)
    buf.data buf p

/-- The translation function that copies its input unchanged and reports status 0. -/
def identity_transform : Unit → List Byte → Int × List Byte × Unit :=
  fun cl input => (0, input, cl)

/-- A translation function that stores nothing and reports the status `e`. -/
def failing_transform (e : Int) : Unit → List Byte → Int × List Byte × Unit :=
  fun cl _ => (e, [], cl)

/-- The invariant of the head and tail pointers of a buffer: a non-empty chain has
`last` at its final node, an empty chain has `data` and `last` both `NULL`. -/
def head_tail_ok {σ : Type} (buf : buffer σ) : Prop :=
  match buf.data.getLast? with
  | none => buf.last = none
  | some d => buf.last = some d.addr

instance {σ : Type} (buf : buffer σ) : Decidable (head_tail_ok buf) := by
  unfold head_tail_ok
  cases buf.data.getLast? <;> infer_instance

/-- What a block of the body of the `while` loop of `packetizing_buffer_input` ends
with: `return status;`, `continue;`, falling through to the next block, `return 0;`
after storing bytes at `data`, or the end of the body after storing bytes at `data`. -/
inductive packet_step where
  | ret (status : Int) : packet_step
  | again : packet_step
  | go : packet_step
  | last (bytes : List Byte) : packet_step
  | more (bytes : List Byte) : packet_step

/-- The statements `if (status == -2) status = ENOMEM; return status;`. -/
def input_status (ENOMEM status : Int) : Int :=
  if status = -2 then ENOMEM else status

/-- The block `if (pb->holdsize < 2)` of `packetizing_buffer_input`, which gets the two
byte count.  Storing in a `holdbuf` of fewer than 2 bytes is undefined. -/
def packetizing_count {τ φ : Type} (BUFFER_DATA_SIZE : Nat) (ENOMEM : Int)
    (pb : packetizing_buffer τ φ) (p : pool) :
    result (packet_step × packetizing_buffer τ φ × pool) :=
  if pb.holdsize < 2 then
    let get : Int := 2 - pb.holdsize
    (buf_read_data BUFFER_DATA_SIZE pb.buf p get).bind fun r =>
      let pb1 : packetizing_buffer τ φ := { pb with buf := r.2.1 }
      if r.1.1 ≠ 0 then result.ok (packet_step.ret (input_status ENOMEM r.1.1), pb1, r.2.2)
      else if r.1.2.2 = 0 then result.ok (packet_step.ret 0, pb1, r.2.2)
      else if pb.holdbuf.length < 2 then result.undefined
      else
        match r.1.2.1 with
        | [] => result.undefined
        | b0 :: rest =>
          if get = 1 then
            result.ok (packet_step.go,
              { pb1 with holdbuf := memcpy pb1.holdbuf 1 [b0], holdsize := 2 }, r.2.2)
          else if r.1.2.2 < 2 then
            result.ok (packet_step.again,
              { pb1 with holdbuf := memcpy pb1.holdbuf 0 [b0], holdsize := 1 }, r.2.2)
          else
            match rest with
            | [] => result.undefined
            | b1 :: _ =>
              result.ok (packet_step.go,
                { pb1 with holdbuf := memcpy (memcpy pb1.holdbuf 0 [b0]) 1 [b1],
                           holdsize := 2 }, r.2.2)
  else result.ok (packet_step.go, pb, p)

/-- The block `if (count + 2 > pb->holdbufsize)` of `packetizing_buffer_input`; `none`
when `xrealloc` returns `NULL`. -/
def packetizing_grow {τ φ : Type} (pb : packetizing_buffer τ φ) (p : pool) (count : Int) :
    Option (packetizing_buffer τ φ × pool) :=
  if count + 2 > pb.holdbufsize then
    match xmalloc p with
    | none => none
    | some p1 =>
      some ({ pb with holdbuf := pb.holdbuf
                        ++ List.replicate (count + 2 - pb.holdbufsize).toNat 0,
                      holdbufsize := count + 2 }, p1)
  else some (pb, p)

/-- The end of the loop body of `packetizing_buffer_input`, from the choice of `outbuf`
on: `inbuf` is the complete untranslated packet of `count` bytes.  `outbuf` has
`BUFFER_DATA_SIZE + PACKET_SLOP` bytes, or `count` bytes when it comes from `xmalloc`;
storing more bytes in it, and reading bytes of it that were not stored, is undefined. -/
def packetizing_untranslate {τ φ : Type} (BUFFER_DATA_SIZE PACKET_SLOP : Nat) (ENOMEM : Int)
    (pb : packetizing_buffer τ φ) (p : pool) (inbuf : List Byte) (count size : Int) :
    result (packet_step × packetizing_buffer τ φ × pool) :=
  let room : Option (Int × pool) :=
    if count ≤ (BUFFER_DATA_SIZE : Int) + PACKET_SLOP then
      some ((BUFFER_DATA_SIZE : Int) + PACKET_SLOP, p)
    else (xmalloc p).map fun p1 => (count, p1)
  match room with
  | none =>
    result.ok (packet_step.ret ENOMEM,
      { pb with buf := { pb.buf with calls := pb.buf.calls ++ [callback.memory_error] } }, p)
  | some (cap, p1) =>
    match pb.inpfn with
    | none => result.undefined
    | some inpfn =>
      match inpfn pb.fnclosure inbuf with
      | (status, out, cl) =>
        let pb1 : packetizing_buffer τ φ := { pb with fnclosure := cl }
        if (out.length : Int) > cap then result.undefined
        else if status ≠ 0 then result.ok (packet_step.ret status, pb1, p1)
        else
          match out with
          | o0 :: o1 :: body =>
            let tcount : Int := be16_value o0 o1
            if tcount > count then result.fatal
            else if (body.length : Int) < tcount then result.undefined
            else if tcount > size then
              result.ok (packet_step.last (body.take size.toNat),
                { pb1 with holdsize := tcount - size,
                           holdbuf := memcpy pb1.holdbuf 0
                             ((body.drop size.toNat).take (tcount - size).toNat),
                           holddata := 0, translated := 1 }, p)
            else result.ok (packet_step.more (body.take tcount.toNat),
                            { pb1 with holdsize := 0 }, p)
          | _ => result.undefined

/-- The part "Read the packet" of the loop body of `packetizing_buffer_input`, entered
with the two byte count in `holdbuf`.  Storing past the end of `holdbuf` is undefined. -/
def packetizing_packet {τ φ : Type} (BUFFER_DATA_SIZE PACKET_SLOP : Nat) (ENOMEM : Int)
    (pb : packetizing_buffer τ φ) (p : pool) (size : Int) :
    result (packet_step × packetizing_buffer τ φ × pool) :=
  match pb.holdbuf with
  | b0 :: b1 :: _ =>
    let count : Int := be16_value b0 b1
    match packetizing_grow pb p count with
    | none =>
      result.ok (packet_step.ret ENOMEM,
        { pb with buf := { pb.buf with calls := pb.buf.calls ++ [callback.memory_error] } }, p)
    | some (pb1, p1) =>
      if (pb1.holdbuf.length : Int) < count + 2 then result.undefined
      else
        let get : Int := count - (pb1.holdsize - 2)
        (buf_read_data BUFFER_DATA_SIZE pb1.buf p1 get).bind fun r =>
          let pb2 : packetizing_buffer τ φ := { pb1 with buf := r.2.1 }
          if r.1.1 ≠ 0 then result.ok (packet_step.ret (input_status ENOMEM r.1.1), pb2, r.2.2)
          else if r.1.2.2 = 0 then result.ok (packet_step.ret 0, pb2, r.2.2)
          else if r.1.2.2 < get then
            result.ok (packet_step.again,
              { pb2 with holdbuf := memcpy pb2.holdbuf pb2.holdsize r.1.2.1,
                         holdsize := pb2.holdsize + r.1.2.2 }, r.2.2)
          else if pb2.holdsize = 2 then
            packetizing_untranslate BUFFER_DATA_SIZE PACKET_SLOP ENOMEM pb2 r.2.2 r.1.2.1
              count size
          else
            let hb : List Byte := memcpy pb2.holdbuf pb2.holdsize r.1.2.1
            packetizing_untranslate BUFFER_DATA_SIZE PACKET_SLOP ENOMEM
              { pb2 with holdbuf := hb } r.2.2 ((hb.drop 2).take count.toNat) count size
  | _ => result.undefined

/-- The loop `while (need > 0 || *got == 0)` of `packetizing_buffer_input` and the
final `return 0;`; `acc` holds the `*got` bytes stored at `data` so far.  The value is
the status returned and the bytes stored. -/
def packetizing_input_loop {τ φ : Type} (BUFFER_DATA_SIZE PACKET_SLOP : Nat) (ENOMEM : Int) :
    Nat → packetizing_buffer τ φ → pool → List Byte → Int → Int →
      result ((Int × List Byte) × packetizing_buffer τ φ × pool)
  | 0, _, _, _, _, _ => result.out_of_fuel
  | fuel + 1, pb, p, acc, need, size =>
    if need > 0 ∨ acc = [] then
      (packetizing_count BUFFER_DATA_SIZE ENOMEM pb p).bind fun r =>
        match r.1 with
        | packet_step.go =>
          (packetizing_packet BUFFER_DATA_SIZE PACKET_SLOP ENOMEM r.2.1 r.2.2 size).bind fun s =>
            match s.1 with
            | packet_step.ret status => result.ok ((status, acc), s.2.1, s.2.2)
            | packet_step.last bytes => result.ok ((0, acc ++ bytes), s.2.1, s.2.2)
            | packet_step.more bytes =>
              packetizing_input_loop BUFFER_DATA_SIZE PACKET_SLOP ENOMEM fuel s.2.1 s.2.2
                (acc ++ bytes) (need - bytes.length) (size - bytes.length)
            | _ =>
              packetizing_input_loop BUFFER_DATA_SIZE PACKET_SLOP ENOMEM fuel s.2.1 s.2.2
                acc need size
        | packet_step.ret status => result.ok ((status, acc), r.2.1, r.2.2)
        | _ =>
          packetizing_input_loop BUFFER_DATA_SIZE PACKET_SLOP ENOMEM fuel r.2.1 r.2.2
            acc need size
    else result.ok ((0, acc), pb, p)

/-- The function `packetizing_buffer_input (closure, data, need, size, got)`; `fuel`
bounds the iterations of its loop.  The value is the status returned and the `*got`
bytes stored at `data`. -/
def packetizing_buffer_input {τ φ : Type} (BUFFER_DATA_SIZE PACKET_SLOP : Nat) (ENOMEM : Int)
    (fuel : Nat) (pb : packetizing_buffer τ φ) (p : pool) (need size : Int) :
    result ((Int × List Byte) × packetizing_buffer τ φ × pool) :=
  if pb.holdsize > 0 ∧ pb.translated ≠ 0 then
    let copy : Int := pb.holdsize
    if copy > size then
      result.ok ((0, (pb.holdbuf.drop pb.holddata.toNat).take size.toNat),
        { pb with holdsize := pb.holdsize - size, holddata := pb.holddata + size }, p)
    else
      packetizing_input_loop BUFFER_DATA_SIZE PACKET_SLOP ENOMEM fuel
        { pb with holdsize := 0, translated := 0 } p
        ((pb.holdbuf.drop pb.holddata.toNat).take copy.toNat) (need - copy) (size - copy)
  else packetizing_input_loop BUFFER_DATA_SIZE PACKET_SLOP ENOMEM fuel pb p [] need size

/-- Calls `packetizing_buffer_input (closure, data, need, size, &got)` repeated until a
call reports a status other than 0 or stores no byte; the value is the bytes stored by
the calls before that one, in order. -/
def packetizing_read_all {τ φ : Type} (BUFFER_DATA_SIZE PACKET_SLOP : Nat) (ENOMEM : Int)
    (fuel : Nat) (need size : Int) :
    Nat → packetizing_buffer τ φ → pool → result (List Byte × packetizing_buffer τ φ × pool)
  | 0, _, _ => result.out_of_fuel
  | n + 1, pb, p =>
    (packetizing_buffer_input BUFFER_DATA_SIZE PACKET_SLOP ENOMEM fuel pb p need size).bind
      fun r =>
        if r.1.1 ≠ 0 ∨ r.1.2 = [] then result.ok ([], r.2.1, r.2.2)
        else
          (packetizing_read_all BUFFER_DATA_SIZE PACKET_SLOP ENOMEM fuel need size n
              r.2.1 r.2.2).bind fun t => result.ok (r.1.2 ++ t.1, t.2.1, t.2.2)

/-- The state of a packetizing input buffer that holds the untranslated bytes `hold` of
the packet being read, the bytes `rest` being queued on the underlying buffer. -/
def reader_hold {τ φ : Type} (BUFFER_DATA_SIZE : Nat) (pb : packetizing_buffer τ φ)
    (hold rest : List Byte) : Prop :=
  chain_ok BUFFER_DATA_SIZE pb.buf.data ∧ chain_bytes pb.buf.data = rest
    ∧ pb.translated = 0 ∧ pb.holdsize = hold.length ∧ pb.holdbuf.take hold.length = hold
    ∧ (pb.holdbuf.length : Int) = pb.holdbufsize ∧ 2 ≤ pb.holdbuf.length

/-- The state of a packetizing input buffer that holds the translated bytes `y`, not
yet handed over, the bytes `rest` being queued on the underlying buffer. -/
def reader_translated {τ φ : Type} (BUFFER_DATA_SIZE : Nat) (pb : packetizing_buffer τ φ)
    (y rest : List Byte) : Prop :=
  chain_ok BUFFER_DATA_SIZE pb.buf.data ∧ chain_bytes pb.buf.data = rest
    ∧ pb.translated ≠ 0 ∧ pb.holdsize = y.length ∧ y ≠ [] ∧ 0 ≤ pb.holddata
    ∧ (pb.holdbuf.drop pb.holddata.toNat).take y.length = y
    ∧ (pb.holdbuf.length : Int) = pb.holdbufsize ∧ 2 ≤ pb.holdbuf.length

/-- A backend input function that never has a byte to give. -/
def gives_nothing {σ : Type} (input : σ → Int → Int → Int × List Byte × σ) : Prop :=
  ∀ (cl : σ) (need size : Int), (input cl need size).2.1 = []

/-- The packet that `packetizing_buffer_output` queues for the block `x` when the output
translation function stores `F input` for every `input`: the count of the translated
data and the translated data, the input being the count of `x` followed by `x`. -/
def packet_bytes (F : List Byte → List Byte) (x : List Byte) : List Byte :=
  be16 (F (be16 x.length ++ x)).length ++ F (be16 x.length ++ x)

/-- The packets of the blocks `xs`, one after the other. -/
def wire_bytes (F : List Byte → List Byte) (xs : List (List Byte)) : List Byte :=
  (xs.map (packet_bytes F)).flatten

/-- The conditions under which the packet of the non-empty block `x` is read back: both
counts fit in two bytes, the translated data is not shorter than `x`, the input
translation `G` gives back the count of `x` followed by `x`, and that fits in `outbuf`. -/
def piece_ok (BUFFER_DATA_SIZE PACKET_SLOP : Nat) (F G : List Byte → List Byte)
    (x : List Byte) : Prop :=
  x ≠ [] ∧ x.length < 65536 ∧ (F (be16 x.length ++ x)).length < 65536
    ∧ x.length ≤ (F (be16 x.length ++ x)).length
    ∧ G (F (be16 x.length ++ x)) = be16 x.length ++ x
    ∧ ((F (be16 x.length ++ x)).length ≤ BUFFER_DATA_SIZE + PACKET_SLOP →
        x.length + 2 ≤ BUFFER_DATA_SIZE + PACKET_SLOP)
    ∧ (BUFFER_DATA_SIZE + PACKET_SLOP < (F (be16 x.length ++ x)).length →
        x.length + 2 ≤ (F (be16 x.length ++ x)).length)

/-- The blocks that `buf_send_output` hands to the output callback for a chain whose
every node is taken in full: the bytes of the nodes of positive size. -/
def chain_pieces (chain : List buffer_data) : List (List Byte) :=
  (chain.filter (fun d => decide (0 < d.size))).map seg_bytes

/-- The function `packetizing_buffer_initialize (buf, inpfn, outfn, fnclosure, memory)`.
The callbacks it gives the new buffer are the functions `packetizing_buffer_input`,
`packetizing_buffer_output` and so on of this program; as they use the free list they
are not kept in the record, and the functions above that stand for them are applied to
its closure. -/
def packetizing_buffer_initialize {τ φ : Type} (BUFFER_DATA_SIZE PACKET_SLOP : Nat)
    (buf : buffer τ) (inpfn outfn : Option (φ → List Byte → Int × List Byte × φ))
    (fnclosure : φ) : buffer (packetizing_buffer τ φ) :=
  buf_initialize none none none none none
    { buf := buf, inpfn := inpfn, outfn := outfn, fnclosure := fnclosure,
      translated := 0, holdsize := 0,
      holdbuf := if inpfn.isSome then List.replicate (BUFFER_DATA_SIZE + PACKET_SLOP + 2) 0
                 else [],
      holdbufsize := if inpfn.isSome then ((BUFFER_DATA_SIZE + PACKET_SLOP + 2 : Nat) : Int)
                     else 0,
      holddata := 0 }

/-- A reversible translation that can shorten its input: an input made of a two byte
count `n` followed by `n` zero bytes becomes the byte 0 and the count; any other input is
kept behind the byte 1. -/
def shrink (i : List Byte) : List Byte :=
  match i with
  | h0 :: h1 :: payload =>
    if payload = List.replicate (be16_value h0 h1).toNat 0 then [0, h0, h1] else 1 :: i
  | _ => 1 :: i

/-- The inverse of `shrink`. -/
def unshrink (y : List Byte) : List Byte :=
  match y with
  | [] => []
  | t :: rest =>
    if t = 0 then
      match rest with
      | [h0, h1] => h0 :: h1 :: List.replicate (be16_value h0 h1).toNat 0
      | _ => rest
    else rest

/-- The output translation function that stores `shrink input`. -/
def shrink_transform : Unit → List Byte → Int × List Byte × Unit :=
  fun cl input => (0, shrink input, cl)

/-- The input translation function that stores `unshrink input`. -/
def unshrink_transform : Unit → List Byte → Int × List Byte × Unit :=
  fun cl input => (0, unshrink input, cl)

/-- The output translation function that stores its input followed by the byte 90. -/
def trailer_transform : Unit → List Byte → Int × List Byte × Unit :=
  fun cl input => (0, input ++ [90], cl)

/-- The input translation function that stores its input without its last byte. -/
def untrailer_transform : Unit → List Byte → Int × List Byte × Unit :=
  fun cl input => (0, input.dropLast, cl)

/-- The function `stdio_buffer_initialize (fp, input, memory)`.  The callbacks
`stdio_buffer_input`, `stdio_buffer_output` and `stdio_buffer_flush` rest on the stdio
library and are parameters; the closure is the `FILE *`. -/
def stdio_buffer_initialize {σ : Type}
    (stdio_buffer_input : σ → Int → Int → Int × List Byte × σ)
    (stdio_buffer_output : σ → List Byte → Int × Int × σ)
    (stdio_buffer_flush : σ → Int × σ) (fp : σ) (input : Int) : buffer σ :=
  buf_initialize (if input ≠ 0 then some stdio_buffer_input else none)
    (if input ≠ 0 then none else some stdio_buffer_output)
    (if input ≠ 0 then none else some stdio_buffer_flush) none none fp

/-- The function `buf_empty_p`. -/
def buf_empty_p {σ : Type} (buf : buffer σ) : Int :=
  if buf.data.any (fun d => decide (d.size > 0)) then 0 else 1

/-- The function `buf_append_buffer (to, from)`; the value is the pair of `to` and
`from` afterwards. -/
def buf_append_buffer {σ τ : Type} (to_ : buffer σ) (from_ : buffer τ) :
    result (buffer σ × buffer τ) :=
  (buf_append_data to_ from_.data from_.last).bind fun t =>
    result.ok (t, { from_ with data := [], last := none })

/-- An input function that delivers the bytes of its closure one per call and reports
the status `e` once they are used up. -/
def one_byte_then (e : Int) : List Byte → Int → Int → Int × List Byte × List Byte
  | [], _, _ => (e, [], [])
  | b :: rest, _, _ => (0, [b], rest)

/-- An input function that has no byte available and says so without an error: status
0 with `*got = 0`, as an input function of a buffer in nonblocking mode does. -/
def idle_input : Unit → Int → Int → Int × List Byte × Unit :=
  fun cl _ _ => (0, [], cl)

/-- A chain that holds the chunks `chunks` one per node, the nodes having the addresses
`a`, `a + 1`, ...: the chain an input buffer is left with when the bytes of a stream
came in as these chunks, none of them read yet. -/
def chunk_chain (BUFFER_DATA_SIZE : Nat) : Nat → List (List Byte) → List buffer_data
  | _, [] => []
  | a, c :: rest =>
    { addr := a, text := c ++ List.replicate (BUFFER_DATA_SIZE - c.length) 0, bufp := 0,
      size := c.length } :: chunk_chain BUFFER_DATA_SIZE (a + 1) rest

/-- An input function of an underlying buffer whose closure holds the chunks in which
the bytes of a stream arrive: each call stores the next chunk, whatever `need` is, and
the end of file is reported once the chunks are used up. -/
def chunk_input : List (List Byte) → Int → Int → Int × List Byte × List (List Byte)
  | [], _, _ => (-1, [], [])
  | c :: rest, _, _ => (0, c, rest)

/-- The state of an underlying buffer fed by `chunk_input`: the bytes `rest` are those of
its chain followed by those of the chunks still to arrive, each of which has at least one
byte and fits in a node. -/
def stream_ok (BUFFER_DATA_SIZE : Nat) (buf : buffer (List (List Byte))) (rest : List Byte) :
    Prop :=
  chain_ok BUFFER_DATA_SIZE buf.data ∧ buf.input = some chunk_input
    ∧ (∀ c ∈ buf.closure, c ≠ [] ∧ c.length ≤ BUFFER_DATA_SIZE)
    ∧ chain_bytes buf.data ++ buf.closure.flatten = rest

/-- What `packetizing_buffer_input` relies on when it reads the underlying buffer, `I buf
rest` saying that the bytes `rest` are still to come from `buf`: a call of
`buf_read_data` for at least one byte returns 0 with some of the first bytes of `rest`,
at least one and at most `want`, the others being still to come; when no byte is to
come it returns no byte. -/
def reads_stream {τ : Type} (BUFFER_DATA_SIZE : Nat) (I : buffer τ → List Byte → Prop) : Prop :=
  ∀ (buf : buffer τ) (p : pool) (want : Int) (rest : List Byte),
    I buf rest → 1 ≤ want → never_exhausted p →
    (rest ≠ [] →
      ∃ view buf' p' rest', buf_read_data BUFFER_DATA_SIZE buf p want
          = result.ok ((0, view, (view.length : Int)), buf', p')
        ∧ I buf' rest' ∧ view ≠ [] ∧ (view.length : Int) ≤ want ∧ view ++ rest' = rest
        ∧ never_exhausted p')
    ∧ (rest = [] →
      ∃ st buf' p', buf_read_data BUFFER_DATA_SIZE buf p want = result.ok ((st, [], 0), buf', p'))

/-- The state of a packetizing input buffer that holds the untranslated bytes `hold` of
the packet being read, the bytes `rest` being still to come from the underlying
buffer. -/
def reader_hold_with {τ φ : Type} (I : buffer τ → List Byte → Prop)
    (pb : packetizing_buffer τ φ) (hold rest : List Byte) : Prop :=
  I pb.buf rest ∧ pb.translated = 0 ∧ pb.holdsize = hold.length
    ∧ pb.holdbuf.take hold.length = hold
    ∧ (pb.holdbuf.length : Int) = pb.holdbufsize ∧ 2 ≤ pb.holdbuf.length

/-- The state of a packetizing input buffer that holds the translated bytes `y`, not
yet handed over, the bytes `rest` being still to come from the underlying buffer. -/
def reader_translated_with {τ φ : Type} (I : buffer τ → List Byte → Prop)
    (pb : packetizing_buffer τ φ) (y rest : List Byte) : Prop :=
  I pb.buf rest ∧ pb.translated ≠ 0 ∧ pb.holdsize = y.length ∧ y ≠ [] ∧ 0 ≤ pb.holddata
    ∧ (pb.holdbuf.drop pb.holddata.toNat).take y.length = y
    ∧ (pb.holdbuf.length : Int) = pb.holdbufsize ∧ 2 ≤ pb.holdbuf.length

/-- The end of `nonpacketizing_buffer_output` once the translated data `T` is at
`outbuf`: it is added to the underlying buffer (`outdata` is the node translated into,
`none` when `outbuf` is `stack_outbuf`), `*wrote` is set and the underlying buffer is
sent.  The value is the status returned and `*wrote`. -/
def nonpacketizing_queue {τ φ : Type} (BUFFER_DATA_SIZE : Nat) (pb : packetizing_buffer τ φ)
    (p : pool) (outdata : Option buffer_data) (T : List Byte) (have_ : Int) :
    result ((Int × Int) × packetizing_buffer τ φ × pool) :=
  let queued : result (buffer τ × pool) :=
    match outdata with
    | none => buf_output BUFFER_DATA_SIZE pb.buf p T
    | some od =>
      let d : buffer_data :=
        { od with bufp := 0, size := (T.length : Int), text := memcpy od.text 0 T }
      (buf_append_data pb.buf [d] (some d.addr)).bind fun b => result.ok (b, p)
  queued.bind fun q =>
    (buf_send_output q.1 q.2).bind fun s =>
      result.ok ((s.1, have_), { pb with buf := s.2.1 }, s.2.2)

/-- The call of the translation function in `nonpacketizing_buffer_output` and what
follows it; `room` is the number of bytes of the array behind `outbuf`.  Storing more
than `room` bytes is undefined. -/
def nonpacketizing_translate {τ φ : Type} (BUFFER_DATA_SIZE PACKET_SLOP : Nat)
    (pb : packetizing_buffer τ φ) (p : pool) (outdata : Option buffer_data) (room : Int)
    (data : List Byte) (have_ : Int) : result ((Int × Int) × packetizing_buffer τ φ × pool) :=
  match pb.outfn with
  | none => result.undefined
  | some outfn =>
    match outfn pb.fnclosure data with
    | (status, T, cl) =>
      if (T.length : Int) > room then result.undefined
      else if status ≠ 0 then result.ok ((status, 0), { pb with fnclosure := cl }, p)
      else if (T.length : Int) > have_ + PACKET_SLOP then result.abort
      else nonpacketizing_queue BUFFER_DATA_SIZE { pb with fnclosure := cl } p outdata T have_

/-- The function `nonpacketizing_buffer_output (closure, data, have, wrote)`, `data`
being the `have` bytes to send.  The value is the status returned and `*wrote` (given as
0 where the function returns without setting it). -/
def nonpacketizing_buffer_output {τ φ : Type} (BUFFER_DATA_SIZE PACKET_SLOP : Nat)
    (ENOMEM : Int) (pb : packetizing_buffer τ φ) (p : pool) (data : List Byte) :
    result ((Int × Int) × packetizing_buffer τ φ × pool) :=
  let have_ : Int := data.length
  if have_ > BUFFER_DATA_SIZE then result.abort
  else if have_ + PACKET_SLOP + 2 > BUFFER_DATA_SIZE then
    nonpacketizing_translate BUFFER_DATA_SIZE PACKET_SLOP pb p none
      ((BUFFER_DATA_SIZE : Int) + PACKET_SLOP + 4) data have_
  else
    match get_buffer_data BUFFER_DATA_SIZE p with
    | (none, p1) =>
      result.ok ((ENOMEM, 0),
        { pb with buf := { pb.buf with calls := pb.buf.calls ++ [callback.memory_error] } }, p1)
    | (some outdata, p1) =>
      nonpacketizing_translate BUFFER_DATA_SIZE PACKET_SLOP pb p1 (some outdata)
        (outdata.text.length : Int) data have_

/-- A backend that takes one byte of what it is offered and reports status 0. -/
def short_output : Unit → List Byte → Int × Int × Unit :=
  fun cl _ => (0, 1, cl)

/-- The `while (1)` loop of `buf_input_data`; `count` is `*countp`.  The value is the
status returned and `*countp`. -/
def buf_input_data_loop {σ : Type} (BUFFER_DATA_SIZE : Nat)
    (input : σ → Int → Int → Int × List Byte × σ) :
    Nat → buffer σ → pool → Int → result ((Int × Int) × buffer σ × pool)
  | 0, _, _, _ => result.out_of_fuel
  | fuel + 1, buf, p, count =>
    (tail_room BUFFER_DATA_SIZE buf p).bind fun r =>
      match r with
      | (none, p1) =>
        result.ok ((-2, count), { buf with calls := buf.calls ++ [callback.memory_error] }, p1)
      | (some buf1, p1) =>
        match last_data buf1 with
        | none => result.undefined
        | some l =>
          let mem : Int := l.bufp + l.size
          let get : Int := BUFFER_DATA_SIZE - mem
          match input buf1.closure 0 get with
          | (status, bytes, cl) =>
            let buf2 : buffer σ :=
              { set_last buf1 { l with text := memcpy l.text mem bytes } with
                  closure := cl, calls := buf1.calls ++ [callback.input 0 get] }
            if status ≠ 0 then result.ok ((status, count), buf2, p1)
            else
              let buf3 : buffer σ :=
                { set_last buf1 { l with text := memcpy l.text mem bytes,
                                         size := l.size + bytes.length } with
                    closure := cl, calls := buf1.calls ++ [callback.input 0 get] }
              if (bytes.length : Int) < get then
                result.ok ((0, count + bytes.length), buf3, p1)
              else
                buf_input_data_loop BUFFER_DATA_SIZE input fuel buf3 p1 (count + bytes.length)

/-- The function `buf_input_data (buf, countp)` with `countp` not `NULL`; `fuel` bounds
the number of iterations of its `while (1)` loop. -/
def buf_input_data {σ : Type} (BUFFER_DATA_SIZE : Nat) (fuel : Nat) (buf : buffer σ) (p : pool) :
    result ((Int × Int) × buffer σ × pool) :=
  match buf.input with
  | none => result.abort
  | some input => buf_input_data_loop BUFFER_DATA_SIZE input fuel buf p 0

/-- An input backend that stores no more than the `size` bytes it is offered. -/
def input_within {σ : Type} (input : σ → Int → Int → Int × List Byte × σ) : Prop :=
  ∀ (cl : σ) (need size : Int), 0 ≤ size → (((input cl need size).2.1.length : Nat) : Int) ≤ size

/-- An output backend that reports in `*wrote` a number between 0 and the number of
bytes it is offered. -/
def output_within {σ : Type} (output : σ → List Byte → Int × Int × σ) : Prop :=
  ∀ (cl : σ) (data : List Byte),
    0 ≤ (output cl data).2.1 ∧ (output cl data).2.1 ≤ (data.length : Int)

/-- The callbacks of a buffer keep to the space they are given. -/
def backends_within {σ : Type} (buf : buffer σ) : Prop :=
  (∀ f, buf.input = some f → input_within f) ∧ (∀ g, buf.output = some g → output_within g)

/-- A backend output function that takes the first half of what it is offered (rounded
down) and reports status 0. -/
def half_output : Unit → List Byte → Int × Int × Unit :=
  fun cl data => (0, ((data.length / 2 : Nat) : Int), cl)

/-- A buffer with the chain `data`, the tail pointer `last`, the input callback
`eof_input` and the output callback `half_output`. -/
def io_buffer (data : List buffer_data) (last : Option Nat) : buffer Unit :=
  { buf_initialize (some eof_input) (some half_output) none none none () with
    data := data, last := last }

/-! ## The option parsers and the revision comparison of `src/log.cpp`

A C string is embedded as the list of its bytes before the terminating NUL; reading
the string at its length yields the NUL.  An array obtained from `xmalloc` is a list of
cells that are `none` until they are written. -/

/-- The call `strchr (s, c)` for a character `c` other than NUL: the offset of the
first occurrence of `c` in the string `s`, `none` for `NULL`. -/
def strchr : List Byte → Byte → Option Nat
  | [], _ => none
  | b :: rest, c => if b = c then some 0 else (strchr rest c).map (fun k => k + 1)

/-- The assignment `mem[i] = b` to an array obtained from `xmalloc`: undefined when `i`
is not an index of the array. -/
def store (mem : List (Option Byte)) (i : Nat) (b : Byte) : result (List (Option Byte)) :=
  if i < mem.length then result.ok (mem.set i (some b)) else result.undefined

/-- The call `strncpy (dst, src, n)`: the first `n` bytes of the string `src`, followed
by NULs when `src` is shorter, are stored at the start of `dst`. -/
def strncpy (dst : List (Option Byte)) (src : List Byte) (n : Nat) :
    result (List (Option Byte)) :=
  if n ≤ dst.length then
    result.ok (((src.take n ++ List.replicate (n - src.length) 0).map some) ++ dst.drop n)
  else result.undefined

/-- The call `xstrdup (s)`: a fresh array that holds the string `s` and its NUL. -/
def xstrdup (s : List Byte) : List (Option Byte) :=
  (s ++ [0]).map some

/-- The `else` branch of `log_parse_list`, taken for an item followed by a comma at
offset `len`: `p->key = xmalloc (len + 1); strncpy (p->key, argstring, len);`
`p->key[len + 1] = '\0';`. -/
def log_parse_list_key (argstring : List Byte) (len : Nat) : result (List (Option Byte)) :=
  (strncpy (List.replicate (len + 1) none) argstring len).bind fun key =>
    store key (len + 1) 0

/-- The `while (1)` loop of `log_parse_list`.  The list `*plist` is embedded as the list
of the keys of its nodes (`none` for `NULL`); `addnode` is `none` when the function of
that name returns nonzero, in which case the node is freed. -/
def log_parse_list_loop
    (addnode : List (List (Option Byte)) → List (Option Byte) → Option (List (List (Option Byte)))) :
    Nat → Option (List (List (Option Byte))) → List Byte →
      result (Option (List (List (Option Byte))))
  | 0, _, _ => result.out_of_fuel
  | fuel + 1, plist, argstring =>
    let cp := strchr argstring 44
    let key : result (List (Option Byte)) :=
      match cp with
      | none => result.ok (xstrdup argstring)
      | some len => log_parse_list_key argstring len
    key.bind fun k =>
      let l : List (List (Option Byte)) :=
        match plist with
        | none => []
        | some l => l
      let l1 : List (List (Option Byte)) :=
        match addnode l k with
        | some l2 => l2
        | none => l
      match cp with
      | none => result.ok (some l1)
      | some len => log_parse_list_loop addnode fuel (some l1) (argstring.drop (len + 1))

/-- The function `log_parse_list (plist, argstring)`; the value is `*plist` on return.
Every iteration of its loop but the last removes a comma from `argstring`, which bounds
their number. -/
def log_parse_list
    (addnode : List (List (Option Byte)) → List (Option Byte) → Option (List (List (Option Byte))))
    (plist : Option (List (List (Option Byte)))) (argstring : List Byte) :
    result (Option (List (List (Option Byte)))) :=
  log_parse_list_loop addnode (argstring.length + 1) plist argstring

/-- The `struct option_revlist` of `log.cpp`; the `next` links are the list order.  A
string field is `none` for `NULL`. -/
structure option_revlist where
  first : Option (List Byte)
  last : Option (List Byte)
  branchhead : Int
  inclusive_begin : Int
  inclusive_end : Int
deriving DecidableEq, Repr

/-- The body of the loop of `log_parse_revlist` from `r = xmalloc (sizeof *r)` to
`r->last = xstrdup (r->last)`, for the item `copy` whose comma, if any, has been
replaced by a NUL. -/
def log_parse_revlist_item (copy : List Byte) : option_revlist :=
  match strchr copy 58 with
  | some k =>
    let first : List Byte := copy.take k
    let last : List Byte := copy.drop (k + 1)
    let r : List Byte × Int × Int :=
      if last[0]? = some 58 ∧ last[1]? = some 58 then (last.drop 2, 0, 1)
      else if last[0]? = some 58 then (last.drop 1, 0, 0)
      else (last, 1, 1)
    { first := if first = [] then none else some first,
      last := if r.1 = [] then none else some r.1,
      branchhead := 0, inclusive_begin := r.2.1, inclusive_end := r.2.2 }
  | none =>
    if copy ≠ [] ∧ copy.getLast? = some 46 then
      { first := if copy.dropLast = [] then none else some copy.dropLast,
        last := if copy.dropLast = [] then none else some copy.dropLast,
        branchhead := 1, inclusive_begin := 1, inclusive_end := 1 }
    else
      { first := if copy = [] then none else some copy,
        last := if copy = [] then none else some copy,
        branchhead := 0, inclusive_begin := 1, inclusive_end := 1 }

/-- The `while (copy != NULL)` loop of `log_parse_revlist`; the value is the list that
starts at `ret`. -/
def log_parse_revlist_loop : Nat → Option (List Byte) → result (List option_revlist)
  | _, none => result.ok []
  | 0, some _ => result.out_of_fuel
  | fuel + 1, some copy =>
    match strchr copy 44 with
    | some k =>
      (log_parse_revlist_loop fuel (some (copy.drop (k + 1)))).bind fun rest =>
        result.ok (log_parse_revlist_item (copy.take k) :: rest)
    | none =>
      (log_parse_revlist_loop fuel none).bind fun rest =>
        result.ok (log_parse_revlist_item copy :: rest)

/-- The function `log_parse_revlist (argstring)`, `argstring` being `none` for `NULL`.
Every iteration of its loop but the last removes a comma from `copy`, which bounds
their number. -/
def log_parse_revlist (argstring : Option (List Byte)) : result (List option_revlist) :=
  match argstring with
  | none => log_parse_revlist_loop 1 (some [])
  | some a => log_parse_revlist_loop (a.length + 1) (some a)

/-- The items of a list separated by commas, as one string. -/
def comma_join : List (List Byte) → List Byte
  | [] => []
  | [x] => x
  | x :: y :: rest => x ++ 44 :: comma_join (y :: rest)

/-- The function `isdigit` of the C library on an `unsigned char`. -/
def isdigit (c : Byte) : Bool :=
  decide (48 ≤ c.val) && decide (c.val ≤ 57)

/-- The call `memcmp (s1, s2, n)` on strings: 0 when the first `n` bytes agree, else
the difference of the first two bytes that differ (the C library fixes its sign
only). -/
def memcmp : List Byte → List Byte → Nat → Int
  | _, _, 0 => 0
  | s1, s2, n + 1 =>
    if s1.headD 0 = s2.headD 0 then memcmp s1.tail s2.tail n
    else ((s1.headD 0).val : Int) - ((s2.headD 0).val : Int)

/-- The loop `while (*v == '0') ++v;` of `version_compare`. -/
def skip_zeros (v : List Byte) : List Byte :=
  v.dropWhile fun c => decide (c = 48)

/-- The loop `for (d = 0; isdigit ((unsigned char) v[d]); ++d) ;` of `version_compare`. -/
def digit_run (v : List Byte) : Nat :=
  (v.takeWhile isdigit).length

/-- The function `version_compare (v1, v2, len)`; `fuel` bounds the number of
iterations of its `while (1)` loop. -/
def version_compare : Nat → List Byte → List Byte → Int → result Int
  | 0, _, _, _ => result.out_of_fuel
  | fuel + 1, v1, v2, len =>
    if v1.headD 0 = 0 then result.ok 1
    else if v2.headD 0 = 0 then result.ok (-1)
    else
      let w1 := skip_zeros v1
      let d1 := digit_run w1
      let w2 := skip_zeros v2
      let d2 := digit_run w2
      if d1 ≠ d2 then result.ok (if d1 < d2 then -1 else 1)
      else
        let r := memcmp w1 w2 d1
        if r ≠ 0 then result.ok r
        else if len - 1 = 0 then result.ok 0
        else
          let x1 := w1.drop d1
          let x2 := w2.drop d1
          version_compare fuel (if x1.headD 0 = 46 then x1.tail else x1)
            (if x2.headD 0 = 46 then x2.tail else x2) (len - 1)

/-- The revision string made of the given fields separated by dots. -/
def dotted : List (List Byte) → List Byte
  | [] => []
  | [f] => f
  | f :: g :: rest => f ++ 46 :: dotted (g :: rest)

/-- A non-empty string of decimal digits. -/
def decimal_field (f : List Byte) : Prop :=
  f ≠ [] ∧ ∀ c ∈ f, isdigit c = true

instance (f : List Byte) : Decidable (decimal_field f) := by
  unfold decimal_field; infer_instance

/-- The natural number that a string of decimal digits denotes. -/
def field_value (f : List Byte) : Nat :=
  f.foldl (fun acc c => 10 * acc + (c.val - 48)) 0

/-- The lexicographic comparison of two tuples of naturals. -/
def tuple_compare : List Nat → List Nat → Ordering
  | [], [] => Ordering.eq
  | [], _ :: _ => Ordering.lt
  | _ :: _, [] => Ordering.gt
  | x :: xs, y :: ys =>
    if x < y then Ordering.lt else if y < x then Ordering.gt else tuple_compare xs ys

/-- The sign of an `int`, as an ordering. -/
def sign_of (r : Int) : Ordering :=
  if r < 0 then Ordering.lt else if r = 0 then Ordering.eq else Ordering.gt

/-- An input function that has no byte available for as many calls as its closure says,
reporting status 0 with `*got = 0`, and reports the status `e` after them. -/
def idle_then (e : Int) : Nat → Int → Int → Int × List Byte × Nat
  | 0, _, _ => (e, [], 0)
  | k + 1, _, _ => (0, [], k)

/-- An empty buffer whose input function is `idle_input` and whose `block` callback
reports status 0. -/
def idle_buffer : buffer Unit :=
  buf_initialize (some idle_input) none none (some fun cl _ => (0, cl)) none ()

/-- Specification side of the packetizing input path, in terms of the blocks carried by
the packets alone: one run of the loop `while (need > 0 || *got == 0)` when every packet
is read whole.  `acc` holds the bytes stored so far, `need` and `size` what is still
needed and the room left.  The value tells whether the end of the stream was reached
with the loop still asking for bytes, and gives the bytes stored, the bytes of the last
block read that did not fit, and the blocks not read. -/
def blocks_loop :
    List (List Byte) → List Byte → Int → Int → Bool × List Byte × List Byte × List (List Byte)
  | [], acc, need, _ => (decide (need > 0 ∨ acc = []), acc, [], [])
  | x :: rest, acc, need, size =>
    if need > 0 ∨ acc = [] then
      if (x.length : Int) ≤ size then
        blocks_loop rest (acc ++ x) (need - x.length) (size - x.length)
      else (false, acc ++ x.take size.toNat, x.drop size.toNat, rest)
    else (false, acc, [], x :: rest)

/-- Specification side: one call for `need` bytes with room for `size`, when the bytes
`y` of a block are left over from the call before and the blocks `xs` are to come. -/
def blocks_call (need size : Int) (y : List Byte) (xs : List (List Byte)) :
    Bool × List Byte × List Byte × List (List Byte) :=
  if y = [] then blocks_loop xs [] need size
  else if (y.length : Int) > size then (false, y.take size.toNat, y.drop size.toNat, xs)
  else blocks_loop xs y (need - y.length) (size - y.length)

/-- Specification side: the bytes handed over by at most `n` calls for `need` bytes with
room for `size`, repeated until a call reaches the end of the stream or stores no
byte. -/
def blocks_read (need size : Int) : Nat → List Byte → List (List Byte) → List Byte
  | 0, _, _ => []
  | n + 1, y, xs =>
    if (blocks_call need size y xs).1 = true ∨ (blocks_call need size y xs).2.1 = [] then []
    else (blocks_call need size y xs).2.1
      ++ blocks_read need size n (blocks_call need size y xs).2.2.1
          (blocks_call need size y xs).2.2.2

/-! ## Properties -/

@[simp] theorem result.bind_ok {α β : Type} (v : α) (f : α → result β) :
    (result.ok v).bind f = f v := rfl

theorem getElem?_mid {α : Type} (pre post : List α) (d : α) :
    (pre ++ d :: post)[pre.length]? = some d := by
  rw [List.getElem?_append_right (Nat.le_refl _)]; simp

theorem take_succ_mid {α : Type} (pre post : List α) (d : α) :
    (pre ++ d :: post).take (pre.length + 1) = pre ++ [d] := by
  rw [List.take_append_eq_append_take]; simp

theorem chain_bytes_append (a b : List buffer_data) :
    chain_bytes (a ++ b) = chain_bytes a ++ chain_bytes b := by
  induction a with
  | nil => rfl
  | cons d r ih => simp [chain_bytes, ih]

theorem chain_size_append (a b : List buffer_data) :
    chain_size (a ++ b) = chain_size a + chain_size b := by
  induction a with
  | nil => simp [chain_size]
  | cons d r ih => simp [chain_size, ih]; ring

theorem chain_ok_append {B : Nat} {a b : List buffer_data} :
    chain_ok B (a ++ b) ↔ chain_ok B a ∧ chain_ok B b := by
  unfold chain_ok
  constructor
  · intro h
    exact ⟨fun d hd => h d (List.mem_append_left _ hd), fun d hd => h d (List.mem_append_right _ hd)⟩
  · rintro ⟨h1, h2⟩ d hd
    rcases List.mem_append.mp hd with h | h
    · exact h1 d h
    · exact h2 d h

theorem chain_ok_cons {B : Nat} {d : buffer_data} {l : List buffer_data} :
    chain_ok B (d :: l) ↔ seg_ok B d ∧ chain_ok B l := by
  unfold chain_ok; simp

theorem chain_ok_nil (B : Nat) : chain_ok B [] := by
  intro d hd; cases hd

theorem seg_bytes_length {B : Nat} {d : buffer_data} (h : seg_ok B d) :
    ((seg_bytes d).length : Int) = d.size := by
  obtain ⟨h1, h2, h3, h4⟩ := h
  unfold seg_bytes
  simp only [List.length_take, List.length_drop]
  omega

theorem chain_bytes_length {B : Nat} {l : List buffer_data} (h : chain_ok B l) :
    ((chain_bytes l).length : Int) = chain_size l := by
  induction l with
  | nil => rfl
  | cons d r ih =>
    rw [chain_ok_cons] at h
    simp only [chain_bytes, chain_size, List.length_append, Nat.cast_add]
    rw [ih h.2, seg_bytes_length h.1]

theorem int_wrap_of_range (n : Int) (h0 : -2147483648 ≤ n) (h1 : n < 2147483648) :
    int_wrap n = n := by
  unfold int_wrap; omega

theorem int_wrap_add (a b : Int) : int_wrap (int_wrap a + b) = int_wrap (a + b) := by
  unfold int_wrap; omega

theorem buf_chain_length_loop_eq (l : List buffer_data) :
    ∀ a : Int, buf_chain_length_loop (int_wrap a) l = int_wrap (a + chain_size l) := by
  induction l with
  | nil => intro a; simp [buf_chain_length_loop, chain_size]
  | cons d r ih =>
    intro a
    simp only [buf_chain_length_loop, chain_size]
    rw [ih]
    unfold int_wrap; omega

/-- The value of `buf_chain_length` is the sum of the sizes brought back to an `int`. -/
theorem buf_chain_length_eq_wrap (l : List buffer_data) :
    buf_chain_length l = int_wrap (chain_size l) := by
  have h := buf_chain_length_loop_eq l 0
  have h0 : int_wrap 0 = 0 := by decide
  rw [h0, zero_add] at h
  exact h

/-- Within the range of an `int` the loop of `buf_chain_length` does not wrap. -/
theorem buf_chain_length_eq (l : List buffer_data) (h0 : 0 ≤ chain_size l)
    (h1 : chain_size l < 2147483648) : buf_chain_length l = chain_size l := by
  rw [buf_chain_length_eq_wrap]
  exact int_wrap_of_range _ (by omega) h1

theorem chain_size_nonneg {B : Nat} {l : List buffer_data} (h : chain_ok B l) :
    0 ≤ chain_size l := by
  rw [← chain_bytes_length h]; exact Int.natCast_nonneg _

theorem memcpy_length (t s : List Byte) (n : Nat) (h : n + s.length ≤ t.length) :
    (t.take n ++ s ++ t.drop (n + s.length)).length = t.length := by
  simp only [List.length_append, List.length_take, List.length_drop]; omega

theorem memcpy_content (t s : List Byte) (n m : Nat) (h : n + m + s.length ≤ t.length) :
    ((t.take (n + m) ++ s ++ t.drop (n + m + s.length)).drop n).take (m + s.length)
      = (t.drop n).take m ++ s := by
  have h1 : (t.take (n + m)).length = n + m := by simp; omega
  rw [List.append_assoc, List.drop_append_of_le_length (by omega)]
  have h2 : ((t.take (n + m)).drop n).length = m := by simp; omega
  rw [List.take_append_eq_append_take, h2]
  have h3 : m + s.length - m = s.length := by omega
  rw [h3, List.take_append_eq_append_take]
  simp only [List.take_length, List.length_nil, List.take_nil, List.append_nil, List.nil_append,
    List.take_zero, Nat.sub_self, List.length_drop]
  rw [List.drop_take, List.take_take]
  simp

/-- Appending `data` in the free room of a node appends it to the bytes of the node. -/
theorem seg_append {B : Nat} {l : buffer_data} (h : seg_ok B l) (data : List Byte)
    (hroom : (B : Int) - (l.bufp + l.size) ≥ data.length) :
    seg_ok B { l with text := memcpy l.text (l.bufp + l.size) data, size := l.size + data.length }
    ∧ seg_bytes { l with text := memcpy l.text (l.bufp + l.size) data,
                         size := l.size + data.length } = seg_bytes l ++ data := by
  obtain ⟨h1, h2, h3, h4⟩ := h
  have e1 : (l.bufp + l.size).toNat = l.bufp.toNat + l.size.toNat := by omega
  have e2 : (l.size + (data.length : Int)).toNat = l.size.toNat + data.length := by omega
  refine ⟨⟨?_, h2, by simp only; omega, by simp only; omega⟩, ?_⟩
  · simp only [memcpy, e1]
    rw [memcpy_length]; exact h1
    omega
  · simp only [seg_bytes, memcpy, e1, e2]
    exact memcpy_content l.text data l.bufp.toNat l.size.toNat (by omega)

/-- A node just obtained from the pool and filled with `data` from its start. -/
theorem seg_fresh (B a : Nat) (data : List Byte) (h : data.length ≤ B) :
    seg_ok B { addr := a, text := memcpy (List.replicate B 0) 0 data, bufp := 0,
               size := data.length }
    ∧ seg_bytes { addr := a, text := memcpy (List.replicate B 0) 0 data, bufp := 0,
                  size := data.length } = data := by
  constructor
  · refine ⟨?_, le_refl _, by simp, by simp; exact_mod_cast h⟩
    simp only [memcpy, Int.toNat_zero, List.take_zero, List.nil_append, Nat.zero_add,
      List.length_append, List.length_drop, List.length_replicate]
    omega
  · simp [seg_bytes, memcpy]

theorem get_buffer_data_ok (B : Nat) (p : pool) (h : never_exhausted p) :
    ∃ a p', get_buffer_data B p
        = (some { addr := a, text := List.replicate B 0, bufp := 0, size := 0 }, p')
      ∧ never_exhausted p' := by
  unfold never_exhausted at h
  unfold get_buffer_data
  by_cases hf : p.free_buffer_data = []
  · simp only [hf, if_true]
    have : allocate_buffer_datas B p =
        { free_buffer_data := allocate_loop B p.brk 16 p.free_buffer_data,
          brk := p.brk + 16, xmalloc_left := none } := by
      unfold allocate_buffer_datas; rw [h]; rfl
    rw [this]
    simp only [allocate_loop]
    exact ⟨_, _, rfl, rfl⟩
  · simp only [hf, if_false]
    cases hfl : p.free_buffer_data with
    | nil => exact absurd hfl hf
    | cons r rest => exact ⟨_, _, rfl, h⟩

theorem tail_ok_concat (l : List buffer_data) (d : buffer_data) :
    tail_ok (l ++ [d]) (some d.addr) := by
  simp [tail_ok]

theorem tail_ok_nil (last : Option Nat) : tail_ok [] last := by
  simp [tail_ok]

theorem tail_ok_concat_iff (l : List buffer_data) (d : buffer_data) (last : Option Nat) :
    tail_ok (l ++ [d]) last ↔ last = some d.addr := by
  simp [tail_ok]

theorem last_data_concat {σ : Type} (buf : buffer σ) (l : List buffer_data) (d : buffer_data)
    (hd : buf.data = l ++ [d]) (ht : tail_ok buf.data buf.last) : last_data buf = some d := by
  rw [hd, tail_ok_concat_iff] at ht
  simp [last_data, hd, ht]

theorem exists_concat_of_ne_nil {α : Type} (l : List α) (h : l ≠ []) :
    ∃ i d, l = i ++ [d] := by
  rcases List.eq_nil_or_concat l with h1 | ⟨i, d, h2⟩
  · exact absurd h1 h
  · exact ⟨i, d, by simpa using h2⟩

/-- Linking a node at the tail of a well-formed buffer. -/
theorem link_last_ok {σ : Type} (buf : buffer σ) (d : buffer_data)
    (ht : tail_ok buf.data buf.last) :
    link_last buf d = result.ok { buf with data := buf.data ++ [d], last := some d.addr } := by
  unfold link_last
  cases hdat : buf.data with
  | nil => simp
  | cons x r =>
    obtain ⟨i, e, he⟩ := exists_concat_of_ne_nil (x :: r) (by simp)
    have hl : last_data buf = some e := last_data_concat buf i e (by rw [hdat, he]) ht
    simp [hl]

theorem buf_output_loop_ok {σ : Type} (B : Nat) (hB : 0 < B) :
    ∀ (fuel : Nat) (data : List Byte) (buf : buffer σ) (p : pool),
      data.length < fuel → chain_ok B buf.data → tail_ok buf.data buf.last →
      never_exhausted p →
      ∃ ch lst p', buf_output_loop B fuel buf p data
          = result.ok ({ buf with data := ch, last := lst }, p')
        ∧ chain_ok B ch ∧ tail_ok ch lst ∧ ch ≠ []
        ∧ chain_bytes ch = chain_bytes buf.data ++ data ∧ never_exhausted p' := by
  intro fuel
  induction fuel with
  | zero => intro data buf p h; omega
  | succ n ih =>
    intro data buf p hlen hc ht hp
    obtain ⟨a, p1, hget, hp1⟩ := get_buffer_data_ok B p hp
    unfold buf_output_loop
    rw [hget]
    simp only
    by_cases hfit : (data.length : Int) ≤ B
    · rw [if_pos hfit, link_last_ok buf _ ht]
      have hfit' : data.length ≤ B := by exact_mod_cast hfit
      obtain ⟨s1, s2⟩ := seg_fresh B a data hfit'
      refine ⟨_, _, p1, rfl, ?_, tail_ok_concat _ _, by simp, ?_, hp1⟩
      · rw [chain_ok_append]; exact ⟨hc, by rw [chain_ok_cons]; exact ⟨s1, chain_ok_nil B⟩⟩
      · rw [chain_bytes_append]; simp only [chain_bytes, List.append_nil]; rw [s2]
    · rw [if_neg hfit, link_last_ok buf _ ht]
      have hgt : B < data.length := by
        have : ¬ (data.length ≤ B) := fun h => hfit (by exact_mod_cast h)
        omega
      have htk : (data.take B).length = B := by simp; omega
      obtain ⟨s1, s2⟩ := seg_fresh B a (data.take B) (by omega)
      rw [htk] at s1 s2
      simp only [result.bind_ok]
      obtain ⟨ch, lst, p', hrun, hch, htl, hne, hby, hp'⟩ :=
        ih (data.drop B)
          { buf with data := buf.data ++ [⟨a, memcpy (List.replicate B 0) 0 (data.take B), 0, B⟩],
                     last := some a } p1
          (by simp; omega)
          (by rw [chain_ok_append]; exact ⟨hc, by rw [chain_ok_cons]; exact ⟨s1, chain_ok_nil B⟩⟩)
          (tail_ok_concat _ ⟨a, _, 0, B⟩) hp1
      refine ⟨ch, lst, p', hrun, hch, htl, hne, ?_, hp'⟩
      rw [hby, chain_bytes_append]
      simp only [chain_bytes, List.append_nil]
      rw [s2, List.append_assoc, List.take_append_drop]

/-- What `buf_output` does to a well-formed buffer when the pool is never exhausted: it
returns, the buffer stays well-formed and `data` is appended to its content. -/
theorem buf_output_ok {σ : Type} (B : Nat) (hB : 0 < B) (buf : buffer σ) (p : pool)
    (data : List Byte) (hc : chain_ok B buf.data) (ht : tail_ok buf.data buf.last)
    (hp : never_exhausted p) :
    ∃ ch lst p', buf_output B buf p data = result.ok ({ buf with data := ch, last := lst }, p')
      ∧ chain_ok B ch ∧ tail_ok ch lst ∧ ch ≠ []
      ∧ chain_bytes ch = chain_bytes buf.data ++ data ∧ never_exhausted p' := by
  unfold buf_output
  cases hdat : buf.data with
  | nil =>
    simp only
    have := buf_output_loop_ok B hB (data.length + 1) data buf p (by omega) hc ht hp
    rw [hdat] at this
    exact this
  | cons x r =>
    obtain ⟨i, e, he⟩ := exists_concat_of_ne_nil (x :: r) (by simp)
    have hl : last_data buf = some e := last_data_concat buf i e (by rw [hdat, he]) ht
    simp only [hl]
    have hse : seg_ok B e := hc e (by rw [hdat, he]; simp)
    by_cases hroom : (B : Int) - (e.bufp + e.size) ≥ data.length
    · rw [if_pos hroom]
      obtain ⟨s1, s2⟩ := seg_append hse data hroom
      have hci : chain_ok B i := by
        have := hc; rw [hdat, he, chain_ok_append] at this; exact this.1
      refine ⟨i ++ [{ e with text := memcpy e.text (e.bufp + e.size) data,
                             size := e.size + data.length }], buf.last, p, ?_, ?_, ?_,
        by simp, ?_, hp⟩
      · simp only [set_last, hdat, he, List.dropLast_concat]
      · rw [chain_ok_append]; exact ⟨hci, by rw [chain_ok_cons]; exact ⟨s1, chain_ok_nil B⟩⟩
      · have := ht; rw [hdat, he, tail_ok_concat_iff] at this
        rw [tail_ok_concat_iff]; exact this
      · rw [he, chain_bytes_append, chain_bytes_append]
        simp only [chain_bytes, List.append_nil]
        rw [s2, List.append_assoc]
    · rw [if_neg hroom]
      have := buf_output_loop_ok B hB (data.length + 1) data buf p (by omega) hc ht hp
      rw [hdat] at this
      exact this

theorem buf_output_all_ok {σ : Type} (B : Nat) (hB : 0 < B) :
    ∀ (pieces : List (List Byte)) (buf : buffer σ) (p : pool),
      chain_ok B buf.data → tail_ok buf.data buf.last → never_exhausted p →
      ∃ ch lst p', buf_output_all B pieces buf p
          = result.ok ({ buf with data := ch, last := lst }, p')
        ∧ chain_ok B ch ∧ tail_ok ch lst
        ∧ chain_bytes ch = chain_bytes buf.data ++ pieces.flatten ∧ never_exhausted p' := by
  intro pieces
  induction pieces with
  | nil =>
    intro buf p hc ht hp
    exact ⟨buf.data, buf.last, p, rfl, hc, ht, by simp, hp⟩
  | cons piece rest ih =>
    intro buf p hc ht hp
    obtain ⟨ch, lst, p1, hrun, hch, htl, _, hby, hp1⟩ := buf_output_ok B hB buf p piece hc ht hp
    obtain ⟨ch2, lst2, p2, hrun2, hch2, htl2, hby2, hp2⟩ :=
      ih { buf with data := ch, last := lst } p1 hch htl hp1
    refine ⟨ch2, lst2, p2, ?_, hch2, htl2, ?_, hp2⟩
    · simp only [buf_output_all, hrun, result.bind_ok]
      exact hrun2
    · rw [hby2]; simp only [hby, List.flatten_cons, List.append_assoc]

/-- C1: for every byte sequence of fewer than 2^31 bytes, the range of the `int` that
`buf_length` returns, split into consecutive pieces, one `buf_output` call per
piece on an initially empty buffer, the pool never being exhausted, returns and leaves a
buffer whose `buf_length` is the length of the sequence and whose content, the used
bytes of its nodes in chain order, is the sequence. -/
theorem buf_output_pieces_content {σ : Type} (BUFFER_DATA_SIZE : Nat)
    (hB : 0 < BUFFER_DATA_SIZE) (pieces : List (List Byte)) (buf0 : buffer σ) (p : pool)
    (hempty : buf0.data = []) (hp : never_exhausted p)
    (hint : pieces.flatten.length < 2147483648) :
    ∃ buf p', buf_output_all BUFFER_DATA_SIZE pieces buf0 p = result.ok (buf, p')
      ∧ buf_length buf = (pieces.flatten.length : Int)
      ∧ chain_bytes buf.data = pieces.flatten := by
  obtain ⟨ch, lst, p', hrun, hch, _, hby, _⟩ :=
    buf_output_all_ok BUFFER_DATA_SIZE hB pieces buf0 p
      (by rw [hempty]; exact chain_ok_nil _) (by rw [hempty]; exact tail_ok_nil _) hp
  rw [hempty] at hby
  simp only [chain_bytes, List.nil_append] at hby
  refine ⟨_, p', hrun, ?_, hby⟩
  have hlen : ((chain_bytes ch).length : Int) = chain_size ch := chain_bytes_length hch
  rw [hby] at hlen
  simp only [buf_length]
  rw [buf_chain_length_eq ch (by omega) (by omega), ← hlen]

theorem buf_output_pieces_content_witness :
    (0 < 4 ∧ ( buf_nonio_initialize).data = [] ∧ never_exhausted ⟨[], 0, none⟩
      ∧ ([[104, 101, 108], [], [108, 111, 32, 119, 111, 114, 108, 100]] :
          List (List Byte)).flatten.length < 2147483648)
    ∧ ∃ buf p', buf_output_all 4 [[104, 101, 108], [], [108, 111, 32, 119, 111, 114, 108, 100]]
          buf_nonio_initialize ⟨[], 0, none⟩ = result.ok (buf, p')
        ∧ buf_length buf
            = (([[104, 101, 108], [], [108, 111, 32, 119, 111, 114, 108, 100]] :
                List (List Byte)).flatten.length : Int)
        ∧ chain_bytes buf.data
            = [[104, 101, 108], [], [108, 111, 32, 119, 111, 114, 108, 100]].flatten :=
  ⟨⟨by decide, rfl, rfl, by decide⟩,
   buf_output_pieces_content 4 (by decide) _ buf_nonio_initialize ⟨[], 0, none⟩ rfl rfl
     (by decide)⟩

theorem seg_bytes_eq_peek (d : buffer_data) : seg_bytes d = peek d d.size := rfl

/-- Moving the cursor of a node past its first `n` bytes. -/
theorem seg_advance {B : Nat} {d : buffer_data} (h : seg_ok B d) (n : Int) (h0 : 0 ≤ n)
    (hn : n ≤ d.size) :
    seg_ok B { d with bufp := d.bufp + n, size := d.size - n }
    ∧ peek d n = (seg_bytes d).take n.toNat
    ∧ seg_bytes { d with bufp := d.bufp + n, size := d.size - n } = (seg_bytes d).drop n.toNat := by
  obtain ⟨h1, h2, h3, h4⟩ := h
  refine ⟨⟨h1, by simp only; omega, by simp only; omega, by simp only; omega⟩, ?_, ?_⟩
  · simp only [peek, seg_bytes, List.take_take]
    congr 1
    omega
  · simp only [seg_bytes]
    have e1 : (d.bufp + n).toNat = d.bufp.toNat + n.toNat := by omega
    have e2 : (d.size - n).toNat = d.size.toNat - n.toNat := by omega
    rw [e1, e2, List.drop_take, List.drop_drop]

theorem seg_bytes_nil_of_size_zero {d : buffer_data} (h : d.size = 0) : seg_bytes d = [] := by
  simp [seg_bytes, h]

theorem read_data_skip_ok {σ : Type} (B : Nat) :
    ∀ (chain : List buffer_data) (buf : buffer σ) (p : pool),
      chain_ok B chain → chain_bytes chain ≠ [] →
      ∃ d rest lst p', read_data_skip chain buf p = ({ buf with data := d :: rest, last := lst }, p')
        ∧ 0 < d.size ∧ chain_ok B (d :: rest) ∧ chain_bytes (d :: rest) = chain_bytes chain := by
  intro chain
  induction chain with
  | nil => intro buf p _ h; exact absurd rfl h
  | cons d rest ih =>
    intro buf p hc hne
    by_cases hz : d.size = 0
    · have hrest : chain_bytes rest ≠ [] := by
        simpa [chain_bytes, seg_bytes_nil_of_size_zero hz] using hne
      obtain ⟨d', rest', lst, p', hrun, hpos, hok, hby⟩ :=
        ih { buf with data := rest, last := if rest = [] then none else buf.last }
          { p with free_buffer_data := d :: p.free_buffer_data } (chain_ok_cons.mp hc).2 hrest
      refine ⟨d', rest', lst, p', ?_, hpos, hok, ?_⟩
      · simp only [read_data_skip, hz, if_true]
        exact hrun
      · rw [hby]; simp [chain_bytes, seg_bytes_nil_of_size_zero hz]
    · refine ⟨d, rest, buf.last, p, ?_, ?_, hc, rfl⟩
      · simp only [read_data_skip, hz, if_false]
      · have := (chain_ok_cons.mp hc).1.2.2.1
        omega

/-- One `buf_read_data` call on a buffer that holds unread bytes: it returns 0 with a
non-empty view of the first unread bytes and makes no callback. -/
theorem buf_read_data_ok {σ : Type} (B : Nat) (buf : buffer σ) (p : pool) (want : Int)
    (inp : σ → Int → Int → Int × List Byte × σ) (hin : buf.input = some inp)
    (hc : chain_ok B buf.data) (hne : chain_bytes buf.data ≠ []) (hw : 1 ≤ want) :
    ∃ view ch lst p', buf_read_data B buf p want
        = result.ok ((0, view, (view.length : Int)), { buf with data := ch, last := lst }, p')
      ∧ chain_ok B ch ∧ view ≠ [] ∧ view ++ chain_bytes ch = chain_bytes buf.data := by
  obtain ⟨d, rest, lst, p', hrun, hpos, hok, hby⟩ := read_data_skip_ok B buf.data buf p hc hne
  have hsd := (chain_ok_cons.mp hok).1
  have hlen := seg_bytes_length hsd
  unfold buf_read_data
  simp only [hin, hrun, read_data_take]
  by_cases hlt : want < d.size
  · rw [if_pos hlt]
    obtain ⟨a1, a2, a3⟩ := seg_advance hsd want (by omega) (by omega)
    refine ⟨(seg_bytes d).take want.toNat,
      { d with size := d.size - want, bufp := d.bufp + want } :: rest, lst, p', ?_, ?_, ?_, ?_⟩
    · have e : (((seg_bytes d).take want.toNat).length : Int) = want := by
        simp only [List.length_take]; omega
      rw [e, ← a2]
      rfl
    · rw [chain_ok_cons]; exact ⟨a1, (chain_ok_cons.mp hok).2⟩
    · intro hnil
      have : ((seg_bytes d).take want.toNat).length = 0 := by rw [hnil]; rfl
      simp only [List.length_take] at this
      omega
    · rw [← hby]
      simp only [chain_bytes]
      rw [a3, ← List.append_assoc, List.take_append_drop]
  · rw [if_neg hlt]
    refine ⟨seg_bytes d, { d with size := 0 } :: rest, lst, p', ?_, ?_, ?_, ?_⟩
    · rw [hlen]; rfl
    · rw [chain_ok_cons]
      obtain ⟨h1, h2, h3, h4⟩ := hsd
      exact ⟨⟨h1, h2, le_refl _, by simp only; omega⟩, (chain_ok_cons.mp hok).2⟩
    · intro hnil
      rw [hnil] at hlen
      simp at hlen
      omega
    · rw [← hby]
      simp [chain_bytes, seg_bytes]

theorem read_data_drain_ok {σ : Type} (B : Nat) (wants : Nat → Int) (hw : ∀ k, 1 ≤ wants k)
    (inp : σ → Int → Int → Int × List Byte × σ) :
    ∀ (fuel k remaining : Nat) (buf : buffer σ) (p : pool),
      buf.input = some inp → chain_ok B buf.data →
      remaining = (chain_bytes buf.data).length → remaining ≤ fuel →
      ∃ rs ch lst p', read_data_drain B wants fuel k remaining buf p
          = result.ok (rs, { buf with data := ch, last := lst }, p')
        ∧ (rs.map fun r => r.2.1).flatten = chain_bytes buf.data
        ∧ (∀ r ∈ rs, r.1 = 0 ∧ r.2.2 = (r.2.1.length : Int) ∧ r.2.1 ≠ [])
        ∧ chain_bytes ch = [] := by
  intro fuel
  induction fuel with
  | zero =>
    intro k remaining buf p hin hc hrem hle
    have h0 : remaining = 0 := by omega
    subst h0
    refine ⟨[], buf.data, buf.last, p, ?_, ?_, ?_, ?_⟩
    · simp [read_data_drain]
    · simp only [List.map_nil, List.flatten_nil]
      exact (List.length_eq_zero.mp hrem.symm).symm
    · intro r hr; cases hr
    · exact List.length_eq_zero.mp hrem.symm
  | succ n ih =>
    intro k remaining buf p hin hc hrem hle
    cases remaining with
    | zero =>
      refine ⟨[], buf.data, buf.last, p, ?_, ?_, ?_, ?_⟩
      · simp [read_data_drain]
      · simp only [List.map_nil, List.flatten_nil]
        exact (List.length_eq_zero.mp hrem.symm).symm
      · intro r hr; cases hr
      · exact List.length_eq_zero.mp hrem.symm
    | succ m =>
      have hne : chain_bytes buf.data ≠ [] := by
        intro h; rw [h] at hrem; simp at hrem
      obtain ⟨view, ch, lst, p1, hrun, hch, hv, hby⟩ :=
        buf_read_data_ok B buf p (wants k) inp hin hc hne (hw k)
      have hvl : 0 < view.length := List.length_pos.mpr hv
      have hlen : (chain_bytes ch).length = m + 1 - view.length := by
        have := congrArg List.length hby
        simp only [List.length_append] at this
        omega
      obtain ⟨rs, ch2, lst2, p2, hrun2, hcat, hall, hemp⟩ :=
        ih (k + 1) (m + 1 - view.length) { buf with data := ch, last := lst } p1 hin hch
          hlen.symm (by omega)
      refine ⟨(0, view, (view.length : Int)) :: rs, ch2, lst2, p2, ?_, ?_, ?_, hemp⟩
      · simp only [read_data_drain, hrun, result.bind_ok, ne_eq, not_true_eq_false, if_false,
          Int.toNat_ofNat, hrun2]
      · simp only [List.map_cons, List.flatten_cons]
        rw [hcat, hby]
      · intro r hr
        rcases List.mem_cons.mp hr with h | h
        · subst h; exact ⟨rfl, rfl, hv⟩
        · exact hall r h

/-- C2: for every buffer whose content is a non-empty byte sequence, in any segmentation,
and every sequence of wants that are at least 1, calling `buf_read_data` until as many
bytes as the content holds have been returned gives views whose concatenation is the
content, every call returns 0, and no callback of the buffer (so not the backend input
function) is invoked. -/
theorem buf_read_data_drains_content {σ : Type} (BUFFER_DATA_SIZE : Nat) (buf : buffer σ)
    (p : pool) (wants : Nat → Int) (inp : σ → Int → Int → Int × List Byte × σ)
    (hin : buf.input = some inp) (hc : chain_ok BUFFER_DATA_SIZE buf.data)
    (hw : ∀ k, 1 ≤ wants k) :
    ∃ rs buf' p', read_data_drain BUFFER_DATA_SIZE wants (chain_bytes buf.data).length 0
          (chain_bytes buf.data).length buf p = result.ok (rs, buf', p')
      ∧ (rs.map fun r => r.2.1).flatten = chain_bytes buf.data
      ∧ (∀ r ∈ rs, r.1 = 0 ∧ r.2.2 = (r.2.1.length : Int))
      ∧ buf'.calls = buf.calls ∧ buf'.closure = buf.closure ∧ chain_bytes buf'.data = [] := by
  obtain ⟨rs, ch, lst, p', hrun, hcat, hall, hemp⟩ :=
    read_data_drain_ok BUFFER_DATA_SIZE wants hw inp (chain_bytes buf.data).length 0
      (chain_bytes buf.data).length buf p hin hc rfl (le_refl _)
  exact ⟨rs, _, p', hrun, hcat, fun r hr => ⟨(hall r hr).1, (hall r hr).2.1⟩, rfl, rfl, hemp⟩

theorem buf_read_data_drains_content_witness :
    ((chain_buffer [⟨7, [104, 105, 33, 0], 0, 3⟩, ⟨8, [0, 0, 0, 0], 2, 0⟩, ⟨9, [0, 10, 111, 107], 1, 3⟩]
        (some 9) (some eof_input) ()).input = some eof_input
      ∧ chain_ok 4 [⟨7, [104, 105, 33, 0], 0, 3⟩, ⟨8, [0, 0, 0, 0], 2, 0⟩, ⟨9, [0, 10, 111, 107], 1, 3⟩])
    ∧ ∃ rs buf' p', read_data_drain 4 (fun _ => 2) 6 0 6
          (chain_buffer [⟨7, [104, 105, 33, 0], 0, 3⟩, ⟨8, [0, 0, 0, 0], 2, 0⟩,
              ⟨9, [0, 10, 111, 107], 1, 3⟩] (some 9) (some eof_input) ())
          ⟨[], 0, none⟩ = result.ok (rs, buf', p')
        ∧ (rs.map fun r => r.2.1).flatten = [104, 105, 33, 10, 111, 107]
        ∧ (∀ r ∈ rs, r.1 = 0 ∧ r.2.2 = (r.2.1.length : Int))
        ∧ buf'.calls = [] ∧ buf'.closure = () ∧ chain_bytes buf'.data = [] :=
  ⟨⟨rfl, by decide⟩,
   buf_read_data_drains_content 4
     (chain_buffer [⟨7, [104, 105, 33, 0], 0, 3⟩, ⟨8, [0, 0, 0, 0], 2, 0⟩,
        ⟨9, [0, 10, 111, 107], 1, 3⟩] (some 9) (some eof_input) ())
     ⟨[], 0, none⟩ (fun _ => 2) eof_input rfl (by decide)
     (fun _ => (by decide : (1 : Int) ≤ 2))⟩

theorem memchr_none {bs : List Byte} {c : Byte} (h : memchr bs c = none) : c ∉ bs := by
  induction bs with
  | nil => simp
  | cons b r ih =>
    simp only [memchr] at h
    by_cases hb : b = c
    · simp [hb] at h
    · simp only [hb, if_false, Option.map_eq_none'] at h
      simp only [List.mem_cons, not_or]
      exact ⟨fun e => hb e.symm, ih h⟩

theorem memchr_some {bs : List Byte} {c : Byte} {k : Nat} (h : memchr bs c = some k) :
    ∃ X Y, bs = X ++ c :: Y ∧ X.length = k ∧ c ∉ X := by
  induction bs generalizing k with
  | nil => simp [memchr] at h
  | cons b r ih =>
    simp only [memchr] at h
    by_cases hb : b = c
    · simp only [hb, if_true, Option.some.injEq] at h
      exact ⟨[], r, by simp [hb], by simp [h], by simp⟩
    · simp only [hb, if_false, Option.map_eq_some'] at h
      obtain ⟨k', hk', hk⟩ := h
      obtain ⟨X, Y, hXY, hlen, hX⟩ := ih hk'
      refine ⟨b :: X, Y, by simp [hXY], by simp [hlen, hk], ?_⟩
      simp only [List.mem_cons, not_or]
      exact ⟨fun e => hb e.symm, hX⟩

theorem memchr_of_split {c : Byte} (X Y : List Byte) (hX : c ∉ X) :
    memchr (X ++ c :: Y) c = some X.length := by
  induction X with
  | nil => simp [memchr]
  | cons b r ih =>
    simp only [List.mem_cons, not_or] at hX
    have hb : ¬ b = c := fun e => hX.1 e.symm
    simp [memchr, hb, ih hX.2]

/-- The split of a list at the first occurrence of `c` is unique. -/
theorem first_split_unique {c : Byte} :
    ∀ (X Y A Bs : List Byte), X ++ c :: Y = A ++ c :: Bs → c ∉ X → c ∉ A → X = A ∧ Y = Bs := by
  intro X
  induction X with
  | nil =>
    intro Y A Bs h _ hA
    cases A with
    | nil => simpa using h
    | cons a A' =>
      simp only [List.nil_append, List.cons_append, List.cons.injEq] at h
      exact absurd (by rw [h.1]; simp) hA
  | cons x X' ih =>
    intro Y A Bs h hX hA
    cases A with
    | nil =>
      simp only [List.nil_append, List.cons_append, List.cons.injEq] at h
      exact absurd (by rw [← h.1]; simp) hX
    | cons a A' =>
      simp only [List.cons_append, List.cons.injEq] at h
      simp only [List.mem_cons, not_or] at hX hA
      obtain ⟨e1, e2⟩ := ih Y A' Bs h.2 hX.2 hA.2
      exact ⟨by rw [h.1, e1], e2⟩

/-- A newline-free prefix of a list stops before the first occurrence of `c`. -/
theorem prefix_before_first {c : Byte} :
    ∀ (X R A Bs : List Byte), X ++ R = A ++ c :: Bs → c ∉ X → c ∉ A →
      ∃ A', A = X ++ A' ∧ R = A' ++ c :: Bs := by
  intro X
  induction X with
  | nil => intro R A Bs h _ _; exact ⟨A, rfl, by simpa using h⟩
  | cons x X' ih =>
    intro R A Bs h hX hA
    cases A with
    | nil =>
      simp only [List.nil_append, List.cons_append, List.cons.injEq] at h
      exact absurd (by rw [← h.1]; simp) hX
    | cons a A' =>
      simp only [List.cons_append, List.cons.injEq] at h
      simp only [List.mem_cons, not_or] at hX hA
      obtain ⟨A'', e1, e2⟩ := ih R A' Bs h.2 hX.2 hA.2
      exact ⟨A'', by rw [h.1, e1]; rfl, e2⟩

/-- The scan of `buf_read_line` on a chain whose content holds a newline: it stops on
the node that holds the first newline. -/
theorem read_line_scan_found (B : Nat) :
    ∀ (chain : List buffer_data) (A Bs : List Byte) (len : Int) (i : Nat),
      chain_ok B chain → chain_bytes chain = A ++ 10 :: Bs → (10 : Byte) ∉ A →
      ∃ pre d post X Y, chain = pre ++ d :: post
        ∧ read_line_scan chain len i = some (i + pre.length, (X.length : Int), len + A.length)
        ∧ seg_bytes d = X ++ 10 :: Y ∧ A = chain_bytes pre ++ X ∧ Bs = Y ++ chain_bytes post := by
  intro chain
  induction chain with
  | nil =>
    intro A Bs len i _ h _
    simp [chain_bytes] at h
  | cons d rest ih =>
    intro A Bs len i hc h hA
    simp only [chain_bytes] at h
    cases hm : memchr (seg_bytes d) 10 with
    | none =>
      have hnot := memchr_none hm
      obtain ⟨A', e1, e2⟩ := prefix_before_first _ _ _ _ h hnot hA
      have hA' : (10 : Byte) ∉ A' := by
        intro hmem; apply hA; rw [e1]; exact List.mem_append_right _ hmem
      obtain ⟨pre, d', post, X, Y, hch, hscan, hseg, hAeq, hBeq⟩ :=
        ih A' Bs (len + d.size) (i + 1) (chain_ok_cons.mp hc).2 e2 hA'
      refine ⟨d :: pre, d', post, X, Y, by rw [hch]; rfl, ?_, hseg, ?_, hBeq⟩
      · have hsz := seg_bytes_length (chain_ok_cons.mp hc).1
        have ea : i + 1 + pre.length = i + (pre.length + 1) := by omega
        have ec : len + d.size + (A'.length : Int) = len + ((seg_bytes d ++ A').length : Int) := by
          rw [List.length_append]; push_cast; rw [hsz]; ring
        simp only [read_line_scan, hm, hscan, List.length_cons, e1]
        rw [ea, ec]
      · rw [e1, hAeq]; simp [chain_bytes]
    | some k =>
      obtain ⟨X, Y, hXY, hlen, hX⟩ := memchr_some hm
      rw [hXY, List.append_assoc, List.cons_append] at h
      obtain ⟨e1, e2⟩ := first_split_unique _ _ _ _ h hX hA
      refine ⟨[], d, rest, X, Y, rfl, ?_, hXY, by simp [chain_bytes, e1], e2.symm⟩
      simp only [read_line_scan, hm, List.length_nil, Nat.add_zero]
      rw [← e1, ← hlen]

theorem tail_ok_suffix (pre post : List buffer_data) (d d' : buffer_data) (last : Option Nat)
    (h : tail_ok (pre ++ d :: post) last) (ha : d'.addr = d.addr) :
    tail_ok (d' :: post) last := by
  unfold tail_ok at h ⊢
  rw [List.getLast?_append_cons] at h
  cases post with
  | nil => simpa [ha] using h
  | cons x r => simpa [List.getLast?_cons_cons] using h

/-- A call of `xmalloc` returns `NULL` exactly when no block is left. -/
theorem xmalloc_eq_none (p : pool) : xmalloc p = none ↔ p.xmalloc_left = some 0 := by
  unfold xmalloc
  constructor
  · intro h
    split at h
    · assumption
    · cases h
  · intro h
    rw [h]

/-- The outer loop of `buf_read_line` on a buffer whose content holds a newline, when the
`xmalloc` of the line returns `NULL`: the call returns -2 with `*line` left `NULL` and
the buffer and the pool as they were. -/
theorem buf_read_line_loop_found_null {σ : Type} (B : Nat)
    (input : σ → Int → Int → Int × List Byte × σ) (fuel : Nat) (buf : buffer σ) (p : pool)
    (A Bs : List Byte) (hc : chain_ok B buf.data) (hcontent : chain_bytes buf.data = A ++ 10 :: Bs)
    (hA : (10 : Byte) ∉ A) (hx : p.xmalloc_left = some 0) :
    buf_read_line_loop B input (fuel + 1) buf p = result.ok ((-2, none, none), buf, p) := by
  obtain ⟨pre, d, post, X, Y, hch, hscan, hseg, hAeq, hBeq⟩ :=
    read_line_scan_found B buf.data A Bs 0 0 hc hcontent hA
  simp only [buf_read_line_loop, hscan, Nat.zero_add, Int.zero_add]
  rw [hch, getElem?_mid]
  simp only [(xmalloc_eq_none p).mpr hx]

/-- The block that makes room at the tail of a well-formed buffer leaves a buffer whose
final node has at least one free byte, with the same content. -/
theorem tail_room_ok {σ : Type} (B : Nat) (hB : 0 < B) (buf : buffer σ) (p : pool)
    (hc : chain_ok B buf.data) (ht : tail_ok buf.data buf.last) (hp : never_exhausted p) :
    ∃ i l lst p1, tail_room B buf p
        = result.ok (some { buf with data := i ++ [l], last := lst }, p1)
      ∧ chain_ok B (i ++ [l]) ∧ tail_ok (i ++ [l]) lst ∧ l.bufp + l.size < B
      ∧ chain_bytes (i ++ [l]) = chain_bytes buf.data ∧ never_exhausted p1 := by
  obtain ⟨a, p1, hget, hp1⟩ := get_buffer_data_ok B p hp
  have hfresh_ok : seg_ok B ⟨a, List.replicate B 0, 0, 0⟩ :=
    ⟨by simp, le_refl _, le_refl _, by simp⟩
  have hfresh : ∃ i l lst p1, (match get_buffer_data B p with
        | (none, p1) => (result.ok (none, p1) : result (Option (buffer σ) × pool))
        | (some data, p1) =>
          (link_last buf { data with bufp := 0, size := 0 }).bind fun b => result.ok (some b, p1))
        = result.ok (some { buf with data := i ++ [l], last := lst }, p1)
      ∧ chain_ok B (i ++ [l]) ∧ tail_ok (i ++ [l]) lst ∧ l.bufp + l.size < B
      ∧ chain_bytes (i ++ [l]) = chain_bytes buf.data ∧ never_exhausted p1 := by
    refine ⟨buf.data, ⟨a, List.replicate B 0, 0, 0⟩, some a, p1, ?_, ?_, tail_ok_concat _ _,
      by simp; omega, ?_, hp1⟩
    · rw [hget]
      simp only
      rw [link_last_ok buf _ ht]
      rfl
    · rw [chain_ok_append]; exact ⟨hc, by rw [chain_ok_cons]; exact ⟨hfresh_ok, chain_ok_nil B⟩⟩
    · rw [chain_bytes_append]; simp [chain_bytes, seg_bytes]
  unfold tail_room
  cases hdat : buf.data with
  | nil => simp only; rw [hdat] at hfresh; exact hfresh
  | cons x r =>
    obtain ⟨i, e, he⟩ := exists_concat_of_ne_nil (x :: r) (by simp)
    have hl : last_data buf = some e := last_data_concat buf i e (by rw [hdat, he]) ht
    simp only [hl]
    by_cases hfull : e.bufp + e.size = B
    · rw [if_pos hfull]; rw [hdat] at hfresh; exact hfresh
    · rw [if_neg hfull]
      have hse : seg_ok B e := hc e (by rw [hdat, he]; simp)
      refine ⟨i, e, buf.last, p, ?_, ?_, ?_, ?_, ?_, hp⟩
      · rw [← he, ← hdat]
      · rw [← he, ← hdat]; exact hc
      · rw [← he, ← hdat]; exact ht
      · have := hse.2.2.2; omega
      · rw [← he]

theorem read_line_scan_none :
    ∀ (chain : List buffer_data) (len : Int) (i : Nat), (10 : Byte) ∉ chain_bytes chain →
      read_line_scan chain len i = none := by
  intro chain
  induction chain with
  | nil => intro len i _; rfl
  | cons d rest ih =>
    intro len i h
    simp only [chain_bytes, List.mem_append, not_or] at h
    cases hm : memchr (seg_bytes d) 10 with
    | none => simp only [read_line_scan, hm]; exact ih _ _ h.2
    | some k =>
      obtain ⟨X, Y, hXY, _, _⟩ := memchr_some hm
      exact absurd (by rw [hXY]; simp) h.1

theorem char_of_int_val (c : Byte) : char_of_int (c.val : Int) = c := by
  apply Fin.ext
  simp only [char_of_int]
  have := c.isLt
  omega

/-- What `buf_append_char` does to a well-formed buffer when the pool is never
exhausted: the character is appended to the content. -/
theorem buf_append_char_ok {σ : Type} (B : Nat) (hB : 0 < B) (buf : buffer σ) (p : pool)
    (ch : Int) (hc : chain_ok B buf.data) (ht : tail_ok buf.data buf.last)
    (hp : never_exhausted p) :
    ∃ c lst p', buf_append_char B buf p ch = result.ok ({ buf with data := c, last := lst }, p')
      ∧ chain_ok B c ∧ tail_ok c lst ∧ c ≠ []
      ∧ chain_bytes c = chain_bytes buf.data ++ [char_of_int ch] ∧ never_exhausted p' := by
  unfold buf_append_char
  cases hdat : buf.data with
  | nil =>
    simp only
    have := buf_output_ok B hB buf p [char_of_int ch] hc ht hp
    rw [hdat] at this
    exact this
  | cons x r =>
    obtain ⟨i, e, he⟩ := exists_concat_of_ne_nil (x :: r) (by simp)
    have hl : last_data buf = some e := last_data_concat buf i e (by rw [hdat, he]) ht
    simp only [hl]
    have hse : seg_ok B e := hc e (by rw [hdat, he]; simp)
    by_cases hfull : (B : Int) ≠ e.bufp + e.size
    · rw [if_pos hfull]
      have hroom : (B : Int) - (e.bufp + e.size) ≥ ([char_of_int ch] : List Byte).length := by
        have := hse.2.2.2
        simp only [List.length_singleton, Nat.cast_one]
        omega
      obtain ⟨s1, s2⟩ := seg_append hse [char_of_int ch] hroom
      have hci : chain_ok B i := by
        have := hc; rw [hdat, he, chain_ok_append] at this; exact this.1
      refine ⟨i ++ [{ e with text := memcpy e.text (e.bufp + e.size) [char_of_int ch],
                             size := e.size + 1 }], buf.last, p, ?_, ?_, ?_, by simp, ?_, hp⟩
      · simp only [set_last, hdat, he, List.dropLast_concat]
      · rw [chain_ok_append]; exact ⟨hci, by rw [chain_ok_cons]; exact ⟨s1, chain_ok_nil B⟩⟩
      · have := ht; rw [hdat, he, tail_ok_concat_iff] at this
        rw [tail_ok_concat_iff]; exact this
      · rw [he, chain_bytes_append, chain_bytes_append]
        simp only [chain_bytes, List.append_nil]
        simp only [List.length_singleton, Nat.cast_one] at s2
        rw [s2, List.append_assoc]
    · rw [if_neg hfull]
      have := buf_output_ok B hB buf p [char_of_int ch] hc ht hp
      rw [hdat] at this
      exact this

/-- Appending a non-empty chain to a well-formed buffer. -/
theorem buf_append_data_ok {σ : Type} (buf : buffer σ) (data : List buffer_data)
    (last : Option Nat) (ht : tail_ok buf.data buf.last) (hne : data ≠ []) :
    buf_append_data buf data last
      = result.ok { buf with data := buf.data ++ data, last := last } := by
  unfold buf_append_data
  cases data with
  | nil => exact absurd rfl hne
  | cons y ys =>
    cases hdat : buf.data with
    | nil => simp
    | cons x r =>
      obtain ⟨i, e, he⟩ := exists_concat_of_ne_nil (x :: r) (by simp)
      have hl : last_data buf = some e := last_data_concat buf i e (by rw [hdat, he]) ht
      simp [hl]

theorem copy_lines_scan_found :
    ∀ (chain : List buffer_data) (A Bs : List Byte) (i : Nat),
      chain_bytes chain = A ++ 10 :: Bs → (10 : Byte) ∉ A →
      ∃ pre d post X Y, chain = pre ++ d :: post
        ∧ copy_lines_scan chain i = some (i + pre.length, X.length)
        ∧ seg_bytes d = X ++ 10 :: Y ∧ A = chain_bytes pre ++ X ∧ Bs = Y ++ chain_bytes post := by
  intro chain
  induction chain with
  | nil =>
    intro A Bs i h _
    simp [chain_bytes] at h
  | cons d rest ih =>
    intro A Bs i h hA
    simp only [chain_bytes] at h
    cases hm : memchr (seg_bytes d) 10 with
    | none =>
      have hnot := memchr_none hm
      obtain ⟨A', e1, e2⟩ := prefix_before_first _ _ _ _ h hnot hA
      have hA' : (10 : Byte) ∉ A' := by
        intro hmem; apply hA; rw [e1]; exact List.mem_append_right _ hmem
      obtain ⟨pre, d', post, X, Y, hch, hscan, hseg, hAeq, hBeq⟩ := ih A' Bs (i + 1) e2 hA'
      refine ⟨d :: pre, d', post, X, Y, by rw [hch]; rfl, ?_, hseg, ?_, hBeq⟩
      · have ea : i + 1 + pre.length = i + (pre.length + 1) := by omega
        simp only [copy_lines_scan, hm, hscan, List.length_cons]
        rw [ea]
      · rw [e1, hAeq]; simp [chain_bytes]
    | some k =>
      obtain ⟨X, Y, hXY, hlen, hX⟩ := memchr_some hm
      rw [hXY, List.append_assoc, List.cons_append] at h
      obtain ⟨e1, e2⟩ := first_split_unique _ _ _ _ h hX hA
      refine ⟨[], d, rest, X, Y, rfl, ?_, hXY, by simp [chain_bytes, e1], e2.symm⟩
      simp only [copy_lines_scan, hm, List.length_nil, Nat.add_zero]
      rw [← hlen]

theorem copy_lines_scan_none :
    ∀ (chain : List buffer_data) (i : Nat), (10 : Byte) ∉ chain_bytes chain →
      copy_lines_scan chain i = none := by
  intro chain
  induction chain with
  | nil => intro i _; rfl
  | cons d rest ih =>
    intro i h
    simp only [chain_bytes, List.mem_append, not_or] at h
    cases hm : memchr (seg_bytes d) 10 with
    | none => simp only [copy_lines_scan, hm]; exact ih _ h.2
    | some k =>
      obtain ⟨X, Y, hXY, _, _⟩ := memchr_some hm
      exact absurd (by rw [hXY]; simp) h.1

theorem copy_lines_before_ok {σ τ : Type} (outbuf : buffer σ) (inbuf : buffer τ)
    (pre post : List buffer_data) (d : buffer_data) (hch : inbuf.data = pre ++ d :: post)
    (ht : tail_ok outbuf.data outbuf.last) :
    ∃ olst, copy_lines_before outbuf inbuf pre.length
        = result.ok ({ outbuf with data := outbuf.data ++ pre, last := olst },
                     { inbuf with data := d :: post })
      ∧ tail_ok (outbuf.data ++ pre) olst := by
  obtain ⟨idata, ilast, inb, iinp, iout, ifl, ibl, ish, icl, icalls⟩ := inbuf
  simp only at hch
  subst hch
  rcases List.eq_nil_or_concat pre with h | ⟨pre', e, h⟩
  · subst h
    refine ⟨outbuf.last, ?_, by simpa using ht⟩
    simp [copy_lines_before]
  · have h' : pre = pre' ++ [e] := by simpa using h
    subst h'
    refine ⟨some e.addr, ?_, ?_⟩
    · have hidx : (pre' ++ [e] ++ d :: post)[(pre' ++ [e]).length - 1]? = some e := by
        have : (pre' ++ [e]).length - 1 = pre'.length := by simp
        rw [this, List.append_assoc]
        exact getElem?_mid pre' ([] ++ d :: post) e
      have htake : (pre' ++ [e] ++ d :: post).take (pre' ++ [e]).length = pre' ++ [e] :=
        List.take_left' rfl
      have hdrop : (pre' ++ [e] ++ d :: post).drop (pre' ++ [e]).length = d :: post :=
        List.drop_left' rfl
      have hne : (pre' ++ [e]).length ≠ 0 := by simp
      simp only [copy_lines_before, hne, ne_eq, not_false_eq_true, if_true, hidx, htake, hdrop,
        Option.map_some']
      rw [buf_append_data_ok outbuf _ _ ht (by simp)]
      rfl
    · rw [← List.append_assoc]; exact tail_ok_concat _ _

theorem copy_lines_end_ok {σ τ : Type} (B : Nat) (hB : 0 < B) (outbuf : buffer σ)
    (inbuf : buffer τ) (p : pool) (d : buffer_data) (post : List buffer_data) (X Y : List Byte)
    (hch : inbuf.data = d :: post) (hseg : seg_bytes d = X ++ 10 :: Y)
    (hci : chain_ok B inbuf.data) (hco : chain_ok B outbuf.data)
    (ht : tail_ok outbuf.data outbuf.last) (hp : never_exhausted p) :
    ∃ och olst ich ilst p', copy_lines_end B outbuf inbuf p X.length
        = result.ok ({ outbuf with data := och, last := olst },
                     { inbuf with data := ich, last := ilst }, p')
      ∧ chain_ok B och ∧ tail_ok och olst
      ∧ chain_bytes och = chain_bytes outbuf.data ++ X ++ [10]
      ∧ chain_ok B ich ∧ chain_bytes ich = Y ++ chain_bytes post ∧ never_exhausted p' := by
  rw [hch] at hci
  have hsd : seg_ok B d := (chain_ok_cons.mp hci).1
  have hpost : chain_ok B post := (chain_ok_cons.mp hci).2
  have hlen := seg_bytes_length hsd
  rw [hseg] at hlen
  simp only [List.length_append, List.length_cons, Nat.cast_add, Nat.cast_one] at hlen
  unfold copy_lines_end
  rw [hch]
  simp only
  by_cases hend : (X.length : Int) + 1 = d.size
  · rw [if_pos hend, buf_append_data_ok outbuf _ _ ht (by simp)]
    have hY : Y = [] := by
      apply List.length_eq_zero.mp
      omega
    refine ⟨outbuf.data ++ [d], some d.addr, post, if post = [] then none else inbuf.last, p,
      rfl, ?_, tail_ok_concat _ _, ?_, hpost, by simp [hY], hp⟩
    · rw [chain_ok_append]; exact ⟨hco, by rw [chain_ok_cons]; exact ⟨hsd, chain_ok_nil B⟩⟩
    · rw [chain_bytes_append]; simp [chain_bytes, hseg, hY]
  · rw [if_neg hend]
    obtain ⟨a1, a2, a3⟩ := seg_advance hsd ((X.length : Int) + 1) (by omega) (by omega)
    have e : ((X.length : Int) + 1).toNat = X.length + 1 := by omega
    have hpk : peek d ((X.length : Int) + 1) = X ++ [10] := by
      rw [a2, hseg, e]
      exact take_succ_mid X Y 10
    obtain ⟨och, olst, p', hrun, hoch, hotl, _, hoby, hp'⟩ :=
      buf_output_ok B hB outbuf p (X ++ [10]) hco ht hp
    refine ⟨och, olst, { d with bufp := d.bufp + ((X.length : Int) + 1),
                                size := d.size - ((X.length : Int) + 1) } :: post,
      inbuf.last, p', ?_, hoch, hotl, by rw [hoby, List.append_assoc], ?_, ?_, hp'⟩
    · rw [hpk, hrun]; rfl
    · rw [chain_ok_cons]; exact ⟨a1, hpost⟩
    · simp only [chain_bytes]; rw [a3, hseg, e]; simp

theorem lines_stream_length (lines : List (List Byte)) :
    lines.length ≤ ((lines.map fun L => L ++ [10]).flatten).length := by
  induction lines with
  | nil => simp
  | cons L rest ih =>
    simp only [List.map_cons, List.flatten_cons, List.length_append, List.length_cons,
      List.length_nil]
    omega

theorem buf_copy_lines_loop_ok {σ τ : Type} (B : Nat) (hB : 0 < B) (command : Int) (R : List Byte)
    (hR : (10 : Byte) ∉ R) :
    ∀ (lines : List (List Byte)) (fuel : Nat) (outbuf : buffer σ) (inbuf : buffer τ) (p : pool),
      lines.length < fuel → (∀ L ∈ lines, (10 : Byte) ∉ L) →
      chain_bytes inbuf.data = (lines.map fun L => L ++ [10]).flatten ++ R →
      chain_ok B inbuf.data → chain_ok B outbuf.data → tail_ok outbuf.data outbuf.last →
      never_exhausted p →
      ∃ och olst ich ilst p', buf_copy_lines_loop B fuel outbuf inbuf p command
          = result.ok ({ outbuf with data := och, last := olst },
                       { inbuf with data := ich, last := ilst }, p')
        ∧ chain_bytes och = chain_bytes outbuf.data
            ++ (lines.map fun L => [char_of_int command, 32] ++ L ++ [10]).flatten
        ∧ chain_bytes ich = R ∧ chain_ok B och ∧ tail_ok och olst ∧ chain_ok B ich
        ∧ never_exhausted p' := by
  intro lines
  induction lines with
  | nil =>
    intro fuel outbuf inbuf p hf _ hby hci hco ht hp
    obtain ⟨n, rfl⟩ : ∃ n, fuel = n + 1 := ⟨fuel - 1, by simp at hf; omega⟩
    simp only [List.map_nil, List.flatten_nil, List.nil_append] at hby
    have hnone := copy_lines_scan_none inbuf.data 0 (by rw [hby]; exact hR)
    refine ⟨outbuf.data, outbuf.last, inbuf.data, inbuf.last, p, ?_, by simp, hby, hco, ht, hci,
      hp⟩
    simp only [buf_copy_lines_loop, hnone]
  | cons L rest ih =>
    intro fuel outbuf inbuf p hf hL hby hci hco ht hp
    obtain ⟨n, rfl⟩ : ∃ n, fuel = n + 1 := ⟨fuel - 1, by simp at hf; omega⟩
    simp only [List.map_cons, List.flatten_cons, List.append_assoc, List.singleton_append] at hby
    obtain ⟨pre, d, post, X, Y, hch, hscan, hseg, hAeq, hBeq⟩ :=
      copy_lines_scan_found inbuf.data L ((rest.map fun L => L ++ [10]).flatten ++ R) 0 hby
        (hL L (by simp))
    simp only [Nat.zero_add] at hscan
    have hci' := hci
    rw [hch, chain_ok_append] at hci'
    obtain ⟨c1, l1, p1, hrun1, hc1, ht1, _, hby1, hp1⟩ :=
      buf_append_char_ok B hB outbuf p command hco ht hp
    obtain ⟨c2, l2, p2, hrun2, hc2, ht2, _, hby2, hp2⟩ :=
      buf_append_char_ok B hB { outbuf with data := c1, last := l1 } p1 32 hc1 ht1 hp1
    obtain ⟨l3, hrun3, ht3⟩ :=
      copy_lines_before_ok { outbuf with data := c2, last := l2 } inbuf pre post d hch ht2
    obtain ⟨c4, l4, ich, ilst, p4, hrun4, hc4, ht4, hby4, hic4, hiby4, hp4⟩ :=
      copy_lines_end_ok B hB { outbuf with data := c2 ++ pre, last := l3 }
        { inbuf with data := d :: post } p2 d post X Y rfl hseg hci'.2
        (by rw [chain_ok_append]; exact ⟨hc2, hci'.1⟩) ht3 hp2
    obtain ⟨och, olst, ich', ilst', p', hrun5, hoby, hiby, hoc, hot, hic, hp'⟩ :=
      ih n { outbuf with data := c4, last := l4 } { inbuf with data := ich, last := ilst } p4
        (by simp at hf; omega) (fun x hx => hL x (by simp [hx]))
        (by rw [hiby4]; exact hBeq.symm) hic4 hc4 ht4 hp4
    refine ⟨och, olst, ich', ilst', p', ?_, ?_, hiby, hoc, hot, hic, hp'⟩
    · simp only [buf_copy_lines_loop, hscan, hrun1, result.bind_ok, hrun2, hrun3, hrun4]
      exact hrun5
    · rw [hoby, hby4, chain_bytes_append, hby2, hby1, hAeq]
      have h32 : char_of_int 32 = 32 := by decide
      simp [h32]

/-- C5: for every command byte `c`, every `dest` content `D` and every `src` content
`L1 \n ... Lk \n R` (`k >= 0`, no `Li` and no `R` holding a newline, any segmentation of
both buffers, the pool never being exhausted), `buf_copy_lines (dest, src, c)` returns
and leaves `dest` with content `D` followed by `c`, a space, `Li` and a newline for
each line in order, and `src` with content `R`. -/
theorem buf_copy_lines_moves_lines {σ τ : Type} (BUFFER_DATA_SIZE : Nat)
    (hB : 0 < BUFFER_DATA_SIZE) (c : Byte) (lines : List (List Byte)) (R : List Byte)
    (dest : buffer σ) (src : buffer τ) (p : pool)
    (hL : ∀ L ∈ lines, (10 : Byte) ∉ L) (hR : (10 : Byte) ∉ R)
    (hsrc : chain_bytes src.data = (lines.map fun L => L ++ [10]).flatten ++ R)
    (hcs : chain_ok BUFFER_DATA_SIZE src.data) (hcd : buf_ok BUFFER_DATA_SIZE dest)
    (hp : never_exhausted p) :
    ∃ dest' src' p', buf_copy_lines BUFFER_DATA_SIZE dest src p (c.val : Int)
        = result.ok (dest', src', p')
      ∧ chain_bytes dest'.data
          = chain_bytes dest.data ++ (lines.map fun L => [c, 32] ++ L ++ [10]).flatten
      ∧ chain_bytes src'.data = R := by
  obtain ⟨och, olst, ich, ilst, p', hrun, hoby, hiby, _⟩ :=
    buf_copy_lines_loop_ok BUFFER_DATA_SIZE hB (c.val : Int) R hR lines
      ((chain_bytes src.data).length + 1) dest src p
      (by have := lines_stream_length lines
          rw [hsrc, List.length_append]; omega)
      hL hsrc hcs hcd.1 hcd.2 hp
  rw [char_of_int_val] at hoby
  exact ⟨_, _, p', hrun, hoby, hiby⟩

theorem buf_copy_lines_moves_lines_witness :
    (0 < 8 ∧ (∀ L ∈ ([[88, 49]] : List (List Byte)), (10 : Byte) ∉ L)
      ∧ (10 : Byte) ∉ ([88, 50] : List Byte)
      ∧ chain_ok 8 [⟨3, [88, 49, 10, 88, 50, 0, 0, 0], 0, 5⟩]
      ∧ buf_ok 8 buf_nonio_initialize ∧ never_exhausted ⟨[], 0, none⟩)
    ∧ ∃ dest' src' p', buf_copy_lines 8 buf_nonio_initialize
          (chain_buffer [⟨3, [88, 49, 10, 88, 50, 0, 0, 0], 0, 5⟩] (some 3) none ())
          ⟨[], 0, none⟩ 77 = result.ok (dest', src', p')
        ∧ chain_bytes dest'.data = [77, 32, 88, 49, 10]
        ∧ chain_bytes src'.data = [88, 50] :=
  ⟨⟨by decide, by decide, by decide, by decide, by decide, rfl⟩,
   buf_copy_lines_moves_lines 8 (by decide) 77 [[88, 49]] [88, 50] buf_nonio_initialize
     (chain_buffer [⟨3, [88, 49, 10, 88, 50, 0, 0, 0], 0, 5⟩] (some 3) none ())
     ⟨[], 0, none⟩ (by decide) (by decide) rfl (by decide) (by decide) rfl⟩

theorem int_bytes_length (big_endian : Bool) (n : Int) : (int_bytes big_endian n).length = 4 := by
  cases big_endian <;> simp [int_bytes]

/-- Decoding the object representation of an `int` gives the `int` back. -/
theorem int_of_bytes_int_bytes (big_endian : Bool) (n : Int) (h1 : -2147483648 ≤ n)
    (h2 : n < 2147483648) : int_of_bytes big_endian (int_bytes big_endian n) = n := by
  have key : ∀ u : Nat, u = (n % 4294967296).toNat →
      (if u % 256 + 256 * (u / 256 % 256 + 256 * (u / 65536 % 256
            + 256 * (u / 16777216 % 256 + 256 * 0))) < 2147483648
        then ((u % 256 + 256 * (u / 256 % 256 + 256 * (u / 65536 % 256
            + 256 * (u / 16777216 % 256 + 256 * 0))) : Nat) : Int)
        else ((u % 256 + 256 * (u / 256 % 256 + 256 * (u / 65536 % 256
            + 256 * (u / 16777216 % 256 + 256 * 0))) : Nat) : Int) - 4294967296) = n := by
    intro u hu
    have e : u % 256 + 256 * (u / 256 % 256 + 256 * (u / 65536 % 256
        + 256 * (u / 16777216 % 256 + 256 * 0))) = u := by omega
    rw [e]
    split <;> omega
  cases big_endian
  · simp only [int_of_bytes, int_bytes, Bool.false_eq_true, if_false, le_value]
    exact key _ rfl
  · simp only [int_of_bytes, int_bytes, if_true, List.reverse_reverse, le_value]
    exact key _ rfl

theorem peek_eq_take {B : Nat} {d : buffer_data} (h : seg_ok B d) (n : Int)
    (hn : n ≤ d.size) : peek d n = (seg_bytes d).take n.toNat := by
  obtain ⟨h1, h2, h3, h4⟩ := h
  simp only [peek, seg_bytes, List.take_take]
  congr 1
  omega

/-- The scan for the count on a chain that holds fewer bytes than needed. -/
theorem copy_counted_count_short (B : Nat) :
    ∀ (chain : List buffer_data) (need : Int) (intbuf : List Byte) (i : Nat),
      chain_ok B chain → ((chain_bytes chain).length : Int) < need →
      copy_counted_count chain need intbuf i
        = (none, need - (chain_bytes chain).length, intbuf ++ chain_bytes chain) := by
  intro chain
  induction chain with
  | nil => intro need intbuf i _ _; simp [copy_counted_count, chain_bytes]
  | cons d rest ih =>
    intro need intbuf i hc hlt
    obtain ⟨hd, hr⟩ := chain_ok_cons.mp hc
    have hsz := seg_bytes_length hd
    simp only [chain_bytes, List.length_append, Nat.cast_add] at hlt ⊢
    have hlt' : ¬ d.size ≥ need := by omega
    simp only [copy_counted_count, hlt', if_false]
    rw [ih (need - d.size) _ (i + 1) hr (by omega), ← seg_bytes_eq_peek]
    simp only [List.append_assoc, Prod.mk.injEq, true_and, and_true]
    omega

/-- The scan for the count on a chain that holds at least the bytes needed: it stops on
the node that holds the last of them. -/
theorem copy_counted_count_found (B : Nat) :
    ∀ (chain : List buffer_data) (need : Int) (intbuf : List Byte) (i : Nat),
      chain_ok B chain → 0 < need → need ≤ ((chain_bytes chain).length : Int) →
      ∃ pre d post, chain = pre ++ d :: post
        ∧ copy_counted_count chain need intbuf i
          = (some (i + pre.length), need - (chain_bytes pre).length,
             intbuf ++ (chain_bytes chain).take need.toNat)
        ∧ ((chain_bytes pre).length : Int) < need
        ∧ need - (chain_bytes pre).length ≤ d.size := by
  intro chain
  induction chain with
  | nil => intro need intbuf i _ h0 h; simp [chain_bytes] at h; omega
  | cons d rest ih =>
    intro need intbuf i hc h0 hle
    obtain ⟨hd, hr⟩ := chain_ok_cons.mp hc
    have hsz := seg_bytes_length hd
    simp only [chain_bytes, List.length_append, Nat.cast_add] at hle
    by_cases hge : d.size ≥ need
    · refine ⟨[], d, rest, rfl, ?_, by simpa [chain_bytes] using h0, by simpa [chain_bytes] using hge⟩
      simp only [copy_counted_count, hge, if_true, List.length_nil, Nat.add_zero, chain_bytes,
        Nat.cast_zero, sub_zero]
      rw [peek_eq_take hd need hge, List.take_append_of_le_length (by omega)]
    · obtain ⟨pre, d', post, hch, hrun, hlt, hle'⟩ :=
        ih (need - d.size) (intbuf ++ peek d d.size) (i + 1) hr (by omega) (by omega)
      refine ⟨d :: pre, d', post, by rw [hch]; rfl, ?_, ?_, ?_⟩
      · simp only [copy_counted_count, hge, if_false, hrun, List.length_cons, chain_bytes,
          List.length_append, Nat.cast_add]
        have e1 : i + 1 + pre.length = i + (pre.length + 1) := by omega
        have e2 : need - d.size - ((chain_bytes pre).length : Int)
            = need - (((seg_bytes d).length : Int) + (chain_bytes pre).length) := by omega
        have e3 : (need - d.size).toNat = need.toNat - (seg_bytes d).length := by omega
        rw [e1, e2, ← seg_bytes_eq_peek, List.take_append_eq_append_take,
          List.take_of_length_le (by omega : (seg_bytes d).length ≤ need.toNat), e3,
          List.append_assoc]
      · simp only [chain_bytes, List.length_append, Nat.cast_add]; omega
      · simp only [chain_bytes, List.length_append, Nat.cast_add]; omega

theorem copy_counted_stop_short (B : Nat) :
    ∀ (chain : List buffer_data) (need : Int) (j : Nat),
      chain_ok B chain → ((chain_bytes chain).length : Int) < need →
      copy_counted_stop chain need j = (none, need - (chain_bytes chain).length) := by
  intro chain
  induction chain with
  | nil => intro need j _ _; simp [copy_counted_stop, chain_bytes]
  | cons d rest ih =>
    intro need j hc hlt
    obtain ⟨hd, hr⟩ := chain_ok_cons.mp hc
    have hsz := seg_bytes_length hd
    simp only [chain_bytes, List.length_append, Nat.cast_add] at hlt ⊢
    have hlt' : ¬ need ≤ d.size := by omega
    simp only [copy_counted_stop, hlt', if_false]
    rw [ih (need - d.size) (j + 1) hr (by omega)]
    simp only [Prod.mk.injEq, true_and]
    omega

theorem copy_counted_stop_found (B : Nat) :
    ∀ (chain : List buffer_data) (need : Int) (j : Nat),
      chain_ok B chain → 0 < need → need ≤ ((chain_bytes chain).length : Int) →
      ∃ mid st post, chain = mid ++ st :: post
        ∧ copy_counted_stop chain need j
          = (some (j + mid.length), need - (chain_bytes mid).length)
        ∧ ((chain_bytes mid).length : Int) < need
        ∧ need - (chain_bytes mid).length ≤ st.size := by
  intro chain
  induction chain with
  | nil => intro need j _ h0 h; simp [chain_bytes] at h; omega
  | cons d rest ih =>
    intro need j hc h0 hle
    obtain ⟨hd, hr⟩ := chain_ok_cons.mp hc
    have hsz := seg_bytes_length hd
    simp only [chain_bytes, List.length_append, Nat.cast_add] at hle
    by_cases hge : need ≤ d.size
    · refine ⟨[], d, rest, rfl, ?_, by simpa [chain_bytes] using h0, by simpa [chain_bytes] using hge⟩
      simp [copy_counted_stop, hge, chain_bytes]
    · obtain ⟨mid, st, post, hch, hrun, hlt, hle'⟩ :=
        ih (need - d.size) (j + 1) hr (by omega) (by omega)
      refine ⟨d :: mid, st, post, by rw [hch]; rfl, ?_, ?_, ?_⟩
      · simp only [copy_counted_stop, hge, if_false, hrun, List.length_cons, chain_bytes,
          List.length_append, Nat.cast_add]
        have e1 : j + 1 + mid.length = j + (mid.length + 1) := by omega
        have e2 : need - d.size - ((chain_bytes mid).length : Int)
            = need - (((seg_bytes d).length : Int) + (chain_bytes mid).length) := by omega
        rw [e1, e2]
      · simp only [chain_bytes, List.length_append, Nat.cast_add]; omega
      · simp only [chain_bytes, List.length_append, Nat.cast_add]; omega

theorem chain_ok_take {B : Nat} {l : List buffer_data} (h : chain_ok B l) (k : Nat) :
    chain_ok B (l.take k) :=
  fun d hd => h d (List.mem_of_mem_take hd)

theorem chain_ok_drop {B : Nat} {l : List buffer_data} (h : chain_ok B l) (k : Nat) :
    chain_ok B (l.drop k) :=
  fun d hd => h d (List.mem_of_mem_drop hd)

theorem getLast?_slice {α : Type} (l : List α) (start stop : Nat) (h1 : start < stop)
    (h2 : stop ≤ l.length) : ((l.take stop).drop start).getLast? = l[stop - 1]? := by
  rw [List.getLast?_drop, List.getLast?_take]
  have hlen : (l.take stop).length = stop := by simp; omega
  have hne : ¬ stop = 0 := by omega
  have hlt : ¬ (l.take stop).length ≤ start := by omega
  simp only [hlt, hne, if_false]
  have : stop - 1 < l.length := by omega
  rw [List.getElem?_eq_getElem this]
  rfl

theorem copy_counted_splice_ok {σ τ : Type} (outbuf : buffer σ) (inbuf : buffer τ)
    (chain : List buffer_data) (start stop : Nat) (h1 : start ≤ stop) (h2 : stop ≤ chain.length)
    (hin : inbuf.data = chain.drop start) (ht : tail_ok outbuf.data outbuf.last) :
    ∃ olst, copy_counted_splice outbuf inbuf chain start stop
        = result.ok ({ outbuf with data := outbuf.data ++ (chain.take stop).drop start,
                                   last := olst },
                     { inbuf with data := chain.drop stop })
      ∧ tail_ok (outbuf.data ++ (chain.take stop).drop start) olst := by
  obtain ⟨idata, ilast, inb, iinp, iout, ifl, ibl, ish, icl, icalls⟩ := inbuf
  simp only at hin
  subst hin
  by_cases heq : start = stop
  · subst heq
    have hnil : (chain.take start).drop start = [] := by
      apply List.drop_eq_nil_of_le; simp
    refine ⟨outbuf.last, ?_, by rw [hnil, List.append_nil]; exact ht⟩
    simp [copy_counted_splice, hnil]
  · have hlt : start < stop := by omega
    have hne : (chain.take stop).drop start ≠ [] := by
      intro h
      have := congrArg List.length h
      simp at this
      omega
    refine ⟨(chain[stop - 1]?).map fun d => d.addr, ?_, ?_⟩
    · simp only [copy_counted_splice, heq, ne_eq, not_false_eq_true, if_true, hlt]
      rw [buf_append_data_ok outbuf _ _ ht hne]
      rfl
    · unfold tail_ok
      rw [List.getLast?_append_of_ne_nil _ hne, getLast?_slice chain start stop hlt h2]
      cases chain[stop - 1]? <;> simp

theorem copy_counted_copy_ok {σ τ : Type} (B : Nat) (hB : 0 < B) (outbuf : buffer σ)
    (inbuf : buffer τ) (p : pool) (chain : List buffer_data) (stop : Nat) (w : Int)
    (h0 : 0 ≤ w) (hw : 0 < w → ∃ st, chain[stop]? = some st ∧ w ≤ st.size)
    (hin : inbuf.data = chain.drop stop) (hc : chain_ok B chain)
    (hco : chain_ok B outbuf.data) (ht : tail_ok outbuf.data outbuf.last)
    (hp : never_exhausted p) :
    ∃ och olst ich p', copy_counted_copy B outbuf inbuf p chain stop w
        = result.ok ({ outbuf with data := och, last := olst }, { inbuf with data := ich }, p')
      ∧ chain_bytes och = chain_bytes outbuf.data ++ (chain_bytes (chain.drop stop)).take w.toNat
      ∧ chain_bytes ich = (chain_bytes (chain.drop stop)).drop w.toNat
      ∧ chain_ok B och ∧ tail_ok och olst ∧ chain_ok B ich ∧ never_exhausted p' := by
  obtain ⟨idata, ilast, inb, iinp, iout, ifl, ibl, ish, icl, icalls⟩ := inbuf
  simp only at hin
  subst hin
  by_cases hpos : 0 < w
  · obtain ⟨st, hst, hle⟩ := hw hpos
    obtain ⟨hlt, hget⟩ := List.getElem?_eq_some.mp hst
    have hdrop : chain.drop stop = st :: chain.drop (stop + 1) := by
      rw [List.drop_eq_getElem_cons hlt, hget]
    have hsd : seg_ok B st := hc st (by rw [← hget]; exact List.getElem_mem _)
    obtain ⟨a1, a2, a3⟩ := seg_advance hsd w h0 hle
    have hsz := seg_bytes_length hsd
    obtain ⟨och, olst, p', hrun, hoch, hotl, _, hoby, hp'⟩ :=
      buf_output_ok B hB outbuf p (peek st w) hco ht hp
    refine ⟨och, olst, { st with bufp := st.bufp + w, size := st.size - w }
        :: chain.drop (stop + 1), p', ?_, ?_, ?_, hoch, hotl, ?_, hp'⟩
    · simp only [copy_counted_copy, gt_iff_lt, hpos, if_true, hst, hrun, result.bind_ok]
    · rw [hoby, hdrop, a2]
      simp only [chain_bytes]
      rw [List.take_append_of_le_length (by omega)]
    · rw [hdrop]
      simp only [chain_bytes]
      rw [a3, List.drop_append_of_le_length (by omega)]
    · rw [chain_ok_cons]; exact ⟨a1, chain_ok_drop hc _⟩
  · have hw0 : w = 0 := by omega
    subst hw0
    refine ⟨outbuf.data, outbuf.last, chain.drop stop, p, ?_, by simp, by simp, hco, ht,
      chain_ok_drop hc _, hp⟩
    simp [copy_counted_copy]

theorem chain_bytes_take_drop (l : List buffer_data) (k : Nat) :
    chain_bytes (l.take k) ++ chain_bytes (l.drop k) = chain_bytes l := by
  rw [← chain_bytes_append, List.take_append_drop]

theorem chain_bytes_slice (l : List buffer_data) (a b : Nat) (h : a ≤ b) :
    chain_bytes (l.take a) ++ chain_bytes ((l.take b).drop a) = chain_bytes (l.take b) := by
  have : l.take a = (l.take b).take a := by
    rw [List.take_take, Nat.min_eq_left h]
  rw [this, chain_bytes_take_drop]

/-- Splitting the equal concatenations `S ++ T = P ++ Q` when `S` is no longer than `P`. -/
theorem append_split {α : Type} (S T P Q : List α) (h : S ++ T = P ++ Q) (w : Nat)
    (hl : S.length + w = P.length) : S ++ T.take w = P ∧ T.drop w = Q := by
  have hS : S = P.take S.length := by
    have := congrArg (List.take S.length) h
    rw [List.take_left', List.take_append_of_le_length (by omega)] at this
    · exact this
    · rfl
  have hT : T = P.drop S.length ++ Q := by
    have := congrArg (List.drop S.length) h
    rw [List.drop_left', List.drop_append_of_le_length (by omega)] at this
    · exact this
    · rfl
  have hlen : (P.drop S.length).length = w := by simp; omega
  constructor
  · rw [hT, List.take_left' hlen]
    nth_rewrite 1 [hS]
    exact List.take_append_drop _ _
  · rw [hT, List.drop_left' hlen]

/-- The end of an iteration of `buf_copy_counted` when the indices and `stopwant`
delimit the payload `P`: `P` is moved to `outbuf` and `inbuf` keeps what follows. -/
theorem copy_counted_move_content {σ τ : Type} (B : Nat) (hB : 0 < B) (outbuf : buffer σ)
    (inbuf : buffer τ) (p : pool) (chain : List buffer_data) (start stop : Nat) (w : Int)
    (Hp P Q : List Byte) (h1 : start ≤ stop) (h2 : stop ≤ chain.length) (h0 : 0 ≤ w)
    (hw : 0 < w → ∃ st, chain[stop]? = some st ∧ w ≤ st.size)
    (hin : inbuf.data = chain.drop start) (hc : chain_ok B chain)
    (hco : chain_ok B outbuf.data) (ht : tail_ok outbuf.data outbuf.last)
    (hp : never_exhausted p) (hby : chain_bytes chain = Hp ++ P ++ Q)
    (hs : chain_bytes (chain.take start) = Hp)
    (hl : ((chain_bytes (chain.take stop)).length : Int) + w = Hp.length + P.length) :
    ∃ och olst ich p', copy_counted_move B outbuf inbuf p chain start stop w
        = result.ok ({ outbuf with data := och, last := olst }, { inbuf with data := ich }, p')
      ∧ chain_bytes och = chain_bytes outbuf.data ++ P ∧ chain_bytes ich = Q
      ∧ chain_ok B och ∧ tail_ok och olst ∧ chain_ok B ich ∧ never_exhausted p' := by
  obtain ⟨olst1, hsplice, ht1⟩ := copy_counted_splice_ok outbuf inbuf chain start stop h1 h2 hin ht
  obtain ⟨och, olst, ich, p', hpart, hoby, hiby, hoc, hot, hic, hp'⟩ :=
    copy_counted_copy_ok B hB
      { outbuf with data := outbuf.data ++ (chain.take stop).drop start, last := olst1 }
      { inbuf with data := chain.drop stop } p chain stop w h0 hw rfl hc
      (by rw [chain_ok_append]; exact ⟨hco, chain_ok_drop (chain_ok_take hc _) _⟩) ht1 hp
  have hU := chain_bytes_slice chain start stop h1
  rw [hs] at hU
  have hall := chain_bytes_take_drop chain stop
  rw [← hU, hby, List.append_assoc, List.append_assoc] at hall
  have hST := List.append_cancel_left hall
  have hlen : (chain_bytes ((chain.take stop).drop start)).length + w.toNat = P.length := by
    have := congrArg List.length hU
    simp only [List.length_append] at this
    omega
  obtain ⟨e1, e2⟩ := append_split _ _ _ _ hST w.toNat hlen
  refine ⟨och, olst, ich, p', ?_, ?_, ?_, hoc, hot, hic, hp'⟩
  · simp only [copy_counted_move, hsplice, result.bind_ok]
    exact hpart
  · rw [hoby]
    simp only [chain_bytes_append]
    rw [List.append_assoc, e1]
  · rw [hiby, e2]

/-- The scan for the count on a chain whose content starts with the representation of
the `int` `n`: the node `d` on which it stops, the offset `so` of the end of the count
in `d`, and what follows the count. -/
theorem copy_counted_header (B : Nat) (big_endian : Bool) (chain : List buffer_data) (n : Int)
    (T : List Byte) (hc : chain_ok B chain)
    (hby : chain_bytes chain = int_bytes big_endian n ++ T) :
    ∃ pre d post so, chain = pre ++ d :: post
      ∧ copy_counted_count chain sizeof_int [] 0 = (some pre.length, so, int_bytes big_endian n)
      ∧ so = 4 - ((chain_bytes pre).length : Int) ∧ 0 < so ∧ so ≤ d.size
      ∧ seg_bytes { d with bufp := d.bufp + so, size := d.size - so } ++ chain_bytes post = T := by
  have h4 := int_bytes_length big_endian n
  have hneed : ((sizeof_int : Nat) : Int) = 4 := rfl
  obtain ⟨pre, d, post, hch, hrun, hlt, hle⟩ :=
    copy_counted_count_found B chain sizeof_int [] 0 hc (by rw [hneed]; omega)
      (by rw [hby, List.length_append, h4, hneed]; push_cast; omega)
  rw [hneed] at hrun hlt hle
  have hsd : seg_ok B d := hc d (by rw [hch]; simp)
  have hsz := seg_bytes_length hsd
  obtain ⟨a1, a2, a3⟩ :=
    seg_advance hsd (4 - ((chain_bytes pre).length : Int)) (by omega) hle
  refine ⟨pre, d, post, 4 - ((chain_bytes pre).length : Int), hch, ?_, rfl, by omega, hle, ?_⟩
  · rw [hneed, hrun, hby]
    simp only [Nat.zero_add, List.nil_append, Prod.mk.injEq, true_and]
    rw [show (4 : Int).toNat = (int_bytes big_endian n).length by rw [h4]; rfl]
    exact List.take_left' rfl
  · rw [a3]
    have hall : chain_bytes pre ++ seg_bytes d ++ chain_bytes post
        = int_bytes big_endian n ++ T := by
      rw [← hby, hch, chain_bytes_append]; simp [chain_bytes]
    have hsplit : seg_bytes d = (seg_bytes d).take (4 - ((chain_bytes pre).length : Int)).toNat
        ++ (seg_bytes d).drop (4 - ((chain_bytes pre).length : Int)).toNat :=
      (List.take_append_drop _ _).symm
    rw [hsplit] at hall
    have hlen : (chain_bytes pre
        ++ (seg_bytes d).take (4 - ((chain_bytes pre).length : Int)).toNat).length
        = (int_bytes big_endian n).length := by
      rw [h4, List.length_append, List.length_take]
      omega
    have hall' : (chain_bytes pre
        ++ (seg_bytes d).take (4 - ((chain_bytes pre).length : Int)).toNat)
        ++ ((seg_bytes d).drop (4 - ((chain_bytes pre).length : Int)).toNat ++ chain_bytes post)
        = int_bytes big_endian n ++ T := by
      rw [← hall]; simp only [List.append_assoc]
    exact (List.append_inj hall' hlen).2

theorem copy_counted_strip_eval (pre post : List buffer_data) (d st : buffer_data) (so : Int)
    (stop : Nat) (w : Int)
    (hst : (pre ++ { d with bufp := d.bufp + so, size := d.size - so } :: post)[stop]? = some st) :
    copy_counted_strip (pre ++ d :: post) pre.length so stop w
      = result.ok (pre ++ { d with bufp := d.bufp + so, size := d.size - so } :: post,
          (if d.size - so = 0 then pre.length + 1 else pre.length),
          (if st.size = w then stop + 1 else stop), (if st.size = w then 0 else w)) := by
  unfold copy_counted_strip
  rw [getElem?_mid]
  have hset : (pre ++ d :: post).set pre.length
      { d with bufp := d.bufp + so, size := d.size - so }
      = pre ++ { d with bufp := d.bufp + so, size := d.size - so } :: post := by simp
  simp only [hset, hst]
  split <;> rfl

/-- Dropping the nodes ahead of the new `start` keeps what follows the count. -/
theorem chain_bytes_drop_start (pre post : List buffer_data) (d' : buffer_data) :
    chain_bytes ((pre ++ d' :: post).drop (if d'.size = 0 then pre.length + 1 else pre.length))
      = seg_bytes d' ++ chain_bytes post
    ∧ chain_bytes ((pre ++ d' :: post).take (if d'.size = 0 then pre.length + 1 else pre.length))
      = chain_bytes pre := by
  by_cases hz : d'.size = 0
  · simp only [hz, if_true]
    have e1 : (pre ++ d' :: post).drop (pre.length + 1) = post := by simp
    rw [e1, take_succ_mid, chain_bytes_append]
    simp [chain_bytes, seg_bytes_nil_of_size_zero hz]
  · simp only [hz, if_false]
    have e1 : (pre ++ d' :: post).drop pre.length = d' :: post := List.drop_left' rfl
    have e2 : (pre ++ d' :: post).take pre.length = pre := List.take_left' rfl
    rw [e1, e2]
    simp [chain_bytes]

/-- An iteration of `buf_copy_counted` when `inbuf` holds fewer bytes than a count: the
call returns the number of missing bytes and changes nothing. -/
theorem buf_copy_counted_step_short_header {σ τ : Type} (B : Nat) (big_endian : Bool)
    (outbuf : buffer σ) (inbuf : buffer τ) (p : pool) (hc : chain_ok B inbuf.data)
    (hlt : (chain_bytes inbuf.data).length < 4) :
    buf_copy_counted_step B big_endian outbuf inbuf p
      = result.ok (Sum.inl (4 - ((chain_bytes inbuf.data).length : Int), 0), outbuf, inbuf, p) := by
  have hneed : ((sizeof_int : Nat) : Int) = 4 := rfl
  have hrun := copy_counted_count_short B inbuf.data sizeof_int [] 0 hc (by rw [hneed]; omega)
  simp only [buf_copy_counted_step, copy_counted_locate, hrun, result.bind_ok]
  rw [hneed]

/-- An iteration of `buf_copy_counted` when `inbuf` holds a count `c >= 0` and fewer
than `c` bytes after it: the call returns the number of missing bytes and changes
nothing. -/
theorem buf_copy_counted_step_short_payload {σ τ : Type} (B : Nat) (big_endian : Bool)
    (outbuf : buffer σ) (inbuf : buffer τ) (p : pool) (c : Int) (P : List Byte)
    (hc : chain_ok B inbuf.data) (h0 : 0 ≤ c) (h1 : c < 2147483648)
    (hby : chain_bytes inbuf.data = int_bytes big_endian c ++ P) (hlt : (P.length : Int) < c) :
    buf_copy_counted_step B big_endian outbuf inbuf p
      = result.ok (Sum.inl (c - (P.length : Int), 0), outbuf, inbuf, p) := by
  obtain ⟨pre, d, post, so, hch, hcount, hso, hso0, hsole, hrest⟩ :=
    copy_counted_header B big_endian inbuf.data c P hc hby
  have hsd : seg_ok B d := hc d (by rw [hch]; simp)
  obtain ⟨a1, _, _⟩ := seg_advance hsd so (by omega) hsole
  have hrem := seg_bytes_length a1
  simp only at hrem
  have hPlen : (P.length : Int) = (d.size - so) + (chain_bytes post).length := by
    rw [← hrest, List.length_append]; push_cast; rw [hrem]
  have hpost : chain_ok B post := fun x hx => hc x (by rw [hch]; simp [hx])
  have hstop := copy_counted_stop_short B post (c - (d.size - so)) (pre.length + 1) hpost
    (by omega)
  have hdec := int_of_bytes_int_bytes big_endian c (by omega) h1
  have hidx : inbuf.data[pre.length]? = some d := by rw [hch]; exact getElem?_mid _ _ _
  have hdrop : inbuf.data.drop (pre.length + 1) = post := by rw [hch]; simp
  have hnn : ¬ c < 0 := by omega
  have hnl : ¬ c - (d.size - so) ≤ 0 := by omega
  simp only [buf_copy_counted_step, copy_counted_locate, hcount, hdec, hidx, hnn, if_false, hnl,
    hdrop, hstop, result.bind_ok]
  have : c - (d.size - so) - ((chain_bytes post).length : Int) = c - (P.length : Int) := by omega
  rw [this]

/-- An iteration of `buf_copy_counted` when `inbuf` starts with a negative count `n`:
the call returns 0 with `*special = n`, having removed the count only. -/
theorem buf_copy_counted_step_special {σ τ : Type} (B : Nat) (big_endian : Bool)
    (outbuf : buffer σ) (inbuf : buffer τ) (p : pool) (n : Int) (Q : List Byte)
    (hc : chain_ok B inbuf.data) (h0 : n < 0) (h1 : -2147483648 ≤ n)
    (hby : chain_bytes inbuf.data = int_bytes big_endian n ++ Q) :
    ∃ ich p', buf_copy_counted_step B big_endian outbuf inbuf p
        = result.ok (Sum.inl (0, n), outbuf, { inbuf with data := ich }, p')
      ∧ chain_bytes ich = Q ∧ chain_ok B ich ∧ (never_exhausted p → never_exhausted p') := by
  obtain ⟨pre, d, post, so, hch, hcount, hso, hso0, hsole, hrest⟩ :=
    copy_counted_header B big_endian inbuf.data n Q hc hby
  have hsd : seg_ok B d := hc d (by rw [hch]; simp)
  obtain ⟨a1, _, _⟩ := seg_advance hsd so (by omega) hsole
  have hdec := int_of_bytes_int_bytes big_endian n h1 (by omega)
  have hidx : inbuf.data[pre.length]? = some d := by rw [hch]; exact getElem?_mid _ _ _
  have hstrip := copy_counted_strip_eval pre post d _ so pre.length 0 (getElem?_mid _ _ _)
  have hc1 : chain_ok B (pre ++ { d with bufp := d.bufp + so, size := d.size - so } :: post) := by
    rw [hch, chain_ok_append, chain_ok_cons] at hc
    rw [chain_ok_append, chain_ok_cons]
    exact ⟨hc.1, a1, hc.2.2⟩
  refine ⟨(pre ++ { d with bufp := d.bufp + so, size := d.size - so } :: post).drop
      (if d.size - so = 0 then pre.length + 1 else pre.length),
    { p with free_buffer_data :=
        ((pre ++ { d with bufp := d.bufp + so, size := d.size - so } :: post).take
          (if d.size - so = 0 then pre.length + 1 else pre.length)).reverse
        ++ p.free_buffer_data }, ?_, ?_, chain_ok_drop hc1 _, fun h => h⟩
  · simp only [buf_copy_counted_step, copy_counted_locate, hcount, hdec, hidx, h0, if_true,
      result.bind_ok]
    rw [hch, hstrip]
    simp only [result.bind_ok, h0, if_true]
  · have := (chain_bytes_drop_start pre post
      { d with bufp := d.bufp + so, size := d.size - so }).1
    simp only at this
    rw [this, hrest]

/-- An iteration of `buf_copy_counted` put together from what its parts compute, when
the count is not negative and the indices and `stopwant` delimit the payload `P`. -/
theorem buf_copy_counted_step_move {σ τ : Type} (B : Nat) (hB : 0 < B) (big_endian : Bool)
    (outbuf : buffer σ) (inbuf : buffer τ) (p : pool) (chain1 : List buffer_data)
    (start stop start1 stop1 : Nat) (so c sw w : Int) (Hp P Q : List Byte)
    (hloc : copy_counted_locate big_endian inbuf.data
      = result.ok (Sum.inr (start, so, c, stop, sw)))
    (hstrip : copy_counted_strip inbuf.data start so stop sw
      = result.ok (chain1, start1, stop1, w))
    (hc0 : ¬ c < 0) (h1 : start1 ≤ stop1) (h2 : stop1 ≤ chain1.length) (h0 : 0 ≤ w)
    (hw : 0 < w → ∃ st, chain1[stop1]? = some st ∧ w ≤ st.size) (hc : chain_ok B chain1)
    (hco : chain_ok B outbuf.data) (ht : tail_ok outbuf.data outbuf.last)
    (hp : never_exhausted p) (hby : chain_bytes chain1 = Hp ++ P ++ Q)
    (hs : chain_bytes (chain1.take start1) = Hp)
    (hl : ((chain_bytes (chain1.take stop1)).length : Int) + w = Hp.length + P.length) :
    ∃ och olst ich p', buf_copy_counted_step B big_endian outbuf inbuf p
        = result.ok (Sum.inr (), { outbuf with data := och, last := olst },
            { inbuf with data := ich }, p')
      ∧ chain_bytes och = chain_bytes outbuf.data ++ P ∧ chain_bytes ich = Q
      ∧ chain_ok B och ∧ tail_ok och olst ∧ chain_ok B ich ∧ never_exhausted p' := by
  obtain ⟨och, olst, ich, p', hmove, hoby, hiby, hoc, hot, hic, hp'⟩ :=
    copy_counted_move_content B hB outbuf { inbuf with data := chain1.drop start1 }
      { p with free_buffer_data := (chain1.take start1).reverse ++ p.free_buffer_data }
      chain1 start1 stop1 w Hp P Q h1 h2 h0 hw rfl hc hco ht hp hby hs hl
  refine ⟨och, olst, ich, p', ?_, hoby, hiby, hoc, hot, hic, hp'⟩
  simp only [buf_copy_counted_step, hloc, result.bind_ok, hstrip, hc0, if_false, hmove]

/-- An iteration of `buf_copy_counted` when `inbuf` starts with a count `c >= 0`
followed by at least `c` bytes: the `c` bytes `P` are moved to `outbuf`, `inbuf` keeps
what follows them, and the loop goes on. -/
theorem buf_copy_counted_step_record {σ τ : Type} (B : Nat) (hB : 0 < B) (big_endian : Bool)
    (outbuf : buffer σ) (inbuf : buffer τ) (p : pool) (c : Int) (P Q : List Byte)
    (h0 : 0 ≤ c) (h1 : c < 2147483648) (hP : (P.length : Int) = c)
    (hby : chain_bytes inbuf.data = int_bytes big_endian c ++ P ++ Q)
    (hc : chain_ok B inbuf.data) (hco : chain_ok B outbuf.data)
    (ht : tail_ok outbuf.data outbuf.last) (hp : never_exhausted p) :
    ∃ och olst ich p', buf_copy_counted_step B big_endian outbuf inbuf p
        = result.ok (Sum.inr (), { outbuf with data := och, last := olst },
            { inbuf with data := ich }, p')
      ∧ chain_bytes och = chain_bytes outbuf.data ++ P ∧ chain_bytes ich = Q
      ∧ chain_ok B och ∧ tail_ok och olst ∧ chain_ok B ich ∧ never_exhausted p' := by
  obtain ⟨pre, d, post, so, hch, hcount, hso, hso0, hsole, hrest⟩ :=
    copy_counted_header B big_endian inbuf.data c (P ++ Q) hc (by rw [hby, List.append_assoc])
  have hsd : seg_ok B d := hc d (by rw [hch]; simp)
  obtain ⟨a1, _, _⟩ := seg_advance hsd so (by omega) hsole
  have hrem := seg_bytes_length a1
  simp only at hrem
  have hdec := int_of_bytes_int_bytes big_endian c (by omega) h1
  have hidx : inbuf.data[pre.length]? = some d := by rw [hch]; exact getElem?_mid _ _ _
  have hdrop : inbuf.data.drop (pre.length + 1) = post := by rw [hch]; simp
  have hnn : ¬ c < 0 := by omega
  have hcsplit := hc
  rw [hch, chain_ok_append, chain_ok_cons] at hcsplit
  have hc1 : chain_ok B (pre ++ { d with bufp := d.bufp + so, size := d.size - so } :: post) := by
    rw [chain_ok_append, chain_ok_cons]
    exact ⟨hcsplit.1, a1, hcsplit.2.2⟩
  have hby1 : chain_bytes (pre ++ { d with bufp := d.bufp + so, size := d.size - so } :: post)
      = chain_bytes pre ++ P ++ Q := by
    rw [chain_bytes_append]
    simp only [chain_bytes]
    rw [hrest, List.append_assoc]
  have hstart := (chain_bytes_drop_start pre post
    { d with bufp := d.bufp + so, size := d.size - so }).2
  simp only at hstart
  have hPQ : (P.length : Int) + Q.length = (d.size - so) + (chain_bytes post).length := by
    have := congrArg List.length hrest
    simp only [List.length_append] at this
    omega
  have hlen1 : (pre ++ { d with bufp := d.bufp + so, size := d.size - so } :: post).length
      = pre.length + 1 + post.length := by simp; omega
  by_cases hA : c - (d.size - so) ≤ 0
  · -- the payload ends in the node that holds the end of the count
    have hloc : copy_counted_locate big_endian inbuf.data
        = result.ok (Sum.inr (pre.length, so, c, pre.length, c)) := by
      simp only [copy_counted_locate, hcount, hdec, hidx, hnn, if_false, hA, if_true]
    have hstrip := copy_counted_strip_eval pre post d _ so pre.length c (getElem?_mid _ _ _)
    rw [← hch] at hstrip
    simp only at hstrip
    by_cases hfull : d.size - so = c
    · simp only [hfull, if_true] at hstrip
      refine buf_copy_counted_step_move B hB big_endian outbuf inbuf p _ _ _ _ _ so c c 0
        (chain_bytes pre) P Q hloc (by rw [hstrip, hfull]) hnn ?_ ?_ (le_refl _) ?_ hc1 hco ht hp
        hby1 (by rw [← hfull]; exact hstart) ?_
      · split <;> omega
      · rw [hlen1]; omega
      · intro h; omega
      · rw [take_succ_mid, chain_bytes_append]
        simp only [chain_bytes, List.append_nil, List.length_append, Nat.cast_add]
        omega
    · have hne : ¬ d.size - so = 0 := by omega
      simp only [hfull, if_false, hne] at hstrip
      simp only [hne, if_false] at hstart
      refine buf_copy_counted_step_move B hB big_endian outbuf inbuf p _ _ _ _ _ so c c c
        (chain_bytes pre) P Q hloc hstrip hnn (le_refl _) ?_ h0 ?_ hc1 hco ht hp hby1 hstart ?_
      · rw [hlen1]; omega
      · intro _; exact ⟨_, getElem?_mid _ _ _, by simp only; omega⟩
      · rw [hstart]; omega
  · -- the payload ends in a later node
    have hpost : chain_ok B post := hcsplit.2.2
    obtain ⟨mid, st, post2, hpch, hstop, hmlt, hmle⟩ :=
      copy_counted_stop_found B post (c - (d.size - so)) (pre.length + 1) hpost (by omega)
        (by omega)
    have hloc : copy_counted_locate big_endian inbuf.data
        = result.ok (Sum.inr (pre.length, so, c, pre.length + 1 + mid.length,
            c - (d.size - so) - ((chain_bytes mid).length : Int))) := by
      simp only [copy_counted_locate, hcount, hdec, hidx, hnn, if_false, hA, hdrop, hstop]
    have hshape : pre ++ { d with bufp := d.bufp + so, size := d.size - so } :: post
        = (pre ++ { d with bufp := d.bufp + so, size := d.size - so } :: mid) ++ st :: post2 := by
      rw [hpch]; simp
    have hil : pre.length + 1 + mid.length
        = (pre ++ { d with bufp := d.bufp + so, size := d.size - so } :: mid).length := by
      simp; omega
    have hst : (pre ++ { d with bufp := d.bufp + so, size := d.size - so } :: post)[
        pre.length + 1 + mid.length]? = some st := by
      rw [hshape, hil]; exact getElem?_mid _ _ _
    have hstrip := copy_counted_strip_eval pre post d st so (pre.length + 1 + mid.length)
      (c - (d.size - so) - ((chain_bytes mid).length : Int)) hst
    rw [← hch] at hstrip
    have hupto : chain_bytes ((pre ++ { d with bufp := d.bufp + so, size := d.size - so }
        :: post).take (pre.length + 1 + mid.length))
        = chain_bytes pre ++ seg_bytes { d with bufp := d.bufp + so, size := d.size - so }
          ++ chain_bytes mid := by
      rw [hshape, hil, List.take_left' rfl, chain_bytes_append]
      simp [chain_bytes]
    have hupto1 : chain_bytes ((pre ++ { d with bufp := d.bufp + so, size := d.size - so }
        :: post).take (pre.length + 1 + mid.length + 1))
        = chain_bytes pre ++ seg_bytes { d with bufp := d.bufp + so, size := d.size - so }
          ++ chain_bytes mid ++ seg_bytes st := by
      rw [hshape, hil, take_succ_mid, chain_bytes_append, chain_bytes_append]
      simp [chain_bytes]
    have hsst : seg_ok B st := hpost st (by rw [hpch]; simp)
    have hstsz := seg_bytes_length hsst
    have hplen : post.length = mid.length + 1 + post2.length := by rw [hpch]; simp; omega
    by_cases hfull : st.size = c - (d.size - so) - ((chain_bytes mid).length : Int)
    · simp only [hfull, if_true] at hstrip
      refine buf_copy_counted_step_move B hB big_endian outbuf inbuf p _ _ _ _ _ so c _ 0
        (chain_bytes pre) P Q hloc (by rw [hstrip]) hnn ?_ ?_ (le_refl _) ?_ hc1 hco ht hp hby1
        hstart ?_
      · split <;> omega
      · rw [hlen1]; omega
      · intro h; omega
      · rw [hupto1]
        simp only [List.length_append, Nat.cast_add]
        omega
    · simp only [hfull, if_false] at hstrip
      refine buf_copy_counted_step_move B hB big_endian outbuf inbuf p _ _ _ _ _ so c _ _
        (chain_bytes pre) P Q hloc hstrip hnn ?_ ?_ (by omega) ?_ hc1 hco ht hp hby1 hstart ?_
      · split <;> omega
      · rw [hlen1]; omega
      · intro _; exact ⟨st, hst, hmle⟩
      · rw [hupto]
        simp only [List.length_append, Nat.cast_add]
        omega

/-- The loop of `buf_copy_counted` when the first iteration returns. -/
theorem buf_copy_counted_loop_return {σ τ : Type} (B : Nat) (big_endian : Bool) (fuel : Nat)
    (outbuf outbuf' : buffer σ) (inbuf inbuf' : buffer τ) (p p' : pool) (v : Int × Int)
    (h : buf_copy_counted_step B big_endian outbuf inbuf p
      = result.ok (Sum.inl v, outbuf', inbuf', p')) :
    buf_copy_counted_loop B big_endian (fuel + 1) outbuf inbuf p
      = result.ok (v, outbuf', inbuf', p') := by
  simp only [buf_copy_counted_loop, h, result.bind_ok]

/-- The loop of `buf_copy_counted` when the first iteration ends without returning. -/
theorem buf_copy_counted_loop_continue {σ τ : Type} (B : Nat) (big_endian : Bool) (fuel : Nat)
    (outbuf outbuf' : buffer σ) (inbuf inbuf' : buffer τ) (p p' : pool)
    (h : buf_copy_counted_step B big_endian outbuf inbuf p
      = result.ok (Sum.inr (), outbuf', inbuf', p')) :
    buf_copy_counted_loop B big_endian (fuel + 1) outbuf inbuf p
      = buf_copy_counted_loop B big_endian fuel outbuf' inbuf' p' := by
  simp only [buf_copy_counted_loop, h, result.bind_ok]

/-- What `buf_copy_counted` does when `src` holds exactly one record with count `c >= 0`:
it returns `sizeof (int)` with `*special = 0`, the payload moved to `dest`. -/
theorem buf_copy_counted_record_ok {σ τ : Type} (B : Nat) (hB : 0 < B) (big_endian : Bool)
    (c : Int) (P : List Byte) (dest : buffer σ) (src : buffer τ) (p : pool)
    (h0 : 0 ≤ c) (h1 : c < 2147483648) (hP : (P.length : Int) = c)
    (hsrc : chain_bytes src.data = int_bytes big_endian c ++ P)
    (hcs : chain_ok B src.data) (hcd : chain_ok B dest.data)
    (htd : tail_ok dest.data dest.last) (hp : never_exhausted p) :
    ∃ och olst ich p', buf_copy_counted B big_endian dest src p
        = result.ok ((4, 0), { dest with data := och, last := olst },
            { src with data := ich }, p')
      ∧ chain_bytes och = chain_bytes dest.data ++ P ∧ chain_bytes ich = []
      ∧ chain_ok B och ∧ tail_ok och olst ∧ chain_ok B ich ∧ never_exhausted p' := by
  obtain ⟨och, olst, ich, p', hstep, hoby, hiby, hoc, hot, hic, hp'⟩ :=
    buf_copy_counted_step_record B hB big_endian dest src p c P [] h0 h1 hP
      (by rw [hsrc, List.append_nil]) hcs hcd htd hp
  have hstep2 := buf_copy_counted_step_short_header B big_endian
    { dest with data := och, last := olst } { src with data := ich } p' hic
    (by simp only [hiby, List.length_nil]; omega)
  simp only [hiby, List.length_nil, Nat.cast_zero, sub_zero] at hstep2
  have hlen : (chain_bytes src.data).length + 1 = ((chain_bytes src.data).length - 1) + 1 + 1 := by
    have := int_bytes_length big_endian c
    rw [hsrc, List.length_append]; omega
  refine ⟨och, olst, ich, p', ?_, hoby, hiby, hoc, hot, hic, hp'⟩
  unfold buf_copy_counted
  rw [hlen, buf_copy_counted_loop_continue B big_endian _ _ _ _ _ _ _ hstep,
    buf_copy_counted_loop_return B big_endian _ _ _ _ _ _ _ _ hstep2]

/-- C6: for every count `c >= 0` (an `int`), every payload `P` of `c` bytes, every
`dest` content and every segmentation of `src` whose content is the `sizeof (int)`-byte
host-order encoding of `c` followed by `P`, `buf_copy_counted (dest, src, &special)`
leaves `dest` with its content followed by `P`, leaves `src` with no bytes, and sets
`special` to 0. -/
theorem buf_copy_counted_moves_payload {σ τ : Type} (BUFFER_DATA_SIZE : Nat)
    (hB : 0 < BUFFER_DATA_SIZE) (big_endian : Bool) (c : Int) (P : List Byte)
    (dest : buffer σ) (src : buffer τ) (p : pool)
    (h0 : 0 ≤ c) (h1 : c < 2147483648) (hP : (P.length : Int) = c)
    (hsrc : chain_bytes src.data = int_bytes big_endian c ++ P)
    (hcs : chain_ok BUFFER_DATA_SIZE src.data) (hcd : buf_ok BUFFER_DATA_SIZE dest)
    (hp : never_exhausted p) :
    ∃ r dest' src' p', buf_copy_counted BUFFER_DATA_SIZE big_endian dest src p
        = result.ok ((r, 0), dest', src', p')
      ∧ chain_bytes dest'.data = chain_bytes dest.data ++ P
      ∧ chain_bytes src'.data = [] := by
  obtain ⟨och, olst, ich, p', hrun, hoby, hiby, _⟩ :=
    buf_copy_counted_record_ok BUFFER_DATA_SIZE hB big_endian c P dest src p h0 h1 hP hsrc hcs
      hcd.1 hcd.2 hp
  exact ⟨4, _, _, p', hrun, hoby, hiby⟩

theorem buf_copy_counted_moves_payload_witness :
    (0 < 8 ∧ (0 : Int) ≤ 5 ∧ (5 : Int) < 2147483648
      ∧ ((([104, 101, 108, 108, 111] : List Byte).length : Int) = 5)
      ∧ chain_bytes [⟨1, [5, 0, 0, 0, 104, 101, 0, 0], 0, 6⟩, ⟨2, [9, 108, 108, 111, 0, 0, 0, 0], 1, 3⟩]
          = int_bytes false 5 ++ [104, 101, 108, 108, 111]
      ∧ chain_ok 8 [⟨1, [5, 0, 0, 0, 104, 101, 0, 0], 0, 6⟩, ⟨2, [9, 108, 108, 111, 0, 0, 0, 0], 1, 3⟩]
      ∧ buf_ok 8 (chain_buffer [⟨3, [62, 0, 0, 0, 0, 0, 0, 0], 0, 1⟩] (some 3) none ())
      ∧ never_exhausted ⟨[], 4, none⟩)
    ∧ ∃ r dest' src' p', buf_copy_counted 8 false
          (chain_buffer [⟨3, [62, 0, 0, 0, 0, 0, 0, 0], 0, 1⟩] (some 3) none ())
          (chain_buffer [⟨1, [5, 0, 0, 0, 104, 101, 0, 0], 0, 6⟩,
              ⟨2, [9, 108, 108, 111, 0, 0, 0, 0], 1, 3⟩] (some 2) none ())
          ⟨[], 4, none⟩ = result.ok ((r, 0), dest', src', p')
        ∧ chain_bytes dest'.data = [62, 104, 101, 108, 108, 111]
        ∧ chain_bytes src'.data = [] :=
  ⟨⟨by decide, by decide, by decide, by decide, by decide, by decide, by decide, rfl⟩,
   buf_copy_counted_moves_payload 8 (by decide) false 5 [104, 101, 108, 108, 111]
     (chain_buffer [⟨3, [62, 0, 0, 0, 0, 0, 0, 0], 0, 1⟩] (some 3) none ())
     (chain_buffer [⟨1, [5, 0, 0, 0, 104, 101, 0, 0], 0, 6⟩,
        ⟨2, [9, 108, 108, 111, 0, 0, 0, 0], 1, 3⟩] (some 2) none ())
     ⟨[], 4, none⟩ (by decide) (by decide) (by decide) (by decide) (by decide) (by decide) rfl⟩

theorem buf_copy_counted_short_header_ok {σ τ : Type} (B : Nat) (big_endian : Bool)
    (dest : buffer σ) (src : buffer τ) (p : pool) (hc : chain_ok B src.data)
    (hlt : (chain_bytes src.data).length < 4) :
    buf_copy_counted B big_endian dest src p
      = result.ok ((4 - ((chain_bytes src.data).length : Int), 0), dest, src, p) := by
  unfold buf_copy_counted
  exact buf_copy_counted_loop_return B big_endian _ _ _ _ _ _ _ _
    (buf_copy_counted_step_short_header B big_endian dest src p hc hlt)

theorem buf_copy_counted_short_payload_ok {σ τ : Type} (B : Nat) (big_endian : Bool)
    (dest : buffer σ) (src : buffer τ) (p : pool) (c : Int) (P : List Byte)
    (hc : chain_ok B src.data) (h0 : 0 ≤ c) (h1 : c < 2147483648)
    (hby : chain_bytes src.data = int_bytes big_endian c ++ P) (hlt : (P.length : Int) < c) :
    buf_copy_counted B big_endian dest src p
      = result.ok ((c - (P.length : Int), 0), dest, src, p) := by
  unfold buf_copy_counted
  exact buf_copy_counted_loop_return B big_endian _ _ _ _ _ _ _ _
    (buf_copy_counted_step_short_payload B big_endian dest src p c P hc h0 h1 hby hlt)

/-- C7: when the first record in `src` is incomplete, `buf_copy_counted` consumes
nothing: if `src` holds `t < sizeof (int)` bytes it returns `sizeof (int) - t`, and if
`src` holds the encoding of a count `c >= 0` followed by only `p < c` payload bytes it
returns `c - p`; in both cases `src`, `dest` (and the pool) are returned as they were
and `special` is 0. -/
theorem buf_copy_counted_incomplete {σ τ : Type} (BUFFER_DATA_SIZE : Nat) (big_endian : Bool)
    (dest : buffer σ) (src : buffer τ) (p : pool) (hc : chain_ok BUFFER_DATA_SIZE src.data) :
    ((chain_bytes src.data).length < sizeof_int →
      buf_copy_counted BUFFER_DATA_SIZE big_endian dest src p
        = result.ok (((sizeof_int : Int) - ((chain_bytes src.data).length : Int), 0),
            dest, src, p))
    ∧ (∀ (c : Int) (P : List Byte), 0 ≤ c → c < 2147483648 →
        chain_bytes src.data = int_bytes big_endian c ++ P → (P.length : Int) < c →
        buf_copy_counted BUFFER_DATA_SIZE big_endian dest src p
          = result.ok ((c - (P.length : Int), 0), dest, src, p)) :=
  ⟨fun hlt => buf_copy_counted_short_header_ok BUFFER_DATA_SIZE big_endian dest src p hc hlt,
   fun c P h0 h1 hby hlt =>
     buf_copy_counted_short_payload_ok BUFFER_DATA_SIZE big_endian dest src p c P hc h0 h1 hby
       hlt⟩

theorem buf_copy_counted_incomplete_witness :
    (chain_ok 8 [⟨1, [5, 0, 0, 0, 104, 101, 0, 0], 0, 6⟩]
      ∧ chain_ok 8 [⟨1, [5, 0, 0, 0, 104, 101, 0, 0], 0, 2⟩])
    ∧ buf_copy_counted 8 false buf_nonio_initialize
          (chain_buffer [⟨1, [5, 0, 0, 0, 104, 101, 0, 0], 0, 2⟩] (some 1) none ()) ⟨[], 4, none⟩
        = result.ok ((2, 0), buf_nonio_initialize,
            chain_buffer [⟨1, [5, 0, 0, 0, 104, 101, 0, 0], 0, 2⟩] (some 1) none (),
            ⟨[], 4, none⟩)
    ∧ buf_copy_counted 8 false buf_nonio_initialize
          (chain_buffer [⟨1, [5, 0, 0, 0, 104, 101, 0, 0], 0, 6⟩] (some 1) none ()) ⟨[], 4, none⟩
        = result.ok ((3, 0), buf_nonio_initialize,
            chain_buffer [⟨1, [5, 0, 0, 0, 104, 101, 0, 0], 0, 6⟩] (some 1) none (),
            ⟨[], 4, none⟩) :=
  ⟨⟨by decide, by decide⟩,
   (buf_copy_counted_incomplete 8 false buf_nonio_initialize
     (chain_buffer [⟨1, [5, 0, 0, 0, 104, 101, 0, 0], 0, 2⟩] (some 1) none ()) ⟨[], 4, none⟩
     (by decide)).1 (by decide),
   (buf_copy_counted_incomplete 8 false buf_nonio_initialize
     (chain_buffer [⟨1, [5, 0, 0, 0, 104, 101, 0, 0], 0, 6⟩] (some 1) none ()) ⟨[], 4, none⟩
     (by decide)).2 5 [104, 101] (by decide) (by decide) (by decide) (by decide)⟩

/-- C8: for every negative `int` `n` and every byte sequence `Q`, if the content of
`src` is the `sizeof (int)`-byte host-order header that `buf_send_special_count (n)`
writes, followed by `Q`, then `buf_copy_counted (dest, src, &special)` returns 0, sets
`special = n`, removes the header bytes only, so that the content of `src` is `Q`, and
leaves `dest` unchanged. -/
theorem buf_copy_counted_special {σ τ : Type} (BUFFER_DATA_SIZE : Nat) (big_endian : Bool)
    (n : Int) (Q : List Byte) (dest : buffer σ) (src : buffer τ) (p : pool)
    (hn : n < 0) (hmin : -2147483648 ≤ n)
    (hsrc : chain_bytes src.data = int_bytes big_endian n ++ Q)
    (hc : chain_ok BUFFER_DATA_SIZE src.data) :
    ∃ src' p', buf_copy_counted BUFFER_DATA_SIZE big_endian dest src p
        = result.ok ((0, n), dest, src', p')
      ∧ chain_bytes src'.data = Q := by
  obtain ⟨ich, p', hstep, hiby, _⟩ :=
    buf_copy_counted_step_special BUFFER_DATA_SIZE big_endian dest src p n Q hc hn hmin hsrc
  refine ⟨{ src with data := ich }, p', ?_, hiby⟩
  unfold buf_copy_counted
  exact buf_copy_counted_loop_return BUFFER_DATA_SIZE big_endian _ _ _ _ _ _ _ _ hstep

theorem buf_copy_counted_special_witness :
    ((-2 : Int) < 0 ∧ (-2147483648 : Int) ≤ -2
      ∧ chain_bytes [⟨1, [0, 254, 255, 0, 0, 0, 0, 0], 1, 2⟩, ⟨2, [255, 255, 81, 0, 0, 0, 0, 0], 0, 3⟩]
          = int_bytes false (-2) ++ [81]
      ∧ chain_ok 8 [⟨1, [0, 254, 255, 0, 0, 0, 0, 0], 1, 2⟩, ⟨2, [255, 255, 81, 0, 0, 0, 0, 0], 0, 3⟩])
    ∧ ∃ src' p', buf_copy_counted 8 false buf_nonio_initialize
          (chain_buffer [⟨1, [0, 254, 255, 0, 0, 0, 0, 0], 1, 2⟩,
              ⟨2, [255, 255, 81, 0, 0, 0, 0, 0], 0, 3⟩] (some 2) none ())
          ⟨[], 4, none⟩ = result.ok ((0, -2), buf_nonio_initialize, src', p')
        ∧ chain_bytes src'.data = [81] :=
  ⟨⟨by decide, by decide, by decide, by decide⟩,
   buf_copy_counted_special 8 false (-2) [81] buf_nonio_initialize
     (chain_buffer [⟨1, [0, 254, 255, 0, 0, 0, 0, 0], 1, 2⟩,
        ⟨2, [255, 255, 81, 0, 0, 0, 0, 0], 0, 3⟩] (some 2) none ())
     ⟨[], 4, none⟩ (by decide) (by decide) (by decide) (by decide)⟩

theorem flatten_eq_nil_of_nonempty (pieces : List (List Byte)) (hne : ∀ x ∈ pieces, x ≠ [])
    (h : pieces.flatten = []) : pieces = [] := by
  cases pieces with
  | nil => rfl
  | cons x r =>
    simp only [List.flatten_cons, List.append_eq_nil] at h
    exact absurd h.1 (hne x (by simp))

theorem feed_copy_counted_ok {σ τ : Type} (B : Nat) (hB : 0 < B) (big_endian : Bool) (c : Int)
    (P : List Byte) (h0 : 0 ≤ c) (h1 : c < 2147483648) (hP : (P.length : Int) = c)
    (dest : buffer σ) (hcd : chain_ok B dest.data) (htd : tail_ok dest.data dest.last) :
    ∀ (pieces : List (List Byte)) (acc : List Byte) (src : buffer τ) (p : pool),
      chain_bytes src.data = acc → acc ++ pieces.flatten = int_bytes big_endian c ++ P →
      acc.length < (int_bytes big_endian c ++ P).length → (∀ x ∈ pieces, x ≠ []) →
      chain_ok B src.data → tail_ok src.data src.last → never_exhausted p →
      ∃ och olst ich ilst p', feed_copy_counted B big_endian pieces dest src p
          = result.ok ({ dest with data := och, last := olst },
              { src with data := ich, last := ilst }, p')
        ∧ chain_bytes och = chain_bytes dest.data ++ P ∧ chain_bytes ich = [] := by
  intro pieces
  induction pieces with
  | nil =>
    intro acc src p _ hW hlt _ _ _ _
    simp only [List.flatten_nil, List.append_nil] at hW
    rw [hW] at hlt
    omega
  | cons piece rest ih =>
    intro acc src p hacc hW hlt hne hcs hts hp
    have h4 := int_bytes_length big_endian c
    obtain ⟨ch, lst, p1, hout, hc1, ht1, _, hby1, hp1⟩ := buf_output_ok B hB src p piece hcs hts hp
    rw [hacc] at hby1
    simp only [List.flatten_cons] at hW
    rw [← List.append_assoc] at hW
    have hWlen : (int_bytes big_endian c ++ P).length = 4 + P.length := by
      rw [List.length_append, h4]
    obtain ⟨n, hn⟩ : ∃ n, n = (acc ++ piece).length := ⟨_, rfl⟩
    by_cases hcomp : (acc ++ piece).length < (int_bytes big_endian c ++ P).length
    · -- the record is still incomplete: nothing is consumed
      have hpre : acc ++ piece = (int_bytes big_endian c ++ P).take n := by
        rw [hn, ← hW, List.take_left' rfl]
      have hsame : ∃ v, buf_copy_counted B big_endian dest { src with data := ch, last := lst } p1
          = result.ok (v, dest, { src with data := ch, last := lst }, p1) := by
        by_cases hshort : (acc ++ piece).length < 4
        · exact ⟨_, buf_copy_counted_short_header_ok B big_endian dest _ p1 hc1
            (by simp only; rw [hby1]; exact hshort)⟩
        · have hsplit : acc ++ piece = int_bytes big_endian c ++ P.take (n - 4) := by
            rw [hpre, List.take_append_eq_append_take, h4,
              List.take_of_length_le (by rw [h4]; omega)]
          refine ⟨_, buf_copy_counted_short_payload_ok B big_endian dest _ p1 c
            (P.take (n - 4)) hc1 h0 h1 (by simp only; rw [hby1]; exact hsplit) ?_⟩
          rw [List.length_take]
          omega
      obtain ⟨v, hsame⟩ := hsame
      obtain ⟨och, olst, ich, ilst, p', hrun, hoby, hiby⟩ :=
        ih (acc ++ piece) { src with data := ch, last := lst } p1 hby1 hW hcomp
          (fun x hx => hne x (by simp [hx])) hc1 ht1 hp1
      refine ⟨och, olst, ich, ilst, p', ?_, hoby, hiby⟩
      simp only [feed_copy_counted, hout, result.bind_ok, hsame]
      exact hrun
    · -- this piece completes the record
      have hlen := congrArg List.length hW
      simp only [List.length_append] at hlen hcomp
      have hrestnil : rest = [] :=
        flatten_eq_nil_of_nonempty rest (fun x hx => hne x (by simp [hx]))
          (List.length_eq_zero.mp (by omega))
      subst hrestnil
      simp only [List.flatten_nil, List.append_nil] at hW
      obtain ⟨och, olst, ich, p', hrun, hoby, hiby, _⟩ :=
        buf_copy_counted_record_ok B hB big_endian c P dest { src with data := ch, last := lst } p1
          h0 h1 hP (by simp only; rw [hby1, hW]) hc1 hcd htd hp1
      refine ⟨och, olst, ich, lst, p', ?_, hoby, hiby⟩
      simp only [feed_copy_counted, hout, result.bind_ok, hrun]

/-- C9: for every record stream `W`, the encoding of a count `c >= 0` followed by `c`
payload bytes, and every split of `W` into consecutive non-empty pieces, appending the
pieces to an empty `src` one at a time with `buf_copy_counted (dest, src, ...)` called
after each append gives the same final `dest` content and the same final `src` content
as appending all of `W` at once and calling `buf_copy_counted` once. -/
theorem buf_copy_counted_split_arrival {σ τ : Type} (BUFFER_DATA_SIZE : Nat)
    (hB : 0 < BUFFER_DATA_SIZE) (big_endian : Bool) (c : Int) (P : List Byte)
    (pieces : List (List Byte)) (dest : buffer σ) (src : buffer τ) (p : pool)
    (h0 : 0 ≤ c) (h1 : c < 2147483648) (hP : (P.length : Int) = c)
    (hW : pieces.flatten = int_bytes big_endian c ++ P) (hne : ∀ x ∈ pieces, x ≠ [])
    (hsrc : src.data = []) (hcd : buf_ok BUFFER_DATA_SIZE dest) (hp : never_exhausted p) :
    ∃ d1 s1 p1 d2 s2 p2,
      feed_copy_counted BUFFER_DATA_SIZE big_endian pieces dest src p = result.ok (d1, s1, p1)
      ∧ feed_copy_counted BUFFER_DATA_SIZE big_endian [int_bytes big_endian c ++ P] dest src p
          = result.ok (d2, s2, p2)
      ∧ chain_bytes d1.data = chain_bytes d2.data ∧ chain_bytes s1.data = chain_bytes s2.data
      ∧ chain_bytes d1.data = chain_bytes dest.data ++ P ∧ chain_bytes s1.data = [] := by
  have h4 := int_bytes_length big_endian c
  have hpos : ([] : List Byte).length < (int_bytes big_endian c ++ P).length := by
    rw [List.length_append, h4]; simp
  obtain ⟨och, olst, ich, ilst, p1, hrun, hoby, hiby⟩ :=
    feed_copy_counted_ok BUFFER_DATA_SIZE hB big_endian c P h0 h1 hP dest hcd.1 hcd.2 pieces []
      src p (by rw [hsrc]; rfl) (by simpa using hW) hpos hne
      (by rw [hsrc]; exact chain_ok_nil _) (by rw [hsrc]; exact tail_ok_nil _) hp
  obtain ⟨och2, olst2, ich2, ilst2, p2, hrun2, hoby2, hiby2⟩ :=
    feed_copy_counted_ok BUFFER_DATA_SIZE hB big_endian c P h0 h1 hP dest hcd.1 hcd.2
      [int_bytes big_endian c ++ P] [] src p (by rw [hsrc]; rfl) (by simp) hpos
      (by intro x hx
          simp only [List.mem_singleton] at hx
          subst hx
          intro hnil
          rw [hnil] at hpos
          simp at hpos)
      (by rw [hsrc]; exact chain_ok_nil _) (by rw [hsrc]; exact tail_ok_nil _) hp
  exact ⟨_, _, p1, _, _, p2, hrun, hrun2, by rw [hoby, hoby2], by rw [hiby, hiby2], hoby, hiby⟩

theorem buf_copy_counted_split_arrival_witness :
    (0 < 8 ∧ (0 : Int) ≤ 3 ∧ (3 : Int) < 2147483648
      ∧ ((([120, 121, 122] : List Byte).length : Int) = 3)
      ∧ ([[3], [0, 0], [0, 120, 121], [122]] : List (List Byte)).flatten
          = int_bytes false 3 ++ [120, 121, 122]
      ∧ (∀ x ∈ ([[3], [0, 0], [0, 120, 121], [122]] : List (List Byte)), x ≠ [])
      ∧ ( buf_nonio_initialize).data = []
      ∧ buf_ok 8 (chain_buffer [⟨3, [62, 0, 0, 0, 0, 0, 0, 0], 0, 1⟩] (some 3) none ())
      ∧ never_exhausted ⟨[], 4, none⟩)
    ∧ ∃ d1 s1 p1 d2 s2 p2,
      feed_copy_counted 8 false [[3], [0, 0], [0, 120, 121], [122]]
          (chain_buffer [⟨3, [62, 0, 0, 0, 0, 0, 0, 0], 0, 1⟩] (some 3) none ())
          buf_nonio_initialize ⟨[], 4, none⟩ = result.ok (d1, s1, p1)
      ∧ feed_copy_counted 8 false [[3, 0, 0, 0, 120, 121, 122]]
          (chain_buffer [⟨3, [62, 0, 0, 0, 0, 0, 0, 0], 0, 1⟩] (some 3) none ())
          buf_nonio_initialize ⟨[], 4, none⟩ = result.ok (d2, s2, p2)
      ∧ chain_bytes d1.data = chain_bytes d2.data ∧ chain_bytes s1.data = chain_bytes s2.data
      ∧ chain_bytes d1.data = [62, 120, 121, 122] ∧ chain_bytes s1.data = [] :=
  ⟨⟨by decide, by decide, by decide, by decide, by decide, by decide, rfl, by decide, rfl⟩,
   buf_copy_counted_split_arrival 8 (by decide) false 3 [120, 121, 122]
     [[3], [0, 0], [0, 120, 121], [122]]
     (chain_buffer [⟨3, [62, 0, 0, 0, 0, 0, 0, 0], 0, 1⟩] (some 3) none ())
     buf_nonio_initialize ⟨[], 4, none⟩ (by decide) (by decide) (by decide) (by decide)
     (by decide) rfl (by decide) rfl⟩

theorem sent_bytes_append (a b : List callback) :
    sent_bytes (a ++ b) = sent_bytes a ++ sent_bytes b := by
  induction a with
  | nil => rfl
  | cons x r ih => cases x <;> simp [sent_bytes, ih]

/-- Sending a chain to a backend that accepts every byte: the loop returns 0, the chain
is emptied and the bytes handed over are the content of the chain. -/
theorem buf_send_output_loop_accept {σ : Type} (B : Nat)
    (output : σ → List Byte → Int × Int × σ) (hacc : accepts_all output) :
    ∀ (chain : List buffer_data) (buf : buffer σ) (p : pool), chain_ok B chain →
      ∃ cl new p', buf_send_output_loop output chain buf p
          = result.ok (0, { buf with data := [], last := none, closure := cl,
                                     calls := buf.calls ++ new }, p')
        ∧ sent_bytes new = chain_bytes chain
        ∧ (never_exhausted p → never_exhausted p') := by
  intro chain
  induction chain with
  | nil =>
    intro buf p _
    exact ⟨buf.closure, [], p, by simp [buf_send_output_loop], rfl, fun h => h⟩
  | cons d rest ih =>
    intro buf p hc
    obtain ⟨hd, hr⟩ := chain_ok_cons.mp hc
    have hsz := seg_bytes_length hd
    by_cases hpos : d.size > 0
    · obtain ⟨h1, h2⟩ := hacc buf.closure (seg_bytes d)
      obtain ⟨cl, new, p', hrun, hsent, hp'⟩ :=
        ih { buf with data := rest, closure := (output buf.closure (seg_bytes d)).2.2,
                      calls := buf.calls ++ [callback.output (seg_bytes d)] }
          { p with free_buffer_data := d :: p.free_buffer_data } hr
      refine ⟨cl, callback.output (seg_bytes d) :: new, p', ?_, ?_, fun h => hp' h⟩
      · rw [buf_send_output_loop]
        simp only [hpos, if_true]
        rcases hout : output buf.closure (seg_bytes d) with ⟨status, nbytes, cl1⟩
        rw [hout] at h1 h2 hrun
        simp only at h1 h2 hrun
        have hnb : nbytes = d.size := by rw [h2, hsz]
        simp only [h1, hnb, ne_eq, not_true_eq_false, if_false]
        rw [hrun]
        simp
      · simp [sent_bytes, hsent, chain_bytes]
    · have hz : d.size = 0 := by have := hd.2.2.1; omega
      obtain ⟨cl, new, p', hrun, hsent, hp'⟩ :=
        ih { buf with data := rest } { p with free_buffer_data := d :: p.free_buffer_data } hr
      refine ⟨cl, new, p', ?_, ?_, fun h => hp' h⟩
      · rw [buf_send_output_loop]
        simp only [hpos, if_false]
        exact hrun
      · simp [hsent, chain_bytes, seg_bytes_nil_of_size_zero hz]

/-- Sending a count in front of the queued bytes to a backend that accepts every byte. -/
theorem send_count_accept {σ : Type} (B : Nat) (hB : sizeof_int ≤ B) (big_endian : Bool)
    (buf : buffer σ) (p : pool) (a : Nat) (count : Int)
    (output : σ → List Byte → Int × Int × σ) (hout : buf.output = some output)
    (hacc : accepts_all output) (hc : chain_ok B buf.data) :
    ∃ buf' new p', send_count big_endian buf p ⟨a, List.replicate B 0, 0, 0⟩ count
        = result.ok (0, buf', p')
      ∧ buf'.calls = buf.calls ++ new
      ∧ sent_bytes new = int_bytes big_endian count ++ chain_bytes buf.data
      ∧ buf'.data = [] ∧ buf'.last = none := by
  obtain ⟨bdata, blast, nb, inp, out, fl, bl, sh, bcl, bcalls⟩ := buf
  simp only at hout hc ⊢
  subst hout
  have h4 := int_bytes_length big_endian count
  have hB4 : 4 ≤ B := hB
  obtain ⟨s1, s2⟩ := seg_fresh B a (int_bytes big_endian count) (by rw [h4]; exact hB4)
  rw [h4] at s1 s2
  have hnlt : ¬ (List.replicate B (0 : Byte)).length < sizeof_int := by
    simp only [List.length_replicate]; omega
  obtain ⟨cl, new, p', hrun, hsent, _⟩ :=
    buf_send_output_loop_accept B output hacc
      (⟨a, memcpy (List.replicate B 0) 0 (int_bytes big_endian count), 0, (4 : Nat)⟩ :: bdata)
      { data := ⟨a, memcpy (List.replicate B 0) 0 (int_bytes big_endian count), 0,
                 (4 : Nat)⟩ :: bdata,
        last := match blast with
                | none => some a
                | some a' => some a',
        nonblocking := nb, input := inp, output := some output, flush := fl, block := bl,
        shutdown := sh, closure := bcl, calls := bcalls } p
      (by rw [chain_ok_cons]; exact ⟨s1, hc⟩)
  refine ⟨{ data := [], last := none, nonblocking := nb, input := inp, output := some output,
            flush := fl, block := bl, shutdown := sh, closure := cl, calls := bcalls ++ new },
    new, p', ?_, rfl, ?_, rfl, rfl⟩
  · simp only [send_count, hnlt, if_false, buf_send_output]
    exact hrun
  · rw [hsent]
    simp only [chain_bytes]
    rw [s2]

theorem accept_all_output_accepts : accepts_all accept_all_output :=
  fun _ _ => ⟨rfl, rfl⟩

/-- The output loop on a chain whose leading nodes are all taken in full: the nodes are
released one by one and the loop goes on with what follows them. -/
theorem buf_send_output_loop_prefix {σ : Type} (output : σ → List Byte → Int × Int × σ) :
    ∀ (pre chain : List buffer_data) (buf : buffer σ) (p : pool) (cl1 : σ),
      accepted_run output pre buf.closure = some cl1 →
      buf_send_output_loop output (pre ++ chain) buf p
        = buf_send_output_loop output chain
            { buf with data := if pre = [] then buf.data else chain, closure := cl1,
                       calls := buf.calls ++ output_calls pre }
            { p with free_buffer_data := pre.reverse ++ p.free_buffer_data } := by
  intro pre
  induction pre with
  | nil =>
    intro chain buf p cl1 h
    simp only [accepted_run, Option.some.injEq] at h
    subst h
    simp [output_calls]
  | cons d rest ih =>
    intro chain buf p cl1 h
    rw [accepted_run] at h
    by_cases hpos : d.size > 0
    · simp only [hpos, if_true] at h
      rcases hout : output buf.closure (seg_bytes d) with ⟨status, nbytes, cl2⟩
      rw [hout] at h
      simp only at h
      by_cases hacc : status = 0 ∧ nbytes = d.size
      · simp only [hacc, and_self, if_true] at h
        have hrec :=
          ih chain { buf with data := rest ++ chain, closure := cl2,
                              calls := buf.calls ++ [callback.output (seg_bytes d)] }
            { p with free_buffer_data := d :: p.free_buffer_data } cl1 h
        rw [List.cons_append, buf_send_output_loop]
        simp only [hpos, if_true, hout, hacc.1, hacc.2, ne_eq, not_true_eq_false, if_false]
        rw [hrec]
        have hd : 0 < d.size := hpos
        cases rest <;> simp [output_calls, hd]
      · simp [hacc] at h
    · simp only [hpos, if_false] at h
      have hrec :=
        ih chain { buf with data := rest ++ chain }
          { p with free_buffer_data := d :: p.free_buffer_data } cl1 h
      rw [List.cons_append, buf_send_output_loop]
      simp only [hpos, if_false]
      rw [hrec]
      have hd : ¬ 0 < d.size := hpos
      cases rest <;> simp [output_calls, hd]

/-- A backend that accepts everything takes every node of a well-formed chain in full. -/
theorem accepted_run_accepts {σ : Type} (B : Nat) (output : σ → List Byte → Int × Int × σ)
    (hacc : accepts_all output) :
    ∀ (chain : List buffer_data) (cl : σ), chain_ok B chain →
      ∃ cl1, accepted_run output chain cl = some cl1 := by
  intro chain
  induction chain with
  | nil => intro cl _; exact ⟨cl, rfl⟩
  | cons d rest ih =>
    intro cl hc
    obtain ⟨hd, hr⟩ := chain_ok_cons.mp hc
    have hsz := seg_bytes_length hd
    rw [accepted_run]
    by_cases hpos : d.size > 0
    · obtain ⟨h1, h2⟩ := hacc cl (seg_bytes d)
      rcases hout : output cl (seg_bytes d) with ⟨status, nbytes, cl2⟩
      rw [hout] at h1 h2
      simp only at h1 h2
      have hnb : nbytes = d.size := by rw [h2, hsz]
      simp only [hpos, if_true, h1, hnb, and_self]
      exact ih cl2 hr
    · simp only [hpos, if_false]
      exact ih cl hr

/-- The bytes of the calls made for a chain are the content of the chain. -/
theorem sent_bytes_output_calls (B : Nat) :
    ∀ (chain : List buffer_data), chain_ok B chain →
      sent_bytes (output_calls chain) = chain_bytes chain := by
  intro chain
  induction chain with
  | nil => intro _; rfl
  | cons d rest ih =>
    intro hc
    obtain ⟨hd, hr⟩ := chain_ok_cons.mp hc
    by_cases hpos : 0 < d.size
    · have := ih hr
      simp only [output_calls] at this
      simp [output_calls, hpos, sent_bytes, chain_bytes, this]
    · have hz : d.size = 0 := by have := hd.2.2.1; omega
      have := ih hr
      simp only [output_calls] at this
      simp [output_calls, hpos, chain_bytes, seg_bytes_nil_of_size_zero hz, this]

/-- C17: whatever stale text, size and cursor the node at the head of the free list has,
`get_buffer_data` returns that node with all `BUFFER_DATA_SIZE` bytes of its text equal to
zero, `size = 0` and `bufp = text`, detached from the rest of the free list (`next` is
`NULL`), which stays in the pool. -/
theorem get_buffer_data_zeroed (B : Nat) (d : buffer_data) (rest : List buffer_data)
    (brk : Nat) (left : Option Nat) :
    ∃ ret, get_buffer_data B ⟨d :: rest, brk, left⟩ = (some ret, ⟨rest, brk, left⟩)
      ∧ ret.addr = d.addr ∧ ret.text.length = B ∧ (∀ b ∈ ret.text, b = 0)
      ∧ ret.size = 0 ∧ ret.bufp = 0 :=
  ⟨{ addr := d.addr, text := List.replicate B 0, bufp := 0, size := 0 },
   by simp [get_buffer_data], rfl, by simp, fun b hb => (List.mem_replicate.mp hb).2, rfl, rfl⟩

/-- C18: with a backend that always reports status 0 and takes all it is offered,
`buf_send_output` returns 0; the backend is called once for every node of positive size,
in chain order, with the bytes of that node, and not at all for a node of size 0, so the
bytes passed concatenate to the content `P` of the buffer; the buffer ends with
`data = NULL` and `last = NULL`, all its nodes being on the free list. -/
theorem buf_send_output_delivers {σ : Type} (B : Nat) (buf : buffer σ) (p : pool)
    (output : σ → List Byte → Int × Int × σ) (P : List Byte)
    (hout : buf.output = some output) (hacc : accepts_all output)
    (hok : chain_ok B buf.data) (hP : chain_bytes buf.data = P) :
    ∃ cl, buf_send_output buf p
        = result.ok (0, { buf with data := [], last := none, closure := cl,
                                   calls := buf.calls ++ output_calls buf.data },
                     { p with free_buffer_data := buf.data.reverse ++ p.free_buffer_data })
      ∧ sent_bytes (output_calls buf.data) = P := by
  obtain ⟨cl1, hrun⟩ := accepted_run_accepts B output hacc buf.data buf.closure hok
  refine ⟨cl1, ?_, ?_⟩
  · have h := buf_send_output_loop_prefix output buf.data [] buf p cl1 hrun
    rw [List.append_nil] at h
    rw [buf_send_output, hout]
    simp only
    rw [h]
    simp [buf_send_output_loop]
    exact hout
  · rw [sent_bytes_output_calls B buf.data hok, hP]

theorem buf_send_output_delivers_witness :
    (chain_ok 4 [⟨0, [1, 2, 3, 4], 1, 2⟩, ⟨1, [0, 0, 0, 0], 0, 0⟩, ⟨2, [5, 6, 7, 8], 0, 1⟩]
      ∧ chain_bytes [⟨0, [1, 2, 3, 4], 1, 2⟩, ⟨1, [0, 0, 0, 0], 0, 0⟩, ⟨2, [5, 6, 7, 8], 0, 1⟩]
          = [2, 3, 5])
    ∧ ∃ cl, buf_send_output
          ( output_buffer [⟨0, [1, 2, 3, 4], 1, 2⟩, ⟨1, [0, 0, 0, 0], 0, 0⟩,
              ⟨2, [5, 6, 7, 8], 0, 1⟩] (some 2) accept_all_output ()) ⟨[], 3, none⟩
        = result.ok (0,
            { output_buffer [] none accept_all_output cl with
              calls := [callback.output [2, 3], callback.output [5]] },
            ⟨[⟨2, [5, 6, 7, 8], 0, 1⟩, ⟨1, [0, 0, 0, 0], 0, 0⟩, ⟨0, [1, 2, 3, 4], 1, 2⟩], 3, none⟩)
      ∧ sent_bytes [callback.output [2, 3], callback.output [5]] = [2, 3, 5] :=
  ⟨⟨by decide, by decide⟩,
   buf_send_output_delivers 4
     ( output_buffer [⟨0, [1, 2, 3, 4], 1, 2⟩, ⟨1, [0, 0, 0, 0], 0, 0⟩,
         ⟨2, [5, 6, 7, 8], 0, 1⟩] (some 2) accept_all_output ()) ⟨[], 3, none⟩
     accept_all_output [2, 3, 5] rfl accept_all_output_accepts (by decide) (by decide)⟩

/-- The tail pointer of a buffer whose chain ends like a chain with a valid tail. -/
theorem last_data_suffix {σ : Type} (buf : buffer σ) (pre post : List buffer_data)
    (d : buffer_data) (last : Option Nat) (h : tail_ok (pre ++ d :: post) last)
    (hd : buf.data = d :: post) (hl : buf.last = last) : ∃ l, last_data buf = some l := by
  have h2 : tail_ok buf.data buf.last := by
    rw [hd, hl]; exact tail_ok_suffix pre post d d last h rfl
  obtain ⟨i, x, hx⟩ := exists_concat_of_ne_nil (d :: post) (by simp)
  exact ⟨x, last_data_concat buf i x (by rw [hd, hx]) h2⟩

/-- C19: when the backend, having taken in full the nodes `pre` of the chain
`pre ++ d :: post`, reports a status `e` other than 0 for the node `d`,
`buf_send_output` returns `e`; the call for `d` is the last call made to the backend;
the buffer is left with `data = NULL` and `last = NULL`, the bytes of `d` and of the
nodes after it being discarded; and every node that was in the chain is on the free
list. -/
theorem buf_send_output_error_discards {σ : Type} (buf : buffer σ) (p : pool)
    (output : σ → List Byte → Int × Int × σ) (pre post : List buffer_data) (d : buffer_data)
    (e : Int) (cl1 : σ)
    (hout : buf.output = some output) (hdata : buf.data = pre ++ d :: post)
    (htail : tail_ok buf.data buf.last)
    (hpre : accepted_run output pre buf.closure = some cl1)
    (hpos : 0 < d.size) (he : (output cl1 (seg_bytes d)).1 = e) (hne : e ≠ 0) :
    ∃ p', buf_send_output buf p
        = result.ok (e, { buf with data := [], last := none,
                                   closure := (output cl1 (seg_bytes d)).2.2,
                                   calls := buf.calls ++ output_calls pre
                                              ++ [callback.output (seg_bytes d)] }, p')
      ∧ p'.free_buffer_data = d :: post ++ (pre.reverse ++ p.free_buffer_data)
      ∧ ∀ x ∈ buf.data, x ∈ p'.free_buffer_data := by
  refine ⟨{ p with free_buffer_data := d :: post ++ (pre.reverse ++ p.free_buffer_data) },
    ?_, rfl, ?_⟩
  · have h := buf_send_output_loop_prefix output pre (d :: post) buf p cl1 hpre
    rw [buf_send_output]
    obtain ⟨data, last, nb, inp, out, fl, bl, sh, cl, calls⟩ := buf
    simp only at hout hdata htail hpre h ⊢
    subst hout hdata
    simp only
    rw [h, buf_send_output_loop]
    have hgt : d.size > 0 := hpos
    simp only [hgt, if_true]
    rcases hcall : output cl1 (seg_bytes d) with ⟨status, nbytes, cl2⟩
    rw [hcall] at he
    simp only at he
    subst he
    simp only [ne_eq, hne, not_false_eq_true, if_true]
    obtain ⟨l, hl⟩ := last_data_suffix
      (σ := σ) ⟨d :: post, last, nb, inp, some output, fl, bl, sh, cl2,
        calls ++ (output_calls pre ++ [callback.output (seg_bytes d)])⟩ pre post d last htail rfl rfl
    have hlast : ∃ a, last = some a := by
      cases last with
      | none => simp [last_data] at hl
      | some a => exact ⟨a, rfl⟩
    obtain ⟨a, rfl⟩ := hlast
    simp only [discard_chain, hl, List.append_assoc]
    simp [result.bind]
  · intro x hx
    rw [hdata] at hx
    simp only [List.mem_append, List.mem_cons, List.mem_reverse] at hx ⊢
    tauto

theorem buf_send_output_error_discards_witness :
    (tail_ok [⟨0, [1, 2, 3, 4], 1, 2⟩, ⟨1, [9, 9, 9, 9], 0, 4⟩, ⟨2, [5, 6, 7, 8], 0, 1⟩] (some 2)
      ∧ accepted_run (failing_output 32) [⟨0, [1, 2, 3, 4], 1, 2⟩] 1 = some 0
      ∧ (0 : Int) < 4 ∧ ( failing_output 32 0 [9, 9, 9, 9]).1 = 32 ∧ (32 : Int) ≠ 0)
    ∧ ∃ p', buf_send_output
          ( output_buffer [⟨0, [1, 2, 3, 4], 1, 2⟩, ⟨1, [9, 9, 9, 9], 0, 4⟩,
              ⟨2, [5, 6, 7, 8], 0, 1⟩] (some 2) (failing_output 32) 1) ⟨[], 3, none⟩
        = result.ok (32,
            { output_buffer [] none (failing_output 32) 0 with
              calls := [callback.output [2, 3], callback.output [9, 9, 9, 9]] }, p')
      ∧ p'.free_buffer_data
          = [⟨1, [9, 9, 9, 9], 0, 4⟩, ⟨2, [5, 6, 7, 8], 0, 1⟩, ⟨0, [1, 2, 3, 4], 1, 2⟩]
      ∧ ∀ x ∈ [(⟨0, [1, 2, 3, 4], 1, 2⟩ : buffer_data), ⟨1, [9, 9, 9, 9], 0, 4⟩,
                ⟨2, [5, 6, 7, 8], 0, 1⟩], x ∈ p'.free_buffer_data :=
  ⟨⟨by decide, by decide, by decide, rfl, by decide⟩,
   buf_send_output_error_discards
     ( output_buffer [⟨0, [1, 2, 3, 4], 1, 2⟩, ⟨1, [9, 9, 9, 9], 0, 4⟩,
         ⟨2, [5, 6, 7, 8], 0, 1⟩] (some 2) (failing_output 32) 1) ⟨[], 3, none⟩
     (failing_output 32) [⟨0, [1, 2, 3, 4], 1, 2⟩] [⟨2, [5, 6, 7, 8], 0, 1⟩]
     ⟨1, [9, 9, 9, 9], 0, 4⟩ 32 0 rfl rfl (by decide) (by decide) (by decide) rfl (by decide)⟩

/-- Discarding a chain never touches the allocator behind the pool. -/
theorem discard_chain_xmalloc {σ : Type} (buf : buffer σ) (p : pool) (b' : buffer σ)
    (p' : pool) (h : discard_chain buf p = result.ok (b', p')) :
    p'.xmalloc_left = p.xmalloc_left := by
  unfold discard_chain at h
  cases hl : buf.last with
  | none =>
    simp only [hl, result.ok.injEq, Prod.mk.injEq] at h
    rw [← h.2]
  | some a =>
    simp only [hl] at h
    cases hd : last_data buf with
    | none => simp [hd] at h
    | some l =>
      simp only [hd, result.ok.injEq, Prod.mk.injEq] at h
      rw [← h.2]

/-- The output loop never touches the allocator behind the pool. -/
theorem buf_send_output_loop_xmalloc {σ : Type} (output : σ → List Byte → Int × Int × σ) :
    ∀ (chain : List buffer_data) (buf : buffer σ) (p : pool) (st : Int) (b' : buffer σ)
      (p' : pool), buf_send_output_loop output chain buf p = result.ok (st, b', p') →
      p'.xmalloc_left = p.xmalloc_left := by
  intro chain
  induction chain with
  | nil =>
    intro buf p st b' p' h
    simp only [buf_send_output_loop, result.ok.injEq, Prod.mk.injEq] at h
    rw [← h.2.2]
  | cons d rest ih =>
    intro buf p st b' p' h
    rw [buf_send_output_loop] at h
    by_cases hpos : d.size > 0
    · simp only [hpos, if_true] at h
      rcases hcall : output buf.closure (seg_bytes d) with ⟨status, nbytes, cl2⟩
      rw [hcall] at h
      simp only at h
      by_cases hs : status = 0
      · by_cases hn : nbytes = d.size
        · simp only [hs, hn, ne_eq, not_true_eq_false, if_false] at h
          have := ih _ _ st b' p' h
          simpa using this
        · simp only [hs, hn, ne_eq, not_true_eq_false, not_false_eq_true, if_false, if_true,
            result.ok.injEq, Prod.mk.injEq] at h
          rw [← h.2.2]
      · simp only [ne_eq, hs, not_false_eq_true, if_true] at h
        cases hdis : discard_chain { buf with data := d :: rest, closure := cl2,
                                              calls := buf.calls ++ [callback.output (seg_bytes d)] } p with
        | ok v =>
          rw [hdis] at h
          simp only [result.bind, result.ok.injEq, Prod.mk.injEq] at h
          have := discard_chain_xmalloc _ p v.1 v.2 hdis
          rw [← h.2.2]
          exact this
        | abort => rw [hdis] at h; simp [result.bind] at h
        | fatal => rw [hdis] at h; simp [result.bind] at h
        | undefined => rw [hdis] at h; simp [result.bind] at h
        | out_of_fuel => rw [hdis] at h; simp [result.bind] at h
    · simp only [hpos, if_false] at h
      have := ih _ _ st b' p' h
      simpa using this

/-- Sending a count never touches the allocator behind the pool. -/
theorem send_count_xmalloc {σ : Type} (big_endian : Bool) (buf : buffer σ) (p : pool)
    (data : buffer_data) (count : Int) (st : Int) (b' : buffer σ) (p' : pool)
    (h : send_count big_endian buf p data count = result.ok (st, b', p')) :
    p'.xmalloc_left = p.xmalloc_left := by
  unfold send_count at h
  split at h
  · simp at h
  · unfold buf_send_output at h
    simp only at h
    cases hout : buf.output with
    | none => simp [hout] at h
    | some output =>
      simp only [hout] at h
      exact buf_send_output_loop_xmalloc output _ _ p st b' p' h

/-- C11: the bytes handed to a backend that takes everything by `buf_send_counted`, for
a buffer that holds the payload `P`, are put in an empty buffer `src` with `buf_output`;
`buf_copy_counted (dest, src, &special)` on an empty `dest` then leaves `dest` with the
content `P`, `src` without bytes and `special = 0`. -/
theorem counted_record_round_trip {σ τ υ : Type} (BUFFER_DATA_SIZE : Nat) (big_endian : Bool)
    (ENOMEM : Int) (P : List Byte) (buf : buffer σ) (p : pool)
    (output : σ → List Byte → Int × Int × σ) (src : buffer τ) (dest : buffer υ)
    (hB : sizeof_int ≤ BUFFER_DATA_SIZE) (hP : P.length < 2147483648)
    (hout : buf.output = some output) (hacc : accepts_all output)
    (hok : chain_ok BUFFER_DATA_SIZE buf.data) (hbytes : chain_bytes buf.data = P)
    (hp : never_exhausted p) (hsrc : src.data = []) (hdest : dest.data = []) :
    ∃ buf' p1 new, buf_send_counted BUFFER_DATA_SIZE big_endian ENOMEM buf p
        = result.ok (0, buf', p1)
      ∧ buf'.calls = buf.calls ++ new
      ∧ ∃ src1 p2, buf_output BUFFER_DATA_SIZE src p1 (sent_bytes new) = result.ok (src1, p2)
      ∧ ∃ rv dest' src' p3, buf_copy_counted BUFFER_DATA_SIZE big_endian dest src1 p2
          = result.ok ((rv, 0), dest', src', p3)
        ∧ chain_bytes dest'.data = P ∧ chain_bytes src'.data = [] := by
  have hB0 : 0 < BUFFER_DATA_SIZE := by
    have : sizeof_int = 4 := rfl
    omega
  have hlen := chain_bytes_length hok
  have hsrc_ok : chain_ok BUFFER_DATA_SIZE src.data := by rw [hsrc]; exact chain_ok_nil _
  have hsrc_tail : tail_ok src.data src.last := by rw [hsrc]; exact tail_ok_nil _
  have hdest_ok : chain_ok BUFFER_DATA_SIZE dest.data := by rw [hdest]; exact chain_ok_nil _
  have hdest_tail : tail_ok dest.data dest.last := by rw [hdest]; exact tail_ok_nil _
  by_cases hP0 : P = []
  · have hsz : chain_size buf.data = 0 := by
      rw [← hlen, hbytes, hP0]; rfl
    refine ⟨buf, p, [], by simp only [buf_send_counted, hsz, if_true], by simp, ?_⟩
    obtain ⟨ch, lst, p2, hrun, hch, _, _, hcb, _⟩ :=
      buf_output_ok BUFFER_DATA_SIZE hB0 src p [] hsrc_ok hsrc_tail hp
    rw [hsrc] at hcb
    have hcb0 : chain_bytes ch = [] := by simpa [chain_bytes] using hcb
    refine ⟨{ src with data := ch, last := lst }, p2, hrun, ?_⟩
    have hshort := buf_copy_counted_short_header_ok BUFFER_DATA_SIZE big_endian dest
      { src with data := ch, last := lst } p2 hch (by simp [hcb0])
    simp only [hcb0, List.length_nil, Nat.cast_zero, sub_zero] at hshort
    exact ⟨4, dest, { src with data := ch, last := lst }, p2, hshort, by
      rw [hdest, hP0]; rfl, hcb0⟩
  · obtain ⟨a, p0, hget, hp0⟩ := get_buffer_data_ok BUFFER_DATA_SIZE p hp
    have hsz : ¬ chain_size buf.data = 0 := by
      intro h
      rw [h, hbytes] at hlen
      exact hP0 (List.length_eq_zero.mp (by exact_mod_cast hlen))
    obtain ⟨buf', new, p1, hrun, hcalls, hsent, _⟩ :=
      send_count_accept BUFFER_DATA_SIZE hB big_endian buf p0 a (chain_size buf.data)
        output hout hacc hok
    have hp1 : never_exhausted p1 := by
      have := send_count_xmalloc big_endian buf p0 _ _ 0 buf' p1 hrun
      unfold never_exhausted at hp0 ⊢
      rw [this, hp0]
    refine ⟨buf', p1, new, ?_, hcalls, ?_⟩
    · simp only [buf_send_counted, hsz, if_false, hget]
      exact hrun
    · obtain ⟨ch, lst, p2, hout2, hch, _, _, hcb, hp2⟩ :=
        buf_output_ok BUFFER_DATA_SIZE hB0 src p1 (sent_bytes new) hsrc_ok hsrc_tail hp1
      refine ⟨_, p2, hout2, ?_⟩
      rw [hsrc, hsent, hbytes, ← hlen, hbytes] at hcb
      obtain ⟨och, olst, ich, p3, hcopy, hoch, hich, _⟩ :=
        buf_copy_counted_record_ok BUFFER_DATA_SIZE hB0 big_endian (P.length : Int) P dest
          { src with data := ch, last := lst } p2 (by omega) (by omega) rfl
          (by simpa [chain_bytes] using hcb) hch hdest_ok hdest_tail hp2
      refine ⟨4, _, _, p3, hcopy, ?_, hich⟩
      rw [hoch, hdest]; rfl

theorem counted_record_round_trip_witness :
    (sizeof_int ≤ 8 ∧ [(104 : Byte), 105, 33].length < 2147483648
      ∧ chain_ok 8 [⟨1, [104, 105, 0, 0, 0, 0, 0, 0], 0, 2⟩, ⟨2, [0, 0, 0, 33, 0, 0, 0, 0], 3, 1⟩]
      ∧ chain_bytes [⟨1, [104, 105, 0, 0, 0, 0, 0, 0], 0, 2⟩, ⟨2, [0, 0, 0, 33, 0, 0, 0, 0], 3, 1⟩]
          = [104, 105, 33]
      ∧ never_exhausted ⟨[], 4, none⟩)
    ∧ ∃ buf' p1 new, buf_send_counted 8 false 12
          ( output_buffer [⟨1, [104, 105, 0, 0, 0, 0, 0, 0], 0, 2⟩,
              ⟨2, [0, 0, 0, 33, 0, 0, 0, 0], 3, 1⟩] (some 2) accept_all_output ()) ⟨[], 4, none⟩
        = result.ok (0, buf', p1)
      ∧ buf'.calls = [] ++ new
      ∧ ∃ src1 p2, buf_output 8 buf_nonio_initialize p1 (sent_bytes new) = result.ok (src1, p2)
      ∧ ∃ rv dest' src' p3, buf_copy_counted 8 false buf_nonio_initialize src1 p2
          = result.ok ((rv, 0), dest', src', p3)
        ∧ chain_bytes dest'.data = [104, 105, 33] ∧ chain_bytes src'.data = [] :=
  ⟨⟨by decide, by decide, by decide, by decide, rfl⟩,
   counted_record_round_trip 8 false 12 [104, 105, 33]
     ( output_buffer [⟨1, [104, 105, 0, 0, 0, 0, 0, 0], 0, 2⟩,
         ⟨2, [0, 0, 0, 33, 0, 0, 0, 0], 3, 1⟩] (some 2) accept_all_output ()) ⟨[], 4, none⟩
     accept_all_output buf_nonio_initialize buf_nonio_initialize (by decide) (by decide) rfl
     accept_all_output_accepts (by decide) (by decide) rfl rfl rfl⟩

/-- On a buffer with a valid tail pointer the output loop returns; it changes only the
chain, the tail pointer, the closure and the log, to which it adds calls of the output
callback only. -/
theorem buf_send_output_loop_frame {σ : Type} (output : σ → List Byte → Int × Int × σ) :
    ∀ (chain : List buffer_data) (buf : buffer σ) (p : pool), tail_ok chain buf.last →
      ∃ st ch lst cl mid p', buf_send_output_loop output chain buf p
          = result.ok (st, { buf with data := ch, last := lst, closure := cl,
                                      calls := buf.calls ++ mid }, p')
        ∧ (∀ c ∈ mid, output_or_flush c) ∧ tail_ok ch lst := by
  intro chain
  induction chain with
  | nil =>
    intro buf p _
    exact ⟨0, [], none, buf.closure, [], p, by simp [buf_send_output_loop],
      by simp, tail_ok_nil _⟩
  | cons d rest ih =>
    intro buf p ht
    have htr : tail_ok rest buf.last := by
      cases rest with
      | nil => exact tail_ok_nil _
      | cons e r => exact tail_ok_suffix [d] r e e buf.last ht rfl
    rw [buf_send_output_loop]
    by_cases hpos : d.size > 0
    · simp only [hpos, if_true]
      rcases hcall : output buf.closure (seg_bytes d) with ⟨status, nbytes, cl2⟩
      simp only
      by_cases hs : status = 0
      · by_cases hn : nbytes = d.size
        · simp only [hs, hn, ne_eq, not_true_eq_false, if_false]
          obtain ⟨st, ch, lst, cl, mid, p', hrun, hmid, htl⟩ :=
            ih { buf with data := rest, closure := cl2,
                          calls := buf.calls ++ [callback.output (seg_bytes d)] }
              { p with free_buffer_data := d :: p.free_buffer_data } htr
          refine ⟨st, ch, lst, cl, callback.output (seg_bytes d) :: mid, p', ?_, ?_, htl⟩
          · rw [hrun]; simp
          · intro c hc
            rcases List.mem_cons.mp hc with h | h
            · rw [h]; trivial
            · exact hmid c h
        · simp only [hs, hn, ne_eq, not_true_eq_false, not_false_eq_true, if_false, if_true]
          refine ⟨0, _, buf.last, cl2, [callback.output (seg_bytes d)], p, rfl, ?_, ?_⟩
          · intro c hc
            rw [List.mem_singleton.mp hc]; trivial
          · exact tail_ok_suffix [] rest d _ buf.last ht rfl
      · simp only [ne_eq, hs, not_false_eq_true, if_true]
        obtain ⟨l, hl⟩ := last_data_suffix
          { buf with data := d :: rest, closure := cl2,
                     calls := buf.calls ++ [callback.output (seg_bytes d)] }
          [] rest d buf.last ht rfl rfl
        have hlast : ∃ a, buf.last = some a := by
          cases hb : buf.last with
          | none => simp [last_data, hb] at hl
          | some a => exact ⟨a, rfl⟩
        obtain ⟨a, ha⟩ := hlast
        refine ⟨status, [], none, cl2, [callback.output (seg_bytes d)],
          { p with free_buffer_data := d :: rest ++ p.free_buffer_data }, ?_, ?_, tail_ok_nil _⟩
        · simp only [discard_chain, ha]
          rw [ha] at hl
          simp only [hl]
          simp [result.bind]
        · intro c hc
          rw [List.mem_singleton.mp hc]; trivial
    · simp only [hpos, if_false]
      obtain ⟨st, ch, lst, cl, mid, p', hrun, hmid, htl⟩ :=
        ih { buf with data := rest } { p with free_buffer_data := d :: p.free_buffer_data } htr
      exact ⟨st, ch, lst, cl, mid, p', by rw [hrun], hmid, htl⟩

/-- The sending part of `buf_flush` returns on a buffer with a valid tail pointer; it
leaves the flag `nonblocking` alone and logs calls of the output and flush callbacks
only. -/
theorem flush_send_frame {σ : Type} (buf : buffer σ) (p : pool)
    (fl : σ → Int × σ) (out : σ → List Byte → Int × Int × σ)
    (hout : buf.output = some out) (htail : tail_ok buf.data buf.last) :
    ∃ st ch lst cl mid p', flush_send fl buf p
        = result.ok (st, { buf with data := ch, last := lst, closure := cl,
                                    calls := buf.calls ++ mid }, p')
      ∧ (∀ c ∈ mid, output_or_flush c) ∧ tail_ok ch lst := by
  obtain ⟨st, ch, lst, cl, mid, p', hrun, hmid, htl⟩ :=
    buf_send_output_loop_frame out buf.data buf p htail
  have hsend : buf_send_output buf p
      = result.ok (st, { buf with data := ch, last := lst, closure := cl,
                                  calls := buf.calls ++ mid }, p') := by
    have hloop : buf_send_output buf p = buf_send_output_loop out buf.data buf p := by
      unfold buf_send_output; rw [hout]
    rw [hloop, hrun]
  by_cases hs : st = 0
  · refine ⟨(fl cl).1, ch, lst, (fl cl).2, mid ++ [callback.flush], p', ?_, ?_, htl⟩
    · rw [flush_send, hsend]
      simp [result.bind, hs]
    · intro c hc
      rcases List.mem_append.mp hc with h | h
      · exact hmid c h
      · rw [List.mem_singleton.mp h]; trivial
  · refine ⟨st, ch, lst, cl, mid, p', ?_, hmid, htl⟩
    rw [flush_send, hsend]
    simp [result.bind, hs]

/-- A flush that has to leave nonblocking mode: `buf_flush` is `set_block`, the sending
part on the buffer so obtained, and `set_nonblock`, whatever the sending part reported. -/
theorem buf_flush_switch {σ : Type} (buf : buffer σ) (p : pool) (block : Int)
    (fl : σ → Int × σ) (out : σ → List Byte → Int × Int × σ) (bl : σ → Int → Int × σ)
    (hfl : buf.flush = some fl) (hout : buf.output = some out) (hbl : buf.block = some bl)
    (htail : tail_ok buf.data buf.last)
    (hnb : buf.nonblocking ≠ 0) (hb : block ≠ 0) (hsw : (bl buf.closure 1).1 = 0) :
    ∃ st b2 p2 mid,
      flush_send fl { buf with nonblocking := 0, closure := (bl buf.closure 1).2,
                               calls := buf.calls ++ [callback.block 1] } p
        = result.ok (st, b2, p2)
      ∧ b2.nonblocking = 0
      ∧ b2.calls = buf.calls ++ [callback.block 1] ++ mid
      ∧ (∀ c ∈ mid, output_or_flush c)
      ∧ ∃ b3, buf_flush buf p block
          = result.ok (if st = 0 then (bl b2.closure 0).1 else st, b3, p2)
        ∧ b3.calls = b2.calls ++ [callback.block 0]
        ∧ b3.nonblocking = if (bl b2.closure 0).1 = 0 then 1 else 0 := by
  obtain ⟨data, last, nb, inp, out0, fl0, bl0, sh, cl, calls⟩ := buf
  simp only at hfl hout hbl htail hnb hsw ⊢
  subst hfl hout hbl
  obtain ⟨st, ch, lst, cl2, mid, p2, hrun, hmid, _⟩ :=
    flush_send_frame (σ := σ)
      ⟨data, last, 0, inp, some out, some fl, some bl, sh, (bl cl 1).2,
        calls ++ [callback.block 1]⟩ p fl out rfl htail
  simp only at hrun
  refine ⟨st, _, p2, mid, hrun, rfl, rfl, hmid, ?_⟩
  simp only
  rcases hcall : bl cl2 0 with ⟨bs, cl3⟩
  rcases hcall1 : bl cl 1 with ⟨s1, cl1⟩
  rw [hcall1] at hsw hrun
  simp only at hsw hrun
  subst hsw
  by_cases hbs : bs = 0
  · refine ⟨⟨ch, lst, 1, inp, some out, some fl, some bl, sh, cl3,
      calls ++ [callback.block 1] ++ mid ++ [callback.block 0]⟩, ?_, rfl, by simp [hbs]⟩
    simp [buf_flush, set_block, hnb, hb, hcall1, result.bind, hrun, flush_restore,
      set_nonblock, hcall, hbs]
  · refine ⟨⟨ch, lst, 0, inp, some out, some fl, some bl, sh, cl3,
      calls ++ [callback.block 1] ++ mid ++ [callback.block 0]⟩, ?_, rfl, by simp [hbs]⟩
    simp [buf_flush, set_block, hnb, hb, hcall1, result.bind, hrun, flush_restore,
      set_nonblock, hcall, hbs]

/-- C20: for a buffer with a valid tail pointer and every `block` argument:
when every call of the block callback succeeds, `buf_flush` returns and the flag
`nonblocking` is afterwards zero or non-zero as it was before, and equal to its value
before for the values 0 and 1 that the buffer functions give it.  When the buffer is
nonblocking and `block` is non-zero (and the switch to blocking mode succeeds), the
output and flush callbacks are called by the sending part only, which is entered and
left with the flag 0, after the logged call `block 1` and before the logged call
`block 0`; that last call is made whatever status `st` the sending part reported, and
the status returned is `st` unless `st` is 0, in which case it is that of the switch
back. -/
theorem buf_flush_blocking_mode {σ : Type} (buf : buffer σ) (p : pool) (block : Int)
    (fl : σ → Int × σ) (out : σ → List Byte → Int × Int × σ) (bl : σ → Int → Int × σ)
    (hfl : buf.flush = some fl) (hout : buf.output = some out) (hbl : buf.block = some bl)
    (htail : tail_ok buf.data buf.last) :
    ((∀ s b, (bl s b).1 = 0) →
      ∃ st buf' p', buf_flush buf p block = result.ok (st, buf', p')
        ∧ (buf'.nonblocking ≠ 0 ↔ buf.nonblocking ≠ 0)
        ∧ (buf.nonblocking = 0 ∨ buf.nonblocking = 1 → buf'.nonblocking = buf.nonblocking))
    ∧ (buf.nonblocking ≠ 0 → block ≠ 0 → (bl buf.closure 1).1 = 0 →
      ∃ st b2 p2 mid,
        flush_send fl { buf with nonblocking := 0, closure := (bl buf.closure 1).2,
                                 calls := buf.calls ++ [callback.block 1] } p
          = result.ok (st, b2, p2)
        ∧ b2.nonblocking = 0
        ∧ b2.calls = buf.calls ++ [callback.block 1] ++ mid
        ∧ (∀ c ∈ mid, output_or_flush c)
        ∧ ∃ b3, buf_flush buf p block
            = result.ok (if st = 0 then (bl b2.closure 0).1 else st, b3, p2)
          ∧ b3.calls = b2.calls ++ [callback.block 0]
          ∧ b3.nonblocking = if (bl b2.closure 0).1 = 0 then 1 else 0) := by
  refine ⟨?_, buf_flush_switch buf p block fl out bl hfl hout hbl htail⟩
  intro hall
  by_cases hcond : buf.nonblocking ≠ 0 ∧ block ≠ 0
  · obtain ⟨st, b2, p2, mid, _, _, _, _, b3, hrun, _, hflag⟩ :=
      buf_flush_switch buf p block fl out bl hfl hout hbl htail hcond.1 hcond.2 (hall _ _)
    rw [hall, if_pos rfl] at hflag
    refine ⟨_, b3, p2, hrun, ?_, ?_⟩
    · rw [hflag]; simp [hcond.1]
    · intro h
      rcases h with h | h
      · exact absurd h hcond.1
      · rw [hflag, h]
  · obtain ⟨st, ch, lst, cl, mid, p', hrun, _, _⟩ := flush_send_frame buf p fl out hout htail
    refine ⟨st, { buf with data := ch, last := lst, closure := cl,
                           calls := buf.calls ++ mid }, p', ?_, Iff.rfl, fun _ => rfl⟩
    have hflush : buf_flush buf p block
        = (flush_send fl buf p).bind (flush_restore buf.nonblocking block) := by
      unfold buf_flush
      rw [hfl]
      simp only [hcond, if_false]
    rw [hflush, hrun]
    simp only [result.bind, flush_restore, hcond, if_false]

theorem buf_flush_blocking_mode_witness :
    (tail_ok [⟨0, [1, 2, 3, 4], 1, 2⟩] (some 0) ∧ (∀ s b, ( block_done s b).1 = 0))
    ∧ (∃ st buf' p', buf_flush
          ( flush_buffer [⟨0, [1, 2, 3, 4], 1, 2⟩] (some 0) 1 (failing_output 32) flush_done
            block_done 0) ⟨[], 1, none⟩ 1 = result.ok (st, buf', p')
        ∧ (buf'.nonblocking ≠ 0 ↔ (1 : Int) ≠ 0)
        ∧ ((1 : Int) = 0 ∨ (1 : Int) = 1 → buf'.nonblocking = 1))
    ∧ ∃ st b2 p2 mid,
        flush_send flush_done
            { flush_buffer [⟨0, [1, 2, 3, 4], 1, 2⟩] (some 0) 1 (failing_output 32)
                flush_done block_done 0 with
              nonblocking := 0, closure := 0, calls := [] ++ [callback.block 1] } ⟨[], 1, none⟩
          = result.ok (st, b2, p2)
        ∧ b2.nonblocking = 0
        ∧ b2.calls = [] ++ [callback.block 1] ++ mid
        ∧ (∀ c ∈ mid, output_or_flush c)
        ∧ ∃ b3, buf_flush
              ( flush_buffer [⟨0, [1, 2, 3, 4], 1, 2⟩] (some 0) 1 (failing_output 32)
                flush_done block_done 0) ⟨[], 1, none⟩ 1
            = result.ok (if st = 0 then 0 else st, b3, p2)
          ∧ b3.calls = b2.calls ++ [callback.block 0]
          ∧ b3.nonblocking = if (0 : Int) = 0 then 1 else 0 :=
  ⟨⟨by decide, fun _ _ => rfl⟩,
   (buf_flush_blocking_mode
     ( flush_buffer [⟨0, [1, 2, 3, 4], 1, 2⟩] (some 0) 1 (failing_output 32) flush_done
       block_done 0) ⟨[], 1, none⟩ 1 flush_done (failing_output 32)
     block_done rfl rfl rfl (by decide)).1 (fun _ _ => rfl),
   (buf_flush_blocking_mode
     ( flush_buffer [⟨0, [1, 2, 3, 4], 1, 2⟩] (some 0) 1 (failing_output 32) flush_done
       block_done 0) ⟨[], 1, none⟩ 1 flush_done (failing_output 32)
     block_done rfl rfl rfl (by decide)).2 (by decide) (by decide) rfl⟩

/-- The two bytes of a count. -/
theorem be16_length (n : Int) : (be16 n).length = 2 := rfl

/-- Storing translated data at offset 2 and then the count in front of it amounts to
storing the whole packet at offset 0. -/
theorem memcpy_header (z hdr T : List Byte) (hh : hdr.length = 2) (hz : 2 ≤ z.length) :
    memcpy (memcpy z 2 T) 0 hdr = memcpy z 0 (hdr ++ T) := by
  unfold memcpy
  have h2 : (List.take 2 z).length = 2 := by simp [List.length_take]; omega
  have e2 : (2 : Int).toNat = 2 := rfl
  have e0 : (0 : Int).toNat = 0 := rfl
  rw [e2, e0, hh]
  simp only [List.take_zero, List.nil_append, zero_add, List.length_append, hh]
  rw [List.append_assoc (List.take 2 z), List.drop_left' h2]
  simp [List.append_assoc]

/-- What `packetizing_buffer_output` does when the translation function reports success
and obeys the slop bound: the packet made of the count of the translated data `T` and of
`T` is put at the end of the underlying buffer, which is then sent, and `*wrote` is
`have`. -/
theorem packetizing_buffer_output_queued {τ φ : Type} (B SLOP : Nat) (ENOMEM : Int)
    (pb : packetizing_buffer τ φ) (p : pool) (data : List Byte)
    (f : φ → List Byte → Int × List Byte × φ) (T : List Byte) (cl : φ)
    (hB : 0 < B) (hhave : data.length ≤ B) (hf : pb.outfn = some f)
    (hT : f pb.fnclosure (be16 data.length ++ data) = (0, T, cl))
    (hslop : T.length ≤ data.length + 2 + SLOP)
    (hok : chain_ok B pb.buf.data) (htail : tail_ok pb.buf.data pb.buf.last)
    (hp : never_exhausted p) :
    ∃ ch lst p1, chain_bytes ch = chain_bytes pb.buf.data ++ (be16 T.length ++ T)
      ∧ chain_ok B ch ∧ tail_ok ch lst ∧ never_exhausted p1
      ∧ packetizing_buffer_output B SLOP ENOMEM pb p data
          = (buf_send_output { pb.buf with data := ch, last := lst } p1).bind fun s =>
              result.ok ((s.1, (data.length : Int)),
                         { pb with buf := s.2.1, fnclosure := cl }, s.2.2) := by
  have hnot : ¬ ((data.length : Int) > B) := by omega
  have hinlen : ((be16 (data.length : Int) ++ data).length : Int) = (data.length : Int) + 2 := by
    simp only [List.length_append, be16_length]; push_cast; omega
  have hnab : ¬ ((T.length : Int) > ((be16 (data.length : Int) ++ data).length : Int) + SLOP) := by
    rw [hinlen]; omega
  by_cases hpath : (data.length : Int) + 2 + SLOP + 2 > B
  · obtain ⟨ch, lst, p1, hrun, hch, htl, _, hby, hp1⟩ :=
      buf_output_ok B hB pb.buf p (be16 T.length ++ T) hok htail hp
    refine ⟨ch, lst, p1, hby, hch, htl, hp1, ?_⟩
    have hroom : ¬ ((T.length : Int) > (B : Int) + SLOP + 2) := by omega
    simp only [packetizing_buffer_output, hnot, if_false, hpath, if_true, packetizing_translate,
      hf, hT, hroom, ne_eq, not_true_eq_false, hnab, packetizing_queue, hrun]
    rfl
  · obtain ⟨a, p1, hget, hp1⟩ := get_buffer_data_ok B p hp
    have hlenT : (be16 (T.length : Int) ++ T).length ≤ B := by
      simp only [List.length_append, be16_length]; omega
    obtain ⟨hseg, hsegb⟩ := seg_fresh B a (be16 T.length ++ T) hlenT
    have hmem : memcpy (memcpy (List.replicate B (0 : Byte)) 2 T) 0 (be16 T.length)
        = memcpy (List.replicate B 0) 0 (be16 T.length ++ T) :=
      memcpy_header _ _ _ (be16_length _) (by simp; omega)
    have hsize : (((be16 (T.length : Int) ++ T).length : Nat) : Int) = (T.length : Int) + 2 := by
      simp only [List.length_append, be16_length]; push_cast; omega
    rw [hsize] at hseg hsegb
    obtain ⟨d, hd⟩ : ∃ d : buffer_data, d = ⟨a, memcpy (List.replicate B 0) 0 (be16 T.length ++ T),
        0, (T.length : Int) + 2⟩ := ⟨_, rfl⟩
    rw [← hd] at hseg hsegb
    have happ := buf_append_data_ok pb.buf [d] (some a) htail (by simp)
    refine ⟨pb.buf.data ++ [d], some a, p1, ?_, ?_, ?_, hp1, ?_⟩
    · rw [chain_bytes_append]; simp only [chain_bytes, hsegb, List.append_nil]
    · exact chain_ok_append.mpr ⟨hok, chain_ok_cons.mpr ⟨hseg, chain_ok_nil _⟩⟩
    · have := tail_ok_concat pb.buf.data d
      rw [hd] at this ⊢
      exact this
    · have hroom : ¬ ((T.length : Int) > ((List.replicate B (0 : Byte)).length : Int) - 2) := by
        simp only [List.length_replicate]; omega
      simp only [packetizing_buffer_output, hnot, if_false, hpath, hget, packetizing_translate,
        hf, hT, hroom, ne_eq, not_true_eq_false, hnab, packetizing_queue, hmem, ← hd, happ,
        result.bind]

/-- C14: for a block of `have <= BUFFER_DATA_SIZE` bytes and a translation function that
reports success and stores `T`, of a length `t` within the slop bound, for the input
`[have >> 8 & 0xff, have & 0xff] ++ data`: `packetizing_buffer_output` is the sending of
the underlying buffer with `[t >> 8 & 0xff, t & 0xff] ++ T` put at the end of its
content, and `*wrote` is `have`; when `T` is the input unchanged, what is put at the end
is the count `have + 2`, the count `have` and the data. -/
theorem packetizing_buffer_output_wire {τ φ : Type} (BUFFER_DATA_SIZE PACKET_SLOP : Nat)
    (ENOMEM : Int) (pb : packetizing_buffer τ φ) (p : pool) (data : List Byte)
    (f : φ → List Byte → Int × List Byte × φ) (T : List Byte) (cl : φ)
    (hB : 0 < BUFFER_DATA_SIZE) (hhave : data.length ≤ BUFFER_DATA_SIZE)
    (hf : pb.outfn = some f)
    (hT : f pb.fnclosure (be16 data.length ++ data) = (0, T, cl))
    (hslop : T.length ≤ data.length + 2 + PACKET_SLOP)
    (hok : chain_ok BUFFER_DATA_SIZE pb.buf.data) (htail : tail_ok pb.buf.data pb.buf.last)
    (hp : never_exhausted p) :
    ∃ ch lst p1, chain_bytes ch = chain_bytes pb.buf.data ++ (be16 T.length ++ T)
      ∧ packetizing_buffer_output BUFFER_DATA_SIZE PACKET_SLOP ENOMEM pb p data
          = (buf_send_output { pb.buf with data := ch, last := lst } p1).bind (fun s =>
              result.ok ((s.1, (data.length : Int)),
                         { pb with buf := s.2.1, fnclosure := cl }, s.2.2))
      ∧ (T = be16 data.length ++ data →
          chain_bytes ch = chain_bytes pb.buf.data
            ++ (be16 ((data.length : Int) + 2) ++ (be16 data.length ++ data))) := by
  obtain ⟨ch, lst, p1, hby, _, _, _, hrun⟩ :=
    packetizing_buffer_output_queued BUFFER_DATA_SIZE PACKET_SLOP ENOMEM pb p data f T cl
      hB hhave hf hT hslop hok htail hp
  refine ⟨ch, lst, p1, hby, hrun, ?_⟩
  intro hid
  rw [hby]
  have hlen : (T.length : Int) = (data.length : Int) + 2 := by
    rw [hid]; simp only [List.length_append, be16_length]; push_cast; omega
  rw [hlen, hid]

theorem packetizing_buffer_output_wire_witness :
    ((0 < 16 ∧ [(7 : Byte), 8, 9].length ≤ 16
      ∧ identity_transform () (be16 3 ++ [7, 8, 9]) = (0, [0, 3, 7, 8, 9], ())
      ∧ [(0 : Byte), 3, 7, 8, 9].length ≤ 3 + 2 + 2 ∧ never_exhausted ⟨[], 0, none⟩))
    ∧ ∃ ch lst p1, chain_bytes ch = [] ++ (be16 5 ++ [0, 3, 7, 8, 9])
      ∧ packetizing_buffer_output 16 2 12
            (⟨output_buffer [] none accept_all_output (), none, some identity_transform, (),
              0, 0, [], 0, 0⟩ : packetizing_buffer Unit Unit) ⟨[], 0, none⟩ [7, 8, 9]
          = (buf_send_output { output_buffer [] none accept_all_output () with
                               data := ch, last := lst } p1).bind (fun s =>
              result.ok ((s.1, 3),
                ({ buf := s.2.1, inpfn := none, outfn := some identity_transform,
                   fnclosure := (), translated := 0, holdsize := 0, holdbuf := [],
                   holdbufsize := 0, holddata := 0 } : packetizing_buffer Unit Unit), s.2.2))
      ∧ ([(0 : Byte), 3, 7, 8, 9] = be16 3 ++ [7, 8, 9] →
          chain_bytes ch = [] ++ (be16 (3 + 2) ++ (be16 3 ++ [7, 8, 9]))) :=
  ⟨⟨by decide, by decide, rfl, by decide, rfl⟩,
   packetizing_buffer_output_wire 16 2 12
     ⟨output_buffer [] none accept_all_output (), none, some identity_transform, (),
       0, 0, [], 0, 0⟩ ⟨[], 0, none⟩ [7, 8, 9] identity_transform [0, 3, 7, 8, 9] ()
     (by decide) (by decide) rfl rfl (by decide) (by decide) (by decide) rfl⟩

/-- C16: `packetizing_buffer_output` run with a block of one byte, a translation
function that reports the status 5, and the single node 0 on the free list: the call
returns 5, and node 0, taken from the free list for the packet, is afterwards neither on
the free list nor in the chain of the underlying buffer. -/
theorem packetizing_buffer_output_leak :
    ∃ pb' p', packetizing_buffer_output 16 2 12
        (⟨output_buffer [] none accept_all_output (), none, some (failing_transform 5), (),
          0, 0, [], 0, 0⟩ : packetizing_buffer Unit Unit)
        ⟨[⟨0, List.replicate 16 0, 0, 0⟩], 1, none⟩ [7]
      = result.ok ((5, 0), pb', p')
      ∧ pb'.buf.data = [] ∧ p'.free_buffer_data = [] ∧ p'.brk = 1 :=
  ⟨_, _, rfl, rfl, rfl, rfl⟩

/-- C15: `buf_copy_counted` run on a source buffer that satisfies the invariant of the
head and tail pointers and holds one counted record in its single node 1: the node is
moved to the destination, the source is left with `data = NULL` while its `last` still
is the address of node 1, so the source no longer satisfies the invariant. -/
theorem buf_copy_counted_stale_last :
    head_tail_ok (chain_buffer [⟨1, [2, 0, 0, 0, 104, 105, 0, 0], 0, 6⟩] (some 1) none ())
    ∧ head_tail_ok buf_nonio_initialize
    ∧ ∃ rv dest' src' p', buf_copy_counted 8 false buf_nonio_initialize
          (chain_buffer [⟨1, [2, 0, 0, 0, 104, 105, 0, 0], 0, 6⟩] (some 1) none ())
          ⟨[], 2, none⟩
        = result.ok (rv, dest', src', p')
      ∧ chain_bytes dest'.data = [104, 105]
      ∧ src'.data = [] ∧ src'.last = some 1 ∧ ¬ head_tail_ok src' := by
  refine ⟨by decide, by decide, ?_⟩
  exact ⟨_, _, _, _, rfl, by decide, rfl, rfl, by decide⟩

/-- The count stored in two bytes is read back. -/
theorem be16_value_be16 (n : Int) (h0 : 0 ≤ n) (h1 : n < 65536) :
    be16_value (char_of_int (n / 256)) (char_of_int n) = n := by
  simp only [be16_value, char_of_int]
  have e1 : (((n / 256 % 256).toNat : Nat) : Int) = n / 256 % 256 :=
    Int.toNat_of_nonneg (by omega)
  have e2 : (((n % 256).toNat : Nat) : Int) = n % 256 := Int.toNat_of_nonneg (by omega)
  simp only [e1, e2]
  omega

/-- The bytes stored by `memcpy` and those before them. -/
theorem memcpy_take (t s : List Byte) (n : Nat) (h : n + s.length ≤ t.length) :
    (memcpy t (n : Int) s).take (n + s.length) = t.take n ++ s
      ∧ (memcpy t (n : Int) s).length = t.length := by
  unfold memcpy
  have e : ((n : Int)).toNat = n := Int.toNat_natCast n
  rw [e]
  have hl : (List.take n t ++ s).length = n + s.length := by
    simp [List.length_take]; omega
  constructor
  · rw [List.take_left' hl]
  · simp [List.length_take, List.length_drop]; omega

/-- The first loop of `buf_read_data` only moves nodes to the free list. -/
theorem read_data_skip_xmalloc {σ : Type} :
    ∀ (chain : List buffer_data) (buf : buffer σ) (p : pool),
      (read_data_skip chain buf p).2.xmalloc_left = p.xmalloc_left := by
  intro chain
  induction chain with
  | nil => intro buf p; rfl
  | cons d rest ih =>
    intro buf p
    by_cases hz : d.size = 0
    · simp only [read_data_skip, hz, if_true]
      rw [ih]
    · simp only [read_data_skip, hz, if_false]

/-- One `buf_read_data` call on a buffer that holds unread bytes: it returns 0 with a
non-empty view of at most `want` of the first unread bytes. -/
theorem buf_read_data_view {σ : Type} (B : Nat) (buf : buffer σ) (p : pool) (want : Int)
    (inp : σ → Int → Int → Int × List Byte × σ) (hin : buf.input = some inp)
    (hc : chain_ok B buf.data) (hne : chain_bytes buf.data ≠ []) (hw : 1 ≤ want)
    (hp : never_exhausted p) :
    ∃ view ch lst p', buf_read_data B buf p want
        = result.ok ((0, view, (view.length : Int)), { buf with data := ch, last := lst }, p')
      ∧ chain_ok B ch ∧ view ≠ [] ∧ (view.length : Int) ≤ want
      ∧ view ++ chain_bytes ch = chain_bytes buf.data ∧ never_exhausted p' := by
  obtain ⟨d, rest, lst, p', hrun, hpos, hok, hby⟩ := read_data_skip_ok B buf.data buf p hc hne
  have hp' : never_exhausted p' := by
    have := read_data_skip_xmalloc buf.data buf p
    rw [hrun] at this
    unfold never_exhausted at hp ⊢
    simp only at this
    rw [this, hp]
  have hsd := (chain_ok_cons.mp hok).1
  have hlen := seg_bytes_length hsd
  unfold buf_read_data
  simp only [hin, hrun, read_data_take]
  by_cases hlt : want < d.size
  · rw [if_pos hlt]
    obtain ⟨a1, a2, a3⟩ := seg_advance hsd want (by omega) (by omega)
    have e : (((seg_bytes d).take want.toNat).length : Int) = want := by
      simp only [List.length_take]; omega
    refine ⟨(seg_bytes d).take want.toNat,
      { d with size := d.size - want, bufp := d.bufp + want } :: rest, lst, p', ?_, ?_, ?_, ?_,
      ?_, hp'⟩
    · rw [e, ← a2]
      rfl
    · rw [chain_ok_cons]; exact ⟨a1, (chain_ok_cons.mp hok).2⟩
    · intro hnil
      rw [hnil] at e
      simp at e
      omega
    · rw [e]
    · rw [← hby]
      simp only [chain_bytes]
      rw [a3, ← List.append_assoc, List.take_append_drop]
  · rw [if_neg hlt]
    refine ⟨seg_bytes d, { d with size := 0 } :: rest, lst, p', ?_, ?_, ?_, ?_, ?_, hp'⟩
    · rw [hlen]; rfl
    · rw [chain_ok_cons]
      obtain ⟨h1, h2, h3, h4⟩ := hsd
      exact ⟨⟨h1, h2, le_refl _, by simp only; omega⟩, (chain_ok_cons.mp hok).2⟩
    · intro hnil
      rw [hnil] at hlen
      simp at hlen
      omega
    · rw [hlen]; omega
    · rw [← hby]
      simp [chain_bytes, seg_bytes]

/-- The first loop of `buf_read_data` on a chain without unread bytes frees it all. -/
theorem read_data_skip_dry {σ : Type} (B : Nat) :
    ∀ (chain : List buffer_data) (buf : buffer σ) (p : pool),
      chain_ok B chain → chain_bytes chain = [] →
      ∃ lst p', read_data_skip chain buf p = ({ buf with data := [], last := lst }, p')
        ∧ p'.xmalloc_left = p.xmalloc_left := by
  intro chain
  induction chain with
  | nil => intro buf p _ _; exact ⟨buf.last, p, rfl, rfl⟩
  | cons d rest ih =>
    intro buf p hc hb
    obtain ⟨hd, hr⟩ := chain_ok_cons.mp hc
    have hlen := seg_bytes_length hd
    simp only [chain_bytes, List.append_eq_nil] at hb
    have hz : d.size = 0 := by rw [← hlen, hb.1]; rfl
    obtain ⟨lst, p', hrun, hx⟩ :=
      ih { buf with data := rest, last := if rest = [] then none else buf.last }
        { p with free_buffer_data := d :: p.free_buffer_data } hr hb.2
    refine ⟨lst, p', ?_, hx⟩
    simp only [read_data_skip, hz, if_true]
    exact hrun

/-- One `buf_read_data` call on a buffer without unread bytes whose input function has
nothing to give: it returns no byte, with the status of the input function. -/
theorem buf_read_data_dry {σ : Type} (B : Nat) (buf : buffer σ) (p : pool) (want : Int)
    (inp : σ → Int → Int → Int × List Byte × σ) (hin : buf.input = some inp)
    (hnone : gives_nothing inp)
    (hc : chain_ok B buf.data) (hb : chain_bytes buf.data = []) (hw : 0 ≤ want)
    (hp : never_exhausted p) :
    ∃ st buf' p', buf_read_data B buf p want = result.ok ((st, [], 0), buf', p')
      ∧ buf'.input = some inp ∧ chain_ok B buf'.data ∧ chain_bytes buf'.data = []
      ∧ never_exhausted p' := by
  obtain ⟨lst, p1, hrun, hx⟩ := read_data_skip_dry B buf.data buf p hc hb
  have hp1 : never_exhausted p1 := by
    unfold never_exhausted at hp ⊢
    rw [hx, hp]
  obtain ⟨a, p2, hget, hp2⟩ := get_buffer_data_ok B p1 hp1
  unfold buf_read_data
  simp only [hin, hrun, hget]
  rcases hcall : inp buf.closure (if want < ↑B then want else ↑B) ↑B with ⟨status, bytes, cl⟩
  have hbytes : bytes = [] := by
    have := hnone buf.closure (if want < ↑B then want else ↑B) ↑B
    rw [hcall] at this
    exact this
  subst hbytes
  have hmem : memcpy (List.replicate B (0 : Byte)) 0 [] = List.replicate B 0 := by
    simp [memcpy]
  have hseg : seg_ok B ⟨a, List.replicate B 0, 0, 0⟩ := by
    refine ⟨by simp, le_refl _, le_refl _, by simp⟩
  simp only [hmem]
  by_cases hs : status = 0
  · subst hs
    have hnlt : ¬ want < (0 : Int) := by omega
    simp only [ne_eq, not_true_eq_false, if_false, read_data_take, List.length_nil,
      Nat.cast_zero, hnlt]
    refine ⟨0, _, p2, rfl, rfl, ?_, ?_, hp2⟩
    · exact chain_ok_cons.mpr ⟨hseg, chain_ok_nil _⟩
    · simp [chain_bytes, seg_bytes]
  · simp only [ne_eq, hs, not_false_eq_true, if_true]
    refine ⟨status, _, p2, rfl, rfl, ?_, ?_, hp2⟩
    · exact chain_ok_cons.mpr ⟨hseg, chain_ok_nil _⟩
    · simp [chain_bytes, seg_bytes]

/-- A non-empty list of at most two bytes that starts a list. -/
theorem view_cases (view chain : List Byte) (c0 : Byte) (tail : List Byte)
    (hne : view ≠ []) (h : view ++ chain = c0 :: tail) :
    ∃ v, view = c0 :: v ∧ v ++ chain = tail := by
  cases view with
  | nil => exact absurd rfl hne
  | cons b v =>
    simp only [List.cons_append, List.cons.injEq] at h
    exact ⟨v, by rw [h.1], h.2⟩

/-- The block of `packetizing_buffer_input` that gets the two byte count, run when at
least two bytes of the wire are still to be taken: it is left with the count in
`holdbuf`, or repeated with one byte of it there. -/
theorem packetizing_count_step {τ φ : Type} (B : Nat) (ENOMEM : Int)
    (pb : packetizing_buffer τ φ) (p : pool) (inp : τ → Int → Int → Int × List Byte × τ)
    (hold rest : List Byte) (c0 c1 : Byte) (tail : List Byte)
    (hin : pb.buf.input = some inp) (hst : reader_hold B pb hold rest)
    (hwire : hold ++ rest = c0 :: c1 :: tail) (hp : never_exhausted p) :
    ∃ step pb' p' hold' rest', packetizing_count B ENOMEM pb p = result.ok (step, pb', p')
      ∧ pb'.inpfn = pb.inpfn ∧ pb'.fnclosure = pb.fnclosure ∧ pb'.buf.input = some inp
      ∧ never_exhausted p' ∧ reader_hold B pb' hold' rest' ∧ hold' ++ rest' = hold ++ rest
      ∧ hold.length ≤ hold'.length
      ∧ ((step = packet_step.go ∧ 2 ≤ hold'.length ∧ (hold.length < 2 → hold'.length = 2)
            ∧ (2 ≤ hold.length → hold'.length = hold.length))
         ∨ (step = packet_step.again ∧ hold.length < hold'.length ∧ hold'.length < 2)) := by
  obtain ⟨hc, hby, htr, hsz, htk, hlen, h2⟩ := hst
  by_cases hge : 2 ≤ hold.length
  · refine ⟨packet_step.go, pb, p, hold, rest, ?_, rfl, rfl, hin, hp,
      ⟨hc, hby, htr, hsz, htk, hlen, h2⟩, rfl, le_refl _, Or.inl ⟨rfl, hge, fun h => by omega, fun _ => rfl⟩⟩
    have : ¬ pb.holdsize < 2 := by rw [hsz]; omega
    simp only [packetizing_count, this, if_false]
  · have hlt : pb.holdsize < 2 := by rw [hsz]; omega
    have hrest : chain_bytes pb.buf.data ≠ [] := by
      rw [hby]
      intro h
      rw [h, List.append_nil] at hwire
      rw [hwire] at hge
      simp at hge
    obtain ⟨view, ch, lst, p', hrun, hch, hvne, hvlen, hvby, hp'⟩ :=
      buf_read_data_view B pb.buf p (2 - pb.holdsize) inp hin hc hrest (by omega) hp
    rw [hby] at hvby
    have hn2 : ¬ pb.holdbuf.length < 2 := by omega
    obtain ⟨buf, inpfn, outfn, fncl, tr, hs, hb, hbs, hd⟩ := pb
    simp only at hc hby htr hsz htk hlen h2 hlt hrun hin hvlen hn2
    simp only [packetizing_count, hlt, if_true, hrun, result.bind, ne_eq, not_true_eq_false,
      if_false, hn2]
    have hv0 : ¬ ((view.length : Int) = 0) := by
      intro h
      exact hvne (List.length_eq_zero.mp (by exact_mod_cast h))
    simp only [hv0, if_false]
    cases hold with
    | nil =>
      simp only [List.nil_append] at hwire
      rw [hwire] at hvby
      obtain ⟨v, hv, hvt⟩ := view_cases view (chain_bytes ch) c0 (c1 :: tail) hvne hvby
      subst hv
      simp only [List.length_nil, Nat.cast_zero] at hsz
      subst hsz
      have hg1 : ¬ ((2 : Int) - 0 = 1) := by omega
      simp only [hg1, if_false]
      cases v with
      | nil =>
        have hm := memcpy_take hb [c0] 0 (by simp; omega)
        simp only [List.length_singleton, Nat.cast_one, Nat.cast_zero, zero_add,
          List.take_zero, List.nil_append, List.length_cons, List.length_nil] at hm ⊢
        simp only [show ((1 : Int) < 2) from by omega, if_true]
        refine ⟨_, _, p', [c0], chain_bytes ch, rfl, rfl, rfl, hin, hp',
          ⟨hch, rfl, htr, rfl, hm.1, by rw [hm.2]; exact hlen, by rw [hm.2]; exact h2⟩,
          ?_, by simp, Or.inr ⟨rfl, by simp, by simp⟩⟩
        simp only [List.nil_append] at hvt ⊢
        rw [hwire, hvt]
        rfl
      | cons b1 v2 =>
        have hv2 : v2 = [] := by
          simp only [List.length_cons] at hvlen
          have : v2.length = 0 := by push_cast at hvlen; omega
          exact List.length_eq_zero.mp this
        subst hv2
        have hb1 : b1 = c1 := by
          simp only [List.cons_append, List.nil_append, List.cons.injEq] at hvt
          exact hvt.1
        subst hb1
        have hm0 := memcpy_take hb [c0] 0 (by simp; omega)
        have hm1 := memcpy_take (memcpy hb ((0 : Nat) : Int) [c0]) [b1] 1 (by
          rw [hm0.2]; simp; omega)
        simp only [List.length_singleton, Nat.cast_one, Nat.cast_zero, zero_add,
          List.take_zero, List.nil_append, List.length_cons, List.length_nil] at hm0 hm1 ⊢
        have hc2 : ¬ (((1 + 1 : Nat) : Int) < 2) := by omega
        simp only [hc2, if_false]
        refine ⟨_, _, p', [c0, b1], chain_bytes ch, rfl, rfl, rfl, hin, hp',
          ⟨hch, rfl, htr, rfl, ?_, by rw [hm1.2, hm0.2]; exact hlen,
            by rw [hm1.2, hm0.2]; exact h2⟩, ?_, by simp, Or.inl ⟨rfl, by simp, by simp, by simp⟩⟩
        · have := hm1.1
          rw [hm0.1] at this
          simpa using this
        · simp only [List.cons_append, List.nil_append, List.cons.injEq, true_and] at hvt ⊢
          rw [hwire, hvt]
    | cons a hold1 =>
      have hh1 : hold1 = [] := by
        simp only [List.length_cons] at hge
        exact List.length_eq_zero.mp (by omega)
      subst hh1
      simp only [List.cons_append, List.nil_append, List.cons.injEq] at hwire
      obtain ⟨ha, hrest'⟩ := hwire
      subst ha
      rw [hrest'] at hvby
      obtain ⟨v, hv, hvt⟩ := view_cases view (chain_bytes ch) c1 tail hvne hvby
      subst hv
      simp only [List.length_singleton, Nat.cast_one] at hsz
      subst hsz
      simp only [show ((2 : Int) - 1 = 1) from by omega, if_true]
      have hv2 : v = [] := by
        simp only [List.length_cons] at hvlen
        have : v.length = 0 := by push_cast at hvlen; omega
        exact List.length_eq_zero.mp this
      subst hv2
      have hm1 := memcpy_take hb [c1] 1 (by simp; omega)
      simp only [List.length_singleton, Nat.cast_one] at hm1 htk ⊢
      refine ⟨_, _, p', [a, c1], chain_bytes ch, rfl, rfl, rfl, hin, hp',
        ⟨hch, rfl, htr, rfl, ?_, by rw [hm1.2]; exact hlen, by rw [hm1.2]; exact h2⟩, ?_,
        by simp, Or.inl ⟨rfl, by simp, by simp, by simp⟩⟩
      · have := hm1.1
        rw [htk] at this
        simpa using this
      · simp only [List.cons_append, List.nil_append, List.cons.injEq, true_and]
        rw [hrest']
        simp only [List.nil_append] at hvt
        rw [hvt]

/-- A call of `xmalloc` succeeds when the allocator is never exhausted. -/
theorem xmalloc_ok (p : pool) (hp : never_exhausted p) :
    ∃ p1, xmalloc p = some p1 ∧ never_exhausted p1 := by
  unfold never_exhausted at hp
  refine ⟨{ p with xmalloc_left := none }, ?_, rfl⟩
  simp [xmalloc, hp]

/-- The block that makes `holdbuf` large enough for a packet of `count` bytes. -/
theorem packetizing_grow_ok {τ φ : Type} (B : Nat) (pb : packetizing_buffer τ φ) (p : pool)
    (count : Int) (hold rest : List Byte)
    (hst : reader_hold B pb hold rest) (hp : never_exhausted p) :
    ∃ hb hbs p1, packetizing_grow pb p count
        = some ({ pb with holdbuf := hb, holdbufsize := hbs }, p1)
      ∧ reader_hold B { pb with holdbuf := hb, holdbufsize := hbs } hold rest
      ∧ count + 2 ≤ (hb.length : Int) ∧ hb.take 2 = pb.holdbuf.take 2
      ∧ never_exhausted p1 := by
  obtain ⟨hch, hby, htr, hsz, htk, hlen, h2⟩ := hst
  by_cases hgrow : count + 2 > pb.holdbufsize
  · obtain ⟨p1, hx, hp1⟩ := xmalloc_ok p hp
    refine ⟨pb.holdbuf ++ List.replicate (count + 2 - pb.holdbufsize).toNat 0, count + 2, p1,
      ?_, ⟨hch, hby, htr, hsz, ?_, ?_, ?_⟩, ?_, ?_, hp1⟩
    · simp only [packetizing_grow, hgrow, if_true, hx]
    · have hle : hold.length ≤ pb.holdbuf.length := by
        have := congrArg List.length htk
        simp only [List.length_take] at this
        omega
      simp only
      rw [List.take_append_of_le_length hle]
      exact htk
    · simp only [List.length_append, List.length_replicate]
      push_cast
      rw [Int.toNat_of_nonneg (by omega)]
      omega
    · simp only [List.length_append]; omega
    · simp only [List.length_append, List.length_replicate]
      push_cast
      rw [Int.toNat_of_nonneg (by omega)]
      omega
    · rw [List.take_append_of_le_length h2]
  · refine ⟨pb.holdbuf, pb.holdbufsize, p, ?_, ⟨hch, hby, htr, hsz, htk, hlen, h2⟩, ?_, rfl, hp⟩
    · simp only [packetizing_grow, hgrow, if_false]
    · omega

/-- The end of the loop body of `packetizing_buffer_input` for a packet whose
translation function gives back a count and the bytes `x`: all of `x` is handed over when
it fits in `size` bytes; otherwise `size` bytes of it are, the others being held. -/
theorem packetizing_untranslate_ok {τ φ : Type} (B SLOP : Nat) (ENOMEM : Int)
    (pb : packetizing_buffer τ φ) (p : pool) (inbuf x : List Byte) (count size : Int)
    (g : φ → List Byte → Int × List Byte × φ) (hg : pb.inpfn = some g)
    (hG : (g pb.fnclosure inbuf).1 = 0 ∧ (g pb.fnclosure inbuf).2.1 = be16 x.length ++ x)
    (hx : x.length < 65536) (hxc : (x.length : Int) ≤ count)
    (hcap : count ≤ (B : Int) + SLOP → (x.length : Int) + 2 ≤ (B : Int) + SLOP)
    (hcap2 : (B : Int) + SLOP < count → (x.length : Int) + 2 ≤ count)
    (hsize : 0 < size) (hp : never_exhausted p) :
    ∃ cl, packetizing_untranslate B SLOP ENOMEM pb p inbuf count size
      = if (x.length : Int) ≤ size then
          result.ok (packet_step.more x, { pb with fnclosure := cl, holdsize := 0 }, p)
        else
          result.ok (packet_step.last (x.take size.toNat),
            { pb with fnclosure := cl, holdsize := (x.length : Int) - size,
                      holdbuf := memcpy pb.holdbuf 0 (x.drop size.toNat),
                      holddata := 0, translated := 1 }, p) := by
  rcases hcall : g pb.fnclosure inbuf with ⟨status, out, cl⟩
  rw [hcall] at hG
  simp only at hG
  obtain ⟨hs, ho⟩ := hG
  subst hs ho
  refine ⟨cl, ?_⟩
  obtain ⟨p1, hx1, _⟩ := xmalloc_ok p hp
  have hval : be16_value (char_of_int ((x.length : Int) / 256)) (char_of_int (x.length : Int))
      = (x.length : Int) := be16_value_be16 _ (by omega) (by omega)
  have hnf : ¬ ((x.length : Int) > count) := by omega
  have hnb : ¬ ((x.length : Int) < (x.length : Int)) := by omega
  have hoL : ((be16 (x.length : Int) ++ x).length : Int) = (x.length : Int) + 2 := by
    simp only [List.length_append, be16_length]; push_cast; omega
  have htake : List.take (x.length : Int).toNat x = x := by
    rw [Int.toNat_natCast]; exact List.take_length x
  by_cases hroom : count ≤ (B : Int) + SLOP
  · have hfit : ¬ (((be16 (x.length : Int) ++ x).length : Int) > (B : Int) + SLOP) := by
      rw [hoL]; have := hcap hroom; omega
    unfold packetizing_untranslate
    simp only [hroom, if_true, hg, hcall, hfit, if_false, ne_eq, not_true_eq_false]
    simp only [be16, List.cons_append, List.nil_append, hval, hnf, hnb, if_false]
    by_cases hle : (x.length : Int) ≤ size
    · have : ¬ ((x.length : Int) > size) := by omega
      simp only [this, if_false, hle, if_true, htake]
    · have h1 : (x.length : Int) > size := by omega
      have h2 : List.take ((x.length : Int) - size).toNat (List.drop size.toNat x)
          = List.drop size.toNat x := by
        apply List.take_of_length_le
        simp only [List.length_drop]
        omega
      simp only [h1, if_true, hle, if_false, h2]
  · have hfit : ¬ (((be16 (x.length : Int) ++ x).length : Int) > count) := by
      rw [hoL]; have := hcap2 (by omega); omega
    unfold packetizing_untranslate
    simp only [hroom, if_false, hx1, Option.map_some', hg, hcall, hfit, ne_eq,
      not_true_eq_false]
    simp only [be16, List.cons_append, List.nil_append, hval, hnf, hnb, if_false]
    by_cases hle : (x.length : Int) ≤ size
    · have : ¬ ((x.length : Int) > size) := by omega
      simp only [this, if_false, hle, if_true, htake]
    · have h1 : (x.length : Int) > size := by omega
      have h2 : List.take ((x.length : Int) - size).toNat (List.drop size.toNat x)
          = List.drop size.toNat x := by
        apply List.take_of_length_le
        simp only [List.length_drop]
        omega
      simp only [h1, if_true, hle, if_false, h2]

/-- A list that starts a concatenation and is no longer than its first part. -/
theorem prefix_split {α : Type} (a b P R : List α) (h : a ++ b = P ++ R)
    (hle : a.length ≤ P.length) : a = P.take a.length ∧ b = P.drop a.length ++ R := by
  have h1 := congrArg (List.take a.length) h
  have h2 := congrArg (List.drop a.length) h
  rw [List.take_left' rfl, List.take_append_of_le_length hle] at h1
  rw [List.drop_left' rfl, List.drop_append_of_le_length hle] at h2
  exact ⟨h1, h2⟩

/-- The packet body behind a two byte count at the start of an array. -/
theorem drop_two_take (l A T : List Byte) (hA : A.length = 2)
    (h : l.take (2 + T.length) = A ++ T) : (l.drop 2).take T.length = T := by
  have h1 := congrArg (List.drop 2) h
  rw [List.drop_take, List.drop_left' hA] at h1
  simpa using h1

/-- The part "Read the packet" of the loop body of `packetizing_buffer_input`, run on a
state that holds at least the count of a packet `T` still incomplete: either more of the
packet is held afterwards, or the packet is complete and the bytes `x` it translates to
are handed over, in part when `size` is less than their number. -/
theorem packetizing_packet_step {τ φ : Type} (B SLOP : Nat) (ENOMEM : Int)
    (pb : packetizing_buffer τ φ) (p : pool) (size : Int)
    (inp : τ → Int → Int → Int × List Byte × τ) (g : φ → List Byte → Int × List Byte × φ)
    (hold rest T R x : List Byte)
    (hin : pb.buf.input = some inp) (hg : pb.inpfn = some g)
    (hG : ∀ cl, (g cl T).1 = 0 ∧ (g cl T).2.1 = be16 x.length ++ x)
    (hst : reader_hold B pb hold rest) (hwire : hold ++ rest = be16 T.length ++ T ++ R)
    (h2 : 2 ≤ hold.length) (hlt : hold.length < 2 + T.length)
    (hT : T.length < 65536) (hx : x.length < 65536) (hxT : x.length ≤ T.length)
    (hcap : (T.length : Int) ≤ (B : Int) + SLOP → (x.length : Int) + 2 ≤ (B : Int) + SLOP)
    (hcap2 : (B : Int) + SLOP < (T.length : Int) → (x.length : Int) + 2 ≤ (T.length : Int))
    (hsize : 0 < size) (hp : never_exhausted p) :
    ∃ step pb' p', packetizing_packet B SLOP ENOMEM pb p size = result.ok (step, pb', p')
      ∧ pb'.inpfn = some g ∧ pb'.buf.input = some inp ∧ never_exhausted p'
      ∧ ((step = packet_step.again ∧ ∃ hold' rest', reader_hold B pb' hold' rest'
            ∧ hold' ++ rest' = hold ++ rest ∧ hold.length < hold'.length
            ∧ hold'.length < 2 + T.length)
         ∨ (step = packet_step.more x ∧ (x.length : Int) ≤ size ∧ reader_hold B pb' [] R)
         ∨ (step = packet_step.last (x.take size.toNat) ∧ size < (x.length : Int)
            ∧ reader_translated B pb' (x.drop size.toNat) R)) := by
  have hPlen : (be16 (T.length : Int) ++ T).length = 2 + T.length := by
    simp only [List.length_append, be16_length]
  rw [List.append_assoc, ← List.append_assoc (be16 _)] at hwire
  obtain ⟨hhold, hrest⟩ := prefix_split hold rest (be16 (T.length : Int) ++ T) R hwire (by omega)
  have hval : be16_value (char_of_int ((T.length : Int) / 256)) (char_of_int (T.length : Int))
      = (T.length : Int) := be16_value_be16 _ (by omega) (by omega)
  obtain ⟨hb, hbs, p1, hgrow, hst1, hroomhb, htk2, hp1⟩ :=
    packetizing_grow_ok B pb p (T.length : Int) hold rest hst hp
  obtain ⟨hch, hby, htr, hsz, htk, hlen, hl2⟩ := hst
  obtain ⟨_, _, _, _, htk1, hlen1, hl21⟩ := hst1
  simp only at htk1 hlen1 hl21
  -- the count at the start of holdbuf
  have hhold2 : hold.take 2 = be16 (T.length : Int) := by
    rw [hhold, List.take_take, Nat.min_eq_left h2,
      List.take_append_of_le_length (by rw [be16_length])]
    exact List.take_of_length_le (by rw [be16_length])
  have hpbtake : pb.holdbuf.take 2 = be16 (T.length : Int) := by
    rw [← hhold2, ← htk, List.take_take, Nat.min_eq_left h2]
  obtain ⟨tl, htl⟩ : ∃ tl, pb.holdbuf
      = char_of_int ((T.length : Int) / 256) :: char_of_int (T.length : Int) :: tl := by
    rcases hpb : pb.holdbuf with _ | ⟨a, _ | ⟨b, tl⟩⟩
    · rw [hpb] at hl2; simp at hl2
    · rw [hpb] at hl2; simp at hl2
    · rw [hpb] at hpbtake
      simp only [List.take_succ_cons, List.take_zero, be16, List.cons.injEq, and_true]
        at hpbtake
      exact ⟨tl, by rw [hpbtake.1, hpbtake.2]⟩
  -- what is still to be taken from the underlying buffer
  have hrne : chain_bytes pb.buf.data ≠ [] := by
    rw [hby, hrest]
    intro h
    have := congrArg List.length h
    simp only [List.length_append, List.length_drop, hPlen, List.length_nil] at this
    omega
  obtain ⟨view, ch, lst, p2, hrun, hch2, hvne, hvlen, hvby, hp2⟩ :=
    buf_read_data_view B pb.buf p1 ((T.length : Int) - (pb.holdsize - 2)) inp hin hch hrne
      (by rw [hsz]; omega) hp1
  rw [hby] at hvby
  rw [hsz] at hvlen hrun
  have hnroom : ¬ ((hb.length : Int) < (T.length : Int) + 2) := by omega
  have hv0 : ¬ ((view.length : Int) = 0) := by
    intro h
    exact hvne (List.length_eq_zero.mp (by exact_mod_cast h))
  obtain ⟨buf, inpfn, outfn, fncl, tr, hs, hb0, hbs0, hd⟩ := pb
  simp only at hin hg hch hby htr hsz htk hlen hl2 htk2 htl hrun hgrow
  subst htl hsz hg
  simp only [packetizing_packet, hval, hgrow, hnroom, if_false, hrun, result.bind, ne_eq,
    not_true_eq_false, hv0]
  have hholdhb : (hold.length : Int).toNat = hold.length := Int.toNat_natCast _
  by_cases hpart : (view.length : Int) < (T.length : Int) - ((hold.length : Int) - 2)
  · -- part of the packet
    simp only [hpart, if_true]
    have hm := memcpy_take hb view hold.length (by omega)
    refine ⟨_, _, p2, rfl, rfl, hin, hp2, Or.inl ⟨rfl, hold ++ view, chain_bytes ch,
      ⟨hch2, rfl, htr, by simp, ?_, by rw [hm.2]; exact hlen1, by rw [hm.2]; exact hl21⟩,
      by rw [List.append_assoc, hvby], by simp; exact List.length_pos.mpr hvne,
      by simp only [List.length_append]; omega⟩⟩
    simp only [List.length_append]
    rw [hm.1, htk1]
  · -- the whole packet
    simp only [hpart, if_false]
    have hvl : hold.length + view.length = 2 + T.length := by omega
    have hall : (hold ++ view) ++ chain_bytes ch = (be16 (T.length : Int) ++ T) ++ R := by
      rw [List.append_assoc, hvby]; exact hwire
    obtain ⟨hpk, hR⟩ := List.append_inj hall (by simp only [List.length_append, be16_length] at hvl ⊢; omega)
    have hun : ∀ (q : packetizing_buffer τ φ), q.inpfn = some g →
        ∃ cl', packetizing_untranslate B SLOP ENOMEM q p2 T (T.length : Int) size
          = if (x.length : Int) ≤ size then
              result.ok (packet_step.more x, { q with fnclosure := cl', holdsize := 0 }, p2)
            else
              result.ok (packet_step.last (x.take size.toNat),
                { q with fnclosure := cl', holdsize := (x.length : Int) - size,
                         holdbuf := memcpy q.holdbuf 0 (x.drop size.toNat),
                         holddata := 0, translated := 1 }, p2) := by
      intro q hq
      exact packetizing_untranslate_ok B SLOP ENOMEM q p2 T x (T.length : Int) size g hq
        (hG _) hx (by exact_mod_cast hxT) hcap hcap2 hsize hp2
    -- the state after the packet, for either way of handing it over
    have hfin : ∀ (q : packetizing_buffer τ φ), q.inpfn = some g → q.buf.input = some inp →
        chain_ok B q.buf.data → chain_bytes q.buf.data = R → q.translated = 0 →
        (q.holdbuf.length : Int) = q.holdbufsize → 2 ≤ q.holdbuf.length →
        (T.length : Int) ≤ (q.holdbuf.length : Int) →
        ∃ step pb', packetizing_untranslate B SLOP ENOMEM q p2 T (T.length : Int) size
            = result.ok (step, pb', p2)
          ∧ pb'.inpfn = some g ∧ pb'.buf.input = some inp
          ∧ ((step = packet_step.more x ∧ (x.length : Int) ≤ size ∧ reader_hold B pb' [] R)
             ∨ (step = packet_step.last (x.take size.toNat) ∧ size < (x.length : Int)
                ∧ reader_translated B pb' (x.drop size.toNat) R)) := by
      intro q hq hqi hqc hqb hqt hql hq2 hqT
      obtain ⟨cl', hrun'⟩ := hun q hq
      by_cases hle : (x.length : Int) ≤ size
      · rw [if_pos hle] at hrun'
        exact ⟨_, _, hrun', hq, hqi, Or.inl ⟨rfl, hle,
          ⟨hqc, hqb, hqt, by simp, by simp, hql, hq2⟩⟩⟩
      · rw [if_neg hle] at hrun'
        have hdl : (x.drop size.toNat).length = x.length - size.toNat := List.length_drop _ _
        have hm := memcpy_take q.holdbuf (x.drop size.toNat) 0 (by rw [hdl]; omega)
        simp only [Nat.cast_zero, zero_add, List.take_zero, List.nil_append] at hm
        refine ⟨_, _, hrun', hq, hqi, Or.inr ⟨rfl, by omega,
          ⟨hqc, hqb, by simp, ?_, ?_, le_refl _, ?_, by rw [hm.2]; exact hql,
            by rw [hm.2]; exact hq2⟩⟩⟩
        · simp only [hdl]; omega
        · intro h
          rw [h] at hdl
          simp at hdl
          omega
        · simp only [Int.toNat_zero, List.drop_zero]
          exact hm.1
    have hm := memcpy_take hb view hold.length (by omega)
    by_cases h22 : (hold.length : Int) = 2
    · have hl2' : hold.length = 2 := by exact_mod_cast h22
      obtain ⟨_, hvT⟩ := List.append_inj hpk (by rw [hl2', be16_length])
      subst hvT
      simp only [h22, if_true]
      obtain ⟨step, pb', hr, h1, h2', h3⟩ :=
        hfin ⟨⟨ch, lst, buf.nonblocking, buf.input, buf.output, buf.flush, buf.block,
                buf.shutdown, buf.closure, buf.calls⟩, some g, outfn, fncl, tr, 2, hb, hbs, hd⟩
          rfl hin hch2 hR htr hlen1 hl21 (show (view.length : Int) ≤ (hb.length : Int) by omega)
      exact ⟨step, pb', p2, hr, h1, h2', hp2, Or.inr h3⟩
    · simp only [h22, if_false]
      have hin2 : List.take (T.length : Int).toNat
          (List.drop 2 (memcpy hb (hold.length : Int) view)) = T := by
        rw [Int.toNat_natCast]
        apply drop_two_take _ (be16 (T.length : Int)) T (be16_length _)
        rw [← hvl, hm.1, htk1, hpk]
      rw [hin2]
      obtain ⟨step, pb', hr, h1, h2', h3⟩ :=
        hfin ⟨⟨ch, lst, buf.nonblocking, buf.input, buf.output, buf.flush, buf.block,
                buf.shutdown, buf.closure, buf.calls⟩, some g, outfn, fncl, tr, hold.length,
              memcpy hb (hold.length : Int) view, hbs, hd⟩
          rfl hin hch2 hR htr (by rw [hm.2]; exact hlen1) (by rw [hm.2]; exact hl21)
          (show (T.length : Int) ≤ ((memcpy hb (hold.length : Int) view).length : Int) by
            rw [hm.2]; omega)
      exact ⟨step, pb', p2, hr, h1, h2', hp2, Or.inr h3⟩

/-- The loop of `packetizing_buffer_input` run, with enough fuel, on a state in which a
packet `T` is still to be completed from the underlying buffer and `need` is at most the
number of bytes `x` it translates to: the loop returns 0 once the packet is complete,
having handed over `x`, or the first `size` bytes of `x` when `x` has more. -/
theorem packetizing_input_loop_packet {τ φ : Type} (B SLOP : Nat) (ENOMEM : Int)
    (inp : τ → Int → Int → Int × List Byte × τ) (g : φ → List Byte → Int × List Byte × φ)
    (T R x : List Byte) (need size : Int)
    (hG : ∀ cl, (g cl T).1 = 0 ∧ (g cl T).2.1 = be16 x.length ++ x)
    (hT : T.length < 65536) (hx : x.length < 65536) (hxT : x.length ≤ T.length)
    (hcap : (T.length : Int) ≤ (B : Int) + SLOP → (x.length : Int) + 2 ≤ (B : Int) + SLOP)
    (hcap2 : (B : Int) + SLOP < (T.length : Int) → (x.length : Int) + 2 ≤ (T.length : Int))
    (hx1 : x ≠ []) (hsize : 0 < size) (hneed : need - (x.length : Int) ≤ 0) :
    ∀ (fuel : Nat) (pb : packetizing_buffer τ φ) (p : pool) (acc hold rest : List Byte),
      pb.buf.input = some inp → pb.inpfn = some g → reader_hold B pb hold rest →
      hold ++ rest = be16 T.length ++ T ++ R → hold.length < 2 + T.length →
      rest.length < fuel → (need > 0 ∨ acc = []) → never_exhausted p →
      ∃ pb' p', packetizing_input_loop B SLOP ENOMEM fuel pb p acc need size
          = result.ok ((0, acc ++ x.take size.toNat), pb', p')
        ∧ pb'.inpfn = some g ∧ pb'.buf.input = some inp ∧ never_exhausted p'
        ∧ (((x.length : Int) ≤ size ∧ reader_hold B pb' [] R)
           ∨ (size < (x.length : Int) ∧ reader_translated B pb' (x.drop size.toNat) R)) := by
  have hxpos : 0 < x.length := List.length_pos.mpr hx1
  intro fuel
  induction fuel with
  | zero => intro pb p acc hold rest _ _ _ _ _ h; omega
  | succ n ih =>
    intro pb p acc hold rest hin hg hst hwire hlt hfuel hcond hp
    have hwl := congrArg List.length hwire
    simp only [List.length_append, be16_length] at hwl
    obtain ⟨c0, c1, tail, htail⟩ : ∃ c0 c1 tail, hold ++ rest = c0 :: c1 :: tail := by
      rw [hwire]
      exact ⟨_, _, _, rfl⟩
    obtain ⟨step, pb1, p1, hold1, rest1, hrun1, hg1, _, hin1, hp1, hst1, hw1, hle1, hstep1⟩ :=
      packetizing_count_step B ENOMEM pb p inp hold rest c0 c1 tail hin hst htail hp
    have hl1 := congrArg List.length hw1
    simp only [List.length_append] at hl1
    rw [packetizing_input_loop]
    simp only [hcond, if_true, hrun1, result.bind]
    rcases hstep1 with ⟨hs, h2, h3, h4⟩ | ⟨hs, h2, h3⟩
    · subst hs
      simp only
      have hlt1 : hold1.length < 2 + T.length := by
        by_cases hh : hold.length < 2
        · rw [h3 hh]; omega
        · rw [h4 (by omega)]; exact hlt
      obtain ⟨step2, pb2, p2, hrun2, hg2, hin2, hp2, hcases⟩ :=
        packetizing_packet_step B SLOP ENOMEM pb1 p1 size inp g hold1 rest1 T R x hin1
          (by rw [hg1, hg]) hG hst1 (by rw [hw1, hwire]) h2 hlt1 hT hx hxT hcap hcap2 hsize hp1
      simp only [hrun2]
      rcases hcases with ⟨hs2, hold2, rest2, hst2, hw2, hlt2, hlt3⟩ | ⟨hs2, hle, hst2⟩
          | ⟨hs2, hgt, hst2⟩
      · subst hs2
        simp only
        have hl2 := congrArg List.length hw2
        simp only [List.length_append] at hl2
        exact ih pb2 p2 acc hold2 rest2 hin2 hg2 hst2 (by rw [hw2, hw1, hwire]) hlt3
          (by omega) hcond hp2
      · subst hs2
        simp only
        have hn : 0 < n := by omega
        obtain ⟨m, hm⟩ : ∃ m, n = m + 1 := ⟨n - 1, by omega⟩
        subst hm
        have hexit : ¬ (need - (x.length : Int) > 0 ∨ acc ++ x = []) := by
          intro h
          rcases h with h | h
          · omega
          · exact hx1 (List.append_eq_nil.mp h).2
        have htake : x.take size.toNat = x := by
          apply List.take_of_length_le
          omega
        rw [packetizing_input_loop]
        simp only [hexit, if_false, htake]
        exact ⟨pb2, p2, rfl, hg2, hin2, hp2, Or.inl ⟨hle, hst2⟩⟩
      · subst hs2
        simp only
        exact ⟨pb2, p2, rfl, hg2, hin2, hp2, Or.inr ⟨hgt, hst2⟩⟩
    · subst hs
      simp only
      exact ih pb1 p1 acc hold1 rest1 hin1 (by rw [hg1, hg]) hst1 (by rw [hw1, hwire])
        (by omega) (by omega) hcond hp1

/-- The loop of `packetizing_buffer_input` run between two packets when the underlying
buffer has no byte and its input function none to give: it returns at once, with the
status of that function and without handing over another byte. -/
theorem packetizing_input_loop_dry {τ φ : Type} (B SLOP : Nat) (ENOMEM : Int)
    (inp : τ → Int → Int → Int × List Byte × τ) (hnone : gives_nothing inp)
    (fuel : Nat) (pb : packetizing_buffer τ φ) (p : pool) (acc : List Byte) (need size : Int)
    (hin : pb.buf.input = some inp) (hst : reader_hold B pb [] [])
    (hp : never_exhausted p) :
    ∃ st pb' p', packetizing_input_loop B SLOP ENOMEM (fuel + 1) pb p acc need size
        = result.ok ((st, acc), pb', p') := by
  obtain ⟨hc, hby, htr, hsz, htk, hlen, h2⟩ := hst
  simp only [List.length_nil, Nat.cast_zero] at hsz
  rw [packetizing_input_loop]
  by_cases hcond : need > 0 ∨ acc = []
  · obtain ⟨st, buf', p', hrun, _, _, _, _⟩ :=
      buf_read_data_dry B pb.buf p (2 - pb.holdsize) inp hin hnone hc hby (by omega) hp
    have hlt : pb.holdsize < 2 := by omega
    simp only [hcond, if_true, packetizing_count, hlt, hrun, result.bind]
    by_cases hs : st = 0
    · simp [hs]
    · simp [hs]
  · simp only [hcond, if_false]
    exact ⟨0, pb, p, rfl⟩

/-- A call of `packetizing_buffer_input` on a state that holds translated bytes `y`:
it returns 0 and hands over `y`, or the first `size` bytes of `y` when `y` has more,
the others staying held. -/
theorem packetizing_buffer_input_held {τ φ : Type} (B SLOP : Nat) (ENOMEM : Int)
    (fuel : Nat) (pb : packetizing_buffer τ φ) (p : pool) (need size : Int)
    (y W : List Byte) (hst : reader_translated B pb y W)
    (hneed : need ≤ 1) (hsize : 0 < size) :
    ∃ pb', packetizing_buffer_input B SLOP ENOMEM (fuel + 1) pb p need size
        = result.ok ((0, y.take size.toNat), pb', p)
      ∧ pb'.inpfn = pb.inpfn ∧ pb'.buf.input = pb.buf.input
      ∧ (((y.length : Int) ≤ size ∧ reader_hold B pb' [] W)
         ∨ (size < (y.length : Int) ∧ reader_translated B pb' (y.drop size.toNat) W)) := by
  obtain ⟨hc, hby, htr, hsz, hy, hd0, htk, hlen, h2⟩ := hst
  have hypos : 0 < y.length := List.length_pos.mpr hy
  have hcond : pb.holdsize > 0 ∧ pb.translated ≠ 0 := ⟨by rw [hsz]; omega, htr⟩
  unfold packetizing_buffer_input
  rw [if_pos hcond]
  obtain ⟨buf, inpfn, outfn, fncl, tr, hs, hb, hbs, hd⟩ := pb
  simp only at hc hby htr hsz hd0 htk hlen h2 ⊢
  subst hsz
  by_cases hgt : (y.length : Int) > size
  · rw [if_pos hgt]
    have hs : size.toNat ≤ y.length := by omega
    have hout : List.take size.toNat (List.drop hd.toNat hb) = List.take size.toNat y := by
      rw [← htk, List.take_take, Nat.min_eq_left hs]
    rw [hout]
    refine ⟨_, rfl, rfl, rfl, Or.inr ⟨by omega, ⟨hc, hby, htr, ?_, ?_, ?_, ?_, hlen, h2⟩⟩⟩
    · simp only [List.length_drop]; omega
    · intro h
      have := congrArg List.length h
      simp only [List.length_drop, List.length_nil] at this
      omega
    · simp only; omega
    · simp only [List.length_drop]
      have e : (hd + size).toNat = hd.toNat + size.toNat := by omega
      have h := congrArg (List.drop size.toNat) htk
      rw [List.drop_take] at h
      rw [e, ← List.drop_drop]
      exact h
  · rw [if_neg hgt]
    have hle : (y.length : Int) ≤ size := by omega
    have hacc : List.take (y.length : Int).toNat (List.drop hd.toNat hb) = y := by
      rw [Int.toNat_natCast]; exact htk
    have hexit : ¬ (need - (y.length : Int) > 0 ∨ y = []) := by
      intro h
      rcases h with h | h
      · omega
      · exact hy h
    have htake : y.take size.toNat = y := by
      apply List.take_of_length_le
      omega
    rw [hacc, packetizing_input_loop]
    simp only [hexit, if_false, htake]
    exact ⟨_, rfl, rfl, rfl, Or.inl ⟨hle, ⟨hc, hby, rfl, by simp, by simp, hlen, h2⟩⟩⟩

/-- A call of `packetizing_buffer_input`, with `need <= 1` and enough fuel, on a state
between two packets when the packet of the block `x` is queued on the underlying buffer:
it returns 0 and hands over `x`, or its first `size` bytes when `x` has more, the others
being held. -/
theorem packetizing_buffer_input_packet {τ φ : Type} (B SLOP : Nat) (ENOMEM : Int)
    (inp : τ → Int → Int → Int × List Byte × τ) (g : φ → List Byte → Int × List Byte × φ)
    (F G : List Byte → List Byte) (hg : ∀ cl y, (g cl y).1 = 0 ∧ (g cl y).2.1 = G y)
    (fuel : Nat) (pb : packetizing_buffer τ φ) (p : pool) (need size : Int)
    (x R : List Byte) (hin : pb.buf.input = some inp) (hgf : pb.inpfn = some g)
    (hst : reader_hold B pb [] (packet_bytes F x ++ R)) (hx : piece_ok B SLOP F G x)
    (hfuel : (packet_bytes F x ++ R).length < fuel)
    (hneed : need ≤ 1) (hsize : 0 < size) (hp : never_exhausted p) :
    ∃ pb' p', packetizing_buffer_input B SLOP ENOMEM fuel pb p need size
        = result.ok ((0, x.take size.toNat), pb', p')
      ∧ pb'.inpfn = some g ∧ pb'.buf.input = some inp ∧ never_exhausted p'
      ∧ (((x.length : Int) ≤ size ∧ reader_hold B pb' [] R)
         ∨ (size < (x.length : Int) ∧ reader_translated B pb' (x.drop size.toNat) R)) := by
  obtain ⟨hx1, hx2, hx3, hx4, hx5, hx6, hx7⟩ := hx
  have hxpos : 0 < x.length := List.length_pos.mpr hx1
  have hsz := hst.2.2.2.1
  simp only [List.length_nil, Nat.cast_zero] at hsz
  have hcond : ¬ (pb.holdsize > 0 ∧ pb.translated ≠ 0) := by
    intro h; rw [hsz] at h; omega
  unfold packetizing_buffer_input
  simp only [hcond, if_false]
  have hloop := packetizing_input_loop_packet B SLOP ENOMEM inp g (F (be16 x.length ++ x)) R x
    need size (fun cl => by
      have h := hg cl (F (be16 x.length ++ x))
      rw [hx5] at h
      exact h) hx3 hx2 hx4
    (by intro h; have := hx6 (by exact_mod_cast h); exact_mod_cast this)
    (by intro h; have := hx7 (by exact_mod_cast h); exact_mod_cast this)
    hx1 hsize (by omega) fuel pb p [] [] (packet_bytes F x ++ R) hin hgf hst
    (by simp only [List.nil_append, packet_bytes]) (by simp) hfuel (Or.inr rfl) hp
  simpa using hloop

/-- A call of `packetizing_buffer_input` on a state between two packets when the
underlying buffer has no byte and its input function none to give: no byte is handed
over. -/
theorem packetizing_buffer_input_dry {τ φ : Type} (B SLOP : Nat) (ENOMEM : Int)
    (inp : τ → Int → Int → Int × List Byte × τ) (hnone : gives_nothing inp)
    (fuel : Nat) (pb : packetizing_buffer τ φ) (p : pool) (need size : Int)
    (hin : pb.buf.input = some inp) (hst : reader_hold B pb [] [])
    (hp : never_exhausted p) :
    ∃ st pb' p', packetizing_buffer_input B SLOP ENOMEM (fuel + 1) pb p need size
        = result.ok ((st, []), pb', p') := by
  have hsz := hst.2.2.2.1
  simp only [List.length_nil, Nat.cast_zero] at hsz
  have hcond : ¬ (pb.holdsize > 0 ∧ pb.translated ≠ 0) := by
    intro h; rw [hsz] at h; omega
  unfold packetizing_buffer_input
  simp only [hcond, if_false]
  exact packetizing_input_loop_dry B SLOP ENOMEM inp hnone fuel pb p [] need size hin hst hp

/-- Reading to the end: repeated calls of `packetizing_buffer_input` with `need <= 1`
and `size > 0`, given enough fuel, hand over the translated bytes still held and then
the blocks whose packets are queued on the underlying buffer, in order. -/
theorem packetizing_read_all_ok {τ φ : Type} (B SLOP : Nat) (ENOMEM : Int)
    (inp : τ → Int → Int → Int × List Byte × τ) (g : φ → List Byte → Int × List Byte × φ)
    (F G : List Byte → List Byte) (hg : ∀ cl y, (g cl y).1 = 0 ∧ (g cl y).2.1 = G y)
    (hnone : gives_nothing inp) (need size : Int) (hneed : need ≤ 1) (hsize : 0 < size)
    (fuel : Nat) :
    ∀ (n : Nat) (pb : packetizing_buffer τ φ) (p : pool) (y : List Byte)
      (xs : List (List Byte)),
      pb.buf.input = some inp → pb.inpfn = some g →
      ((y = [] ∧ reader_hold B pb [] (wire_bytes F xs))
        ∨ (y ≠ [] ∧ reader_translated B pb y (wire_bytes F xs))) →
      (∀ x ∈ xs, piece_ok B SLOP F G x) → (wire_bytes F xs).length < fuel →
      (y ++ xs.flatten).length < n → never_exhausted p →
      ∃ pb' p', packetizing_read_all B SLOP ENOMEM fuel need size n pb p
          = result.ok (y ++ xs.flatten, pb', p') := by
  intro n
  induction n with
  | zero => intro pb p y xs _ _ _ _ _ h; omega
  | succ m ih =>
    intro pb p y xs hin hgf hst hxs hfuel hn hp
    obtain ⟨f, hf⟩ : ∃ f, fuel = f + 1 := ⟨fuel - 1, by omega⟩
    have hs1 : 1 ≤ size.toNat := by omega
    rw [packetizing_read_all]
    rcases hst with ⟨hy, hst⟩ | ⟨hy, hst⟩
    · subst hy
      cases xs with
      | nil =>
        have hw : wire_bytes F [] = [] := rfl
        rw [hw] at hst
        obtain ⟨st, pb', p', hrun⟩ :=
          packetizing_buffer_input_dry B SLOP ENOMEM inp hnone f pb p need size hin hst hp
        rw [hf, hrun]
        simp [result.bind]
      | cons x xs' =>
        have hw : wire_bytes F (x :: xs') = packet_bytes F x ++ wire_bytes F xs' := by
          simp [wire_bytes]
        rw [hw] at hst hfuel
        have hx := hxs x (List.mem_cons_self _ _)
        obtain ⟨pb', p', hrun, hg', hin', hp', hcases⟩ :=
          packetizing_buffer_input_packet B SLOP ENOMEM inp g F G hg fuel pb p need size x
            (wire_bytes F xs') hin hgf hst hx hfuel hneed hsize hp
        have hxpos : 0 < x.length := List.length_pos.mpr hx.1
        have hne : x.take size.toNat ≠ [] := by
          intro h
          have := congrArg List.length h
          simp only [List.length_take, List.length_nil] at this
          omega
        have hst' : (x.drop size.toNat = [] ∧ reader_hold B pb' [] (wire_bytes F xs'))
            ∨ (x.drop size.toNat ≠ [] ∧ reader_translated B pb' (x.drop size.toNat)
                (wire_bytes F xs')) := by
          rcases hcases with ⟨hle, h⟩ | ⟨_, h⟩
          · exact Or.inl ⟨List.drop_of_length_le (by omega), h⟩
          · exact Or.inr ⟨h.2.2.2.2.1, h⟩
        have hlen' : (x.drop size.toNat ++ xs'.flatten).length < m := by
          simp only [List.nil_append, List.flatten_cons, List.length_append,
            List.length_drop] at hn ⊢
          omega
        obtain ⟨pb2, p2, hrun2⟩ := ih pb' p' (x.drop size.toNat) xs' hin' hg' hst'
          (fun z hz => hxs z (List.mem_cons_of_mem _ hz))
          (by simp only [List.length_append] at hfuel; omega) hlen' hp'
        rw [hrun]
        simp only [result.bind, ne_eq, not_true_eq_false, hne, or_self, if_false, hrun2]
        refine ⟨pb2, p2, ?_⟩
        simp only [List.nil_append, List.flatten_cons, ← List.append_assoc,
          List.take_append_drop]
    · obtain ⟨pb', hrun, hg', hin', hcases⟩ :=
        packetizing_buffer_input_held B SLOP ENOMEM f pb p need size y (wire_bytes F xs) hst
          hneed hsize
      have hypos : 0 < y.length := List.length_pos.mpr hy
      have hne : y.take size.toNat ≠ [] := by
        intro h
        have := congrArg List.length h
        simp only [List.length_take, List.length_nil] at this
        omega
      have hst' : (y.drop size.toNat = [] ∧ reader_hold B pb' [] (wire_bytes F xs))
          ∨ (y.drop size.toNat ≠ [] ∧ reader_translated B pb' (y.drop size.toNat)
              (wire_bytes F xs)) := by
        rcases hcases with ⟨hle, h⟩ | ⟨_, h⟩
        · exact Or.inl ⟨List.drop_of_length_le (by omega), h⟩
        · exact Or.inr ⟨h.2.2.2.2.1, h⟩
      have hlen' : (y.drop size.toNat ++ xs.flatten).length < m := by
        simp only [List.length_append, List.length_drop] at hn ⊢
        omega
      obtain ⟨pb2, p2, hrun2⟩ := ih pb' p (y.drop size.toNat) xs (by rw [hin', hin])
        (by rw [hg', hgf]) hst' hxs hfuel hlen' hp
      rw [hf, hrun]
      rw [hf] at hrun2
      simp only [result.bind, ne_eq, not_true_eq_false, hne, or_self, if_false, hrun2]
      refine ⟨pb2, p2, ?_⟩
      simp only [← List.append_assoc, List.take_append_drop]

/-- The blocks handed over for a well-formed chain: they are not empty, no longer than a
node, and make up the content of the chain. -/
theorem chain_pieces_ok (B : Nat) :
    ∀ (chain : List buffer_data), chain_ok B chain →
      (chain_pieces chain).flatten = chain_bytes chain
      ∧ ∀ x ∈ chain_pieces chain, x ≠ [] ∧ x.length ≤ B := by
  intro chain
  induction chain with
  | nil => intro _; exact ⟨rfl, fun x hx => by simp [chain_pieces] at hx⟩
  | cons d rest ih =>
    intro hc
    obtain ⟨hd, hr⟩ := chain_ok_cons.mp hc
    obtain ⟨ih1, ih2⟩ := ih hr
    have hlen := seg_bytes_length hd
    by_cases hpos : 0 < d.size
    · have hcp : chain_pieces (d :: rest) = seg_bytes d :: chain_pieces rest := by
        simp [chain_pieces, hpos]
      rw [hcp]
      refine ⟨by simp [chain_bytes, ih1], ?_⟩
      intro x hx
      rcases List.mem_cons.mp hx with h | h
      · subst h
        constructor
        · intro h0
          rw [h0] at hlen
          simp at hlen
          omega
        · have := hd.2.1
          have := hd.2.2.2
          omega
      · exact ih2 x h
    · have hcp : chain_pieces (d :: rest) = chain_pieces rest := by
        simp [chain_pieces, hpos]
      have hz : d.size = 0 := by have := hd.2.2.1; omega
      rw [hcp]
      exact ⟨by simp [chain_bytes, ih1, seg_bytes_nil_of_size_zero hz], ih2⟩

/-- A call of `packetizing_buffer_output` when the translation function stores `F input`
with status 0 within the slop bound and the backend of the underlying buffer takes
everything: it returns 0 with `*wrote = have`, and the backend has been handed what was
queued followed by the packet of the block. -/
theorem packetizing_buffer_output_accept {τ φ : Type} (B SLOP : Nat) (ENOMEM : Int)
    (pb : packetizing_buffer τ φ) (p : pool) (data : List Byte)
    (f : φ → List Byte → Int × List Byte × φ) (F : List Byte → List Byte)
    (out : τ → List Byte → Int × Int × τ)
    (hB : 0 < B) (hhave : data.length ≤ B) (hf : pb.outfn = some f)
    (hF : ∀ cl i, (f cl i).1 = 0 ∧ (f cl i).2.1 = F i)
    (hslop : (F (be16 data.length ++ data)).length ≤ data.length + 2 + SLOP)
    (hout : pb.buf.output = some out) (hacc : accepts_all out)
    (hok : chain_ok B pb.buf.data) (htail : tail_ok pb.buf.data pb.buf.last)
    (hp : never_exhausted p) :
    ∃ cl icl new p', packetizing_buffer_output B SLOP ENOMEM pb p data
        = result.ok ((0, (data.length : Int)),
            { pb with buf := { pb.buf with data := [], last := none, closure := icl,
                                           calls := pb.buf.calls ++ new },
                      fnclosure := cl }, p')
      ∧ sent_bytes new = chain_bytes pb.buf.data ++ packet_bytes F data
      ∧ never_exhausted p' := by
  rcases hcall : f pb.fnclosure (be16 data.length ++ data) with ⟨status, T, cl⟩
  have h := hF pb.fnclosure (be16 data.length ++ data)
  rw [hcall] at h
  simp only at h
  obtain ⟨hs, hT⟩ := h
  subst hs
  rw [← hT] at hslop
  obtain ⟨ch, lst, p1, hby, hch, _, hp1, hrun⟩ :=
    packetizing_buffer_output_queued B SLOP ENOMEM pb p data f T cl hB hhave hf hcall hslop
      hok htail hp
  obtain ⟨icl, new, p', hloop, hsent, hp'⟩ :=
    buf_send_output_loop_accept B out hacc ch { pb.buf with data := ch, last := lst } p1 hch
  refine ⟨cl, icl, new, p', ?_, ?_, hp' hp1⟩
  · rw [hrun]
    have hsend : buf_send_output { pb.buf with data := ch, last := lst } p1
        = buf_send_output_loop out ch { pb.buf with data := ch, last := lst } p1 := by
      unfold buf_send_output
      simp only [hout]
    rw [hsend, hloop]
    rfl
  · rw [hsent, hby, packet_bytes, hT]

/-- Sending a packetizing output buffer whose translation function stores `F input` with
status 0 within the slop bound, the underlying buffer being empty and its backend taking
everything: `buf_send_output` returns 0, the chain is emptied, and the backend of the
underlying buffer has been handed the packets of the blocks of the chain, in order. -/
theorem packetizing_send_output_loop_ok {τ φ : Type} (B SLOP : Nat) (ENOMEM : Int)
    (f : φ → List Byte → Int × List Byte × φ) (F : List Byte → List Byte)
    (out : τ → List Byte → Int × Int × τ) (hB : 0 < B)
    (hF : ∀ cl i, (f cl i).1 = 0 ∧ (f cl i).2.1 = F i) (hacc : accepts_all out)
    (hslop : ∀ x : List Byte, x.length ≤ B →
      (F (be16 x.length ++ x)).length ≤ x.length + 2 + SLOP) :
    ∀ (chain : List buffer_data) (ob : buffer (packetizing_buffer τ φ)) (p : pool),
      chain_ok B chain → ob.closure.outfn = some f → ob.closure.buf.output = some out →
      ob.closure.buf.data = [] → never_exhausted p →
      ∃ ob' p' new, buf_send_output_with (packetizing_buffer_output B SLOP ENOMEM) chain ob p
          = result.ok (0, ob', p')
        ∧ ob'.data = [] ∧ ob'.closure.buf.calls = ob.closure.buf.calls ++ new
        ∧ sent_bytes new = wire_bytes F (chain_pieces chain)
        ∧ never_exhausted p' := by
  intro chain
  induction chain with
  | nil =>
    intro ob p _ _ _ _ hp
    exact ⟨{ ob with data := [], last := none }, p, [], rfl, rfl, by simp, rfl, hp⟩
  | cons d rest ih =>
    intro ob p hc hf hout hempty hp
    obtain ⟨hd, hr⟩ := chain_ok_cons.mp hc
    have hlen := seg_bytes_length hd
    rw [buf_send_output_with]
    by_cases hpos : d.size > 0
    · have hle : (seg_bytes d).length ≤ B := by
        have := hd.2.1
        have := hd.2.2.2
        omega
      obtain ⟨cl, icl, new1, p1, hrun, hsent1, hp1⟩ :=
        packetizing_buffer_output_accept B SLOP ENOMEM ob.closure p (seg_bytes d) f F out hB hle
          hf hF (hslop _ hle) hout hacc (by rw [hempty]; exact chain_ok_nil _)
          (by rw [hempty]; exact tail_ok_nil _) hp
      rw [hempty] at hsent1
      simp only [chain_bytes, List.nil_append] at hsent1
      obtain ⟨ob', p', new2, hrun2, hd2, hcalls2, hsent2, hp2⟩ :=
        ih { ob with data := rest,
                     closure := { ob.closure with
                       buf := { ob.closure.buf with data := [], last := none, closure := icl,
                                                    calls := ob.closure.buf.calls ++ new1 },
                       fnclosure := cl },
                     calls := ob.calls ++ [callback.output (seg_bytes d)] }
          { p1 with free_buffer_data := d :: p1.free_buffer_data } hr hf hout rfl hp1
      refine ⟨ob', p', new1 ++ new2, ?_, hd2, ?_, ?_, hp2⟩
      · simp only [hpos, if_true, hrun, result.bind, ne_eq, not_true_eq_false, if_false, hlen]
        exact hrun2
      · rw [hcalls2]; simp
      · have hcp : chain_pieces (d :: rest) = seg_bytes d :: chain_pieces rest := by
          have h0 : 0 < d.size := hpos
          simp [chain_pieces, h0]
        rw [sent_bytes_append, hsent1, hsent2, hcp]
        simp [wire_bytes]
    · obtain ⟨ob', p', new2, hrun2, hd2, hcalls2, hsent2, hp2⟩ :=
        ih { ob with data := rest } { p with free_buffer_data := d :: p.free_buffer_data }
          hr hf hout hempty hp
      refine ⟨ob', p', new2, ?_, hd2, hcalls2, ?_, hp2⟩
      · simp only [hpos, if_false]
        exact hrun2
      · have hcp : chain_pieces (d :: rest) = chain_pieces rest := by
          have h0 : ¬ 0 < d.size := hpos
          simp [chain_pieces, h0]
        rw [hsent2, hcp]

/-- The round trip through a pair of packetizing buffers whose translation functions
store `F input` and `G input` with status 0, when every block of at most
`BUFFER_DATA_SIZE` bytes satisfies the slop bound and `piece_ok`: the data `D` written
with `buf_output` and sent with `buf_send_output` reaches the backend of the underlying
buffer as bytes which, put on the underlying buffer of the input side, are handed over
as `D` by repeated calls of `packetizing_buffer_input`. -/
theorem packetizing_round_trip {τ υ φ ψ : Type} (B SLOP : Nat) (ENOMEM : Int) (D : List Byte)
    (f : φ → List Byte → Int × List Byte × φ) (g : ψ → List Byte → Int × List Byte × ψ)
    (F G : List Byte → List Byte) (cf : φ) (cg : ψ)
    (inner : buffer τ) (out : τ → List Byte → Int × Int × τ)
    (ib0 : buffer υ) (inp : υ → Int → Int → Int × List Byte × υ) (p : pool) (need size : Int)
    (hB : 0 < B)
    (hF : ∀ cl i, (f cl i).1 = 0 ∧ (f cl i).2.1 = F i)
    (hG : ∀ cl y, (g cl y).1 = 0 ∧ (g cl y).2.1 = G y)
    (hslop : ∀ x : List Byte, x.length ≤ B →
      (F (be16 x.length ++ x)).length ≤ x.length + 2 + SLOP)
    (hpiece : ∀ x : List Byte, x ≠ [] → x.length ≤ B → piece_ok B SLOP F G x)
    (hout : inner.output = some out) (hacc : accepts_all out) (hinner : inner.data = [])
    (hin : ib0.input = some inp) (hnone : gives_nothing inp) (hib : ib0.data = [])
    (hp : never_exhausted p) (hneed : need ≤ 1) (hsize : 0 < size) :
    ∃ ob1 p1, buf_output B ( packetizing_buffer_initialize B SLOP inner none (some f) cf) p D
        = result.ok (ob1, p1)
      ∧ ∃ ob2 p2 new, packetizing_send_output B SLOP ENOMEM ob1 p1 = result.ok (0, ob2, p2)
        ∧ ob2.closure.buf.calls = inner.calls ++ new
        ∧ ∃ ib p3, buf_output B ib0 p2 (sent_bytes new) = result.ok (ib, p3)
          ∧ ∀ fuel n, (sent_bytes new).length < fuel → D.length < n →
            ∃ rb p4, packetizing_read_all B SLOP ENOMEM fuel need size n
                ( packetizing_buffer_initialize B SLOP ib (some g) none cg).closure p3
              = result.ok (D, rb, p4) := by
  obtain ⟨ch, lst, p1, hrun1, hch, _, _, hby, hp1⟩ :=
    buf_output_ok B hB ( packetizing_buffer_initialize B SLOP inner none (some f) cf) p D
      (chain_ok_nil _) (tail_ok_nil _) hp
  have hD : chain_bytes ch = D := by
    rw [hby]; rfl
  refine ⟨_, p1, hrun1, ?_⟩
  obtain ⟨ob2, p2, new, hrun2, _, hcalls, hsent, hp2⟩ :=
    packetizing_send_output_loop_ok B SLOP ENOMEM f F out hB hF hacc hslop ch
      { packetizing_buffer_initialize B SLOP inner none (some f) cf with data := ch, last := lst }
      p1 hch rfl hout hinner hp1
  refine ⟨ob2, p2, new, hrun2, hcalls, ?_⟩
  obtain ⟨ich, ilst, p3, hrun3, hich, _, _, hiby, hp3⟩ :=
    buf_output_ok B hB ib0 p2 (sent_bytes new) (by rw [hib]; exact chain_ok_nil _)
      (by rw [hib]; exact tail_ok_nil _) hp2
  refine ⟨_, p3, hrun3, ?_⟩
  intro fuel n hfuel hn
  obtain ⟨hflat, hxs⟩ := chain_pieces_ok B ch hch
  have hW : chain_bytes ich = wire_bytes F (chain_pieces ch) := by
    rw [hiby, hib, hsent]; rfl
  have hres := packetizing_read_all_ok B SLOP ENOMEM inp g F G hG hnone need size hneed hsize
    fuel n ( packetizing_buffer_initialize B SLOP { ib0 with data := ich, last := ilst }
      (some g) none cg).closure p3 [] (chain_pieces ch) hin rfl
    (Or.inl ⟨rfl, ⟨hich, hW, rfl, rfl, rfl, by
      simp [ packetizing_buffer_initialize, buf_initialize], by
      simp [ packetizing_buffer_initialize, buf_initialize]⟩⟩)
    (fun x hx => hpiece x (hxs x hx).1 (hxs x hx).2)
    (by rw [← hsent]; exact hfuel) (by rw [List.nil_append, hflat, hD]; exact hn) hp3
  rw [List.nil_append, hflat, hD] at hres
  exact hres

/-- The input function `eof_input` never has a byte to give. -/
theorem eof_input_gives_nothing : gives_nothing eof_input :=
  fun _ _ _ => rfl

/-- The translation `unshrink` undoes `shrink`. -/
theorem unshrink_shrink (i : List Byte) : unshrink (shrink i) = i := by
  rcases i with _ | ⟨h0, _ | ⟨h1, payload⟩⟩
  · rfl
  · rfl
  · by_cases h : payload = List.replicate (be16_value h0 h1).toNat 0
    · simp only [shrink, h, if_true, unshrink]
    · simp only [shrink, h, if_false, unshrink]
      rfl

/-- The translation `shrink` adds at most one byte. -/
theorem shrink_length (i : List Byte) : (shrink i).length ≤ i.length + 1 := by
  rcases i with _ | ⟨h0, _ | ⟨h1, payload⟩⟩
  · simp [shrink]
  · simp [shrink]
  · by_cases h : payload = List.replicate (be16_value h0 h1).toNat 0
    · simp [shrink, h]
    · simp [shrink, h]

/-- C12 (as amended): the data `D`, of any length, written with `buf_output` into a packetizing
output buffer whose translation function copies its input, and sent with
`buf_send_output`, reaches the backend of the underlying buffer as bytes `W`; when `W` is
put on the underlying buffer of a packetizing input buffer whose translation function
copies its input, repeated calls of `packetizing_buffer_input` (with `need <= 1`, any
`size > 0` and enough fuel) hand over exactly `D`.  `BUFFER_DATA_SIZE + 2` is taken to
fit in the two bytes of a count. -/
theorem packetizing_identity_round_trip {τ υ : Type} (BUFFER_DATA_SIZE PACKET_SLOP : Nat)
    (ENOMEM : Int) (D : List Byte) (inner : buffer τ) (out : τ → List Byte → Int × Int × τ)
    (ib0 : buffer υ) (inp : υ → Int → Int → Int × List Byte × υ) (p : pool) (need size : Int)
    (hB : 0 < BUFFER_DATA_SIZE) (hB16 : BUFFER_DATA_SIZE + 2 < 65536)
    (hout : inner.output = some out) (hacc : accepts_all out) (hinner : inner.data = [])
    (hin : ib0.input = some inp) (hnone : gives_nothing inp) (hib : ib0.data = [])
    (hp : never_exhausted p) (hneed : need ≤ 1) (hsize : 0 < size) :
    ∃ ob1 p1, buf_output BUFFER_DATA_SIZE
          ( packetizing_buffer_initialize BUFFER_DATA_SIZE PACKET_SLOP inner none
            (some identity_transform) ()) p D
        = result.ok (ob1, p1)
      ∧ ∃ ob2 p2 new, packetizing_send_output BUFFER_DATA_SIZE PACKET_SLOP ENOMEM ob1 p1
          = result.ok (0, ob2, p2)
        ∧ ob2.closure.buf.calls = inner.calls ++ new
        ∧ ∃ ib p3, buf_output BUFFER_DATA_SIZE ib0 p2 (sent_bytes new) = result.ok (ib, p3)
          ∧ ∀ fuel n, (sent_bytes new).length < fuel → D.length < n →
            ∃ rb p4, packetizing_read_all BUFFER_DATA_SIZE PACKET_SLOP ENOMEM fuel need size n
                ( packetizing_buffer_initialize BUFFER_DATA_SIZE PACKET_SLOP ib
                  (some identity_transform) none ()).closure p3
              = result.ok (D, rb, p4) := by
  apply packetizing_round_trip BUFFER_DATA_SIZE PACKET_SLOP ENOMEM D identity_transform
    identity_transform (fun i => i) (fun i => i) () () inner out ib0 inp p need size hB
    (fun _ _ => ⟨rfl, rfl⟩) (fun _ _ => ⟨rfl, rfl⟩) ?_ ?_ hout hacc hinner hin hnone hib hp
    hneed hsize
  · intro x _
    simp only [List.length_append, be16_length]
    omega
  · intro x hx hle
    refine ⟨hx, by omega, ?_, ?_, rfl, ?_, ?_⟩
    · simp only [List.length_append, be16_length]; omega
    · simp only [List.length_append, be16_length]; omega
    · simp only [List.length_append, be16_length]; omega
    · simp only [List.length_append, be16_length]; omega

theorem packetizing_identity_round_trip_witness :
    (0 < 4 ∧ 4 + 2 < 65536 ∧ never_exhausted ⟨[], 0, none⟩ ∧ (1 : Int) ≤ 1 ∧ (0 : Int) < 3)
    ∧ ∃ ob1 p1, buf_output 4
          ( packetizing_buffer_initialize 4 2 (output_buffer [] none accept_all_output ()) none
            (some identity_transform) ()) ⟨[], 0, none⟩ [1, 2, 3, 4, 5, 6]
        = result.ok (ob1, p1)
      ∧ ∃ ob2 p2 new, packetizing_send_output 4 2 12 ob1 p1 = result.ok (0, ob2, p2)
        ∧ ob2.closure.buf.calls = [] ++ new
        ∧ ∃ ib p3, buf_output 4 (chain_buffer [] none (some eof_input) ()) p2 (sent_bytes new)
            = result.ok (ib, p3)
          ∧ ∀ fuel n, (sent_bytes new).length < fuel → [(1 : Byte), 2, 3, 4, 5, 6].length < n →
            ∃ rb p4, packetizing_read_all 4 2 12 fuel 1 3 n
                ( packetizing_buffer_initialize 4 2 ib (some identity_transform) none ()).closure p3
              = result.ok ([1, 2, 3, 4, 5, 6], rb, p4) :=
  ⟨⟨by decide, by decide, rfl, by decide, by decide⟩,
   packetizing_identity_round_trip 4 2 12 [1, 2, 3, 4, 5, 6]
     (output_buffer [] none accept_all_output ()) accept_all_output
     (chain_buffer [] none (some eof_input) ()) eof_input ⟨[], 0, none⟩ 1 3
     (by decide) (by decide) rfl accept_all_output_accepts rfl rfl eof_input_gives_nothing rfl
     rfl (by decide) (by decide)⟩

/-- C13 (as amended): for translation functions that store `F input` and `G input` with
status 0, where `F` adds at most `PACKET_SLOP` bytes, removes at most two (so that the
translated packet is not shorter than the data it carries) and is undone by `G`: the data
`D` written with `buf_output` into the packetizing output buffer and sent with
`buf_send_output` reaches the backend of the underlying buffer as bytes which
`packetizing_buffer_input`, called repeatedly on the input side (with `need <= 1`, any
`size > 0` and enough fuel), hands over as exactly `D`, without a fatal error.
`PACKET_SLOP` is taken to be at least 2 and `BUFFER_DATA_SIZE + PACKET_SLOP + 2` to fit
in the two bytes of a count. -/
theorem packetizing_transform_round_trip {τ υ φ ψ : Type} (BUFFER_DATA_SIZE PACKET_SLOP : Nat)
    (ENOMEM : Int) (D : List Byte)
    (f : φ → List Byte → Int × List Byte × φ) (g : ψ → List Byte → Int × List Byte × ψ)
    (F G : List Byte → List Byte) (cf : φ) (cg : ψ)
    (inner : buffer τ) (out : τ → List Byte → Int × Int × τ)
    (ib0 : buffer υ) (inp : υ → Int → Int → Int × List Byte × υ) (p : pool) (need size : Int)
    (hB : 0 < BUFFER_DATA_SIZE) (hS : 2 ≤ PACKET_SLOP)
    (hB16 : BUFFER_DATA_SIZE + PACKET_SLOP + 2 < 65536)
    (hF : ∀ cl i, (f cl i).1 = 0 ∧ (f cl i).2.1 = F i)
    (hG : ∀ cl y, (g cl y).1 = 0 ∧ (g cl y).2.1 = G y)
    (hlen : ∀ i, i.length ≤ (F i).length + 2 ∧ (F i).length ≤ i.length + PACKET_SLOP)
    (hinv : ∀ i, G (F i) = i)
    (hout : inner.output = some out) (hacc : accepts_all out) (hinner : inner.data = [])
    (hin : ib0.input = some inp) (hnone : gives_nothing inp) (hib : ib0.data = [])
    (hp : never_exhausted p) (hneed : need ≤ 1) (hsize : 0 < size) :
    ∃ ob1 p1, buf_output BUFFER_DATA_SIZE
          ( packetizing_buffer_initialize BUFFER_DATA_SIZE PACKET_SLOP inner none (some f) cf)
          p D
        = result.ok (ob1, p1)
      ∧ ∃ ob2 p2 new, packetizing_send_output BUFFER_DATA_SIZE PACKET_SLOP ENOMEM ob1 p1
          = result.ok (0, ob2, p2)
        ∧ ob2.closure.buf.calls = inner.calls ++ new
        ∧ ∃ ib p3, buf_output BUFFER_DATA_SIZE ib0 p2 (sent_bytes new) = result.ok (ib, p3)
          ∧ ∀ fuel n, (sent_bytes new).length < fuel → D.length < n →
            ∃ rb p4, packetizing_read_all BUFFER_DATA_SIZE PACKET_SLOP ENOMEM fuel need size n
                ( packetizing_buffer_initialize BUFFER_DATA_SIZE PACKET_SLOP ib (some g) none
                  cg).closure p3
              = result.ok (D, rb, p4) := by
  apply packetizing_round_trip BUFFER_DATA_SIZE PACKET_SLOP ENOMEM D f g F G cf cg inner out
    ib0 inp p need size hB hF hG ?_ ?_ hout hacc hinner hin hnone hib hp hneed hsize
  · intro x _
    have h := (hlen (be16 x.length ++ x)).2
    simp only [List.length_append, be16_length] at h
    omega
  · intro x hx hle
    obtain ⟨h1, h2⟩ := hlen (be16 x.length ++ x)
    simp only [List.length_append, be16_length] at h1 h2
    exact ⟨hx, by omega, by omega, by omega, hinv _, fun _ => by omega, fun _ => by omega⟩

theorem packetizing_transform_round_trip_witness :
    (0 < 4 ∧ 2 ≤ 2 ∧ 4 + 2 + 2 < 65536 ∧ never_exhausted ⟨[], 0, none⟩ ∧ (1 : Int) ≤ 1
      ∧ (0 : Int) < 3)
    ∧ ∃ ob1 p1, buf_output 4
          ( packetizing_buffer_initialize 4 2 (output_buffer [] none accept_all_output ()) none
            (some trailer_transform) ()) ⟨[], 0, none⟩ [1, 2, 3, 4, 5, 6]
        = result.ok (ob1, p1)
      ∧ ∃ ob2 p2 new, packetizing_send_output 4 2 12 ob1 p1 = result.ok (0, ob2, p2)
        ∧ ob2.closure.buf.calls = [] ++ new
        ∧ ∃ ib p3, buf_output 4 (chain_buffer [] none (some eof_input) ()) p2 (sent_bytes new)
            = result.ok (ib, p3)
          ∧ ∀ fuel n, (sent_bytes new).length < fuel → [(1 : Byte), 2, 3, 4, 5, 6].length < n →
            ∃ rb p4, packetizing_read_all 4 2 12 fuel 1 3 n
                ( packetizing_buffer_initialize 4 2 ib (some untrailer_transform) none
                  ()).closure p3
              = result.ok ([1, 2, 3, 4, 5, 6], rb, p4) :=
  ⟨⟨by decide, by decide, by decide, rfl, by decide, by decide⟩,
   packetizing_transform_round_trip 4 2 12 [1, 2, 3, 4, 5, 6] trailer_transform
     untrailer_transform (fun i => i ++ [90]) (fun y => y.dropLast) () ()
     (output_buffer [] none accept_all_output ()) accept_all_output
     (chain_buffer [] none (some eof_input) ()) eof_input ⟨[], 0, none⟩ 1 3
     (by decide) (by decide) (by decide) (fun _ _ => ⟨rfl, rfl⟩) (fun _ _ => ⟨rfl, rfl⟩)
     (fun i => ⟨by simp only [List.length_append, List.length_singleton]; omega,
                by simp only [List.length_append, List.length_singleton]; omega⟩)
     (fun i => by simp)
     rfl accept_all_output_accepts rfl rfl eof_input_gives_nothing rfl rfl (by decide)
     (by decide)⟩

/-- C13, counterexample: `shrink` adds at most one byte and is undone by `unshrink`, yet
the four zero bytes written through a packetizing output buffer that translates with
`shrink` reach the backend as the packet `0 3 0 0 4`, on which
`packetizing_buffer_input`, translating with `unshrink`, stops with the fatal error: the
count 4 of the translated data exceeds the count 3 of the packet. -/
theorem packetizing_shrink_counterexample :
    (∀ i, unshrink (shrink i) = i) ∧ (∀ i, (shrink i).length ≤ i.length + 2)
    ∧ ∃ ob1 p1 ob2 p2 ib p3,
        buf_output 16
          ( packetizing_buffer_initialize 16 2 (output_buffer [] none accept_all_output ()) none
            (some shrink_transform) ()) ⟨[], 0, none⟩ [0, 0, 0, 0] = result.ok (ob1, p1)
      ∧ packetizing_send_output 16 2 12 ob1 p1 = result.ok (0, ob2, p2)
      ∧ sent_bytes ob2.closure.buf.calls = [0, 3, 0, 0, 4]
      ∧ buf_output 16 (chain_buffer [] none (some eof_input) ()) p2 [0, 3, 0, 0, 4]
          = result.ok (ib, p3)
      ∧ packetizing_read_all 16 2 12 6 1 16 5
          ( packetizing_buffer_initialize 16 2 ib (some unshrink_transform) none ()).closure p3
          = result.fatal :=
  ⟨unshrink_shrink, fun i => Nat.le_succ_of_le (shrink_length i),
   _, _, _, _, _, _, rfl, rfl, rfl, rfl, rfl⟩

/-- C21: `set_nonblock` on a nonblocking buffer and `set_block` on a blocking buffer
return 0 and leave the buffer, its log of backend calls included, as it was, whether or
not there is a block callback.  Otherwise, without a block callback, as in every buffer
made by `stdio_buffer_initialize`, the call does not return (`abort`); with one, its
status is returned, the flag `nonblocking` being left as it was when the status is not 0
and set to the requested mode when it is 0, after which a second call returns 0 without
a backend call. -/
theorem set_block_idempotent {σ : Type} (buf : buffer σ) :
    (buf.nonblocking ≠ 0 → set_nonblock buf = result.ok (0, buf))
    ∧ (buf.nonblocking = 0 → set_block buf = result.ok (0, buf))
    ∧ (buf.nonblocking = 0 → buf.block = none → set_nonblock buf = result.abort)
    ∧ (buf.nonblocking ≠ 0 → buf.block = none → set_block buf = result.abort)
    ∧ (∀ (inputfn : σ → Int → Int → Int × List Byte × σ)
         (outputfn : σ → List Byte → Int × Int × σ) (flushfn : σ → Int × σ) (fp : σ)
         (input : Int),
         set_nonblock ( stdio_buffer_initialize inputfn outputfn flushfn fp input)
           = result.abort
         ∧ set_block ( stdio_buffer_initialize inputfn outputfn flushfn fp input)
           = result.ok (0, stdio_buffer_initialize inputfn outputfn flushfn fp input))
    ∧ (∀ bl : σ → Int → Int × σ, buf.block = some bl → buf.nonblocking = 0 →
        ((bl buf.closure 0).1 ≠ 0 →
          set_nonblock buf = result.ok ((bl buf.closure 0).1,
            { buf with closure := (bl buf.closure 0).2,
                       calls := buf.calls ++ [callback.block 0] }))
        ∧ ((bl buf.closure 0).1 = 0 →
          set_nonblock buf = result.ok (0,
            { buf with nonblocking := 1, closure := (bl buf.closure 0).2,
                       calls := buf.calls ++ [callback.block 0] })
          ∧ set_nonblock { buf with nonblocking := 1, closure := (bl buf.closure 0).2,
                                    calls := buf.calls ++ [callback.block 0] }
            = result.ok (0, { buf with nonblocking := 1, closure := (bl buf.closure 0).2,
                                       calls := buf.calls ++ [callback.block 0] })))
    ∧ (∀ bl : σ → Int → Int × σ, buf.block = some bl → buf.nonblocking ≠ 0 →
        ((bl buf.closure 1).1 ≠ 0 →
          set_block buf = result.ok ((bl buf.closure 1).1,
            { buf with closure := (bl buf.closure 1).2,
                       calls := buf.calls ++ [callback.block 1] }))
        ∧ ((bl buf.closure 1).1 = 0 →
          set_block buf = result.ok (0,
            { buf with nonblocking := 0, closure := (bl buf.closure 1).2,
                       calls := buf.calls ++ [callback.block 1] })
          ∧ set_block { buf with nonblocking := 0, closure := (bl buf.closure 1).2,
                                 calls := buf.calls ++ [callback.block 1] }
            = result.ok (0, { buf with nonblocking := 0, closure := (bl buf.closure 1).2,
                                       calls := buf.calls ++ [callback.block 1] }))) := by
  obtain ⟨data, last, nb, inp, out, fl, blk, sh, cl, calls⟩ := buf
  refine ⟨?_, ?_, ?_, ?_, ?_, ?_, ?_⟩
  · intro h
    simp only at h
    simp [set_nonblock, h]
  · intro h
    simp only at h
    simp [set_block, h]
  · intro h hb
    simp only at h hb
    simp [set_nonblock, h, hb]
  · intro h hb
    simp only at h hb
    simp [set_block, h, hb]
  · intro inputfn outputfn flushfn fp input
    constructor
    · simp [set_nonblock, stdio_buffer_initialize, buf_initialize]
    · simp [set_block, stdio_buffer_initialize, buf_initialize]
  · intro bl hb h
    simp only at h hb
    subst hb h
    rcases hcall : bl cl 0 with ⟨st, cl'⟩
    constructor
    · intro hs
      simp only at hs
      simp [set_nonblock, hcall, hs]
    · intro hs
      simp only at hs
      subst hs
      constructor
      · simp [set_nonblock, hcall]
      · simp [set_nonblock]
  · intro bl hb h
    simp only at h hb
    subst hb
    rcases hcall : bl cl 1 with ⟨st, cl'⟩
    constructor
    · intro hs
      simp only at hs
      simp [set_block, hcall, hs, h]
    · intro hs
      simp only at hs
      subst hs
      constructor
      · simp [set_block, hcall, h]
      · simp [set_block]

theorem set_block_idempotent_witness :
    set_nonblock ( flush_buffer [] none 1 (failing_output 32) flush_done block_done 0)
      = result.ok (0, flush_buffer [] none 1 (failing_output 32) flush_done block_done 0)
    ∧ set_nonblock ( stdio_buffer_initialize (fun cl _ _ => (-1, [], cl))
          (failing_output 32) flush_done 0 1)
        = result.abort :=
  ⟨(set_block_idempotent
      ( flush_buffer [] none 1 (failing_output 32) flush_done block_done 0)).1 (by decide),
   ((set_block_idempotent
      ( flush_buffer [] none 1 (failing_output 32) flush_done block_done 0)).2.2.2.2.1
      (fun cl _ _ => (-1, [], cl)) (failing_output 32) flush_done 0 1).1⟩

/-- A chain of nodes of non-negative size has length 0 exactly when all its nodes have
size 0. -/
theorem chain_size_zero_iff :
    ∀ (l : List buffer_data), (∀ d ∈ l, 0 ≤ d.size) →
      0 ≤ chain_size l ∧ (chain_size l = 0 ↔ ∀ d ∈ l, d.size = 0) := by
  intro l
  induction l with
  | nil => intro _; simp [chain_size]
  | cons d rest ih =>
    intro h
    have hd := h d (List.mem_cons_self _ _)
    obtain ⟨h0, hiff⟩ := ih (fun x hx => h x (List.mem_cons_of_mem _ hx))
    refine ⟨by simp only [chain_size]; omega, ?_⟩
    simp only [chain_size, List.mem_cons, forall_eq_or_imp]
    constructor
    · intro hz
      exact ⟨by omega, hiff.mp (by omega)⟩
    · intro hz
      have := hiff.mpr hz.2
      omega

/-- C26: for a buffer whose nodes have non-negative sizes that add up to less than 2^31,
the range of the `int` in which `buf_chain_length` adds them, `buf_empty_p` is 1 exactly
when `buf_length` is 0, which is exactly when every node of the chain has size 0 (and
`buf_empty_p` is 0 otherwise); so the buffer that `buf_output` of 0 bytes makes of a
fresh buffer, whose chain is a node of size 0, is reported empty. -/
theorem buf_empty_p_iff_length_zero {σ : Type} (BUFFER_DATA_SIZE : Nat) (buf : buffer σ)
    (p : pool) (hnn : ∀ d ∈ buf.data, 0 ≤ d.size) (hint : chain_size buf.data < 2147483648)
    (hp : never_exhausted p) :
    (buf_empty_p buf = 1 ↔ buf_length buf = 0)
    ∧ (buf_length buf = 0 ↔ ∀ d ∈ buf.data, d.size = 0)
    ∧ (buf_empty_p buf ≠ 1 → buf_empty_p buf = 0)
    ∧ ∃ d p', buf_output BUFFER_DATA_SIZE buf_nonio_initialize p []
        = result.ok ({ buf_nonio_initialize with data := [d], last := some d.addr }, p')
      ∧ d.size = 0
      ∧ buf_empty_p { buf_nonio_initialize with data := [d], last := some d.addr } = 1 := by
  obtain ⟨hsz, hiff0⟩ := chain_size_zero_iff buf.data hnn
  have hiff : buf_length buf = 0 ↔ ∀ d ∈ buf.data, d.size = 0 := by
    rw [buf_length, buf_chain_length_eq buf.data hsz hint]; exact hiff0
  have hall : buf_empty_p buf = 1 ↔ ∀ d ∈ buf.data, d.size = 0 := by
    unfold buf_empty_p
    by_cases hany : buf.data.any (fun d => decide (d.size > 0)) = true
    · simp only [hany, if_true]
      constructor
      · intro h; exact absurd h (by decide)
      · intro h
        obtain ⟨d, hd, hpos⟩ := List.any_eq_true.mp hany
        have := h d hd
        simp only [decide_eq_true_eq] at hpos
        omega
    · have hf : buf.data.any (fun d => decide (d.size > 0)) = false := by simpa using hany
      rw [hf]
      simp only [Bool.false_eq_true, if_false, true_iff]
      intro d hd
      have h1 : ¬ d.size > 0 := by
        intro hpos
        exact hany (List.any_eq_true.mpr ⟨d, hd, by simpa using hpos⟩)
      have := hnn d hd
      omega
  refine ⟨by rw [hall, hiff], hiff, ?_, ?_⟩
  · intro h
    unfold buf_empty_p at h ⊢
    by_cases hany : buf.data.any (fun d => decide (d.size > 0)) = true
    · simp [hany]
    · simp [hany] at h
  · obtain ⟨a, p', hget, _⟩ := get_buffer_data_ok BUFFER_DATA_SIZE p hp
    refine ⟨⟨a, memcpy (List.replicate BUFFER_DATA_SIZE 0) 0 [], 0, 0⟩, p', ?_, rfl, ?_⟩
    · simp [buf_output, buf_nonio_initialize, buf_initialize, buf_output_loop, hget, link_last,
        result.bind]
    · simp [buf_empty_p]

theorem buf_empty_p_iff_length_zero_witness :
    ((∀ d ∈ ( chain_buffer [⟨0, [1, 2], 2, 0⟩, ⟨1, [3, 4], 0, 0⟩] (some 1) none ()).data,
        0 ≤ d.size)
      ∧ chain_size ( chain_buffer [⟨0, [1, 2], 2, 0⟩, ⟨1, [3, 4], 0, 0⟩] (some 1) none ()).data
          < 2147483648
      ∧ never_exhausted ⟨[], 0, none⟩)
    ∧ (buf_empty_p ( chain_buffer [⟨0, [1, 2], 2, 0⟩, ⟨1, [3, 4], 0, 0⟩] (some 1) none ()) = 1 ↔
        buf_length ( chain_buffer [⟨0, [1, 2], 2, 0⟩, ⟨1, [3, 4], 0, 0⟩] (some 1) none ()) = 0) :=
  ⟨⟨by decide, by decide, rfl⟩,
   (buf_empty_p_iff_length_zero 2
      ( chain_buffer [⟨0, [1, 2], 2, 0⟩, ⟨1, [3, 4], 0, 0⟩] (some 1) none ()) ⟨[], 0, none⟩
      (by decide) (by decide) rfl).1⟩

/-- The invariant of the head and tail pointers gives a valid tail pointer. -/
theorem tail_ok_of_head_tail_ok {σ : Type} (buf : buffer σ) (h : head_tail_ok buf) :
    tail_ok buf.data buf.last := by
  unfold head_tail_ok at h
  unfold tail_ok
  cases hl : buf.data.getLast? with
  | none => trivial
  | some d => rw [hl] at h; exact h

/-- C27: for `dest` and `src` satisfying the invariant of the head and tail pointers,
`buf_append_buffer (dest, src)` leaves `dest` with the nodes of `dest` followed by the
nodes of `src`, so with the content of `dest` followed by that of `src`, and `src` with
`data = NULL` and `last = NULL`; when the sizes of the nodes are non-negative and those
of the two chains together add up to less than 2^31, the range of the `int` in which
`buf_chain_length` adds them, the sum of the two values of `buf_length` is unchanged;
the invariant holds for both afterwards, and `dest` is unchanged when `src` is empty. -/
theorem buf_append_buffer_moves {σ τ : Type} (dest : buffer σ) (src : buffer τ)
    (hd : head_tail_ok dest) (hs : head_tail_ok src) :
    ∃ lst, buf_append_buffer dest src
        = result.ok ({ dest with data := dest.data ++ src.data, last := lst },
                     { src with data := [], last := none })
      ∧ chain_bytes (dest.data ++ src.data) = chain_bytes dest.data ++ chain_bytes src.data
      ∧ ((∀ d ∈ dest.data, 0 ≤ d.size) ∧ (∀ d ∈ src.data, 0 ≤ d.size)
          ∧ chain_size dest.data + chain_size src.data < 2147483648 →
        buf_length { dest with data := dest.data ++ src.data, last := lst }
          + buf_length { src with data := [], last := none }
        = buf_length dest + buf_length src)
      ∧ head_tail_ok { dest with data := dest.data ++ src.data, last := lst }
      ∧ head_tail_ok { src with data := [], last := none }
      ∧ (src.data = [] → lst = dest.last) := by
  have ht := tail_ok_of_head_tail_ok dest hd
  obtain ⟨ddata, dlast, nb, inp, out, fl, bl, sh, cl, calls⟩ := dest
  simp only at ht hd ⊢
  have hlen : (∀ d ∈ ddata, 0 ≤ d.size) ∧ (∀ d ∈ src.data, 0 ≤ d.size)
      ∧ chain_size ddata + chain_size src.data < 2147483648 →
      buf_chain_length (ddata ++ src.data) + buf_chain_length []
        = buf_chain_length ddata + buf_chain_length src.data := by
    rintro ⟨h1, h2, h3⟩
    have n1 := (chain_size_zero_iff ddata h1).1
    have n2 := (chain_size_zero_iff src.data h2).1
    rw [buf_chain_length_eq ddata n1 (by omega), buf_chain_length_eq src.data n2 (by omega),
      buf_chain_length_eq (ddata ++ src.data) (by rw [chain_size_append]; omega)
        (by rw [chain_size_append]; omega), chain_size_append]
    simp [buf_chain_length, buf_chain_length_loop]
  by_cases he : src.data = []
  · refine ⟨dlast, ?_, chain_bytes_append _ _, ?_, ?_, by simp [head_tail_ok], fun _ => rfl⟩
    · simp [buf_append_buffer, buf_append_data, he, result.bind]
    · simpa only [buf_length] using hlen
    · rw [he, List.append_nil]; exact hd
  · have happ := buf_append_data_ok
      (σ := σ) ⟨ddata, dlast, nb, inp, out, fl, bl, sh, cl, calls⟩ src.data src.last ht he
    simp only at happ
    refine ⟨src.last, ?_, chain_bytes_append _ _, ?_, ?_, by simp [head_tail_ok],
      fun h => absurd h he⟩
    · simp [buf_append_buffer, happ, result.bind]
    · simpa only [buf_length] using hlen
    · unfold head_tail_ok at hs ⊢
      simp only
      rw [List.getLast?_append_of_ne_nil _ he]
      exact hs

theorem buf_append_buffer_moves_witness :
    (head_tail_ok ( chain_buffer [⟨0, [1, 2], 0, 2⟩] (some 0) none ())
      ∧ head_tail_ok ( chain_buffer [⟨1, [3, 4], 1, 1⟩, ⟨2, [5, 6], 0, 2⟩] (some 2) none ()))
    ∧ ∃ lst, buf_append_buffer ( chain_buffer [⟨0, [1, 2], 0, 2⟩] (some 0) none ())
          ( chain_buffer [⟨1, [3, 4], 1, 1⟩, ⟨2, [5, 6], 0, 2⟩] (some 2) none ())
        = result.ok
            ({ chain_buffer [⟨0, [1, 2], 0, 2⟩] (some 0) none () with
               data := [⟨0, [1, 2], 0, 2⟩] ++ [⟨1, [3, 4], 1, 1⟩, ⟨2, [5, 6], 0, 2⟩], last := lst },
             { chain_buffer [⟨1, [3, 4], 1, 1⟩, ⟨2, [5, 6], 0, 2⟩] (some 2) none () with
               data := [], last := none })
      ∧ chain_bytes ([⟨0, [1, 2], 0, 2⟩] ++ [⟨1, [3, 4], 1, 1⟩, ⟨2, [5, 6], 0, 2⟩])
          = chain_bytes [⟨0, [1, 2], 0, 2⟩]
            ++ chain_bytes [⟨1, [3, 4], 1, 1⟩, ⟨2, [5, 6], 0, 2⟩]
      ∧ buf_length { chain_buffer [⟨0, [1, 2], 0, 2⟩] (some 0) none () with
            data := [⟨0, [1, 2], 0, 2⟩] ++ [⟨1, [3, 4], 1, 1⟩, ⟨2, [5, 6], 0, 2⟩], last := lst }
          + buf_length { chain_buffer [⟨1, [3, 4], 1, 1⟩, ⟨2, [5, 6], 0, 2⟩] (some 2) none () with
            data := [], last := none }
        = buf_length ( chain_buffer [⟨0, [1, 2], 0, 2⟩] (some 0) none ())
          + buf_length ( chain_buffer [⟨1, [3, 4], 1, 1⟩, ⟨2, [5, 6], 0, 2⟩] (some 2) none ()) :=
  ⟨⟨by decide, by decide⟩,
   (buf_append_buffer_moves ( chain_buffer [⟨0, [1, 2], 0, 2⟩] (some 0) none ())
      ( chain_buffer [⟨1, [3, 4], 1, 1⟩, ⟨2, [5, 6], 0, 2⟩] (some 2) none ())
      (by decide) (by decide)).imp fun _ h =>
        ⟨h.1, h.2.1, h.2.2.1 ⟨by decide, by decide, by decide⟩⟩⟩

theorem read_data_skip_head {σ : Type} (B : Nat) :
    ∀ (chain : List buffer_data) (buf : buffer σ) (p : pool),
      chain_ok B chain → chain_bytes chain ≠ [] →
      ∃ pre d rest lst p', read_data_skip chain buf p
          = ({ buf with data := d :: rest, last := lst }, p')
        ∧ 0 < d.size ∧ chain_ok B (d :: rest) ∧ chain_bytes (d :: rest) = chain_bytes chain
        ∧ chain = pre ++ d :: rest ∧ ∀ e ∈ pre, e.size = 0 := by
  intro chain
  induction chain with
  | nil => intro buf p _ h; exact absurd rfl h
  | cons d rest ih =>
    intro buf p hc hne
    by_cases hz : d.size = 0
    · have hrest : chain_bytes rest ≠ [] := by
        simpa [chain_bytes, seg_bytes_nil_of_size_zero hz] using hne
      obtain ⟨pre, d', rest', lst, p', hrun, hpos, hok, hby, hsplit, hpre⟩ :=
        ih { buf with data := rest, last := if rest = [] then none else buf.last }
          { p with free_buffer_data := d :: p.free_buffer_data } (chain_ok_cons.mp hc).2 hrest
      refine ⟨d :: pre, d', rest', lst, p', ?_, hpos, hok, ?_, ?_, ?_⟩
      · simp only [read_data_skip, hz, if_true]
        exact hrun
      · rw [hby]; simp [chain_bytes, seg_bytes_nil_of_size_zero hz]
      · rw [hsplit]; rfl
      · intro e he
        rcases List.mem_cons.mp he with h | h
        · rw [h]; exact hz
        · exact hpre e h
    · refine ⟨[], d, rest, buf.last, p, ?_, ?_, hc, rfl, rfl, fun e he => by cases he⟩
      · simp only [read_data_skip, hz, if_false]
      · have := (chain_ok_cons.mp hc).1.2.2.1
        omega

/-- C22: `buf_read_data (buf, want, ...)` on a buffer that holds at least one unread byte,
with `want ≥ 0`, returns 0 without calling the backend; the chain is made of nodes of size
0 followed by a node `d` of positive size `h`, `*got` is the smaller of `want` and `h`,
the view `*retdata` holds the first `*got` unread bytes of the buffer, the buffer keeps
the unread bytes after them, and, when the sizes of the nodes add up to less than 2^31,
the range of the `int` in which `buf_chain_length` adds them, `buf_length` decreases by
`*got`. -/
theorem buf_read_data_min {σ : Type} (BUFFER_DATA_SIZE : Nat) (buf : buffer σ) (p : pool)
    (want : Int) (inp : σ → Int → Int → Int × List Byte × σ) (hin : buf.input = some inp)
    (hc : chain_ok BUFFER_DATA_SIZE buf.data) (hne : chain_bytes buf.data ≠ [])
    (hw : 0 ≤ want) :
    ∃ pre d post ch lst p', buf.data = pre ++ d :: post ∧ (∀ e ∈ pre, e.size = 0)
      ∧ 0 < d.size
      ∧ buf_read_data BUFFER_DATA_SIZE buf p want
        = result.ok ((0, (chain_bytes buf.data).take (min want d.size).toNat,
                      min want d.size),
                     { buf with data := ch, last := lst }, p')
      ∧ min want d.size ≤ want ∧ min want d.size ≤ d.size
      ∧ chain_ok BUFFER_DATA_SIZE ch
      ∧ chain_bytes ch = (chain_bytes buf.data).drop (min want d.size).toNat
      ∧ (chain_size buf.data < 2147483648 →
          buf_length { buf with data := ch, last := lst }
            = buf_length buf - min want d.size) := by
  obtain ⟨pre, d, rest, lst, p', hrun, hpos, hok, hby, hdec, hpre⟩ :=
    read_data_skip_head BUFFER_DATA_SIZE buf.data buf p hc hne
  have hsd := (chain_ok_cons.mp hok).1
  have hlen := seg_bytes_length hsd
  have htot := chain_bytes_length hc
  have hsplit : chain_bytes buf.data = seg_bytes d ++ chain_bytes rest := by
    rw [← hby]; rfl
  have key : ∀ (ch : List buffer_data) (m : Int), 0 ≤ m → m ≤ d.size →
      chain_ok BUFFER_DATA_SIZE ch →
      chain_bytes ch = (chain_bytes buf.data).drop m.toNat →
      chain_size buf.data < 2147483648 →
      buf_length { buf with data := ch, last := lst } = buf_length buf - m := by
    intro ch m h0 h1 hok' hch hint
    have h2 := chain_bytes_length hok'
    rw [hch, List.length_drop] at h2
    have h3 : (seg_bytes d).length ≤ (chain_bytes buf.data).length := by
      rw [hsplit, List.length_append]; omega
    simp only [buf_length]
    rw [buf_chain_length_eq ch (chain_size_nonneg hok') (by omega),
      buf_chain_length_eq buf.data (chain_size_nonneg hc) hint]
    omega
  refine ⟨pre, d, rest, ?_⟩
  unfold buf_read_data
  simp only [hin, hrun, read_data_take]
  by_cases hlt : want < d.size
  · rw [if_pos hlt]
    have hmin : min want d.size = want := min_eq_left (le_of_lt hlt)
    rw [hmin]
    obtain ⟨a1, a2, a3⟩ := seg_advance hsd want hw (le_of_lt hlt)
    have hle : want.toNat ≤ (seg_bytes d).length := by omega
    have hok' : chain_ok BUFFER_DATA_SIZE
        ({ d with size := d.size - want, bufp := d.bufp + want } :: rest) := by
      rw [chain_ok_cons]; exact ⟨a1, (chain_ok_cons.mp hok).2⟩
    have hch : chain_bytes ({ d with size := d.size - want, bufp := d.bufp + want } :: rest)
        = (chain_bytes buf.data).drop want.toNat := by
      rw [hsplit, List.drop_append_of_le_length hle]
      simp only [chain_bytes]
      rw [a3]
    refine ⟨{ d with size := d.size - want, bufp := d.bufp + want } :: rest, lst, p', hdec,
      hpre, hpos, ?_, le_refl _, le_of_lt hlt, hok', hch,
      key _ want hw (le_of_lt hlt) hok' hch⟩
    rw [hsplit, List.take_append_of_le_length hle, ← a2]
    rfl
  · rw [if_neg hlt]
    have hmin : min want d.size = d.size := min_eq_right (by omega)
    rw [hmin]
    have hle : d.size.toNat = (seg_bytes d).length := by omega
    have hok' : chain_ok BUFFER_DATA_SIZE ({ d with size := 0 } :: rest) := by
      rw [chain_ok_cons]
      obtain ⟨h1, h2, h3, h4⟩ := hsd
      exact ⟨⟨h1, h2, le_refl _, by simp only; omega⟩, (chain_ok_cons.mp hok).2⟩
    have hch : chain_bytes ({ d with size := 0 } :: rest)
        = (chain_bytes buf.data).drop d.size.toNat := by
      rw [hsplit, hle, List.drop_left]
      simp [chain_bytes, seg_bytes]
    refine ⟨{ d with size := 0 } :: rest, lst, p', hdec, hpre, hpos, ?_, by omega, le_refl _,
      hok', hch, key _ d.size (by omega) (le_refl _) hok' hch⟩
    have ht : (seg_bytes d ++ chain_bytes rest).take d.size.toNat = seg_bytes d := by
      rw [hle, List.take_left]
    rw [hsplit, ht]
    rfl

theorem buf_read_data_min_witness :
    ((chain_buffer [⟨0, [1, 2, 3], 3, 0⟩, ⟨1, [4, 5, 6], 1, 2⟩, ⟨2, [7, 8, 9], 0, 3⟩] (some 2)
        (some eof_input) ()).input = some eof_input
      ∧ chain_ok 3 [⟨0, [1, 2, 3], 3, 0⟩, ⟨1, [4, 5, 6], 1, 2⟩, ⟨2, [7, 8, 9], 0, 3⟩]
      ∧ chain_bytes [⟨0, [1, 2, 3], 3, 0⟩, ⟨1, [4, 5, 6], 1, 2⟩, ⟨2, [7, 8, 9], 0, 3⟩] ≠ []
      ∧ (0 : Int) ≤ 5)
    ∧ ∃ (pre : List buffer_data) (d : buffer_data) (post : List buffer_data), ∃ ch lst p',
        ([⟨0, [1, 2, 3], 3, 0⟩, ⟨1, [4, 5, 6], 1, 2⟩, ⟨2, [7, 8, 9], 0, 3⟩]
          : List buffer_data) = pre ++ d :: post
      ∧ (∀ e ∈ pre, e.size = 0) ∧ 0 < d.size
      ∧ buf_read_data 3
          ( chain_buffer [⟨0, [1, 2, 3], 3, 0⟩, ⟨1, [4, 5, 6], 1, 2⟩, ⟨2, [7, 8, 9], 0, 3⟩]
            (some 2) (some eof_input) ()) ⟨[], 100, none⟩ 5
        = result.ok ((0,
            (chain_bytes [⟨0, [1, 2, 3], 3, 0⟩, ⟨1, [4, 5, 6], 1, 2⟩,
              ⟨2, [7, 8, 9], 0, 3⟩]).take (min 5 d.size).toNat, min 5 d.size),
            { chain_buffer [⟨0, [1, 2, 3], 3, 0⟩, ⟨1, [4, 5, 6], 1, 2⟩, ⟨2, [7, 8, 9], 0, 3⟩]
                (some 2) (some eof_input) () with data := ch, last := lst }, p')
      ∧ buf_length
          { chain_buffer [⟨0, [1, 2, 3], 3, 0⟩, ⟨1, [4, 5, 6], 1, 2⟩, ⟨2, [7, 8, 9], 0, 3⟩]
              (some 2) (some eof_input) () with data := ch, last := lst }
        = buf_length
            ( chain_buffer [⟨0, [1, 2, 3], 3, 0⟩, ⟨1, [4, 5, 6], 1, 2⟩, ⟨2, [7, 8, 9], 0, 3⟩]
              (some 2) (some eof_input) ()) - min 5 d.size :=
  ⟨⟨rfl, by decide, by decide, by decide⟩,
   (buf_read_data_min 3
      ( chain_buffer [⟨0, [1, 2, 3], 3, 0⟩, ⟨1, [4, 5, 6], 1, 2⟩, ⟨2, [7, 8, 9], 0, 3⟩]
        (some 2) (some eof_input) ()) ⟨[], 100, none⟩ 5 eof_input rfl (by decide) (by decide)
      (by decide)).imp fun _ h => h.imp fun _ h => h.imp fun _ h => h.imp fun _ h =>
        h.imp fun _ h => h.imp fun _ h =>
          ⟨h.1, h.2.1, h.2.2.1, h.2.2.2.1, h.2.2.2.2.2.2.2.2 (by decide)⟩⟩

/-- Bytes written past the used bytes of a node leave its used bytes as they are. -/
theorem seg_write_tail {B : Nat} {l : buffer_data} (h : seg_ok B l) (s : List Byte) :
    seg_bytes { l with text := memcpy l.text (l.bufp + l.size) s } = seg_bytes l := by
  obtain ⟨h1, h2, h3, h4⟩ := h
  have e1 : (l.bufp + l.size).toNat = l.bufp.toNat + l.size.toNat := by omega
  simp only [seg_bytes, memcpy, e1]
  have hlen : (l.text.take (l.bufp.toNat + l.size.toNat)).length = l.bufp.toNat + l.size.toNat := by
    simp only [List.length_take]; omega
  rw [List.append_assoc, List.drop_append_of_le_length (by omega),
    List.take_append_of_le_length (by simp only [List.length_drop]; omega)]
  rw [List.drop_take, List.take_take]
  congr 1
  omega

theorem read_line_more_fail {σ : Type} (B : Nat) (hB : 0 < B)
    (inp : σ → Int → Int → Int × List Byte × σ) (e : Int) (he : e ≠ 0)
    (fuel : Nat) (buf : buffer σ) (p : pool)
    (hfail : ∀ sz, (inp buf.closure 1 sz).1 = e)
    (hc : chain_ok B buf.data) (ht : tail_ok buf.data buf.last) (hp : never_exhausted p) :
    ∃ buf' p', read_line_more B inp (fuel + 1) buf p = result.ok (some e, buf', p')
      ∧ chain_bytes buf'.data = chain_bytes buf.data ∧ never_exhausted p' := by
  obtain ⟨i, l, lst, p1, hroom, hc1, ht1, hfree, hby1, hp1⟩ := tail_room_ok B hB buf p hc ht hp
  obtain ⟨data, last, nb, inp0, out, fl, bl, sh, cl, calls⟩ := buf
  simp only at hroom hby1 hfail ⊢
  rw [tail_ok_concat_iff] at ht1
  subst ht1
  have hsl : seg_ok B l := hc1 l (by simp)
  rcases hcall : inp cl 1 (B - (l.bufp + l.size)) with ⟨status, bytes, cl'⟩
  have hst : status = e := by
    have := hfail (B - (l.bufp + l.size))
    rw [hcall] at this
    exact this
  subst hst
  have hseg := seg_write_tail hsl bytes
  refine ⟨{ data := i ++ [{ l with text := memcpy l.text (l.bufp + l.size) bytes }],
            last := some l.addr, nonblocking := nb, input := inp0, output := out, flush := fl,
            block := bl, shutdown := sh, closure := cl',
            calls := calls ++ [callback.input 1 (B - (l.bufp + l.size))] }, p1, ?_, ?_, hp1⟩
  · simp [read_line_more, hroom, last_data, hcall, he, set_last]
  · simp only
    rw [← hby1, chain_bytes_append, chain_bytes_append]
    simp only [chain_bytes, List.append_nil]
    rw [hseg]

theorem read_line_more_one_byte_then (B : Nat) (hB : 0 < B) (e : Int) (he : e ≠ 0) :
    ∀ (L : List Byte) (fuel : Nat) (buf : buffer (List Byte)) (p : pool),
      L.length < fuel → buf.closure = L → (10 : Byte) ∉ L →
      chain_ok B buf.data → tail_ok buf.data buf.last → never_exhausted p →
      ∃ buf' p', read_line_more B (one_byte_then e) fuel buf p = result.ok (some e, buf', p')
        ∧ chain_bytes buf'.data = chain_bytes buf.data ++ L := by
  intro L
  induction L with
  | nil =>
    intro fuel buf p hf hcl _ hc ht hp
    obtain ⟨n, rfl⟩ : ∃ n, fuel = n + 1 := ⟨fuel - 1, by simp at hf; omega⟩
    obtain ⟨buf', p', hrun, hby, _⟩ :=
      read_line_more_fail B hB (one_byte_then e) e he n buf p
        (fun sz => by rw [hcl]; rfl) hc ht hp
    exact ⟨buf', p', hrun, by rw [hby, List.append_nil]⟩
  | cons b L' ih =>
    intro fuel buf p hf hcl hL hc ht hp
    obtain ⟨n, rfl⟩ : ∃ n, fuel = n + 1 := ⟨fuel - 1, by simp at hf; omega⟩
    simp only [List.mem_cons, not_or] at hL
    obtain ⟨i, l, lst, p1, hroom, hc1, ht1, hfree, hby1, hp1⟩ := tail_room_ok B hB buf p hc ht hp
    obtain ⟨data, last, nb, inp, out, fl, bl, sh, cl, calls⟩ := buf
    simp only at hcl hroom hby1 ⊢
    subst hcl
    rw [tail_ok_concat_iff] at ht1
    subst ht1
    have hsl : seg_ok B l := hc1 l (by simp)
    obtain ⟨s1, s2⟩ := seg_append hsl [b] (by simp; omega)
    have hb : ¬ b = 10 := fun e => hL.1 e.symm
    obtain ⟨buf', p2, hrun, hby2⟩ :=
      ih n { data := i ++ [{ l with text := memcpy l.text (l.bufp + l.size) [b],
                                    size := l.size + 1 }],
             last := some l.addr, nonblocking := nb, input := inp, output := out, flush := fl,
             block := bl, shutdown := sh, closure := L',
             calls := calls ++ [callback.input 1 (B - (l.bufp + l.size))] } p1
        (by simp at hf; omega) rfl hL.2
        (by rw [chain_ok_append]
            exact ⟨(chain_ok_append.mp hc1).1, by rw [chain_ok_cons]; exact ⟨s1, chain_ok_nil B⟩⟩)
        (by rw [tail_ok_concat_iff]) hp1
    refine ⟨buf', p2, ?_, ?_⟩
    · simp [read_line_more, hroom, last_data, one_byte_then, set_last, hb, hrun]
    · rw [hby2]
      simp only
      rw [← hby1, chain_bytes_append, chain_bytes_append]
      simp only [chain_bytes, List.append_nil]
      have : seg_bytes { l with text := memcpy l.text (l.bufp + l.size) [b], size := l.size + 1 }
          = seg_bytes l ++ [b] := s2
      rw [this]; simp

/-- C23: on a buffer without unread bytes `buf_read_data` asks the backend once, when
the pool gives it a node, and returns the status the backend reports: so -1 exactly when
the backend reports -1 and a positive error code unchanged, with no view; 0 with
`*got = 0` when the backend reports success with no byte.  It returns -2, after one
`memory_error` call and no backend call, when no node can be had, and a status -2 comes
from nowhere else unless the backend itself reports -2.  `buf_read_line` on a buffer that
holds no newline returns a non-zero status of the backend unchanged with `*line` left
`NULL`, the bytes of the buffer kept in order, also those read before the backend
failed. -/
theorem read_status_of_backend {σ : Type} (BUFFER_DATA_SIZE : Nat) (buf : buffer σ) (p : pool)
    (want : Int) (inp : σ → Int → Int → Int × List Byte × σ) (hin : buf.input = some inp)
    (hc : chain_ok BUFFER_DATA_SIZE buf.data) (hw : 0 ≤ want) :
    (chain_bytes buf.data = [] →
      (never_exhausted p →
        ∃ view got buf' p', buf_read_data BUFFER_DATA_SIZE buf p want
            = result.ok (((inp buf.closure (if want < BUFFER_DATA_SIZE then want
                            else BUFFER_DATA_SIZE) BUFFER_DATA_SIZE).1, view, got), buf', p')
          ∧ buf'.calls = buf.calls ++ [callback.input (if want < BUFFER_DATA_SIZE then want
                            else BUFFER_DATA_SIZE) BUFFER_DATA_SIZE]
          ∧ ((inp buf.closure (if want < BUFFER_DATA_SIZE then want
                            else BUFFER_DATA_SIZE) BUFFER_DATA_SIZE).1 ≠ 0
              ∨ (inp buf.closure (if want < BUFFER_DATA_SIZE then want
                            else BUFFER_DATA_SIZE) BUFFER_DATA_SIZE).2.1 = [] →
              view = [] ∧ got = 0 ∧ chain_bytes buf'.data = []))
      ∧ (buf.data = [] → p.free_buffer_data = [] → p.xmalloc_left = some 0 →
          buf_read_data BUFFER_DATA_SIZE buf p want
            = result.ok ((-2, [], 0),
                { buf with calls := buf.calls ++ [callback.memory_error] }, p))
      ∧ (∀ r buf' p', buf_read_data BUFFER_DATA_SIZE buf p want = result.ok ((-2, r), buf', p') →
          buf'.calls = buf.calls ++ [callback.memory_error]
          ∨ (inp buf.closure (if want < BUFFER_DATA_SIZE then want
                else BUFFER_DATA_SIZE) BUFFER_DATA_SIZE).1 = -2))
    ∧ ((10 : Byte) ∉ chain_bytes buf.data → 0 < BUFFER_DATA_SIZE → tail_ok buf.data buf.last →
        never_exhausted p →
        ∀ e : Int, e ≠ 0 → (∀ sz, (inp buf.closure 1 sz).1 = e) →
        ∀ fuel, ∃ buf' p', buf_read_line BUFFER_DATA_SIZE (fuel + 2) buf p
            = result.ok ((e, none, none), buf', p')
          ∧ chain_bytes buf'.data = chain_bytes buf.data)
    ∧ (∀ (e : Int) (b : buffer (List Byte)) (fuel : Nat), e ≠ 0 → 0 < BUFFER_DATA_SIZE →
        b.input = some (one_byte_then e) → (10 : Byte) ∉ b.closure →
        (10 : Byte) ∉ chain_bytes b.data → chain_ok BUFFER_DATA_SIZE b.data →
        tail_ok b.data b.last → never_exhausted p → b.closure.length + 2 ≤ fuel →
        ∃ b' p', buf_read_line BUFFER_DATA_SIZE fuel b p = result.ok ((e, none, none), b', p')
          ∧ chain_bytes b'.data = chain_bytes b.data ++ b.closure) := by
  refine ⟨?_, ?_, ?_⟩
  · intro hb
    obtain ⟨lst, p1, hrun, hx⟩ := read_data_skip_dry BUFFER_DATA_SIZE buf.data buf p hc hb
    have hmem : memcpy (List.replicate BUFFER_DATA_SIZE (0 : Byte)) 0 []
        = List.replicate BUFFER_DATA_SIZE 0 := by simp [memcpy]
    refine ⟨?_, ?_, ?_⟩
    · intro hp
      have hp1 : never_exhausted p1 := by
        unfold never_exhausted at hp ⊢
        rw [hx, hp]
      obtain ⟨a, p2, hget, hp2⟩ := get_buffer_data_ok BUFFER_DATA_SIZE p1 hp1
      unfold buf_read_data
      simp only [hin, hrun, hget]
      rcases hcall : inp buf.closure (if want < ↑BUFFER_DATA_SIZE then want
          else ↑BUFFER_DATA_SIZE) ↑BUFFER_DATA_SIZE with ⟨status, bytes, cl⟩
      by_cases hs : status = 0
      · subst hs
        simp only [ne_eq, not_true_eq_false, if_false, read_data_take]
        by_cases hlt : want < (bytes.length : Int)
        · rw [if_pos hlt]
          refine ⟨_, _, _, p2, rfl, rfl, ?_⟩
          rintro (h | h)
          · exact h.elim
          · subst h; simp at hlt; omega
        · rw [if_neg hlt]
          refine ⟨_, _, _, p2, rfl, rfl, ?_⟩
          rintro (h | h)
          · exact h.elim
          · subst h
            simp [chain_bytes, seg_bytes]
      · simp only [ne_eq, hs, not_false_eq_true, if_true]
        refine ⟨_, _, _, p2, rfl, rfl, ?_⟩
        intro _
        simp [chain_bytes, seg_bytes]
    · intro hd hf hxm
      obtain ⟨data, last, nb, inp0, out, fl, bl, sh, cl, calls⟩ := buf
      obtain ⟨free, brk, left⟩ := p
      simp only at hd hf hxm hin
      subst hd hf hxm hin
      simp [buf_read_data, read_data_skip, get_buffer_data, allocate_buffer_datas]
    · intro r buf' p' hres
      unfold buf_read_data at hres
      simp only [hin, hrun] at hres
      rcases hget : get_buffer_data BUFFER_DATA_SIZE p1 with ⟨_ | data, p2⟩
      · rw [hget] at hres
        simp only [result.ok.injEq, Prod.mk.injEq] at hres
        left
        rw [← hres.2.1]
      · rw [hget] at hres
        simp only at hres
        rcases hcall : inp buf.closure (if want < ↑BUFFER_DATA_SIZE then want
            else ↑BUFFER_DATA_SIZE) ↑BUFFER_DATA_SIZE with ⟨status, bytes, cl⟩
        rw [hcall] at hres
        simp only at hres
        right
        by_cases hs : status = 0
        · subst hs
          simp only [ne_eq, not_true_eq_false, if_false, read_data_take] at hres
          by_cases hlt : want < (bytes.length : Int)
          · rw [if_pos hlt] at hres
            simp only [result.ok.injEq, Prod.mk.injEq] at hres
            exact absurd hres.1.1 (by decide)
          · rw [if_neg hlt] at hres
            simp only [result.ok.injEq, Prod.mk.injEq] at hres
            exact absurd hres.1.1 (by decide)
        · simp only [ne_eq, hs, not_false_eq_true, if_true, result.ok.injEq,
            Prod.mk.injEq] at hres
          exact hres.1.1
  · intro hnl hB ht hp e he hfail fuel
    obtain ⟨buf', p', hmore, hby, _⟩ :=
      read_line_more_fail BUFFER_DATA_SIZE hB inp e he fuel buf p hfail hc ht hp
    have hnone : read_line_scan buf.data 0 0 = none := read_line_scan_none _ _ _ hnl
    refine ⟨buf', p', ?_, hby⟩
    unfold buf_read_line
    rw [hin]
    simp only [buf_read_line_loop, hnone, hmore, result.bind_ok]
  · intro e b fuel he hB hbin hL hA hcb htb hp hf
    obtain ⟨n, rfl⟩ : ∃ n, fuel = n + 1 := ⟨fuel - 1, by omega⟩
    obtain ⟨b', p', hmore, hby⟩ :=
      read_line_more_one_byte_then BUFFER_DATA_SIZE hB e he b.closure n b p (by omega) rfl hL
        hcb htb hp
    have hnone : read_line_scan b.data 0 0 = none := read_line_scan_none _ _ _ hA
    refine ⟨b', p', ?_, hby⟩
    unfold buf_read_line
    rw [hbin]
    simp only [buf_read_line_loop, hnone, hmore, result.bind_ok]

theorem read_status_of_backend_witness :
    ((chain_buffer [] none (some (one_byte_then 5)) [97, 98]).input = some (one_byte_then 5)
      ∧ chain_ok 4 (chain_buffer [] none (some (one_byte_then 5)) [97, 98]).data
      ∧ (0 : Int) ≤ 3)
    ∧ ∃ b' p', buf_read_line 4 4 (chain_buffer [] none (some (one_byte_then 5)) [97, 98])
          ⟨[], 0, none⟩ = result.ok ((5, none, none), b', p')
        ∧ chain_bytes b'.data = [] ++ [97, 98] :=
  ⟨⟨rfl, by decide, by decide⟩,
   (read_status_of_backend 4 (chain_buffer [] none (some (one_byte_then 5)) [97, 98])
      ⟨[], 0, none⟩ 3 (one_byte_then 5) rfl (by decide) (by decide)).2.2 5
      (chain_buffer [] none (some (one_byte_then 5)) [97, 98]) 4 (by decide) (by decide) rfl
      (by decide) (by decide) (by decide) (by decide) rfl (by decide)⟩

theorem read_line_more_idle {σ : Type} (B : Nat) (hB : 0 < B)
    (inp : σ → Int → Int → Int × List Byte × σ)
    (hidle : ∀ cl n s, (inp cl n s).1 = 0 ∧ (inp cl n s).2.1 = []) :
    ∀ (fuel : Nat) (buf : buffer σ) (p : pool),
      chain_ok B buf.data → tail_ok buf.data buf.last → never_exhausted p →
      read_line_more B inp fuel buf p = result.out_of_fuel := by
  intro fuel
  induction fuel with
  | zero => intro buf p _ _ _; rfl
  | succ n ih =>
    intro buf p hc ht hp
    obtain ⟨i, l, lst, p1, hroom, hc1, ht1, hfree, hby1, hp1⟩ := tail_room_ok B hB buf p hc ht hp
    obtain ⟨data, last, nb, inp0, out, fl, bl, sh, cl, calls⟩ := buf
    simp only at hroom hby1 ⊢
    rw [tail_ok_concat_iff] at ht1
    subst ht1
    have hsl : seg_ok B l := hc1 l (by simp)
    obtain ⟨s1, _⟩ := seg_append hsl [] (by simp; omega)
    rcases hcall : inp cl 1 (B - (l.bufp + l.size)) with ⟨status, bytes, cl'⟩
    have h := hidle cl 1 (B - (l.bufp + l.size))
    rw [hcall] at h
    obtain ⟨hst, hbytes⟩ := h
    simp only at hst hbytes
    subst hst hbytes
    have hrec := ih
      { data := i ++ [{ l with text := memcpy l.text (l.bufp + l.size) [],
                               size := l.size + (([] : List Byte).length : Int) }],
        last := some l.addr, nonblocking := nb, input := inp0, output := out, flush := fl,
        block := bl, shutdown := sh, closure := cl',
        calls := calls ++ [callback.input 1 (B - (l.bufp + l.size))] } p1
      (by rw [chain_ok_append]
          exact ⟨(chain_ok_append.mp hc1).1, by rw [chain_ok_cons]; exact ⟨s1, chain_ok_nil B⟩⟩)
      (by rw [tail_ok_concat_iff]) hp1
    simp only [List.length_nil, Nat.cast_zero, add_zero] at hrec
    simp [read_line_more, hroom, last_data, hcall, set_last, memchr, hrec]

theorem buf_read_line_idle {σ : Type} (B : Nat) (hB : 0 < B)
    (inp : σ → Int → Int → Int × List Byte × σ)
    (hidle : ∀ cl n s, (inp cl n s).1 = 0 ∧ (inp cl n s).2.1 = [])
    (fuel : Nat) (buf : buffer σ) (p : pool) (hin : buf.input = some inp)
    (hnl : (10 : Byte) ∉ chain_bytes buf.data)
    (hc : chain_ok B buf.data) (ht : tail_ok buf.data buf.last) (hp : never_exhausted p) :
    buf_read_line B fuel buf p = result.out_of_fuel := by
  unfold buf_read_line
  rw [hin]
  cases fuel with
  | zero => rfl
  | succ n =>
    have hnone : read_line_scan buf.data 0 0 = none := read_line_scan_none _ _ _ hnl
    simp only [buf_read_line_loop, hnone, read_line_more_idle B hB inp hidle n buf p hc ht hp]
    rfl

/-- A pool whose allocator can give `n` more blocks holds
`free_buffer_data.length + 16 * n` nodes: `get_buffer_data` fails when that number is 0
and takes one of them otherwise. -/
theorem get_buffer_data_capacity (B : Nat) (p : pool) (n : Nat)
    (hx : p.xmalloc_left = some n) :
    (p.free_buffer_data.length + 16 * n = 0 → get_buffer_data B p = (none, p))
    ∧ (0 < p.free_buffer_data.length + 16 * n →
        ∃ a p' n', get_buffer_data B p
            = (some { addr := a, text := List.replicate B 0, bufp := 0, size := 0 }, p')
          ∧ p'.xmalloc_left = some n'
          ∧ p'.free_buffer_data.length + 16 * n' + 1 = p.free_buffer_data.length + 16 * n) := by
  obtain ⟨free, brk, left⟩ := p
  simp only at hx ⊢
  subst hx
  constructor
  · intro h0
    have hf : free = [] := List.length_eq_zero.mp (by omega)
    have hn : n = 0 := by omega
    subst hf hn
    simp [get_buffer_data, allocate_buffer_datas]
  · intro hpos
    cases free with
    | cons r rest =>
      refine ⟨r.addr, ⟨rest, brk, some n⟩, n, ?_, rfl, ?_⟩
      · simp [get_buffer_data]
      · simp only [List.length_cons]; omega
    | nil =>
      cases n with
      | zero => simp at hpos
      | succ m =>
        refine ⟨brk + 15, ⟨(allocate_loop B brk 16 []).tail, brk + 16, some m⟩, m, ?_, rfl, ?_⟩
        · simp only [get_buffer_data, allocate_buffer_datas, if_true, allocate_loop]
          rfl
        · simp only [allocate_loop, List.tail_cons, List.length_cons, List.length_nil]; omega

theorem buf_output_loop_exhausted {σ : Type} (B : Nat) :
    ∀ (k fuel : Nat) (buf : buffer σ) (p : pool) (data : List Byte) (n : Nat),
      p.xmalloc_left = some n → p.free_buffer_data.length + 16 * n = k →
      k * B < data.length → k < fuel → tail_ok buf.data buf.last →
      ∃ new lst p', buf_output_loop B fuel buf p data
          = result.ok ({ buf with data := buf.data ++ new, last := lst,
                                  calls := buf.calls ++ [callback.memory_error] }, p')
        ∧ new.length = k
        ∧ chain_bytes new = data.take (k * B)
        ∧ get_buffer_data B p' = (none, p') := by
  intro k
  induction k with
  | zero =>
    intro fuel buf p data n hx hcap _ hf _
    obtain ⟨m, rfl⟩ : ∃ m, fuel = m + 1 := ⟨fuel - 1, by omega⟩
    have hnone := (get_buffer_data_capacity B p n hx).1 hcap
    refine ⟨[], buf.last, p, ?_, rfl, by simp [chain_bytes], hnone⟩
    simp [buf_output_loop, hnone]
  | succ k ih =>
    intro fuel buf p data n hx hcap hlen hf ht
    obtain ⟨m, rfl⟩ : ∃ m, fuel = m + 1 := ⟨fuel - 1, by omega⟩
    obtain ⟨a, p1, n1, hget, hx1, hcap1⟩ :=
      (get_buffer_data_capacity B p n hx).2 (by omega)
    have hBlen : B < data.length := by
      have : B ≤ (k + 1) * B := Nat.le_mul_of_pos_left B (by omega)
      omega
    have hnle : ¬ ((data.length : Int) ≤ B) := by omega
    have htake : (data.take B).length = B := by
      simp only [List.length_take]; omega
    obtain ⟨hs1, hs2⟩ := seg_fresh B a (data.take B) (by omega)
    rw [htake] at hs1 hs2
    have hrest : k * B < (data.drop B).length := by
      simp only [List.length_drop]
      have : (k + 1) * B = k * B + B := by ring
      omega
    obtain ⟨new, lst, p', hrun, hnl, hby, hnone⟩ :=
      ih m { buf with data := buf.data ++ [⟨a, memcpy (List.replicate B 0) 0 (data.take B), 0, B⟩],
                      last := some a } p1 (data.drop B) n1 hx1 (by omega) hrest (by omega)
        (by simp [tail_ok])
    refine ⟨⟨a, memcpy (List.replicate B 0) 0 (data.take B), 0, B⟩ :: new, lst, p', ?_, ?_, ?_,
      hnone⟩
    · simp only [buf_output_loop, hget, hnle, if_false]
      rw [link_last_ok buf _ ht]
      simp only [result.bind_ok]
      rw [hrun]
      simp
    · simp [hnl]
    · simp only [chain_bytes]
      rw [hs2, hby]
      have : (k + 1) * B = B + k * B := by ring
      rw [this, List.take_add]

/-- C25: when `buf_output (buf, data, len)` has to take nodes from the pool and the pool
holds `k` nodes, fewer than the data need, the `memory_error` handler is called exactly
once and the call returns with `k` nodes added at the tail of the chain: the content of
the buffer is its previous content followed by the first `k * BUFFER_DATA_SIZE` bytes of
`data`, and the pool is left without a node. -/
theorem buf_output_pool_exhausted {σ : Type} (BUFFER_DATA_SIZE : Nat)
    (hB : 0 < BUFFER_DATA_SIZE) (buf : buffer σ) (p : pool) (data : List Byte) (n : Nat)
    (hx : p.xmalloc_left = some n)
    (hcap : (p.free_buffer_data.length + 16 * n) * BUFFER_DATA_SIZE < data.length)
    (ht : tail_ok buf.data buf.last)
    (hslow : ∀ l, last_data buf = some l →
      (BUFFER_DATA_SIZE : Int) - (l.bufp + l.size) < data.length) :
    ∃ new lst p', buf_output BUFFER_DATA_SIZE buf p data
        = result.ok ({ buf with data := buf.data ++ new, last := lst,
                                calls := buf.calls ++ [callback.memory_error] }, p')
      ∧ new.length = p.free_buffer_data.length + 16 * n
      ∧ chain_bytes (buf.data ++ new)
          = chain_bytes buf.data
            ++ data.take ((p.free_buffer_data.length + 16 * n) * BUFFER_DATA_SIZE)
      ∧ get_buffer_data BUFFER_DATA_SIZE p' = (none, p') := by
  have hfuel : p.free_buffer_data.length + 16 * n < data.length + 1 := by
    have : p.free_buffer_data.length + 16 * n
        ≤ (p.free_buffer_data.length + 16 * n) * BUFFER_DATA_SIZE :=
      Nat.le_mul_of_pos_right _ hB
    omega
  obtain ⟨new, lst, p', hrun, hnl, hby, hnone⟩ :=
    buf_output_loop_exhausted BUFFER_DATA_SIZE _ (data.length + 1) buf p data n hx rfl hcap
      hfuel ht
  refine ⟨new, lst, p', ?_, hnl, by rw [chain_bytes_append, hby], hnone⟩
  unfold buf_output
  cases hdat : buf.data with
  | nil => simp only; rw [hdat] at hrun; exact hrun
  | cons x r =>
    obtain ⟨i, e, he⟩ := exists_concat_of_ne_nil (x :: r) (by simp)
    have hl : last_data buf = some e := last_data_concat buf i e (by rw [hdat, he]) ht
    have hroom := hslow e hl
    simp only [hl]
    rw [if_neg (by omega)]
    rw [hdat] at hrun
    exact hrun

theorem buf_output_pool_exhausted_witness :
    (0 < 2 ∧ (⟨[⟨5, [9, 9], 1, 1⟩], 6, some 0⟩ : pool).xmalloc_left = some 0
      ∧ ((⟨[⟨5, [9, 9], 1, 1⟩], 6, some 0⟩ : pool).free_buffer_data.length + 16 * 0) * 2
          < ([1, 2, 3, 4, 5] : List Byte).length
      ∧ tail_ok ( chain_buffer [⟨0, [7, 8], 0, 2⟩] (some 0) none ()).data
          ( chain_buffer [⟨0, [7, 8], 0, 2⟩] (some 0) none ()).last)
    ∧ ∃ new lst p', buf_output 2 ( chain_buffer [⟨0, [7, 8], 0, 2⟩] (some 0) none ())
          ⟨[⟨5, [9, 9], 1, 1⟩], 6, some 0⟩ [1, 2, 3, 4, 5]
        = result.ok ({ chain_buffer [⟨0, [7, 8], 0, 2⟩] (some 0) none () with
            data := ( chain_buffer [⟨0, [7, 8], 0, 2⟩] (some 0) none ()).data ++ new,
            last := lst,
            calls := ( chain_buffer [⟨0, [7, 8], 0, 2⟩] (some 0) none ()).calls
              ++ [callback.memory_error] }, p')
      ∧ chain_bytes (( chain_buffer [⟨0, [7, 8], 0, 2⟩] (some 0) none ()).data ++ new)
          = [7, 8] ++ [1, 2] :=
  ⟨⟨by decide, rfl, by decide, by decide⟩,
   (buf_output_pool_exhausted 2 (by decide) ( chain_buffer [⟨0, [7, 8], 0, 2⟩] (some 0) none ())
      ⟨[⟨5, [9, 9], 1, 1⟩], 6, some 0⟩ [1, 2, 3, 4, 5] 0 rfl (by decide) (by decide)
      (by decide)).imp fun _ h => h.imp fun _ h => h.imp fun _ h => ⟨h.1, h.2.2.1⟩⟩

/-- The end of the loop body of `packetizing_buffer_input` when the translation function
reports success and stores a two byte count followed by `body`, all of it inside
`outbuf`: a fatal error when the count is greater than `count`; otherwise the first
bytes of `body`, as many as the count says, are handed over, those that do not fit in
`size` bytes being held. -/
theorem packetizing_untranslate_decoded {τ φ : Type} (B SLOP : Nat) (ENOMEM : Int)
    (q : packetizing_buffer τ φ) (p : pool) (inbuf : List Byte) (count size : Int)
    (g : φ → List Byte → Int × List Byte × φ) (hg : q.inpfn = some g)
    (o0 o1 : Byte) (body : List Byte) (cl : φ)
    (hcall : g q.fnclosure inbuf = (0, o0 :: o1 :: body, cl))
    (hcap : count ≤ (B : Int) + SLOP → (body.length : Int) + 2 ≤ (B : Int) + SLOP)
    (hcap2 : (B : Int) + SLOP < count → (body.length : Int) + 2 ≤ count)
    (hp : never_exhausted p) :
    (be16_value o0 o1 > count →
      packetizing_untranslate B SLOP ENOMEM q p inbuf count size = result.fatal)
    ∧ (be16_value o0 o1 ≤ count → be16_value o0 o1 ≤ (body.length : Int) →
        packetizing_untranslate B SLOP ENOMEM q p inbuf count size
          = if be16_value o0 o1 > size then
              result.ok (packet_step.last (body.take size.toNat),
                { q with fnclosure := cl, holdsize := be16_value o0 o1 - size,
                         holdbuf := memcpy q.holdbuf 0
                           ((body.drop size.toNat).take (be16_value o0 o1 - size).toNat),
                         holddata := 0, translated := 1 }, p)
            else
              result.ok (packet_step.more (body.take (be16_value o0 o1).toNat),
                { q with fnclosure := cl, holdsize := 0 }, p)) := by
  obtain ⟨p1, hx1, _⟩ := xmalloc_ok p hp
  have hoL : (((o0 :: o1 :: body).length : Nat) : Int) = (body.length : Int) + 2 := by
    simp only [List.length_cons]; push_cast; omega
  by_cases hroom : count ≤ (B : Int) + SLOP
  · have hfit : ¬ ((((o0 :: o1 :: body).length : Nat) : Int) > (B : Int) + SLOP) := by
      rw [hoL]; have := hcap hroom; omega
    constructor
    · intro hf
      unfold packetizing_untranslate
      simp only [hroom, if_true, hg, hcall, hfit, if_false, ne_eq, not_true_eq_false, hf]
    · intro hle hbl
      have hnf : ¬ (be16_value o0 o1 > count) := by omega
      have hnb : ¬ ((body.length : Int) < be16_value o0 o1) := by omega
      unfold packetizing_untranslate
      simp only [hroom, if_true, hg, hcall, hfit, if_false, ne_eq, not_true_eq_false, hnf, hnb]
  · have hfit : ¬ ((((o0 :: o1 :: body).length : Nat) : Int) > count) := by
      rw [hoL]; have := hcap2 (by omega); omega
    constructor
    · intro hf
      unfold packetizing_untranslate
      simp only [hroom, if_false, hx1, Option.map_some', hg, hcall, hfit, ne_eq,
        not_true_eq_false, hf, if_true]
    · intro hle hbl
      have hnf : ¬ (be16_value o0 o1 > count) := by omega
      have hnb : ¬ ((body.length : Int) < be16_value o0 o1) := by omega
      unfold packetizing_untranslate
      simp only [hroom, if_false, hx1, Option.map_some', hg, hcall, hfit, ne_eq,
        not_true_eq_false, hnf, hnb]

/-- The part "Read the packet" of the loop body of `packetizing_buffer_input`, run on a
state that holds at least the count of a packet `T` still incomplete: either more of the
packet is held afterwards, or the packet is complete and its bytes `T` are given to the
end of the loop body, the bytes `R` after the packet staying queued. -/
theorem packetizing_packet_assemble {τ φ : Type} (B SLOP : Nat) (ENOMEM : Int)
    (pb : packetizing_buffer τ φ) (p : pool) (size : Int)
    (inp : τ → Int → Int → Int × List Byte × τ)
    (hold rest T R : List Byte)
    (hin : pb.buf.input = some inp)
    (hst : reader_hold B pb hold rest) (hwire : hold ++ rest = be16 T.length ++ T ++ R)
    (h2 : 2 ≤ hold.length) (hlt : hold.length < 2 + T.length)
    (hT : T.length < 65536) (hp : never_exhausted p) :
    (∃ pb' p' hold' rest', packetizing_packet B SLOP ENOMEM pb p size
          = result.ok (packet_step.again, pb', p')
        ∧ pb'.inpfn = pb.inpfn ∧ pb'.fnclosure = pb.fnclosure ∧ pb'.buf.input = some inp
        ∧ never_exhausted p' ∧ reader_hold B pb' hold' rest'
        ∧ hold' ++ rest' = hold ++ rest ∧ hold.length < hold'.length
        ∧ hold'.length < 2 + T.length)
    ∨ (∃ q p2, packetizing_packet B SLOP ENOMEM pb p size
          = packetizing_untranslate B SLOP ENOMEM q p2 T (T.length : Int) size
        ∧ q.inpfn = pb.inpfn ∧ q.fnclosure = pb.fnclosure ∧ q.buf.input = some inp
        ∧ never_exhausted p2 ∧ chain_ok B q.buf.data ∧ chain_bytes q.buf.data = R
        ∧ q.translated = 0 ∧ (q.holdbuf.length : Int) = q.holdbufsize
        ∧ 2 ≤ q.holdbuf.length ∧ (T.length : Int) ≤ (q.holdbuf.length : Int)
        ∧ R.length < rest.length) := by
  have hPlen : (be16 (T.length : Int) ++ T).length = 2 + T.length := by
    simp only [List.length_append, be16_length]
  rw [List.append_assoc, ← List.append_assoc (be16 _)] at hwire
  obtain ⟨hhold, hrest⟩ := prefix_split hold rest (be16 (T.length : Int) ++ T) R hwire (by omega)
  have hval : be16_value (char_of_int ((T.length : Int) / 256)) (char_of_int (T.length : Int))
      = (T.length : Int) := be16_value_be16 _ (by omega) (by omega)
  obtain ⟨hb, hbs, p1, hgrow, hst1, hroomhb, htk2, hp1⟩ :=
    packetizing_grow_ok B pb p (T.length : Int) hold rest hst hp
  obtain ⟨hch, hby, htr, hsz, htk, hlen, hl2⟩ := hst
  obtain ⟨_, _, _, _, htk1, hlen1, hl21⟩ := hst1
  simp only at htk1 hlen1 hl21
  have hhold2 : hold.take 2 = be16 (T.length : Int) := by
    rw [hhold, List.take_take, Nat.min_eq_left h2,
      List.take_append_of_le_length (by rw [be16_length])]
    exact List.take_of_length_le (by rw [be16_length])
  have hpbtake : pb.holdbuf.take 2 = be16 (T.length : Int) := by
    rw [← hhold2, ← htk, List.take_take, Nat.min_eq_left h2]
  obtain ⟨tl, htl⟩ : ∃ tl, pb.holdbuf
      = char_of_int ((T.length : Int) / 256) :: char_of_int (T.length : Int) :: tl := by
    rcases hpb : pb.holdbuf with _ | ⟨a, _ | ⟨b, tl⟩⟩
    · rw [hpb] at hl2; simp at hl2
    · rw [hpb] at hl2; simp at hl2
    · rw [hpb] at hpbtake
      simp only [List.take_succ_cons, List.take_zero, be16, List.cons.injEq, and_true]
        at hpbtake
      exact ⟨tl, by rw [hpbtake.1, hpbtake.2]⟩
  have hrne : chain_bytes pb.buf.data ≠ [] := by
    rw [hby, hrest]
    intro h
    have := congrArg List.length h
    simp only [List.length_append, List.length_drop, hPlen, List.length_nil] at this
    omega
  obtain ⟨view, ch, lst, p2, hrun, hch2, hvne, hvlen, hvby, hp2⟩ :=
    buf_read_data_view B pb.buf p1 ((T.length : Int) - (pb.holdsize - 2)) inp hin hch hrne
      (by rw [hsz]; omega) hp1
  rw [hby] at hvby
  rw [hsz] at hvlen hrun
  have hnroom : ¬ ((hb.length : Int) < (T.length : Int) + 2) := by omega
  have hv0 : ¬ ((view.length : Int) = 0) := by
    intro h
    exact hvne (List.length_eq_zero.mp (by exact_mod_cast h))
  have hvpos : 0 < view.length := List.length_pos.mpr hvne
  have hrl : rest.length = view.length + (chain_bytes ch).length := by
    rw [← hvby, List.length_append]
  obtain ⟨buf, inpfn, outfn, fncl, tr, hs, hb0, hbs0, hd⟩ := pb
  simp only at hin hch hby htr hsz htk hlen hl2 htk2 htl hrun hgrow
  subst htl hsz
  simp only [packetizing_packet, hval, hgrow, hnroom, if_false, hrun, result.bind, ne_eq,
    not_true_eq_false, hv0]
  by_cases hpart : (view.length : Int) < (T.length : Int) - ((hold.length : Int) - 2)
  · simp only [hpart, if_true]
    have hm := memcpy_take hb view hold.length (by omega)
    refine Or.inl ⟨_, p2, hold ++ view, chain_bytes ch, rfl, rfl, rfl, hin, hp2,
      ⟨hch2, rfl, htr, by simp, ?_, by rw [hm.2]; exact hlen1, by rw [hm.2]; exact hl21⟩,
      by rw [List.append_assoc, hvby], by simp; exact List.length_pos.mpr hvne,
      by simp only [List.length_append]; omega⟩
    simp only [List.length_append]
    rw [hm.1, htk1]
  · simp only [hpart, if_false]
    have hvl : hold.length + view.length = 2 + T.length := by omega
    have hall : (hold ++ view) ++ chain_bytes ch = (be16 (T.length : Int) ++ T) ++ R := by
      rw [List.append_assoc, hvby]; exact hwire
    obtain ⟨hpk, hR⟩ := List.append_inj hall
      (by simp only [List.length_append, be16_length] at hvl ⊢; omega)
    have hRl : R.length < rest.length := by rw [hrl, hR]; omega
    have hm := memcpy_take hb view hold.length (by omega)
    by_cases h22 : (hold.length : Int) = 2
    · have hl2' : hold.length = 2 := by exact_mod_cast h22
      obtain ⟨_, hvT⟩ := List.append_inj hpk (by rw [hl2', be16_length])
      subst hvT
      simp only [h22, if_true]
      exact Or.inr ⟨_, p2, rfl, rfl, rfl, hin, hp2, hch2, hR, htr, hlen1, hl21,
        (show (view.length : Int) ≤ (hb.length : Int) by omega), hRl⟩
    · simp only [h22, if_false]
      have hin2 : List.take (T.length : Int).toNat
          (List.drop 2 (memcpy hb (hold.length : Int) view)) = T := by
        rw [Int.toNat_natCast]
        apply drop_two_take _ (be16 (T.length : Int)) T (be16_length _)
        rw [← hvl, hm.1, htk1, hpk]
      rw [hin2]
      exact Or.inr ⟨_, p2, rfl, rfl, rfl, hin, hp2, hch2, hR, htr,
        (by rw [hm.2]; exact hlen1), (by rw [hm.2]; exact hl21),
        (show (T.length : Int) ≤ ((memcpy hb (hold.length : Int) view).length : Int) by
          rw [hm.2]; omega), hRl⟩

/-- The loop of `packetizing_buffer_input` run, with enough fuel, on a state in which a
packet `T` is still to be completed from the underlying buffer: it comes to the end of
the loop body with the bytes `T` of the packet, the bytes `R` after the packet staying
queued, and goes on from there as the loop does. -/
theorem packetizing_input_loop_assemble {τ φ : Type} (B SLOP : Nat) (ENOMEM : Int)
    (inp : τ → Int → Int → Int × List Byte × τ) (T R : List Byte) (need size : Int)
    (hT1 : 1 ≤ T.length) (hT : T.length < 65536) :
    ∀ (fuel : Nat) (pb : packetizing_buffer τ φ) (p : pool) (acc hold rest : List Byte),
      pb.buf.input = some inp → reader_hold B pb hold rest →
      hold ++ rest = be16 T.length ++ T ++ R → hold.length < 2 + T.length →
      rest.length < fuel → (need > 0 ∨ acc = []) → never_exhausted p →
      ∃ q p2 n, packetizing_input_loop B SLOP ENOMEM fuel pb p acc need size
          = (packetizing_untranslate B SLOP ENOMEM q p2 T (T.length : Int) size).bind
              (fun s =>
                match s.1 with
                | packet_step.ret status => result.ok ((status, acc), s.2.1, s.2.2)
                | packet_step.last bytes => result.ok ((0, acc ++ bytes), s.2.1, s.2.2)
                | packet_step.more bytes =>
                  packetizing_input_loop B SLOP ENOMEM n s.2.1 s.2.2
                    (acc ++ bytes) (need - bytes.length) (size - bytes.length)
                | _ => packetizing_input_loop B SLOP ENOMEM n s.2.1 s.2.2 acc need size)
        ∧ q.inpfn = pb.inpfn ∧ q.fnclosure = pb.fnclosure ∧ q.buf.input = some inp
        ∧ never_exhausted p2 ∧ chain_ok B q.buf.data ∧ chain_bytes q.buf.data = R
        ∧ q.translated = 0 ∧ (q.holdbuf.length : Int) = q.holdbufsize
        ∧ 2 ≤ q.holdbuf.length ∧ (T.length : Int) ≤ (q.holdbuf.length : Int)
        ∧ R.length < n := by
  intro fuel
  induction fuel with
  | zero => intro pb p acc hold rest _ _ _ _ h; omega
  | succ n ih =>
    intro pb p acc hold rest hin hst hwire hlt hfuel hcond hp
    have hwl := congrArg List.length hwire
    simp only [List.length_append, be16_length] at hwl
    obtain ⟨c0, c1, tail, htail⟩ : ∃ c0 c1 tail, hold ++ rest = c0 :: c1 :: tail := by
      rw [hwire]
      exact ⟨_, _, _, rfl⟩
    obtain ⟨step, pb1, p1, hold1, rest1, hrun1, hg1, hf1, hin1, hp1, hst1, hw1, hle1, hstep1⟩ :=
      packetizing_count_step B ENOMEM pb p inp hold rest c0 c1 tail hin hst htail hp
    have hl1 := congrArg List.length hw1
    simp only [List.length_append] at hl1
    rw [packetizing_input_loop]
    simp only [hcond, if_true, hrun1, result.bind]
    rcases hstep1 with ⟨hs, h2, h3, h4⟩ | ⟨hs, h2, h3⟩
    · subst hs
      simp only
      have hlt1 : hold1.length < 2 + T.length := by
        by_cases hh : hold.length < 2
        · rw [h3 hh]; omega
        · rw [h4 (by omega)]; exact hlt
      rcases packetizing_packet_assemble B SLOP ENOMEM pb1 p1 size inp hold1 rest1 T R hin1
          hst1 (by rw [hw1, hwire]) h2 hlt1 hT hp1 with
        ⟨pb2, p2, hold2, rest2, hrun2, hg2, hf2, hin2, hp2, hst2, hw2, hlt2, hlt3⟩
        | ⟨q, p2, hrun2, hg2, hf2, hin2, hp2, hc2, hb2, ht2, hl2, hl22, hlT, hRl⟩
      · simp only [hrun2]
        have hl2 := congrArg List.length hw2
        simp only [List.length_append] at hl2
        obtain ⟨q, p3, m, hrun3, hg3, hf3, hrest3⟩ :=
          ih pb2 p2 acc hold2 rest2 hin2 hst2 (by rw [hw2, hw1, hwire]) hlt3
            (by omega) hcond hp2
        exact ⟨q, p3, m, hrun3, by rw [hg3, hg2, hg1], by rw [hf3, hf2, hf1], hrest3⟩
      · refine ⟨q, p2, n, ?_, by rw [hg2, hg1], by rw [hf2, hf1], hin2, hp2, hc2, hb2, ht2, hl2,
          hl22, hlT, by omega⟩
        rw [hrun2]
    · subst hs
      simp only
      obtain ⟨q, p3, m, hrun3, hg3, hf3, hrest3⟩ :=
        ih pb1 p1 acc hold1 rest1 hin1 hst1 (by rw [hw1, hwire])
          (by omega) (by omega) hcond hp1
      exact ⟨q, p3, m, hrun3, by rw [hg3, hg1], by rw [hf3, hf1], hrest3⟩

/-- A call of `packetizing_buffer_input`, with `need <= 1` and enough fuel, on a state
between two packets when a complete packet `T` is queued on the underlying buffer and
the translation function reports success for it, storing a two byte count followed by
`body`: the call ends with a fatal error when the count is greater than the length of
`T`; otherwise it returns 0 and hands over the first bytes of `body`, as many as the
count says or as fit in `size` bytes, the others up to the count being held. -/
theorem packetizing_buffer_input_decoded {τ φ : Type} (B SLOP : Nat) (ENOMEM : Int)
    (inp : τ → Int → Int → Int × List Byte × τ) (g : φ → List Byte → Int × List Byte × φ)
    (fuel : Nat) (pb : packetizing_buffer τ φ) (p : pool) (need size : Int)
    (T R : List Byte) (o0 o1 : Byte) (body : List Byte) (cl : φ)
    (hin : pb.buf.input = some inp) (hgf : pb.inpfn = some g)
    (hst : reader_hold B pb [] (be16 T.length ++ T ++ R))
    (hT1 : 1 ≤ T.length) (hT : T.length < 65536)
    (hcall : g pb.fnclosure T = (0, o0 :: o1 :: body, cl))
    (hcap : (T.length : Int) ≤ (B : Int) + SLOP → (body.length : Int) + 2 ≤ (B : Int) + SLOP)
    (hcap2 : (B : Int) + SLOP < (T.length : Int) → (body.length : Int) + 2 ≤ (T.length : Int))
    (hfuel : (be16 T.length ++ T ++ R).length < fuel)
    (hneed : need ≤ 1) (hsize : 0 < size) (hp : never_exhausted p) :
    (be16_value o0 o1 > (T.length : Int) →
      packetizing_buffer_input B SLOP ENOMEM fuel pb p need size = result.fatal)
    ∧ (be16_value o0 o1 ≤ (T.length : Int) → be16_value o0 o1 ≤ (body.length : Int) →
        1 ≤ be16_value o0 o1 →
        ∃ pb' p', packetizing_buffer_input B SLOP ENOMEM fuel pb p need size
            = result.ok ((0, (body.take (be16_value o0 o1).toNat).take size.toNat), pb', p')
          ∧ pb'.inpfn = some g ∧ pb'.buf.input = some inp ∧ pb'.fnclosure = cl
          ∧ never_exhausted p'
          ∧ ((be16_value o0 o1 ≤ size ∧ reader_hold B pb' [] R)
             ∨ (size < be16_value o0 o1 ∧ pb'.translated = 1
                ∧ pb'.holdsize = be16_value o0 o1 - size
                ∧ reader_translated B pb'
                    ((body.take (be16_value o0 o1).toNat).drop size.toNat) R))) := by
  have hsz := hst.2.2.2.1
  simp only [List.length_nil, Nat.cast_zero] at hsz
  have hcond : ¬ (pb.holdsize > 0 ∧ pb.translated ≠ 0) := by
    intro h; rw [hsz] at h; omega
  obtain ⟨q, p2, n, hrun, hq1, hq2, hq3, hp2, hqc, hqb, hqt, hql, hq22, hqT, hRn⟩ :=
    packetizing_input_loop_assemble B SLOP ENOMEM inp T R need size hT1 hT fuel pb p [] []
      (be16 T.length ++ T ++ R) hin hst (by simp) (by simp) hfuel (Or.inr rfl) hp
  have hqg : q.inpfn = some g := by rw [hq1, hgf]
  obtain ⟨hfatal, hok⟩ := packetizing_untranslate_decoded B SLOP ENOMEM q p2 T
    (T.length : Int) size g hqg o0 o1 body cl (by rw [hq2]; exact hcall) hcap hcap2 hp2
  unfold packetizing_buffer_input
  simp only [hcond, if_false]
  rw [hrun]
  constructor
  · intro hf
    rw [hfatal hf]
    rfl
  · intro hle hbl h1
    rw [hok hle hbl]
    by_cases hgt : be16_value o0 o1 > size
    · rw [if_pos hgt]
      simp only [result.bind, List.nil_append]
      have htt : (body.take (be16_value o0 o1).toNat).take size.toNat
          = body.take size.toNat := by
        rw [List.take_take, Nat.min_eq_left (by omega)]
      have hdl : ((body.take (be16_value o0 o1).toNat).drop size.toNat).length
          = (be16_value o0 o1).toNat - size.toNat := by
        simp only [List.length_drop, List.length_take]; omega
      have hdt : (body.drop size.toNat).take (be16_value o0 o1 - size).toNat
          = (body.take (be16_value o0 o1).toNat).drop size.toNat := by
        rw [List.drop_take]
        congr 1
        omega
      have hm := memcpy_take q.holdbuf
        ((body.take (be16_value o0 o1).toNat).drop size.toNat) 0 (by rw [hdl]; omega)
      simp only [Nat.cast_zero, zero_add, List.take_zero, List.nil_append] at hm
      rw [htt, hdt]
      refine ⟨_, _, rfl, hqg, hq3, rfl, hp2, Or.inr ⟨by omega, rfl, rfl,
        ⟨hqc, hqb, by simp, ?_, ?_, le_refl _, ?_, by rw [hm.2]; exact hql,
          by rw [hm.2]; exact hq22⟩⟩⟩
      · simp only [hdl]; omega
      · intro h
        rw [h] at hdl
        simp at hdl
        omega
      · simp only [Int.toNat_zero, List.drop_zero]
        exact hm.1
    · rw [if_neg hgt]
      simp only [result.bind, List.nil_append]
      obtain ⟨m, rfl⟩ : ∃ m, n = m + 1 := ⟨n - 1, by omega⟩
      have hlen : ((body.take (be16_value o0 o1).toNat).length : Int) = be16_value o0 o1 := by
        simp only [List.length_take]; omega
      have hexit : ¬ (need - ((body.take (be16_value o0 o1).toNat).length : Int) > 0
          ∨ body.take (be16_value o0 o1).toNat = []) := by
        intro h
        rcases h with h | h
        · omega
        · rw [h] at hlen; simp at hlen; omega
      have htake : (body.take (be16_value o0 o1).toNat).take size.toNat
          = body.take (be16_value o0 o1).toNat := by
        apply List.take_of_length_le
        omega
      rw [packetizing_input_loop]
      simp only [hexit, if_false, htake]
      exact ⟨_, _, rfl, hqg, hq3, rfl, hp2, Or.inl ⟨by omega,
        ⟨hqc, hqb, hqt, by simp, by simp, hql, hq22⟩⟩⟩

/-- A call of `packetizing_buffer_input` on a state that holds translated bytes `y`
touches neither the underlying buffer nor the closure of the translation function nor
the pool: it takes the bytes it hands over from `holdbuf`. -/
theorem packetizing_buffer_input_from_hold {τ φ : Type} (B SLOP : Nat) (ENOMEM : Int)
    (fuel : Nat) (pb : packetizing_buffer τ φ) (p : pool) (need size : Int)
    (y W : List Byte) (hst : reader_translated B pb y W)
    (hneed : need ≤ 1) (hsize : 0 < size) :
    ∃ pb', packetizing_buffer_input B SLOP ENOMEM (fuel + 1) pb p need size
        = result.ok ((0, y.take size.toNat), pb', p)
      ∧ pb'.buf = pb.buf ∧ pb'.fnclosure = pb.fnclosure ∧ pb'.inpfn = pb.inpfn
      ∧ pb'.holdbuf = pb.holdbuf
      ∧ (((y.length : Int) ≤ size ∧ reader_hold B pb' [] W)
         ∨ (size < (y.length : Int) ∧ reader_translated B pb' (y.drop size.toNat) W)) := by
  obtain ⟨hc, hby, htr, hsz, hy, hd0, htk, hlen, h2⟩ := hst
  have hypos : 0 < y.length := List.length_pos.mpr hy
  have hcond : pb.holdsize > 0 ∧ pb.translated ≠ 0 := ⟨by rw [hsz]; omega, htr⟩
  unfold packetizing_buffer_input
  rw [if_pos hcond]
  obtain ⟨buf, inpfn, outfn, fncl, tr, hs, hb, hbs, hd⟩ := pb
  simp only at hc hby htr hsz hd0 htk hlen h2 ⊢
  subst hsz
  by_cases hgt : (y.length : Int) > size
  · rw [if_pos hgt]
    have hs : size.toNat ≤ y.length := by omega
    have hout : List.take size.toNat (List.drop hd.toNat hb) = List.take size.toNat y := by
      rw [← htk, List.take_take, Nat.min_eq_left hs]
    rw [hout]
    refine ⟨_, rfl, rfl, rfl, rfl, rfl,
      Or.inr ⟨by omega, ⟨hc, hby, htr, ?_, ?_, ?_, ?_, hlen, h2⟩⟩⟩
    · simp only [List.length_drop]; omega
    · intro h
      have := congrArg List.length h
      simp only [List.length_drop, List.length_nil] at this
      omega
    · simp only; omega
    · simp only [List.length_drop]
      have e : (hd + size).toNat = hd.toNat + size.toNat := by omega
      have h := congrArg (List.drop size.toNat) htk
      rw [List.drop_take] at h
      rw [e, ← List.drop_drop]
      exact h
  · rw [if_neg hgt]
    have hle : (y.length : Int) ≤ size := by omega
    have hacc : List.take (y.length : Int).toNat (List.drop hd.toNat hb) = y := by
      rw [Int.toNat_natCast]; exact htk
    have hexit : ¬ (need - (y.length : Int) > 0 ∨ y = []) := by
      intro h
      rcases h with h | h
      · omega
      · exact hy h
    have htake : y.take size.toNat = y := by
      apply List.take_of_length_le
      omega
    rw [hacc, packetizing_input_loop]
    simp only [hexit, if_false, htake]
    exact ⟨_, rfl, rfl, rfl, rfl, rfl, Or.inl ⟨hle, ⟨hc, hby, rfl, by simp, by simp, hlen, h2⟩⟩⟩

/-- The end of the loop body of `packetizing_buffer_input`, when the translation function
reports success and stores a two byte count followed by `body` inside `outbuf`, is the
fatal error exactly when that count is greater than `count`. -/
theorem packetizing_untranslate_fatal_iff {τ φ : Type} (B SLOP : Nat) (ENOMEM : Int)
    (q : packetizing_buffer τ φ) (p : pool) (inbuf : List Byte) (count size : Int)
    (g : φ → List Byte → Int × List Byte × φ) (hg : q.inpfn = some g)
    (o0 o1 : Byte) (body : List Byte) (cl : φ)
    (hcall : g q.fnclosure inbuf = (0, o0 :: o1 :: body, cl))
    (hcap : count ≤ (B : Int) + SLOP → (body.length : Int) + 2 ≤ (B : Int) + SLOP)
    (hcap2 : (B : Int) + SLOP < count → (body.length : Int) + 2 ≤ count)
    (hp : never_exhausted p) :
    (packetizing_untranslate B SLOP ENOMEM q p inbuf count size = result.fatal
      ↔ be16_value o0 o1 > count) := by
  obtain ⟨hfatal, hok⟩ := packetizing_untranslate_decoded B SLOP ENOMEM q p inbuf count size g
    hg o0 o1 body cl hcall hcap hcap2 hp
  refine ⟨?_, hfatal⟩
  intro hf
  by_contra hn
  by_cases hbl : be16_value o0 o1 ≤ (body.length : Int)
  · rw [hok (by omega) hbl] at hf
    by_cases hgt : be16_value o0 o1 > size
    · rw [if_pos hgt] at hf; cases hf
    · rw [if_neg hgt] at hf; cases hf
  · obtain ⟨p1, hx1, _⟩ := xmalloc_ok p hp
    have hoL : (((o0 :: o1 :: body).length : Nat) : Int) = (body.length : Int) + 2 := by
      simp only [List.length_cons]; push_cast; omega
    have hnb : (body.length : Int) < be16_value o0 o1 := by omega
    by_cases hroom : count ≤ (B : Int) + SLOP
    · have hfit : ¬ ((((o0 :: o1 :: body).length : Nat) : Int) > (B : Int) + SLOP) := by
        rw [hoL]; have := hcap hroom; omega
      unfold packetizing_untranslate at hf
      simp only [hroom, if_true, hg, hcall, hfit, if_false, ne_eq, not_true_eq_false, hn,
        hnb] at hf
      cases hf
    · have hfit : ¬ ((((o0 :: o1 :: body).length : Nat) : Int) > count) := by
        rw [hoL]; have := hcap2 (by omega); omega
      unfold packetizing_untranslate at hf
      simp only [hroom, if_false, hx1, Option.map_some', hg, hcall, hfit, ne_eq,
        not_true_eq_false, hn, hnb, if_true] at hf
      cases hf

/-- The test of the count of the translated data: `packetizing_buffer_input` is called,
with `need <= 1`, `size > 0` and enough fuel, between two packets, when a complete packet of `count >= 1` bytes `T` is queued on
the underlying buffer and the translation function reports success for it, storing the
two bytes of a count `tcount` followed by `body`, inside `outbuf`.  When
`tcount > count` the call ends with the fatal error.  When `tcount <= count`, `tcount`
being at least 1 and `body` holding `tcount` bytes, the call returns 0 and hands over
bytes of the first `tcount` bytes of `body` only: all of them, or the first `size` when
`size < tcount`, the others of those `tcount` bytes being held; so, for such a `tcount`, the
call ends with the fatal error exactly when `tcount > count`.  The block of the function
that follows the translation, for any packet, count and state, ends with the fatal error
exactly when `tcount > count`, and otherwise hands over the first `size` or the first
`tcount` bytes of `body`. -/
theorem packetizing_buffer_input_count_check {τ φ : Type}
    (BUFFER_DATA_SIZE PACKET_SLOP : Nat) (ENOMEM : Int)
    (inp : τ → Int → Int → Int × List Byte × τ) (g : φ → List Byte → Int × List Byte × φ)
    (fuel : Nat) (pb : packetizing_buffer τ φ) (p : pool) (need size : Int)
    (T R : List Byte) (o0 o1 : Byte) (body : List Byte) (cl : φ)
    (hin : pb.buf.input = some inp) (hgf : pb.inpfn = some g)
    (hst : reader_hold BUFFER_DATA_SIZE pb [] (be16 T.length ++ T ++ R))
    (hT1 : 1 ≤ T.length) (hT : T.length < 65536)
    (hcall : g pb.fnclosure T = (0, o0 :: o1 :: body, cl))
    (hcap : (T.length : Int) ≤ (BUFFER_DATA_SIZE : Int) + PACKET_SLOP →
      (body.length : Int) + 2 ≤ (BUFFER_DATA_SIZE : Int) + PACKET_SLOP)
    (hcap2 : (BUFFER_DATA_SIZE : Int) + PACKET_SLOP < (T.length : Int) →
      (body.length : Int) + 2 ≤ (T.length : Int))
    (hfuel : (be16 T.length ++ T ++ R).length < fuel)
    (hneed : need ≤ 1) (hsize : 0 < size) (hp : never_exhausted p) :
    (be16_value o0 o1 > (T.length : Int) →
      packetizing_buffer_input BUFFER_DATA_SIZE PACKET_SLOP ENOMEM fuel pb p need size
        = result.fatal)
    ∧ (be16_value o0 o1 ≤ (T.length : Int) → be16_value o0 o1 ≤ (body.length : Int) →
        1 ≤ be16_value o0 o1 →
        ∃ pb' p', packetizing_buffer_input BUFFER_DATA_SIZE PACKET_SLOP ENOMEM fuel pb p
              need size
            = result.ok ((0, (body.take (be16_value o0 o1).toNat).take size.toNat), pb', p')
          ∧ ((be16_value o0 o1 ≤ size ∧ reader_hold BUFFER_DATA_SIZE pb' [] R)
             ∨ (size < be16_value o0 o1
                ∧ reader_translated BUFFER_DATA_SIZE pb'
                    ((body.take (be16_value o0 o1).toNat).drop size.toNat) R)))
    ∧ (be16_value o0 o1 ≤ (body.length : Int) → 1 ≤ be16_value o0 o1 →
        (packetizing_buffer_input BUFFER_DATA_SIZE PACKET_SLOP ENOMEM fuel pb p need size
            = result.fatal
          ↔ be16_value o0 o1 > (T.length : Int)))
    ∧ (∀ (q : packetizing_buffer τ φ) (p2 : pool) (inbuf : List Byte) (count size2 : Int)
        (a0 a1 : Byte) (b : List Byte) (c : φ),
        q.inpfn = some g → g q.fnclosure inbuf = (0, a0 :: a1 :: b, c) →
        (count ≤ (BUFFER_DATA_SIZE : Int) + PACKET_SLOP →
          (b.length : Int) + 2 ≤ (BUFFER_DATA_SIZE : Int) + PACKET_SLOP) →
        ((BUFFER_DATA_SIZE : Int) + PACKET_SLOP < count → (b.length : Int) + 2 ≤ count) →
        never_exhausted p2 →
        (packetizing_untranslate BUFFER_DATA_SIZE PACKET_SLOP ENOMEM q p2 inbuf count size2
            = result.fatal
          ↔ be16_value a0 a1 > count)
        ∧ (be16_value a0 a1 ≤ count → be16_value a0 a1 ≤ (b.length : Int) →
            ∃ q', (size2 < be16_value a0 a1
                ∧ packetizing_untranslate BUFFER_DATA_SIZE PACKET_SLOP ENOMEM q p2 inbuf count
                    size2
                  = result.ok (packet_step.last (b.take size2.toNat), q', p2))
              ∨ (be16_value a0 a1 ≤ size2
                ∧ packetizing_untranslate BUFFER_DATA_SIZE PACKET_SLOP ENOMEM q p2 inbuf count
                    size2
                  = result.ok (packet_step.more (b.take (be16_value a0 a1).toNat), q', p2)))) := by
  obtain ⟨hfatal, hok⟩ := packetizing_buffer_input_decoded BUFFER_DATA_SIZE PACKET_SLOP ENOMEM
    inp g fuel pb p need size T R o0 o1 body cl hin hgf hst hT1 hT hcall hcap hcap2 hfuel
    hneed hsize hp
  refine ⟨hfatal, ?_, ?_, ?_⟩
  rotate_left 2
  · intro q p2 inbuf count size2 a0 a1 b c hq hc h1 h2 hp2
    refine ⟨packetizing_untranslate_fatal_iff BUFFER_DATA_SIZE PACKET_SLOP ENOMEM q p2 inbuf
      count size2 g hq a0 a1 b c hc h1 h2 hp2, ?_⟩
    intro hle hbl
    have hrun := (packetizing_untranslate_decoded BUFFER_DATA_SIZE PACKET_SLOP ENOMEM q p2
      inbuf count size2 g hq a0 a1 b c hc h1 h2 hp2).2 hle hbl
    by_cases hgt : be16_value a0 a1 > size2
    · rw [if_pos hgt] at hrun
      exact ⟨_, Or.inl ⟨hgt, hrun⟩⟩
    · rw [if_neg hgt] at hrun
      exact ⟨_, Or.inr ⟨by omega, hrun⟩⟩
  · intro hle hbl h1
    obtain ⟨pb', p', hrun, _, _, _, _, hcases⟩ := hok hle hbl h1
    refine ⟨pb', p', hrun, ?_⟩
    rcases hcases with h | ⟨h, _, _, h'⟩
    · exact Or.inl h
    · exact Or.inr ⟨h, h'⟩
  · intro hbl h1
    constructor
    · intro hf
      by_contra hn
      obtain ⟨pb', p', hrun, _⟩ := hok (by omega) hbl h1
      rw [hrun] at hf
      cases hf
    · exact hfatal

theorem packetizing_buffer_input_count_check_witness :
    ((1 : Int) ≤ 1 ∧ (0 : Int) < 4 ∧ never_exhausted ⟨[], 0, none⟩
      ∧ be16_value 0 5 > (([0, 5, 1] : List Byte).length : Int))
    ∧ packetizing_buffer_input 8 2 12 6
        ( packetizing_buffer_initialize 8 2
          (chain_buffer [⟨0, [0, 3, 0, 5, 1, 0, 0, 0], 0, 5⟩] (some 0) (some eof_input) ())
          (some identity_transform) none ()).closure ⟨[], 0, none⟩ 1 4 = result.fatal :=
  ⟨⟨by decide, by decide, rfl, by decide⟩,
   (packetizing_buffer_input_count_check 8 2 12 eof_input identity_transform 6
      ( packetizing_buffer_initialize 8 2
        (chain_buffer [⟨0, [0, 3, 0, 5, 1, 0, 0, 0], 0, 5⟩] (some 0) (some eof_input) ())
        (some identity_transform) none ()).closure ⟨[], 0, none⟩ 1 4 [0, 5, 1] [] 0 5 [1] ()
      rfl rfl ⟨by decide, by decide, rfl, rfl, rfl, by decide, by decide⟩ (by decide)
      (by decide) rfl (fun _ => by decide) (fun _ => by decide) (by decide) (by decide)
      (by decide) rfl).1 (by decide)⟩

theorem chunk_chain_ok (B : Nat) :
    ∀ (chunks : List (List Byte)) (a : Nat), (∀ c ∈ chunks, c.length ≤ B) →
      chain_ok B (chunk_chain B a chunks)
      ∧ chain_bytes (chunk_chain B a chunks) = chunks.flatten := by
  intro chunks
  induction chunks with
  | nil => intro a _; exact ⟨chain_ok_nil _, rfl⟩
  | cons c rest ih =>
    intro a h
    have hc := h c (List.mem_cons_self _ _)
    obtain ⟨h1, h2⟩ := ih (a + 1) (fun x hx => h x (List.mem_cons_of_mem _ hx))
    constructor
    · simp only [chunk_chain]
      rw [chain_ok_cons]
      refine ⟨⟨?_, le_refl _, by simp, ?_⟩, h1⟩
      · simp only [List.length_append, List.length_replicate]; omega
      · simp only [zero_add]; exact_mod_cast hc
    · simp only [chunk_chain, chain_bytes, List.flatten_cons, h2]
      congr 1
      simp [seg_bytes]

/-- The end of `buf_read_data` on a chain whose first node holds bytes: a non-empty view
of at most `want` of them. -/
theorem read_data_take_view {σ : Type} (B : Nat) (buf : buffer σ) (p : pool) (want : Int)
    (d : buffer_data) (rest : List buffer_data) (hd : buf.data = d :: rest)
    (hok : chain_ok B (d :: rest)) (hpos : 0 < d.size) (hw : 1 ≤ want) :
    ∃ view d', read_data_take buf p want
        = result.ok ((0, view, (view.length : Int)), { buf with data := d' :: rest }, p)
      ∧ chain_ok B (d' :: rest) ∧ view ≠ [] ∧ (view.length : Int) ≤ want
      ∧ view ++ chain_bytes (d' :: rest) = chain_bytes (d :: rest) := by
  have hsd := (chain_ok_cons.mp hok).1
  have hlen := seg_bytes_length hsd
  unfold read_data_take
  rw [hd]
  simp only
  by_cases hlt : want < d.size
  · rw [if_pos hlt]
    obtain ⟨a1, a2, a3⟩ := seg_advance hsd want (by omega) (by omega)
    have e : (((seg_bytes d).take want.toNat).length : Int) = want := by
      simp only [List.length_take]; omega
    refine ⟨(seg_bytes d).take want.toNat,
      { d with size := d.size - want, bufp := d.bufp + want }, ?_, ?_, ?_, ?_, ?_⟩
    · rw [e, ← a2]
      rfl
    · rw [chain_ok_cons]; exact ⟨a1, (chain_ok_cons.mp hok).2⟩
    · intro hnil
      rw [hnil] at e
      simp at e
      omega
    · rw [e]
    · simp only [chain_bytes]
      rw [a3, ← List.append_assoc, List.take_append_drop]
  · rw [if_neg hlt]
    refine ⟨seg_bytes d, { d with size := 0 }, ?_, ?_, ?_, ?_, ?_⟩
    · rw [hlen]; rfl
    · rw [chain_ok_cons]
      obtain ⟨h1, h2, h3, h4⟩ := hsd
      exact ⟨⟨h1, h2, le_refl _, by simp only; omega⟩, (chain_ok_cons.mp hok).2⟩
    · intro hnil
      rw [hnil] at hlen
      simp at hlen
      omega
    · rw [hlen]; omega
    · simp [chain_bytes, seg_bytes]

/-- An underlying buffer fed by `chunk_input` is read as `packetizing_buffer_input`
needs: `buf_read_data` takes bytes of the first node of the chain that holds some, and
asks for the next chunk when the chain holds none. -/
theorem stream_ok_reads (B : Nat) : reads_stream B (stream_ok B) := by
  intro buf p want rest hI hw hp
  obtain ⟨hc, hin, hch, hrest⟩ := hI
  constructor
  · intro hne
    by_cases hcb : chain_bytes buf.data = []
    · obtain ⟨lst, p1, hrun, hx⟩ := read_data_skip_dry B buf.data buf p hc hcb
      have hp1 : never_exhausted p1 := by
        unfold never_exhausted at hp ⊢
        rw [hx, hp]
      obtain ⟨a, p2, hget, hp2⟩ := get_buffer_data_ok B p1 hp1
      obtain ⟨data, last, nb, inp0, out, fl, bl, sh, cl, calls⟩ := buf
      simp only at hc hin hch hrest hcb hrun
      subst hin
      cases cl with
      | nil =>
        rw [hcb] at hrest
        exact absurd hrest.symm hne
      | cons c cs =>
        obtain ⟨hc1, hc2⟩ := hch c (List.mem_cons_self _ _)
        obtain ⟨s1, s2⟩ := seg_fresh B a c hc2
        have hpos : (0 : Int) < (c.length : Int) := by
          have := List.length_pos.mpr hc1
          omega
        obtain ⟨view, d', htake, hok', hvne, hvlen, hvby⟩ :=
          read_data_take_view B
            { data := [⟨a, memcpy (List.replicate B 0) 0 c, 0, c.length⟩], last := some a,
              nonblocking := nb, input := some chunk_input, output := out, flush := fl,
              block := bl, shutdown := sh, closure := cs,
              calls := calls ++ [callback.input (if want < ↑B then want else ↑B) ↑B] }
            p2 want ⟨a, memcpy (List.replicate B 0) 0 c, 0, c.length⟩ [] rfl
            (chain_ok_cons.mpr ⟨s1, chain_ok_nil _⟩) hpos hw
        refine ⟨view,
          { data := [d'], last := some a, nonblocking := nb, input := some chunk_input,
            output := out, flush := fl, block := bl, shutdown := sh, closure := cs,
            calls := calls ++ [callback.input (if want < ↑B then want else ↑B) ↑B] },
          p2, chain_bytes [d'] ++ cs.flatten, ?_,
          ⟨hok', rfl, fun x hx => hch x (List.mem_cons_of_mem _ hx), rfl⟩, hvne, hvlen, ?_, hp2⟩
        · unfold buf_read_data
          simp only [hrun, hget, chunk_input, ne_eq, not_true_eq_false, if_false]
          exact htake
        · rw [← List.append_assoc, hvby, ← hrest, hcb]
          simp only [chain_bytes, List.append_nil, List.nil_append, List.flatten_cons]
          rw [s2]
    · obtain ⟨view, ch, lst, p', hrun, hch2, hvne, hvlen, hvby, hp'⟩ :=
        buf_read_data_view B buf p want chunk_input hin hc hcb hw hp
      exact ⟨view, _, p', chain_bytes ch ++ buf.closure.flatten, hrun, ⟨hch2, hin, hch, rfl⟩,
        hvne, hvlen, by rw [← List.append_assoc, hvby, hrest], hp'⟩
  · intro hnil
    rw [hnil] at hrest
    obtain ⟨hcb, hfl⟩ := List.append_eq_nil.mp hrest
    have hcl : buf.closure = [] :=
      flatten_eq_nil_of_nonempty buf.closure (fun x hx => (hch x hx).1) hfl
    obtain ⟨lst, p1, hrun, hx⟩ := read_data_skip_dry B buf.data buf p hc hcb
    have hp1 : never_exhausted p1 := by
      unfold never_exhausted at hp ⊢
      rw [hx, hp]
    obtain ⟨a, p2, hget, hp2⟩ := get_buffer_data_ok B p1 hp1
    unfold buf_read_data
    simp only [hin, hrun, hget, hcl, chunk_input]
    exact ⟨_, _, _, rfl⟩

/-- The block of `packetizing_buffer_input` that gets the two byte count, run when at
least two bytes of the wire are still to be taken: it is left with the count in
`holdbuf`, or repeated with one byte of it there. -/
theorem packetizing_count_with {τ φ : Type} (B : Nat) (ENOMEM : Int)
    (I : buffer τ → List Byte → Prop) (hI : reads_stream B I)
    (pb : packetizing_buffer τ φ) (p : pool)
    (hold rest : List Byte) (c0 c1 : Byte) (tail : List Byte)
    (hst : reader_hold_with I pb hold rest)
    (hwire : hold ++ rest = c0 :: c1 :: tail) (hp : never_exhausted p) :
    ∃ step pb' p' hold' rest', packetizing_count B ENOMEM pb p = result.ok (step, pb', p')
      ∧ pb'.inpfn = pb.inpfn ∧ pb'.fnclosure = pb.fnclosure
      ∧ never_exhausted p' ∧ reader_hold_with I pb' hold' rest'
      ∧ hold' ++ rest' = hold ++ rest
      ∧ hold.length ≤ hold'.length
      ∧ ((step = packet_step.go ∧ 2 ≤ hold'.length ∧ (hold.length < 2 → hold'.length = 2)
            ∧ (2 ≤ hold.length → hold'.length = hold.length))
         ∨ (step = packet_step.again ∧ hold.length < hold'.length ∧ hold'.length < 2)) := by
  obtain ⟨hIb, htr, hsz, htk, hlen, h2⟩ := hst
  by_cases hge : 2 ≤ hold.length
  · refine ⟨packet_step.go, pb, p, hold, rest, ?_, rfl, rfl, hp,
      ⟨hIb, htr, hsz, htk, hlen, h2⟩, rfl, le_refl _,
      Or.inl ⟨rfl, hge, fun h => by omega, fun _ => rfl⟩⟩
    have : ¬ pb.holdsize < 2 := by rw [hsz]; omega
    simp only [packetizing_count, this, if_false]
  · have hlt : pb.holdsize < 2 := by rw [hsz]; omega
    have hrest : rest ≠ [] := by
      intro h
      rw [h, List.append_nil] at hwire
      rw [hwire] at hge
      simp at hge
    obtain ⟨view, buf', p', rest', hrun, hI', hvne, hvlen, hvby, hp'⟩ :=
      (hI pb.buf p (2 - pb.holdsize) rest hIb (by omega) hp).1 hrest
    have hn2 : ¬ pb.holdbuf.length < 2 := by omega
    obtain ⟨buf, inpfn, outfn, fncl, tr, hs, hb, hbs, hd⟩ := pb
    simp only at hIb htr hsz htk hlen h2 hlt hrun hvlen hn2
    simp only [packetizing_count, hlt, if_true, hrun, result.bind, ne_eq, not_true_eq_false,
      if_false, hn2]
    have hv0 : ¬ ((view.length : Int) = 0) := by
      intro h
      exact hvne (List.length_eq_zero.mp (by exact_mod_cast h))
    simp only [hv0, if_false]
    cases hold with
    | nil =>
      simp only [List.nil_append] at hwire
      rw [hwire] at hvby
      obtain ⟨v, hv, hvt⟩ := view_cases view rest' c0 (c1 :: tail) hvne hvby
      subst hv
      simp only [List.length_nil, Nat.cast_zero] at hsz
      subst hsz
      have hg1 : ¬ ((2 : Int) - 0 = 1) := by omega
      simp only [hg1, if_false]
      cases v with
      | nil =>
        have hm := memcpy_take hb [c0] 0 (by simp; omega)
        simp only [List.length_singleton, Nat.cast_one, Nat.cast_zero, zero_add,
          List.take_zero, List.nil_append, List.length_cons, List.length_nil] at hm ⊢
        simp only [show ((1 : Int) < 2) from by omega, if_true]
        refine ⟨_, _, p', [c0], rest', rfl, rfl, rfl, hp',
          ⟨hI', htr, rfl, hm.1, by rw [hm.2]; exact hlen, by rw [hm.2]; exact h2⟩,
          ?_, by simp, Or.inr ⟨rfl, by simp, by simp⟩⟩
        simp only [List.nil_append] at hvt ⊢
        rw [hwire, hvt]
        rfl
      | cons b1 v2 =>
        have hv2 : v2 = [] := by
          simp only [List.length_cons] at hvlen
          have : v2.length = 0 := by push_cast at hvlen; omega
          exact List.length_eq_zero.mp this
        subst hv2
        have hb1 : b1 = c1 := by
          simp only [List.cons_append, List.nil_append, List.cons.injEq] at hvt
          exact hvt.1
        subst hb1
        have hm0 := memcpy_take hb [c0] 0 (by simp; omega)
        have hm1 := memcpy_take (memcpy hb ((0 : Nat) : Int) [c0]) [b1] 1 (by
          rw [hm0.2]; simp; omega)
        simp only [List.length_singleton, Nat.cast_one, Nat.cast_zero, zero_add,
          List.take_zero, List.nil_append, List.length_cons, List.length_nil] at hm0 hm1 ⊢
        have hc2 : ¬ (((1 + 1 : Nat) : Int) < 2) := by omega
        simp only [hc2, if_false]
        refine ⟨_, _, p', [c0, b1], rest', rfl, rfl, rfl, hp',
          ⟨hI', htr, rfl, ?_, by rw [hm1.2, hm0.2]; exact hlen,
            by rw [hm1.2, hm0.2]; exact h2⟩, ?_, by simp, Or.inl ⟨rfl, by simp, by simp, by simp⟩⟩
        · have := hm1.1
          rw [hm0.1] at this
          simpa using this
        · simp only [List.cons_append, List.nil_append, List.cons.injEq, true_and] at hvt ⊢
          rw [hwire, hvt]
    | cons a hold1 =>
      have hh1 : hold1 = [] := by
        simp only [List.length_cons] at hge
        exact List.length_eq_zero.mp (by omega)
      subst hh1
      simp only [List.cons_append, List.nil_append, List.cons.injEq] at hwire
      obtain ⟨ha, hrest'⟩ := hwire
      subst ha
      rw [hrest'] at hvby
      obtain ⟨v, hv, hvt⟩ := view_cases view rest' c1 tail hvne hvby
      subst hv
      simp only [List.length_singleton, Nat.cast_one] at hsz
      subst hsz
      simp only [show ((2 : Int) - 1 = 1) from by omega, if_true]
      have hv2 : v = [] := by
        simp only [List.length_cons] at hvlen
        have : v.length = 0 := by push_cast at hvlen; omega
        exact List.length_eq_zero.mp this
      subst hv2
      have hm1 := memcpy_take hb [c1] 1 (by simp; omega)
      simp only [List.length_singleton, Nat.cast_one] at hm1 htk ⊢
      refine ⟨_, _, p', [a, c1], rest', rfl, rfl, rfl, hp',
        ⟨hI', htr, rfl, ?_, by rw [hm1.2]; exact hlen, by rw [hm1.2]; exact h2⟩, ?_,
        by simp, Or.inl ⟨rfl, by simp, by simp, by simp⟩⟩
      · have := hm1.1
        rw [htk] at this
        simpa using this
      · simp only [List.cons_append, List.nil_append, List.cons.injEq, true_and]
        rw [hrest']
        simp only [List.nil_append] at hvt
        rw [hvt]

/-- The block that makes `holdbuf` large enough for a packet of `count` bytes. -/
theorem packetizing_grow_with {τ φ : Type} (I : buffer τ → List Byte → Prop)
    (pb : packetizing_buffer τ φ) (p : pool)
    (count : Int) (hold rest : List Byte)
    (hst : reader_hold_with I pb hold rest) (hp : never_exhausted p) :
    ∃ hb hbs p1, packetizing_grow pb p count
        = some ({ pb with holdbuf := hb, holdbufsize := hbs }, p1)
      ∧ reader_hold_with I { pb with holdbuf := hb, holdbufsize := hbs } hold rest
      ∧ count + 2 ≤ (hb.length : Int) ∧ hb.take 2 = pb.holdbuf.take 2
      ∧ never_exhausted p1 := by
  obtain ⟨hIb, htr, hsz, htk, hlen, h2⟩ := hst
  by_cases hgrow : count + 2 > pb.holdbufsize
  · obtain ⟨p1, hx, hp1⟩ := xmalloc_ok p hp
    refine ⟨pb.holdbuf ++ List.replicate (count + 2 - pb.holdbufsize).toNat 0, count + 2, p1,
      ?_, ⟨hIb, htr, hsz, ?_, ?_, ?_⟩, ?_, ?_, hp1⟩
    · simp only [packetizing_grow, hgrow, if_true, hx]
    · have hle : hold.length ≤ pb.holdbuf.length := by
        have := congrArg List.length htk
        simp only [List.length_take] at this
        omega
      simp only
      rw [List.take_append_of_le_length hle]
      exact htk
    · simp only [List.length_append, List.length_replicate]
      push_cast
      rw [Int.toNat_of_nonneg (by omega)]
      omega
    · simp only [List.length_append]; omega
    · simp only [List.length_append, List.length_replicate]
      push_cast
      rw [Int.toNat_of_nonneg (by omega)]
      omega
    · rw [List.take_append_of_le_length h2]
  · refine ⟨pb.holdbuf, pb.holdbufsize, p, ?_, ⟨hIb, htr, hsz, htk, hlen, h2⟩, ?_, rfl, hp⟩
    · simp only [packetizing_grow, hgrow, if_false]
    · omega

/-- The part "Read the packet" of the loop body of `packetizing_buffer_input`, run on a
state that holds at least the count of a packet `T` still incomplete: either more of the
packet is held afterwards, or the packet is complete and its bytes `T` are given to the
end of the loop body, the bytes `R` after the packet being still to come. -/
theorem packetizing_packet_with {τ φ : Type} (B SLOP : Nat) (ENOMEM : Int)
    (I : buffer τ → List Byte → Prop) (hI : reads_stream B I)
    (pb : packetizing_buffer τ φ) (p : pool) (size : Int)
    (hold rest T R : List Byte)
    (hst : reader_hold_with I pb hold rest) (hwire : hold ++ rest = be16 T.length ++ T ++ R)
    (h2 : 2 ≤ hold.length) (hlt : hold.length < 2 + T.length)
    (hT : T.length < 65536) (hp : never_exhausted p) :
    (∃ pb' p' hold' rest', packetizing_packet B SLOP ENOMEM pb p size
          = result.ok (packet_step.again, pb', p')
        ∧ pb'.inpfn = pb.inpfn ∧ pb'.fnclosure = pb.fnclosure
        ∧ never_exhausted p' ∧ reader_hold_with I pb' hold' rest'
        ∧ hold' ++ rest' = hold ++ rest ∧ hold.length < hold'.length
        ∧ hold'.length < 2 + T.length)
    ∨ (∃ q p2, packetizing_packet B SLOP ENOMEM pb p size
          = packetizing_untranslate B SLOP ENOMEM q p2 T (T.length : Int) size
        ∧ q.inpfn = pb.inpfn ∧ q.fnclosure = pb.fnclosure
        ∧ never_exhausted p2 ∧ I q.buf R
        ∧ q.translated = 0 ∧ (q.holdbuf.length : Int) = q.holdbufsize
        ∧ 2 ≤ q.holdbuf.length ∧ (T.length : Int) ≤ (q.holdbuf.length : Int)
        ∧ R.length < rest.length) := by
  have hPlen : (be16 (T.length : Int) ++ T).length = 2 + T.length := by
    simp only [List.length_append, be16_length]
  rw [List.append_assoc, ← List.append_assoc (be16 _)] at hwire
  obtain ⟨hhold, hrest⟩ := prefix_split hold rest (be16 (T.length : Int) ++ T) R hwire (by omega)
  have hval : be16_value (char_of_int ((T.length : Int) / 256)) (char_of_int (T.length : Int))
      = (T.length : Int) := be16_value_be16 _ (by omega) (by omega)
  obtain ⟨hb, hbs, p1, hgrow, hst1, hroomhb, htk2, hp1⟩ :=
    packetizing_grow_with I pb p (T.length : Int) hold rest hst hp
  obtain ⟨hIb, htr, hsz, htk, hlen, hl2⟩ := hst
  obtain ⟨_, _, _, htk1, hlen1, hl21⟩ := hst1
  simp only at htk1 hlen1 hl21
  have hhold2 : hold.take 2 = be16 (T.length : Int) := by
    rw [hhold, List.take_take, Nat.min_eq_left h2,
      List.take_append_of_le_length (by rw [be16_length])]
    exact List.take_of_length_le (by rw [be16_length])
  have hpbtake : pb.holdbuf.take 2 = be16 (T.length : Int) := by
    rw [← hhold2, ← htk, List.take_take, Nat.min_eq_left h2]
  obtain ⟨tl, htl⟩ : ∃ tl, pb.holdbuf
      = char_of_int ((T.length : Int) / 256) :: char_of_int (T.length : Int) :: tl := by
    rcases hpb : pb.holdbuf with _ | ⟨a, _ | ⟨b, tl⟩⟩
    · rw [hpb] at hl2; simp at hl2
    · rw [hpb] at hl2; simp at hl2
    · rw [hpb] at hpbtake
      simp only [List.take_succ_cons, List.take_zero, be16, List.cons.injEq, and_true]
        at hpbtake
      exact ⟨tl, by rw [hpbtake.1, hpbtake.2]⟩
  have hrne : rest ≠ [] := by
    rw [hrest]
    intro h
    have := congrArg List.length h
    simp only [List.length_append, List.length_drop, hPlen, List.length_nil] at this
    omega
  obtain ⟨view, buf', p2, rest', hrun, hI', hvne, hvlen, hvby, hp2⟩ :=
    (hI pb.buf p1 ((T.length : Int) - (pb.holdsize - 2)) rest hIb (by rw [hsz]; omega) hp1).1
      hrne
  rw [hsz] at hvlen hrun
  have hnroom : ¬ ((hb.length : Int) < (T.length : Int) + 2) := by omega
  have hv0 : ¬ ((view.length : Int) = 0) := by
    intro h
    exact hvne (List.length_eq_zero.mp (by exact_mod_cast h))
  have hvpos : 0 < view.length := List.length_pos.mpr hvne
  have hrl : rest.length = view.length + rest'.length := by
    rw [← hvby, List.length_append]
  obtain ⟨buf, inpfn, outfn, fncl, tr, hs, hb0, hbs0, hd⟩ := pb
  simp only at hIb htr hsz htk hlen hl2 htk2 htl hrun hgrow
  subst htl hsz
  simp only [packetizing_packet, hval, hgrow, hnroom, if_false, hrun, result.bind, ne_eq,
    not_true_eq_false, hv0]
  by_cases hpart : (view.length : Int) < (T.length : Int) - ((hold.length : Int) - 2)
  · simp only [hpart, if_true]
    have hm := memcpy_take hb view hold.length (by omega)
    refine Or.inl ⟨_, p2, hold ++ view, rest', rfl, rfl, rfl, hp2,
      ⟨hI', htr, by simp, ?_, by rw [hm.2]; exact hlen1, by rw [hm.2]; exact hl21⟩,
      by rw [List.append_assoc, hvby], by simp; exact List.length_pos.mpr hvne,
      by simp only [List.length_append]; omega⟩
    simp only [List.length_append]
    rw [hm.1, htk1]
  · simp only [hpart, if_false]
    have hvl : hold.length + view.length = 2 + T.length := by omega
    have hall : (hold ++ view) ++ rest' = (be16 (T.length : Int) ++ T) ++ R := by
      rw [List.append_assoc, hvby]; exact hwire
    obtain ⟨hpk, hR⟩ := List.append_inj hall
      (by simp only [List.length_append, be16_length] at hvl ⊢; omega)
    have hRl : R.length < rest.length := by rw [hrl, hR]; omega
    have hm := memcpy_take hb view hold.length (by omega)
    rw [hR] at hI'
    by_cases h22 : (hold.length : Int) = 2
    · have hl2' : hold.length = 2 := by exact_mod_cast h22
      obtain ⟨_, hvT⟩ := List.append_inj hpk (by rw [hl2', be16_length])
      subst hvT
      simp only [h22, if_true]
      exact Or.inr ⟨_, p2, rfl, rfl, rfl, hp2, hI', htr, hlen1, hl21,
        (show (view.length : Int) ≤ (hb.length : Int) by omega), hRl⟩
    · simp only [h22, if_false]
      have hin2 : List.take (T.length : Int).toNat
          (List.drop 2 (memcpy hb (hold.length : Int) view)) = T := by
        rw [Int.toNat_natCast]
        apply drop_two_take _ (be16 (T.length : Int)) T (be16_length _)
        rw [← hvl, hm.1, htk1, hpk]
      rw [hin2]
      exact Or.inr ⟨_, p2, rfl, rfl, rfl, hp2, hI', htr,
        (by rw [hm.2]; exact hlen1), (by rw [hm.2]; exact hl21),
        (show (T.length : Int) ≤ ((memcpy hb (hold.length : Int) view).length : Int) by
          rw [hm.2]; omega), hRl⟩

/-- The loop of `packetizing_buffer_input` run, with enough fuel, on a state in which a
packet `T` is still to be completed from the underlying buffer: it comes to the end of
the loop body with the bytes `T` of the packet, the bytes `R` after the packet being
still to come, and goes on from there as the loop does. -/
theorem packetizing_input_loop_with {τ φ : Type} (B SLOP : Nat) (ENOMEM : Int)
    (I : buffer τ → List Byte → Prop) (hI : reads_stream B I)
    (T R : List Byte) (need size : Int) (hT1 : 1 ≤ T.length) (hT : T.length < 65536) :
    ∀ (fuel : Nat) (pb : packetizing_buffer τ φ) (p : pool) (acc hold rest : List Byte),
      reader_hold_with I pb hold rest →
      hold ++ rest = be16 T.length ++ T ++ R → hold.length < 2 + T.length →
      rest.length < fuel → (need > 0 ∨ acc = []) → never_exhausted p →
      ∃ q p2 n, packetizing_input_loop B SLOP ENOMEM fuel pb p acc need size
          = (packetizing_untranslate B SLOP ENOMEM q p2 T (T.length : Int) size).bind
              (fun s =>
                match s.1 with
                | packet_step.ret status => result.ok ((status, acc), s.2.1, s.2.2)
                | packet_step.last bytes => result.ok ((0, acc ++ bytes), s.2.1, s.2.2)
                | packet_step.more bytes =>
                  packetizing_input_loop B SLOP ENOMEM n s.2.1 s.2.2
                    (acc ++ bytes) (need - bytes.length) (size - bytes.length)
                | _ => packetizing_input_loop B SLOP ENOMEM n s.2.1 s.2.2 acc need size)
        ∧ q.inpfn = pb.inpfn ∧ q.fnclosure = pb.fnclosure
        ∧ never_exhausted p2 ∧ I q.buf R
        ∧ q.translated = 0 ∧ (q.holdbuf.length : Int) = q.holdbufsize
        ∧ 2 ≤ q.holdbuf.length ∧ (T.length : Int) ≤ (q.holdbuf.length : Int)
        ∧ R.length < n := by
  intro fuel
  induction fuel with
  | zero => intro pb p acc hold rest _ _ _ h; omega
  | succ n ih =>
    intro pb p acc hold rest hst hwire hlt hfuel hcond hp
    have hwl := congrArg List.length hwire
    simp only [List.length_append, be16_length] at hwl
    obtain ⟨c0, c1, tail, htail⟩ : ∃ c0 c1 tail, hold ++ rest = c0 :: c1 :: tail := by
      rw [hwire]
      exact ⟨_, _, _, rfl⟩
    obtain ⟨step, pb1, p1, hold1, rest1, hrun1, hg1, hf1, hp1, hst1, hw1, hle1, hstep1⟩ :=
      packetizing_count_with B ENOMEM I hI pb p hold rest c0 c1 tail hst htail hp
    have hl1 := congrArg List.length hw1
    simp only [List.length_append] at hl1
    rw [packetizing_input_loop]
    simp only [hcond, if_true, hrun1, result.bind]
    rcases hstep1 with ⟨hs, h2, h3, h4⟩ | ⟨hs, h2, h3⟩
    · subst hs
      simp only
      have hlt1 : hold1.length < 2 + T.length := by
        by_cases hh : hold.length < 2
        · rw [h3 hh]; omega
        · rw [h4 (by omega)]; exact hlt
      rcases packetizing_packet_with B SLOP ENOMEM I hI pb1 p1 size hold1 rest1 T R
          hst1 (by rw [hw1, hwire]) h2 hlt1 hT hp1 with
        ⟨pb2, p2, hold2, rest2, hrun2, hg2, hf2, hp2, hst2, hw2, hlt2, hlt3⟩
        | ⟨q, p2, hrun2, hg2, hf2, hp2, hI2, ht2, hl2, hl22, hlT, hRl⟩
      · simp only [hrun2]
        have hl2 := congrArg List.length hw2
        simp only [List.length_append] at hl2
        obtain ⟨q, p3, m, hrun3, hg3, hf3, hrest3⟩ :=
          ih pb2 p2 acc hold2 rest2 hst2 (by rw [hw2, hw1, hwire]) hlt3
            (by omega) hcond hp2
        exact ⟨q, p3, m, hrun3, by rw [hg3, hg2, hg1], by rw [hf3, hf2, hf1], hrest3⟩
      · refine ⟨q, p2, n, ?_, by rw [hg2, hg1], by rw [hf2, hf1], hp2, hI2, ht2, hl2,
          hl22, hlT, by omega⟩
        rw [hrun2]
    · subst hs
      simp only
      obtain ⟨q, p3, m, hrun3, hg3, hf3, hrest3⟩ :=
        ih pb1 p1 acc hold1 rest1 hst1 (by rw [hw1, hwire])
          (by omega) (by omega) hcond hp1
      exact ⟨q, p3, m, hrun3, by rw [hg3, hg1], by rw [hf3, hf1], hrest3⟩

/-- A call of `packetizing_buffer_input`, with `need <= 1` and enough fuel, on a state
between two packets when the packet of the block `x` is the first to come from the
underlying buffer: it returns 0 and hands over `x`, or its first `size` bytes when `x`
has more, the others being held. -/
theorem packetizing_buffer_input_piece_with {τ φ : Type} (B SLOP : Nat) (ENOMEM : Int)
    (I : buffer τ → List Byte → Prop) (hI : reads_stream B I)
    (g : φ → List Byte → Int × List Byte × φ)
    (F G : List Byte → List Byte) (hg : ∀ cl y, (g cl y).1 = 0 ∧ (g cl y).2.1 = G y)
    (fuel : Nat) (pb : packetizing_buffer τ φ) (p : pool) (need size : Int)
    (x R : List Byte) (hgf : pb.inpfn = some g)
    (hst : reader_hold_with I pb [] (packet_bytes F x ++ R)) (hx : piece_ok B SLOP F G x)
    (hfuel : (packet_bytes F x ++ R).length < fuel)
    (hneed : need ≤ 1) (hsize : 0 < size) (hp : never_exhausted p) :
    ∃ pb' p', packetizing_buffer_input B SLOP ENOMEM fuel pb p need size
        = result.ok ((0, x.take size.toNat), pb', p')
      ∧ pb'.inpfn = some g ∧ never_exhausted p'
      ∧ (((x.length : Int) ≤ size ∧ reader_hold_with I pb' [] R)
         ∨ (size < (x.length : Int) ∧ reader_translated_with I pb' (x.drop size.toNat) R)) := by
  obtain ⟨hx1, hx2, hx3, hx4, hx5, hx6, hx7⟩ := hx
  have hxpos : 0 < x.length := List.length_pos.mpr hx1
  have hsz := hst.2.2.1
  simp only [List.length_nil, Nat.cast_zero] at hsz
  have hcond : ¬ (pb.holdsize > 0 ∧ pb.translated ≠ 0) := by
    intro h; rw [hsz] at h; omega
  obtain ⟨q, p2, n, hrun, hq1, hq2, hp2, hqI, hqt, hql, hq22, hqT, hRn⟩ :=
    packetizing_input_loop_with B SLOP ENOMEM I hI (F (be16 x.length ++ x)) R need size
      (by omega) hx3 fuel pb p [] [] (packet_bytes F x ++ R) hst
      (by simp only [List.nil_append, packet_bytes]) (by simp) hfuel (Or.inr rfl) hp
  have hqg : q.inpfn = some g := by rw [hq1, hgf]
  obtain ⟨cl', hun⟩ := packetizing_untranslate_ok B SLOP ENOMEM q p2 (F (be16 x.length ++ x)) x
    ((F (be16 x.length ++ x)).length : Int) size g hqg
    (by
      have h := hg q.fnclosure (F (be16 x.length ++ x))
      rw [hx5] at h
      exact h) hx2 (by exact_mod_cast hx4)
    (by intro h; have := hx6 (by exact_mod_cast h); exact_mod_cast this)
    (by intro h; have := hx7 (by exact_mod_cast h); exact_mod_cast this) hsize hp2
  unfold packetizing_buffer_input
  simp only [hcond, if_false]
  rw [hrun, hun]
  by_cases hle : (x.length : Int) ≤ size
  · rw [if_pos hle]
    simp only [result.bind, List.nil_append]
    obtain ⟨m, rfl⟩ : ∃ m, n = m + 1 := ⟨n - 1, by omega⟩
    have hexit : ¬ (need - (x.length : Int) > 0 ∨ x = []) := by
      intro h
      rcases h with h | h
      · omega
      · exact hx1 h
    have htake : x.take size.toNat = x := by
      apply List.take_of_length_le
      omega
    rw [packetizing_input_loop]
    simp only [hexit, if_false, htake]
    exact ⟨_, _, rfl, hqg, hp2, Or.inl ⟨hle, ⟨hqI, hqt, by simp, by simp, hql, hq22⟩⟩⟩
  · rw [if_neg hle]
    simp only [result.bind, List.nil_append]
    have hdl : (x.drop size.toNat).length = x.length - size.toNat := List.length_drop _ _
    have hm := memcpy_take q.holdbuf (x.drop size.toNat) 0 (by
      rw [hdl]
      have : x.length ≤ (F (be16 x.length ++ x)).length := hx4
      omega)
    simp only [Nat.cast_zero, zero_add, List.take_zero, List.nil_append] at hm
    refine ⟨_, _, rfl, hqg, hp2, Or.inr ⟨by omega,
      ⟨hqI, by simp, ?_, ?_, le_refl _, ?_, by rw [hm.2]; exact hql,
        by rw [hm.2]; exact hq22⟩⟩⟩
    · simp only [hdl]; omega
    · intro h
      rw [h] at hdl
      simp at hdl
      omega
    · simp only [Int.toNat_zero, List.drop_zero]
      exact hm.1

/-- A call of `packetizing_buffer_input` on a state that holds translated bytes `y`:
it returns 0 and hands over `y`, or the first `size` bytes of `y` when `y` has more,
the others staying held; the underlying buffer is not read. -/
theorem packetizing_buffer_input_held_with {τ φ : Type} (B SLOP : Nat) (ENOMEM : Int)
    (I : buffer τ → List Byte → Prop)
    (fuel : Nat) (pb : packetizing_buffer τ φ) (p : pool) (need size : Int)
    (y W : List Byte) (hst : reader_translated_with I pb y W)
    (hneed : need ≤ 1) (hsize : 0 < size) :
    ∃ pb', packetizing_buffer_input B SLOP ENOMEM (fuel + 1) pb p need size
        = result.ok ((0, y.take size.toNat), pb', p)
      ∧ pb'.buf = pb.buf ∧ pb'.inpfn = pb.inpfn
      ∧ (((y.length : Int) ≤ size ∧ reader_hold_with I pb' [] W)
         ∨ (size < (y.length : Int) ∧ reader_translated_with I pb' (y.drop size.toNat) W)) := by
  obtain ⟨hIb, htr, hsz, hy, hd0, htk, hlen, h2⟩ := hst
  have hypos : 0 < y.length := List.length_pos.mpr hy
  have hcond : pb.holdsize > 0 ∧ pb.translated ≠ 0 := ⟨by rw [hsz]; omega, htr⟩
  unfold packetizing_buffer_input
  rw [if_pos hcond]
  obtain ⟨buf, inpfn, outfn, fncl, tr, hs, hb, hbs, hd⟩ := pb
  simp only at hIb htr hsz hd0 htk hlen h2 ⊢
  subst hsz
  by_cases hgt : (y.length : Int) > size
  · rw [if_pos hgt]
    have hs : size.toNat ≤ y.length := by omega
    have hout : List.take size.toNat (List.drop hd.toNat hb) = List.take size.toNat y := by
      rw [← htk, List.take_take, Nat.min_eq_left hs]
    rw [hout]
    refine ⟨_, rfl, rfl, rfl,
      Or.inr ⟨by omega, ⟨hIb, htr, ?_, ?_, ?_, ?_, hlen, h2⟩⟩⟩
    · simp only [List.length_drop]; omega
    · intro h
      have := congrArg List.length h
      simp only [List.length_drop, List.length_nil] at this
      omega
    · simp only; omega
    · simp only [List.length_drop]
      have e : (hd + size).toNat = hd.toNat + size.toNat := by omega
      have h := congrArg (List.drop size.toNat) htk
      rw [List.drop_take] at h
      rw [e, ← List.drop_drop]
      exact h
  · rw [if_neg hgt]
    have hle : (y.length : Int) ≤ size := by omega
    have hacc : List.take (y.length : Int).toNat (List.drop hd.toNat hb) = y := by
      rw [Int.toNat_natCast]; exact htk
    have hexit : ¬ (need - (y.length : Int) > 0 ∨ y = []) := by
      intro h
      rcases h with h | h
      · omega
      · exact hy h
    have htake : y.take size.toNat = y := by
      apply List.take_of_length_le
      omega
    rw [hacc, packetizing_input_loop]
    simp only [hexit, if_false, htake]
    exact ⟨_, rfl, rfl, rfl, Or.inl ⟨hle, ⟨hIb, rfl, by simp, by simp, hlen, h2⟩⟩⟩

/-- A call of `packetizing_buffer_input` on a state between two packets when no byte is
to come from the underlying buffer: no byte is handed over. -/
theorem packetizing_buffer_input_dry_with {τ φ : Type} (B SLOP : Nat) (ENOMEM : Int)
    (I : buffer τ → List Byte → Prop) (hI : reads_stream B I)
    (fuel : Nat) (pb : packetizing_buffer τ φ) (p : pool) (need size : Int)
    (hst : reader_hold_with I pb [] []) (hp : never_exhausted p) :
    ∃ st pb' p', packetizing_buffer_input B SLOP ENOMEM (fuel + 1) pb p need size
        = result.ok ((st, []), pb', p') := by
  obtain ⟨hIb, htr, hsz, htk, hlen, h2⟩ := hst
  simp only [List.length_nil, Nat.cast_zero] at hsz
  have hcond : ¬ (pb.holdsize > 0 ∧ pb.translated ≠ 0) := by
    intro h; rw [hsz] at h; omega
  unfold packetizing_buffer_input
  simp only [hcond, if_false]
  rw [packetizing_input_loop]
  obtain ⟨st, buf', p', hrun⟩ := (hI pb.buf p (2 - pb.holdsize) [] hIb (by omega) hp).2 rfl
  have hlt : pb.holdsize < 2 := by omega
  simp only [true_or, or_true, if_true, packetizing_count, hlt, hrun, result.bind]
  by_cases hs : st = 0
  · simp [hs]
  · simp [hs]

/-- Reading to the end: repeated calls of `packetizing_buffer_input` with `need <= 1`
and `size > 0`, given enough fuel, hand over the translated bytes still held and then
the blocks whose packets are to come from the underlying buffer, in order. -/
theorem packetizing_read_all_with {τ φ : Type} (B SLOP : Nat) (ENOMEM : Int)
    (I : buffer τ → List Byte → Prop) (hI : reads_stream B I)
    (g : φ → List Byte → Int × List Byte × φ)
    (F G : List Byte → List Byte) (hg : ∀ cl y, (g cl y).1 = 0 ∧ (g cl y).2.1 = G y)
    (need size : Int) (hneed : need ≤ 1) (hsize : 0 < size) (fuel : Nat) :
    ∀ (n : Nat) (pb : packetizing_buffer τ φ) (p : pool) (y : List Byte)
      (xs : List (List Byte)),
      pb.inpfn = some g →
      ((y = [] ∧ reader_hold_with I pb [] (wire_bytes F xs))
        ∨ (y ≠ [] ∧ reader_translated_with I pb y (wire_bytes F xs))) →
      (∀ x ∈ xs, piece_ok B SLOP F G x) → (wire_bytes F xs).length < fuel →
      (y ++ xs.flatten).length < n → never_exhausted p →
      ∃ pb' p', packetizing_read_all B SLOP ENOMEM fuel need size n pb p
          = result.ok (y ++ xs.flatten, pb', p') := by
  intro n
  induction n with
  | zero => intro pb p y xs _ _ _ _ h; omega
  | succ m ih =>
    intro pb p y xs hgf hst hxs hfuel hn hp
    obtain ⟨f, hf⟩ : ∃ f, fuel = f + 1 := ⟨fuel - 1, by omega⟩
    have hs1 : 1 ≤ size.toNat := by omega
    rw [packetizing_read_all]
    rcases hst with ⟨hy, hst⟩ | ⟨hy, hst⟩
    · subst hy
      cases xs with
      | nil =>
        have hw : wire_bytes F [] = [] := rfl
        rw [hw] at hst
        obtain ⟨st, pb', p', hrun⟩ :=
          packetizing_buffer_input_dry_with B SLOP ENOMEM I hI f pb p need size hst hp
        rw [hf, hrun]
        simp [result.bind]
      | cons x xs' =>
        have hw : wire_bytes F (x :: xs') = packet_bytes F x ++ wire_bytes F xs' := by
          simp [wire_bytes]
        rw [hw] at hst hfuel
        have hx := hxs x (List.mem_cons_self _ _)
        obtain ⟨pb', p', hrun, hg', hp', hcases⟩ :=
          packetizing_buffer_input_piece_with B SLOP ENOMEM I hI g F G hg fuel pb p need size x
            (wire_bytes F xs') hgf hst hx hfuel hneed hsize hp
        have hxpos : 0 < x.length := List.length_pos.mpr hx.1
        have hne : x.take size.toNat ≠ [] := by
          intro h
          have := congrArg List.length h
          simp only [List.length_take, List.length_nil] at this
          omega
        have hst' : (x.drop size.toNat = [] ∧ reader_hold_with I pb' [] (wire_bytes F xs'))
            ∨ (x.drop size.toNat ≠ [] ∧ reader_translated_with I pb' (x.drop size.toNat)
                (wire_bytes F xs')) := by
          rcases hcases with ⟨hle, h⟩ | ⟨_, h⟩
          · exact Or.inl ⟨List.drop_of_length_le (by omega), h⟩
          · exact Or.inr ⟨h.2.2.2.1, h⟩
        have hlen' : (x.drop size.toNat ++ xs'.flatten).length < m := by
          simp only [List.nil_append, List.flatten_cons, List.length_append,
            List.length_drop] at hn ⊢
          omega
        obtain ⟨pb2, p2, hrun2⟩ := ih pb' p' (x.drop size.toNat) xs' hg' hst'
          (fun z hz => hxs z (List.mem_cons_of_mem _ hz))
          (by simp only [List.length_append] at hfuel; omega) hlen' hp'
        rw [hrun]
        simp only [result.bind, ne_eq, not_true_eq_false, hne, or_self, if_false, hrun2]
        refine ⟨pb2, p2, ?_⟩
        simp only [List.nil_append, List.flatten_cons, ← List.append_assoc,
          List.take_append_drop]
    · obtain ⟨pb', hrun, _, hg', hcases⟩ :=
        packetizing_buffer_input_held_with B SLOP ENOMEM I f pb p need size y (wire_bytes F xs)
          hst hneed hsize
      have hypos : 0 < y.length := List.length_pos.mpr hy
      have hne : y.take size.toNat ≠ [] := by
        intro h
        have := congrArg List.length h
        simp only [List.length_take, List.length_nil] at this
        omega
      have hst' : (y.drop size.toNat = [] ∧ reader_hold_with I pb' [] (wire_bytes F xs))
          ∨ (y.drop size.toNat ≠ [] ∧ reader_translated_with I pb' (y.drop size.toNat)
              (wire_bytes F xs)) := by
        rcases hcases with ⟨hle, h⟩ | ⟨_, h⟩
        · exact Or.inl ⟨List.drop_of_length_le (by omega), h⟩
        · exact Or.inr ⟨h.2.2.2.1, h⟩
      have hlen' : (y.drop size.toNat ++ xs.flatten).length < m := by
        simp only [List.length_append, List.length_drop] at hn ⊢
        omega
      obtain ⟨pb2, p2, hrun2⟩ := ih pb' p (y.drop size.toNat) xs
        (by rw [hg', hgf]) hst' hxs hfuel hlen' hp
      rw [hf, hrun]
      rw [hf] at hrun2
      simp only [result.bind, ne_eq, not_true_eq_false, hne, or_self, if_false, hrun2]
      refine ⟨pb2, p2, ?_⟩
      simp only [← List.append_assoc, List.take_append_drop]

/-- The node `*buf->last`, when defined, is a node of the chain. -/
theorem last_data_mem {σ : Type} (buf : buffer σ) (l : buffer_data)
    (h : last_data buf = some l) : l ∈ buf.data := by
  unfold last_data at h
  cases hg : buf.data.getLast? with
  | none => rw [hg] at h; cases h
  | some d =>
    rw [hg] at h
    cases hl : buf.last with
    | none => rw [hl] at h; cases h
    | some a =>
      rw [hl] at h
      simp only at h
      by_cases ha : a = d.addr
      · rw [if_pos ha] at h
        cases h
        exact List.mem_of_mem_getLast? (Option.mem_def.mpr hg)
      · rw [if_neg ha] at h; cases h

/-- C32: for a buffer whose nodes satisfy the capacity invariant,
`buf_append_char (buf, ch)` is `buf_output (buf, &b, 1)` with `b = (char) ch`: the two
calls leave the same buffer (same nodes, cursors, sizes and bytes) and the same pool, so
they take the same nodes from it; when the head and tail pointers are consistent and the
pool is never exhausted, they return with the byte added to the content. -/
theorem buf_append_char_eq_buf_output {σ : Type} (BUFFER_DATA_SIZE : Nat) (buf : buffer σ)
    (p : pool) (ch : Int) (hc : chain_ok BUFFER_DATA_SIZE buf.data) :
    buf_append_char BUFFER_DATA_SIZE buf p ch
      = buf_output BUFFER_DATA_SIZE buf p [char_of_int ch]
    ∧ (0 < BUFFER_DATA_SIZE → head_tail_ok buf → never_exhausted p →
        ∃ c lst p', buf_output BUFFER_DATA_SIZE buf p [char_of_int ch]
            = result.ok ({ buf with data := c, last := lst }, p')
          ∧ chain_ok BUFFER_DATA_SIZE c ∧ head_tail_ok { buf with data := c, last := lst }
          ∧ chain_bytes c = chain_bytes buf.data ++ [char_of_int ch]) := by
  constructor
  · unfold buf_append_char buf_output
    cases hdat : buf.data with
    | nil => simp only [buf_output, hdat]
    | cons x r =>
      simp only
      cases hl : last_data buf with
      | none => rfl
      | some l =>
        simp only
        have hmem := last_data_mem buf l hl
        have hs := (hc l hmem).2.2.2
        by_cases hfull : (BUFFER_DATA_SIZE : Int) ≠ l.bufp + l.size
        · have hroom : (BUFFER_DATA_SIZE : Int) - (l.bufp + l.size)
              ≥ (([char_of_int ch] : List Byte).length : Int) := by
            simp only [List.length_singleton, Nat.cast_one]; omega
          rw [if_pos hfull, if_pos hroom]
          simp only [List.length_singleton, Nat.cast_one]
        · have hroom : ¬ ((BUFFER_DATA_SIZE : Int) - (l.bufp + l.size)
              ≥ (([char_of_int ch] : List Byte).length : Int)) := by
            simp only [List.length_singleton, Nat.cast_one]
            have : (BUFFER_DATA_SIZE : Int) = l.bufp + l.size := by
              by_contra h; exact hfull h
            omega
          rw [if_neg hfull, if_neg hroom]
  · intro hB ht hp
    obtain ⟨c, lst, p', hrun, hc', ht', hne, hby, _⟩ :=
      buf_output_ok BUFFER_DATA_SIZE hB buf p [char_of_int ch] hc
        (tail_ok_of_head_tail_ok buf ht) hp
    refine ⟨c, lst, p', hrun, hc', ?_, hby⟩
    unfold head_tail_ok
    unfold tail_ok at ht'
    simp only
    cases hg : c.getLast? with
    | none => exact absurd (List.getLast?_eq_none_iff.mp hg) hne
    | some d => rw [hg] at ht'; exact ht'

theorem buf_append_char_eq_buf_output_witness :
    chain_ok 4 (chain_buffer [⟨0, [1, 2, 0, 0], 0, 2⟩] (some 0) none ()).data
    ∧ buf_append_char 4 (chain_buffer [⟨0, [1, 2, 0, 0], 0, 2⟩] (some 0) none ()) ⟨[], 0, none⟩ 65
      = buf_output 4 (chain_buffer [⟨0, [1, 2, 0, 0], 0, 2⟩] (some 0) none ()) ⟨[], 0, none⟩
          [char_of_int 65] :=
  ⟨by decide,
   (buf_append_char_eq_buf_output 4 (chain_buffer [⟨0, [1, 2, 0, 0], 0, 2⟩] (some 0) none ())
      ⟨[], 0, none⟩ 65 (by decide)).1⟩

/-- C33: `buf_send_output` run on a buffer in blocking mode (`nonblocking` is 0) that
holds the bytes 1, 2, 3 in one node, with a backend that reports status 0 and one byte
written: the call returns 0 and leaves the bytes 2, 3 queued. -/
theorem buf_send_output_short_write_blocking :
    (output_buffer [⟨0, [1, 2, 3, 0], 0, 3⟩] (some 0) short_output ()).nonblocking = 0
    ∧ ∃ ch, buf_send_output (output_buffer [⟨0, [1, 2, 3, 0], 0, 3⟩] (some 0) short_output ())
          ⟨[], 1, none⟩
        = result.ok (0,
            { output_buffer [⟨0, [1, 2, 3, 0], 0, 3⟩] (some 0) short_output () with
              data := ch, calls := [callback.output [1, 2, 3]] }, ⟨[], 1, none⟩)
      ∧ chain_bytes ch = [2, 3] :=
  ⟨rfl, [⟨0, [1, 2, 3, 0], 1, 2⟩], rfl, by decide⟩

/-- C31: `packetizing_buffer_output` is called with a block of `have` bytes and a
translation function that reports status 0 and stores `T`, inside the array it is given,
for the input made of the count `have` and the block, the underlying buffer being well
formed with an output callback and the pool never exhausted.  The call ends in `abort`
exactly when `have > BUFFER_DATA_SIZE` or the length of `T` is greater than
`have + 2 + PACKET_SLOP`; in every other case it puts the count of `T` and `T` at the end
of the underlying buffer, sends that buffer and returns its status with `*wrote = have`. -/
theorem packetizing_buffer_output_abort_iff {τ φ : Type}
    (BUFFER_DATA_SIZE PACKET_SLOP : Nat) (ENOMEM : Int)
    (pb : packetizing_buffer τ φ) (p : pool) (data : List Byte)
    (f : φ → List Byte → Int × List Byte × φ) (T : List Byte) (cl : φ)
    (out : τ → List Byte → Int × Int × τ)
    (hB : 0 < BUFFER_DATA_SIZE) (hf : pb.outfn = some f)
    (hT : f pb.fnclosure (be16 data.length ++ data) = (0, T, cl))
    (hroom1 : (data.length : Int) + 2 + PACKET_SLOP + 2 > BUFFER_DATA_SIZE →
      (T.length : Int) ≤ (BUFFER_DATA_SIZE : Int) + PACKET_SLOP + 2)
    (hroom2 : (data.length : Int) + 2 + PACKET_SLOP + 2 ≤ BUFFER_DATA_SIZE →
      (T.length : Int) ≤ (BUFFER_DATA_SIZE : Int) - 2)
    (hout : pb.buf.output = some out)
    (hok : chain_ok BUFFER_DATA_SIZE pb.buf.data) (htail : tail_ok pb.buf.data pb.buf.last)
    (hp : never_exhausted p) :
    (packetizing_buffer_output BUFFER_DATA_SIZE PACKET_SLOP ENOMEM pb p data = result.abort
      ↔ (data.length > BUFFER_DATA_SIZE ∨ T.length > data.length + 2 + PACKET_SLOP))
    ∧ (data.length ≤ BUFFER_DATA_SIZE → T.length ≤ data.length + 2 + PACKET_SLOP →
        ∃ ch lst p1 st inner p',
          chain_bytes ch = chain_bytes pb.buf.data ++ (be16 T.length ++ T)
          ∧ buf_send_output { pb.buf with data := ch, last := lst } p1
              = result.ok (st, inner, p')
          ∧ packetizing_buffer_output BUFFER_DATA_SIZE PACKET_SLOP ENOMEM pb p data
              = result.ok ((st, (data.length : Int)),
                           { pb with buf := inner, fnclosure := cl }, p')) := by
  have hqueue : data.length ≤ BUFFER_DATA_SIZE → T.length ≤ data.length + 2 + PACKET_SLOP →
      ∃ ch lst p1 st inner p',
        chain_bytes ch = chain_bytes pb.buf.data ++ (be16 T.length ++ T)
        ∧ buf_send_output { pb.buf with data := ch, last := lst } p1
            = result.ok (st, inner, p')
        ∧ packetizing_buffer_output BUFFER_DATA_SIZE PACKET_SLOP ENOMEM pb p data
            = result.ok ((st, (data.length : Int)),
                         { pb with buf := inner, fnclosure := cl }, p') := by
    intro hhave hslop
    obtain ⟨ch, lst, p1, hby, _, htl, _, hrun⟩ :=
      packetizing_buffer_output_queued BUFFER_DATA_SIZE PACKET_SLOP ENOMEM pb p data f T cl
        hB hhave hf hT hslop hok htail hp
    obtain ⟨st, ch2, lst2, cl2, mid, p', hsend, _, _⟩ :=
      buf_send_output_loop_frame out ch { pb.buf with data := ch, last := lst } p1 htl
    have hs : buf_send_output { pb.buf with data := ch, last := lst } p1
        = buf_send_output_loop out ch { pb.buf with data := ch, last := lst } p1 := by
      unfold buf_send_output
      have ho : ({ pb.buf with data := ch, last := lst } : buffer τ).output = some out := hout
      rw [ho]
    rw [hsend] at hs
    refine ⟨ch, lst, p1, st, _, p', hby, hs, ?_⟩
    rw [hrun, hs]
    rfl
  refine ⟨⟨?_, ?_⟩, hqueue⟩
  · intro hab
    by_contra hn
    simp only [not_or, not_lt, gt_iff_lt] at hn
    obtain ⟨_, _, _, _, _, _, _, _, hrun⟩ := hqueue hn.1 hn.2
    rw [hrun] at hab
    cases hab
  · intro h
    by_cases hbig : (data.length : Int) > BUFFER_DATA_SIZE
    · simp only [packetizing_buffer_output, hbig, if_true]
    · have hinlen : ((be16 (data.length : Int) ++ data).length : Int)
          = (data.length : Int) + 2 := by
        simp only [List.length_append, be16_length]; push_cast; omega
      have hlong : T.length > data.length + 2 + PACKET_SLOP := by
        rcases h with h | h
        · omega
        · exact h
      have hab : (T.length : Int) > ((be16 (data.length : Int) ++ data).length : Int)
          + PACKET_SLOP := by
        rw [hinlen]; omega
      by_cases hpath : (data.length : Int) + 2 + PACKET_SLOP + 2 > BUFFER_DATA_SIZE
      · have hr : ¬ ((T.length : Int) > (BUFFER_DATA_SIZE : Int) + PACKET_SLOP + 2) := by
          have := hroom1 hpath; omega
        simp only [packetizing_buffer_output, hbig, if_false, hpath, if_true,
          packetizing_translate, hf, hT, hr, ne_eq, not_true_eq_false, hab]
      · obtain ⟨a, p1, hget, hp1⟩ := get_buffer_data_ok BUFFER_DATA_SIZE p hp
        have hr : ¬ ((T.length : Int)
            > (((List.replicate BUFFER_DATA_SIZE (0 : Byte)).length : Nat) : Int) - 2) := by
          have := hroom2 (by omega)
          simp only [List.length_replicate]
          omega
        simp only [packetizing_buffer_output, hbig, if_false, hpath, hget,
          packetizing_translate, hf, hT, hr, ne_eq, not_true_eq_false, hab, if_true]

theorem packetizing_buffer_output_abort_iff_witness :
    (0 < 16 ∧ identity_transform () (be16 3 ++ [7, 8, 9]) = (0, [0, 3, 7, 8, 9], ())
      ∧ never_exhausted ⟨[], 0, none⟩)
    ∧ (packetizing_buffer_output 16 2 12
          (⟨output_buffer [] none accept_all_output (), none, some identity_transform, (),
            0, 0, [], 0, 0⟩ : packetizing_buffer Unit Unit) ⟨[], 0, none⟩ [7, 8, 9]
        = result.abort
      ↔ (([7, 8, 9] : List Byte).length > 16
          ∨ ([0, 3, 7, 8, 9] : List Byte).length > ([7, 8, 9] : List Byte).length + 2 + 2)) :=
  ⟨⟨by decide, rfl, rfl⟩,
   (packetizing_buffer_output_abort_iff 16 2 12
     ⟨output_buffer [] none accept_all_output (), none, some identity_transform, (),
       0, 0, [], 0, 0⟩ ⟨[], 0, none⟩ [7, 8, 9] identity_transform [0, 3, 7, 8, 9] ()
     accept_all_output (by decide) rfl rfl (fun _ => by decide) (fun _ => by decide) rfl
     (by decide) (by decide) rfl).1⟩

/-- C34: for a block `data` of `have <= BUFFER_DATA_SIZE` bytes and a translation
function that reports success and stores `T`, of a length within the slop bound, for the
input `data` itself (no count is put in front of it): `nonpacketizing_buffer_output` is
the sending of the underlying buffer with exactly `T` put at the end of its content, and
`*wrote` is `have`. -/
theorem nonpacketizing_buffer_output_raw {τ φ : Type} (BUFFER_DATA_SIZE PACKET_SLOP : Nat)
    (ENOMEM : Int) (pb : packetizing_buffer τ φ) (p : pool) (data : List Byte)
    (f : φ → List Byte → Int × List Byte × φ) (T : List Byte) (cl : φ)
    (hB : 0 < BUFFER_DATA_SIZE) (hhave : data.length ≤ BUFFER_DATA_SIZE)
    (hf : pb.outfn = some f) (hT : f pb.fnclosure data = (0, T, cl))
    (hslop : T.length ≤ data.length + PACKET_SLOP)
    (hok : chain_ok BUFFER_DATA_SIZE pb.buf.data) (htail : tail_ok pb.buf.data pb.buf.last)
    (hp : never_exhausted p) :
    ∃ ch lst p1, chain_bytes ch = chain_bytes pb.buf.data ++ T
      ∧ chain_ok BUFFER_DATA_SIZE ch ∧ tail_ok ch lst
      ∧ nonpacketizing_buffer_output BUFFER_DATA_SIZE PACKET_SLOP ENOMEM pb p data
          = (buf_send_output { pb.buf with data := ch, last := lst } p1).bind (fun s =>
              result.ok ((s.1, (data.length : Int)),
                         { pb with buf := s.2.1, fnclosure := cl }, s.2.2)) := by
  have hnot : ¬ ((data.length : Int) > BUFFER_DATA_SIZE) := by omega
  have hnab : ¬ ((T.length : Int) > (data.length : Int) + PACKET_SLOP) := by omega
  by_cases hpath : (data.length : Int) + PACKET_SLOP + 2 > BUFFER_DATA_SIZE
  · obtain ⟨ch, lst, p1, hrun, hch, htl, _, hby, hp1⟩ :=
      buf_output_ok BUFFER_DATA_SIZE hB pb.buf p T hok htail hp
    refine ⟨ch, lst, p1, hby, hch, htl, ?_⟩
    have hroom : ¬ ((T.length : Int) > (BUFFER_DATA_SIZE : Int) + PACKET_SLOP + 4) := by omega
    simp only [nonpacketizing_buffer_output, hnot, if_false, hpath, if_true,
      nonpacketizing_translate, hf, hT, hroom, ne_eq, not_true_eq_false, hnab,
      nonpacketizing_queue, hrun]
    rfl
  · obtain ⟨a, p1, hget, hp1⟩ := get_buffer_data_ok BUFFER_DATA_SIZE p hp
    have hlenT : T.length ≤ BUFFER_DATA_SIZE := by omega
    obtain ⟨hseg, hsegb⟩ := seg_fresh BUFFER_DATA_SIZE a T hlenT
    obtain ⟨d, hd⟩ : ∃ d : buffer_data,
        d = ⟨a, memcpy (List.replicate BUFFER_DATA_SIZE 0) 0 T, 0, (T.length : Int)⟩ :=
      ⟨_, rfl⟩
    rw [← hd] at hseg hsegb
    have happ := buf_append_data_ok pb.buf [d] (some a) htail (by simp)
    have hroom : ¬ ((T.length : Int)
        > (((List.replicate BUFFER_DATA_SIZE (0 : Byte)).length : Nat) : Int)) := by
      simp only [List.length_replicate]; omega
    refine ⟨pb.buf.data ++ [d], some a, p1, ?_, ?_, ?_, ?_⟩
    · rw [chain_bytes_append]
      simp only [chain_bytes, List.append_nil]
      rw [hsegb]
    · rw [chain_ok_append]
      exact ⟨hok, chain_ok_cons.mpr ⟨hseg, chain_ok_nil _⟩⟩
    · rw [hd]; exact tail_ok_concat _ _
    · simp only [nonpacketizing_buffer_output, hnot, if_false, hpath, hget,
        nonpacketizing_translate, hf, hT, hroom, ne_eq, not_true_eq_false, hnab,
        nonpacketizing_queue, ← hd, happ, result.bind]

theorem nonpacketizing_buffer_output_raw_witness :
    (0 < 16 ∧ [(7 : Byte), 8, 9].length ≤ 16
      ∧ trailer_transform () [7, 8, 9] = (0, [7, 8, 9, 90], ())
      ∧ [(7 : Byte), 8, 9, 90].length ≤ 3 + 2 ∧ never_exhausted ⟨[], 0, none⟩)
    ∧ ∃ ch lst p1, chain_bytes ch = [] ++ [7, 8, 9, 90]
      ∧ nonpacketizing_buffer_output 16 2 12
            (⟨output_buffer [] none accept_all_output (), none, some trailer_transform, (),
              0, 0, [], 0, 0⟩ : packetizing_buffer Unit Unit) ⟨[], 0, none⟩ [7, 8, 9]
          = (buf_send_output { output_buffer [] none accept_all_output () with
                               data := ch, last := lst } p1).bind (fun s =>
              result.ok ((s.1, 3),
                ({ buf := s.2.1, inpfn := none, outfn := some trailer_transform,
                   fnclosure := (), translated := 0, holdsize := 0, holdbuf := [],
                   holdbufsize := 0, holddata := 0 } : packetizing_buffer Unit Unit), s.2.2)) :=
  ⟨⟨by decide, by decide, rfl, by decide, rfl⟩,
   (nonpacketizing_buffer_output_raw 16 2 12
     ⟨output_buffer [] none accept_all_output (), none, some trailer_transform, (),
       0, 0, [], 0, 0⟩ ⟨[], 0, none⟩ [7, 8, 9] trailer_transform [7, 8, 9, 90] ()
     (by decide) (by decide) rfl rfl (by decide) (by decide) (by decide) rfl).imp
     fun _ h => h.imp fun _ h => h.imp fun _ h => ⟨h.1, h.2.2.2⟩⟩

/-- The bytes that the end of the loop body of `packetizing_buffer_input` hands over
fit in `size` bytes. -/
theorem packetizing_untranslate_bound {τ φ : Type} (B SLOP : Nat) (ENOMEM : Int)
    (pb : packetizing_buffer τ φ) (p : pool) (inbuf : List Byte) (count size : Int)
    (hsize : 0 ≤ size) (step : packet_step) (pb' : packetizing_buffer τ φ) (p' : pool)
    (h : packetizing_untranslate B SLOP ENOMEM pb p inbuf count size
      = result.ok (step, pb', p')) :
    (∀ b, step = packet_step.last b → (b.length : Int) ≤ size)
    ∧ (∀ b, step = packet_step.more b → (b.length : Int) ≤ size) := by
  unfold packetizing_untranslate at h
  simp only at h
  repeat' split at h
  all_goals
    first
    | (cases h; done)
    | (simp only [result.ok.injEq, Prod.mk.injEq] at h
       obtain ⟨hs, _⟩ := h
       subst hs
       refine ⟨fun b hb => ?_, fun b hb => ?_⟩ <;>
         first
         | (cases hb; done)
         | (cases hb; simp only [List.length_take]; omega))

/-- The bytes that the part "Read the packet" of the loop body of
`packetizing_buffer_input` hands over fit in `size` bytes. -/
theorem packetizing_packet_bound {τ φ : Type} (B SLOP : Nat) (ENOMEM : Int)
    (pb : packetizing_buffer τ φ) (p : pool) (size : Int)
    (hsize : 0 ≤ size) (step : packet_step) (pb' : packetizing_buffer τ φ) (p' : pool)
    (h : packetizing_packet B SLOP ENOMEM pb p size = result.ok (step, pb', p')) :
    (∀ b, step = packet_step.last b → (b.length : Int) ≤ size)
    ∧ (∀ b, step = packet_step.more b → (b.length : Int) ≤ size) := by
  unfold packetizing_packet at h
  simp only at h
  split at h
  · split at h
    · simp only [result.ok.injEq, Prod.mk.injEq] at h
      obtain ⟨hs, _⟩ := h
      subst hs
      exact ⟨fun b hb => (by cases hb), fun b hb => (by cases hb)⟩
    · split at h
      · cases h
      · rename_i pb1 p1 _ _
        cases hr : buf_read_data B pb1.buf p1 _ with
        | ok r =>
          rw [hr] at h
          simp only [result.bind] at h
          repeat' split at h
          all_goals
            first
            | (cases h; done)
            | exact packetizing_untranslate_bound B SLOP ENOMEM _ _ _ _ size hsize step pb' p' h
            | (simp only [result.ok.injEq, Prod.mk.injEq] at h
               obtain ⟨hs, _⟩ := h
               subst hs
               exact ⟨fun b hb => (by cases hb), fun b hb => (by cases hb)⟩)
        | abort => rw [hr] at h; cases h
        | fatal => rw [hr] at h; cases h
        | undefined => rw [hr] at h; cases h
        | out_of_fuel => rw [hr] at h; cases h
  · cases h

/-- The loop of `packetizing_buffer_input` keeps the bytes stored so far and stores at
most `size` more. -/
theorem packetizing_input_loop_bound {τ φ : Type} (B SLOP : Nat) (ENOMEM : Int) :
    ∀ (fuel : Nat) (pb : packetizing_buffer τ φ) (p : pool) (acc : List Byte)
      (need size : Int) (st : Int) (bytes : List Byte) (pb' : packetizing_buffer τ φ)
      (p' : pool),
      0 ≤ size → need ≤ size →
      packetizing_input_loop B SLOP ENOMEM fuel pb p acc need size
        = result.ok ((st, bytes), pb', p') →
      (bytes.length : Int) ≤ (acc.length : Int) + size ∧ acc <+: bytes := by
  intro fuel
  induction fuel with
  | zero =>
    intro pb p acc need size st bytes pb' p' _ _ h
    cases h
  | succ n ih =>
    intro pb p acc need size st bytes pb' p' hsize hneed h
    rw [packetizing_input_loop] at h
    by_cases hcond : need > 0 ∨ acc = []
    · rw [if_pos hcond] at h
      cases hc : packetizing_count B ENOMEM pb p with
      | ok r =>
        rw [hc] at h
        obtain ⟨step, pb1, p1⟩ := r
        simp only [result.bind] at h
        cases step with
        | go =>
          simp only at h
          cases hp : packetizing_packet B SLOP ENOMEM pb1 p1 size with
          | ok s =>
            rw [hp] at h
            obtain ⟨step2, pb2, p2⟩ := s
            have hb := packetizing_packet_bound B SLOP ENOMEM pb1 p1 size hsize step2 pb2 p2 hp
            simp only at h
            cases step2 with
            | ret status =>
              simp only [result.ok.injEq, Prod.mk.injEq] at h
              obtain ⟨⟨_, hbytes⟩, _⟩ := h
              subst hbytes
              exact ⟨by omega, List.prefix_refl _⟩
            | last b =>
              simp only [result.ok.injEq, Prod.mk.injEq] at h
              obtain ⟨⟨_, hbytes⟩, _⟩ := h
              subst hbytes
              have := hb.1 b rfl
              exact ⟨by simp only [List.length_append]; push_cast; omega,
                List.prefix_append _ _⟩
            | more b =>
              have hbl := hb.2 b rfl
              obtain ⟨h1, h2⟩ := ih pb2 p2 (acc ++ b) (need - b.length) (size - b.length)
                st bytes pb' p' (by omega) (by omega) h
              refine ⟨?_, (List.prefix_append _ _).trans h2⟩
              simp only [List.length_append] at h1
              push_cast at h1
              omega
            | again => exact ih pb2 p2 acc need size st bytes pb' p' hsize hneed h
            | go => exact ih pb2 p2 acc need size st bytes pb' p' hsize hneed h
          | abort => rw [hp] at h; cases h
          | fatal => rw [hp] at h; cases h
          | undefined => rw [hp] at h; cases h
          | out_of_fuel => rw [hp] at h; cases h
        | ret status =>
          simp only [result.ok.injEq, Prod.mk.injEq] at h
          obtain ⟨⟨_, hbytes⟩, _⟩ := h
          subst hbytes
          exact ⟨by omega, List.prefix_refl _⟩
        | again => exact ih pb1 p1 acc need size st bytes pb' p' hsize hneed h
        | last b => exact ih pb1 p1 acc need size st bytes pb' p' hsize hneed h
        | more b => exact ih pb1 p1 acc need size st bytes pb' p' hsize hneed h
      | abort => rw [hc] at h; cases h
      | fatal => rw [hc] at h; cases h
      | undefined => rw [hc] at h; cases h
      | out_of_fuel => rw [hc] at h; cases h
    · rw [if_neg hcond] at h
      simp only [result.ok.injEq, Prod.mk.injEq] at h
      obtain ⟨⟨_, hbytes⟩, _⟩ := h
      subst hbytes
      exact ⟨by omega, List.prefix_refl _⟩

/-- C37: whatever the state of the packetizing buffer, the bytes on the underlying
buffer and the translation function, a call of `packetizing_buffer_input` with
`0 <= need <= size` that returns has stored at most `size` bytes, the `*got` bytes it
reports, from the start of `data` on. -/
theorem packetizing_buffer_input_got_le_size {τ φ : Type}
    (BUFFER_DATA_SIZE PACKET_SLOP : Nat) (ENOMEM : Int) (fuel : Nat)
    (pb : packetizing_buffer τ φ) (p : pool) (need size : Int) (st : Int)
    (bytes : List Byte)
    (hneed0 : 0 ≤ need) (hneed : need ≤ size)
    (hret : ∃ pb' p', packetizing_buffer_input BUFFER_DATA_SIZE PACKET_SLOP ENOMEM fuel pb p
      need size = result.ok ((st, bytes), pb', p')) :
    0 ≤ (bytes.length : Int) ∧ (bytes.length : Int) ≤ size := by
  obtain ⟨pb', p', h⟩ := hret
  refine ⟨by omega, ?_⟩
  unfold packetizing_buffer_input at h
  by_cases hheld : pb.holdsize > 0 ∧ pb.translated ≠ 0
  · rw [if_pos hheld] at h
    simp only at h
    by_cases hgt : pb.holdsize > size
    · rw [if_pos hgt] at h
      simp only [result.ok.injEq, Prod.mk.injEq] at h
      obtain ⟨⟨_, hbytes⟩, _⟩ := h
      subst hbytes
      simp only [List.length_take]
      omega
    · rw [if_neg hgt] at h
      obtain ⟨h1, _⟩ := packetizing_input_loop_bound BUFFER_DATA_SIZE PACKET_SLOP ENOMEM fuel
        _ p _ (need - pb.holdsize) (size - pb.holdsize) st bytes pb' p' (by omega) (by omega) h
      simp only [List.length_take] at h1
      omega
  · rw [if_neg hheld] at h
    obtain ⟨h1, _⟩ := packetizing_input_loop_bound BUFFER_DATA_SIZE PACKET_SLOP ENOMEM fuel
      pb p [] need size st bytes pb' p' (by omega) hneed h
    simpa using h1

theorem packetizing_buffer_input_got_le_size_witness :
    ((0 : Int) ≤ 1 ∧ (1 : Int) ≤ 1
      ∧ ∃ pb' p', packetizing_buffer_input 8 2 12 7
          ( packetizing_buffer_initialize 8 2
            (chain_buffer [⟨0, [0, 4, 0, 2, 1, 2, 0, 0], 0, 6⟩] (some 0) (some eof_input) ())
            (some identity_transform) none ()).closure ⟨[], 0, none⟩ 1 1
        = result.ok ((0, [1]), pb', p'))
    ∧ (0 ≤ (([1] : List Byte).length : Int) ∧ (([1] : List Byte).length : Int) ≤ 1) :=
  ⟨⟨by decide, by decide, _, _, rfl⟩,
   packetizing_buffer_input_got_le_size 8 2 12 7
     ( packetizing_buffer_initialize 8 2
       (chain_buffer [⟨0, [0, 4, 0, 2, 1, 2, 0, 0], 0, 6⟩] (some 0) (some eof_input) ())
       (some identity_transform) none ()).closure ⟨[], 0, none⟩ 1 1 0 [1]
     (by decide) (by decide) ⟨_, _, rfl⟩⟩

/-- A computation that yields a value after `bind` went through both of its parts. -/
theorem result.bind_eq_ok {α β : Type} {r : result α} {f : α → result β} {v : β}
    (h : r.bind f = result.ok v) : ∃ a, r = result.ok a ∧ f a = result.ok v := by
  cases r with
  | ok a => exact ⟨a, rfl, h⟩
  | abort => cases h
  | fatal => cases h
  | undefined => cases h
  | out_of_fuel => cases h

/-- A node whose array has its full length satisfies `seg_ok` after bytes are stored
inside the array and the cursor and the size are set inside it. -/
theorem seg_ok_store {B : Nat} (d : buffer_data) (off : Int) (bytes : List Byte) (bp sz : Int)
    (ht : d.text.length = B) (h0 : 0 ≤ off) (h1 : off + (bytes.length : Int) ≤ B)
    (hb : 0 ≤ bp) (hs : 0 ≤ sz) (hbs : bp + sz ≤ B) :
    seg_ok B { d with text := memcpy d.text off bytes, bufp := bp, size := sz } := by
  refine ⟨?_, hb, hs, hbs⟩
  show (memcpy d.text off bytes).length = B
  unfold memcpy
  rw [memcpy_length _ _ _ (by omega), ht]

/-- A node satisfies `seg_ok` after its cursor and size are set inside its array. -/
theorem seg_ok_move {B : Nat} {d : buffer_data} (hd : seg_ok B d) (bp sz : Int)
    (hb : 0 ≤ bp) (hs : 0 ≤ sz) (hbs : bp + sz ≤ B) :
    seg_ok B { d with bufp := bp, size := sz } :=
  ⟨hd.1, hb, hs, hbs⟩

/-- A node handed out by `get_buffer_data` is empty and has its full capacity. -/
theorem get_buffer_data_seg_ok (B : Nat) (p p1 : pool) (d : buffer_data)
    (h : get_buffer_data B p = (some d, p1)) : seg_ok B d ∧ d.bufp = 0 ∧ d.size = 0 := by
  unfold get_buffer_data at h
  simp only at h
  split at h
  · cases h
  · simp only [Prod.mk.injEq, Option.some.injEq] at h
    obtain ⟨rfl, _⟩ := h
    exact ⟨⟨by simp, le_refl _, le_refl _, by simp⟩, rfl, rfl⟩

/-- The node `*buf->last` of a chain that satisfies `chain_ok` satisfies `seg_ok`. -/
theorem last_data_seg_ok {σ : Type} {B : Nat} (buf : buffer σ) (l : buffer_data)
    (hc : chain_ok B buf.data) (h : last_data buf = some l) : seg_ok B l :=
  hc l (last_data_mem buf l h)

theorem set_last_chain_ok {σ : Type} {B : Nat} (buf : buffer σ) (d : buffer_data)
    (hc : chain_ok B buf.data) (hd : seg_ok B d) : chain_ok B (set_last buf d).data := by
  intro x hx
  simp only [set_last, List.mem_append, List.mem_singleton] at hx
  rcases hx with hx | rfl
  · exact hc x (List.dropLast_subset _ hx)
  · exact hd

theorem link_last_chain_ok {σ : Type} {B : Nat} (buf b : buffer σ) (d : buffer_data)
    (hc : chain_ok B buf.data) (hd : seg_ok B d) (h : link_last buf d = result.ok b) :
    chain_ok B b.data ∧ b.output = buf.output := by
  unfold link_last at h
  split at h
  · cases h
    exact ⟨by rw [chain_ok_cons]; exact ⟨hd, chain_ok_nil B⟩, rfl⟩
  · split at h
    · cases h
    · cases h
      refine ⟨?_, rfl⟩
      show chain_ok B (buf.data ++ [d])
      rw [chain_ok_append, chain_ok_cons]
      exact ⟨hc, hd, chain_ok_nil B⟩

/-- The loop of `buf_output` keeps the capacity invariant of the chain. -/
theorem buf_output_loop_chain_ok {σ : Type} (B : Nat) :
    ∀ (fuel : Nat) (buf b : buffer σ) (p p' : pool) (data : List Byte),
      chain_ok B buf.data → buf_output_loop B fuel buf p data = result.ok (b, p') →
      chain_ok B b.data ∧ b.output = buf.output := by
  intro fuel
  induction fuel with
  | zero => intro buf b p p' data _ h; cases h
  | succ n ih =>
    intro buf b p p' data hc h
    unfold buf_output_loop at h
    cases hg : get_buffer_data B p with
    | mk od p1 =>
      rw [hg] at h
      cases od with
      | none =>
        simp only [result.ok.injEq, Prod.mk.injEq] at h
        obtain ⟨rfl, _⟩ := h
        exact ⟨hc, rfl⟩
      | some nd =>
        obtain ⟨hnd, _, _⟩ := get_buffer_data_seg_ok B p p1 nd hg
        simp only at h
        split at h
        · rename_i hle
          obtain ⟨b1, hl, hb⟩ := result.bind_eq_ok h
          simp only [result.ok.injEq, Prod.mk.injEq] at hb
          obtain ⟨rfl, _⟩ := hb
          exact link_last_chain_ok buf b1 _ hc
            (seg_ok_store nd 0 data 0 data.length hnd.1 (le_refl _) (by omega) (le_refl _)
              (by omega) (by omega)) hl
        · rename_i hle
          obtain ⟨b1, hl, hb⟩ := result.bind_eq_ok h
          have hlen : ((data.take B).length : Int) ≤ B := by
            rw [List.length_take]; omega
          obtain ⟨h1, h2⟩ := link_last_chain_ok buf b1 _ hc
            (seg_ok_store nd 0 (data.take B) 0 B hnd.1 (le_refl _) (by omega) (le_refl _)
              (by omega) (by omega)) hl
          obtain ⟨h3, h4⟩ := ih b1 b p1 p' _ h1 hb
          exact ⟨h3, h4.trans h2⟩

/-- The function `buf_output` keeps the capacity invariant of the chain. -/
theorem buf_output_chain_ok {σ : Type} (B : Nat) (buf b : buffer σ) (p p' : pool)
    (data : List Byte) (hc : chain_ok B buf.data)
    (h : buf_output B buf p data = result.ok (b, p')) :
    chain_ok B b.data ∧ b.output = buf.output := by
  unfold buf_output at h
  split at h
  · exact buf_output_loop_chain_ok B _ buf b p p' data hc h
  · split at h
    · cases h
    · rename_i l hl
      have hsl := last_data_seg_ok buf l hc hl
      split at h
      · rename_i hroom
        simp only [result.ok.injEq, Prod.mk.injEq] at h
        obtain ⟨rfl, _⟩ := h
        exact ⟨set_last_chain_ok buf _ hc (seg_append hsl data hroom).1, rfl⟩
      · exact buf_output_loop_chain_ok B _ buf b p p' data hc h

/-- The function `buf_append_char` keeps the capacity invariant of the chain. -/
theorem buf_append_char_chain_ok {σ : Type} (B : Nat) (buf b : buffer σ) (p p' : pool)
    (ch : Int) (hc : chain_ok B buf.data)
    (h : buf_append_char B buf p ch = result.ok (b, p')) :
    chain_ok B b.data ∧ b.output = buf.output := by
  unfold buf_append_char at h
  split at h
  · exact buf_output_chain_ok B buf b p p' _ hc h
  · split at h
    · cases h
    · rename_i l hl
      have hsl := last_data_seg_ok buf l hc hl
      split at h
      · rename_i hroom
        simp only [result.ok.injEq, Prod.mk.injEq] at h
        obtain ⟨rfl, _⟩ := h
        obtain ⟨h1, h2, h3, h4⟩ := hsl
        refine ⟨set_last_chain_ok buf _ hc ?_, rfl⟩
        have hne : (B : Int) ≠ l.bufp + l.size := hroom
        exact seg_ok_store l (l.bufp + l.size) [char_of_int ch] l.bufp (l.size + 1) h1
          (by omega) (by simp only [List.length_singleton, Nat.cast_one]; omega) h2 (by omega)
          (by omega)
      · exact buf_output_chain_ok B buf b p p' _ hc h

/-- The function `buf_append_data` keeps the capacity invariant when the chain added
satisfies it. -/
theorem buf_append_data_chain_ok {σ : Type} (B : Nat) (buf b : buffer σ)
    (data : List buffer_data) (last : Option Nat) (hc : chain_ok B buf.data)
    (hd : chain_ok B data) (h : buf_append_data buf data last = result.ok b) :
    chain_ok B b.data ∧ b.output = buf.output := by
  unfold buf_append_data at h
  split at h
  · cases h; exact ⟨hc, rfl⟩
  · split at h
    · cases h; exact ⟨hd, rfl⟩
    · split at h
      · cases h
      · cases h
        exact ⟨chain_ok_append.mpr ⟨hc, hd⟩, rfl⟩

/-- The first loop of `buf_read_data` keeps the capacity invariant. -/
theorem read_data_skip_chain_ok {σ : Type} (B : Nat) :
    ∀ (l : List buffer_data) (buf : buffer σ) (p : pool), chain_ok B l →
      chain_ok B (read_data_skip l buf p).1.data
      ∧ (read_data_skip l buf p).1.input = buf.input := by
  intro l
  induction l with
  | nil => intro buf p _; exact ⟨chain_ok_nil B, rfl⟩
  | cons d rest ih =>
    intro buf p hc
    rw [chain_ok_cons] at hc
    unfold read_data_skip
    split
    · exact ih _ _ hc.2
    · exact ⟨chain_ok_cons.mpr hc, rfl⟩

/-- The end of `buf_read_data` keeps the capacity invariant when `want >= 0`. -/
theorem read_data_take_chain_ok {σ : Type} (B : Nat) (buf b : buffer σ) (p p' : pool)
    (want : Int) (v : Int × List Byte × Int) (hw : 0 ≤ want) (hc : chain_ok B buf.data)
    (h : read_data_take buf p want = result.ok (v, b, p')) : chain_ok B b.data := by
  unfold read_data_take at h
  split at h
  · cases h
  · rename_i d rest hd
    rw [hd, chain_ok_cons] at hc
    obtain ⟨⟨h1, h2, h3, h4⟩, hrest⟩ := hc
    split at h
    · rename_i hlt
      simp only [result.ok.injEq, Prod.mk.injEq] at h
      obtain ⟨_, rfl, _⟩ := h
      exact chain_ok_cons.mpr ⟨⟨h1, by simp only; omega, by simp only; omega,
        by simp only; omega⟩, hrest⟩
    · simp only [result.ok.injEq, Prod.mk.injEq] at h
      obtain ⟨_, rfl, _⟩ := h
      exact chain_ok_cons.mpr ⟨⟨h1, h2, le_refl _, by simp only; omega⟩, hrest⟩

/-- The function `buf_read_data` keeps the capacity invariant when `want >= 0` and the
input backend stores no more than it is offered. -/
theorem buf_read_data_chain_ok {σ : Type} (B : Nat) (buf b : buffer σ) (p p' : pool)
    (want : Int) (v : Int × List Byte × Int) (hw : 0 ≤ want)
    (hin : ∀ f, buf.input = some f → input_within f) (hc : chain_ok B buf.data)
    (h : buf_read_data B buf p want = result.ok (v, b, p')) : chain_ok B b.data := by
  unfold buf_read_data at h
  split at h
  · cases h
  · rename_i input hinput
    have hw1 := hin input hinput
    obtain ⟨hsk, _⟩ := read_data_skip_chain_ok B buf.data buf p hc
    generalize read_data_skip buf.data buf p = sk at h hsk
    obtain ⟨buf1, p1⟩ := sk
    simp only at h hsk
    split at h
    · cases hg : get_buffer_data B p1 with
      | mk od p2 =>
        rw [hg] at h
        cases od with
        | none =>
          simp only [result.ok.injEq, Prod.mk.injEq] at h
          obtain ⟨_, rfl, _⟩ := h
          exact hsk
        | some nd =>
          obtain ⟨hnd, _, _⟩ := get_buffer_data_seg_ok B p1 p2 nd hg
          simp only at h
          have hb := hw1 buf1.closure (if want < B then want else B) B (by omega)
          generalize input buf1.closure (if want < B then want else B) B = r at h hb
          obtain ⟨status, bytes, cl⟩ := r
          simp only at h hb
          split at h
          · simp only [result.ok.injEq, Prod.mk.injEq] at h
            obtain ⟨_, rfl, _⟩ := h
            exact chain_ok_cons.mpr ⟨seg_ok_store nd 0 bytes 0 0 hnd.1 (le_refl _) (by omega)
              (le_refl _) (le_refl _) (by omega), chain_ok_nil B⟩
          · exact read_data_take_chain_ok B _ b p2 p' want v hw
              (chain_ok_cons.mpr ⟨seg_ok_store nd 0 bytes 0 bytes.length hnd.1 (le_refl _)
                (by omega) (le_refl _) (by omega) (by omega), chain_ok_nil B⟩) h
    · exact read_data_take_chain_ok B buf1 b p1 p' want v hw hsk h

/-- The block that makes room at the tail keeps the capacity invariant. -/
theorem tail_room_chain_ok {σ : Type} (B : Nat) (buf b : buffer σ) (p p1 : pool)
    (hc : chain_ok B buf.data) (h : tail_room B buf p = result.ok (some b, p1)) :
    chain_ok B b.data := by
  have hfresh : (match get_buffer_data B p with
        | (none, p1) => (result.ok (none, p1) : result (Option (buffer σ) × pool))
        | (some data, p1) =>
          (link_last buf { data with bufp := 0, size := 0 }).bind fun b => result.ok (some b, p1))
        = result.ok (some b, p1) → chain_ok B b.data := by
    intro hf
    cases hg : get_buffer_data B p with
    | mk od p2 =>
      rw [hg] at hf
      cases od with
      | none => simp at hf
      | some nd =>
        obtain ⟨hnd, _, _⟩ := get_buffer_data_seg_ok B p p2 nd hg
        simp only at hf
        obtain ⟨b1, hl, hb⟩ := result.bind_eq_ok hf
        simp only [result.ok.injEq, Prod.mk.injEq, Option.some.injEq] at hb
        obtain ⟨rfl, _⟩ := hb
        exact (link_last_chain_ok buf b1 _ hc
          (seg_ok_move hnd 0 0 (le_refl _) (le_refl _) (by omega)) hl).1
  unfold tail_room at h
  simp only at h
  split at h
  · exact hfresh h
  · split at h
    · cases h
    · split at h
      · exact hfresh h
      · simp only [result.ok.injEq, Prod.mk.injEq, Option.some.injEq] at h
        obtain ⟨rfl, _⟩ := h
        exact hc

/-- The reading loop of `buf_read_line` keeps the capacity invariant when the input
backend stores no more than it is offered. -/
theorem read_line_more_chain_ok {σ : Type} (B : Nat)
    (input : σ → Int → Int → Int × List Byte × σ) (hin : input_within input) :
    ∀ (fuel : Nat) (buf b : buffer σ) (p p' : pool) (s : Option Int),
      chain_ok B buf.data → read_line_more B input fuel buf p = result.ok (s, b, p') →
      chain_ok B b.data := by
  intro fuel
  induction fuel with
  | zero => intro buf b p p' s _ h; cases h
  | succ n ih =>
    intro buf b p p' s hc h
    unfold read_line_more at h
    obtain ⟨r, hr, h⟩ := result.bind_eq_ok h
    obtain ⟨ob, p1⟩ := r
    cases ob with
    | none =>
      simp only [result.ok.injEq, Prod.mk.injEq] at h
      obtain ⟨_, rfl, _⟩ := h
      exact hc
    | some buf1 =>
      have hc1 := tail_room_chain_ok B buf buf1 p p1 hc hr
      simp only at h
      split at h
      · cases h
      · rename_i l hl
        obtain ⟨h1, h2, h3, h4⟩ := last_data_seg_ok buf1 l hc1 hl
        have hb := hin buf1.closure 1 ((B : Int) - (l.bufp + l.size)) (by omega)
        generalize input buf1.closure 1 ((B : Int) - (l.bufp + l.size)) = r at h hb
        obtain ⟨status, bytes, cl⟩ := r
        simp only at h hb
        split at h
        · simp only [result.ok.injEq, Prod.mk.injEq] at h
          obtain ⟨_, rfl, _⟩ := h
          exact set_last_chain_ok buf1 _ hc1
            (seg_ok_store l (l.bufp + l.size) bytes l.bufp l.size h1 (by omega) (by omega) h2 h3 h4)
        · have hc3 : chain_ok B (set_last buf1 { l with
              text := memcpy l.text (l.bufp + l.size) bytes,
              size := l.size + bytes.length }).data :=
            set_last_chain_ok buf1 _ hc1
              (seg_ok_store l (l.bufp + l.size) bytes l.bufp (l.size + bytes.length) h1
                (by omega) (by omega) h2 (by omega) (by omega))
          repeat' split at h
          all_goals first
            | (simp only [result.ok.injEq, Prod.mk.injEq] at h
               obtain ⟨_, rfl, _⟩ := h
               exact hc3)
            | (refine ih _ b p1 p' s ?_ h
               exact hc3)

/-- An offset found by `memchr` lies inside the bytes searched. -/
theorem memchr_lt {bs : List Byte} {c : Byte} {k : Nat} (h : memchr bs c = some k) :
    k < bs.length := by
  obtain ⟨X, Y, rfl, hX, _⟩ := memchr_some h
  rw [List.length_append, List.length_cons]; omega

/-- The node and the offset that the newline search of `buf_read_line` yields. -/
theorem read_line_scan_some :
    ∀ (chain : List buffer_data) (len : Int) (i0 i : Nat) (fl ln : Int),
      read_line_scan chain len i0 = some (i, fl, ln) →
      i0 ≤ i ∧ ∃ d k, chain[i - i0]? = some d ∧ memchr (seg_bytes d) 10 = some k
        ∧ fl = (k : Int) := by
  intro chain
  induction chain with
  | nil => intro len i0 i fl ln h; cases h
  | cons d rest ih =>
    intro len i0 i fl ln h
    unfold read_line_scan at h
    split at h
    · rename_i k hk
      simp only [Option.some.injEq, Prod.mk.injEq] at h
      obtain ⟨rfl, rfl, _⟩ := h
      exact ⟨le_refl _, d, k, by simp, hk, rfl⟩
    · obtain ⟨hle, d1, k, hd1, hk, hfl⟩ := ih _ _ _ _ _ h
      refine ⟨by omega, d1, k, ?_, hk, hfl⟩
      have : i - i0 = (i - (i0 + 1)) + 1 := by omega
      rw [this, List.getElem?_cons_succ]
      exact hd1

/-- The outer loop of `buf_read_line` keeps the capacity invariant. -/
theorem buf_read_line_loop_chain_ok {σ : Type} (B : Nat)
    (input : σ → Int → Int → Int × List Byte × σ) (hin : input_within input) :
    ∀ (fuel : Nat) (buf b : buffer σ) (p p' : pool) (v : Int × Option (List Byte) × Option Int),
      chain_ok B buf.data → buf_read_line_loop B input fuel buf p = result.ok (v, b, p') →
      chain_ok B b.data := by
  intro fuel
  induction fuel with
  | zero => intro buf b p p' v _ h; cases h
  | succ n ih =>
    intro buf b p p' v hc h
    unfold buf_read_line_loop at h
    split at h
    · rename_i i fl ln hscan
      obtain ⟨_, d, k, hd, hk, rfl⟩ := read_line_scan_some _ _ _ _ _ _ hscan
      simp only [Nat.sub_zero] at hd
      rw [hd] at h
      cases hx : xmalloc p with
      | none =>
        rw [hx] at h
        simp only [result.ok.injEq, Prod.mk.injEq] at h
        obtain ⟨_, rfl, _⟩ := h
        exact hc
      | some p1 =>
        rw [hx] at h
        simp only [result.ok.injEq, Prod.mk.injEq] at h
        obtain ⟨_, rfl, _⟩ := h
        have hsd : seg_ok B d := hc d (List.getElem?_mem hd)
        have hlen := seg_bytes_length hsd
        have hlt := memchr_lt hk
        obtain ⟨h1, h2, h3, h4⟩ := hsd
        exact chain_ok_cons.mpr ⟨⟨h1, by simp only; omega, by simp only; omega,
          by simp only; omega⟩, chain_ok_drop hc _⟩
    · obtain ⟨r, hr, h⟩ := result.bind_eq_ok h
      obtain ⟨s, buf1, p1⟩ := r
      have hc1 := read_line_more_chain_ok B input hin n buf buf1 p p1 s hc hr
      cases s with
      | some status =>
        simp only [result.ok.injEq, Prod.mk.injEq] at h
        obtain ⟨_, rfl, _⟩ := h
        exact hc1
      | none => exact ih buf1 b p1 p' v hc1 h

/-- The function `buf_read_line` keeps the capacity invariant when the input backend
stores no more than it is offered. -/
theorem buf_read_line_chain_ok {σ : Type} (B : Nat) (fuel : Nat) (buf b : buffer σ)
    (p p' : pool) (v : Int × Option (List Byte) × Option Int)
    (hin : ∀ f, buf.input = some f → input_within f) (hc : chain_ok B buf.data)
    (h : buf_read_line B fuel buf p = result.ok (v, b, p')) : chain_ok B b.data := by
  unfold buf_read_line at h
  split at h
  · cases h
  · rename_i input hinput
    exact buf_read_line_loop_chain_ok B input (hin input hinput) fuel buf b p p' v hc h

/-- The loop of `buf_input_data` keeps the capacity invariant when the input backend
stores no more than it is offered. -/
theorem buf_input_data_loop_chain_ok {σ : Type} (B : Nat)
    (input : σ → Int → Int → Int × List Byte × σ) (hin : input_within input) :
    ∀ (fuel : Nat) (buf b : buffer σ) (p p' : pool) (count : Int) (v : Int × Int),
      chain_ok B buf.data → buf_input_data_loop B input fuel buf p count = result.ok (v, b, p') →
      chain_ok B b.data := by
  intro fuel
  induction fuel with
  | zero => intro buf b p p' count v _ h; cases h
  | succ n ih =>
    intro buf b p p' count v hc h
    unfold buf_input_data_loop at h
    obtain ⟨r, hr, h⟩ := result.bind_eq_ok h
    obtain ⟨ob, p1⟩ := r
    cases ob with
    | none =>
      simp only [result.ok.injEq, Prod.mk.injEq] at h
      obtain ⟨_, rfl, _⟩ := h
      exact hc
    | some buf1 =>
      have hc1 := tail_room_chain_ok B buf buf1 p p1 hc hr
      simp only at h
      split at h
      · cases h
      · rename_i l hl
        obtain ⟨h1, h2, h3, h4⟩ := last_data_seg_ok buf1 l hc1 hl
        have hb := hin buf1.closure 0 ((B : Int) - (l.bufp + l.size)) (by omega)
        generalize input buf1.closure 0 ((B : Int) - (l.bufp + l.size)) = r at h hb
        obtain ⟨status, bytes, cl⟩ := r
        simp only at h hb
        split at h
        · simp only [result.ok.injEq, Prod.mk.injEq] at h
          obtain ⟨_, rfl, _⟩ := h
          exact set_last_chain_ok buf1 _ hc1
            (seg_ok_store l (l.bufp + l.size) bytes l.bufp l.size h1 (by omega) (by omega) h2 h3 h4)
        · have hc3 : chain_ok B (set_last buf1 { l with
              text := memcpy l.text (l.bufp + l.size) bytes,
              size := l.size + bytes.length }).data :=
            set_last_chain_ok buf1 _ hc1
              (seg_ok_store l (l.bufp + l.size) bytes l.bufp (l.size + bytes.length) h1
                (by omega) (by omega) h2 (by omega) (by omega))
          split at h
          · simp only [result.ok.injEq, Prod.mk.injEq] at h
            obtain ⟨_, rfl, _⟩ := h
            exact hc3
          · refine ih _ b p1 p' _ v ?_ h
            exact hc3

/-- The function `buf_input_data` keeps the capacity invariant when the input backend
stores no more than it is offered. -/
theorem buf_input_data_chain_ok {σ : Type} (B : Nat) (fuel : Nat) (buf b : buffer σ)
    (p p' : pool) (v : Int × Int)
    (hin : ∀ f, buf.input = some f → input_within f) (hc : chain_ok B buf.data)
    (h : buf_input_data B fuel buf p = result.ok (v, b, p')) : chain_ok B b.data := by
  unfold buf_input_data at h
  split at h
  · cases h
  · rename_i input hinput
    exact buf_input_data_loop_chain_ok B input (hin input hinput) fuel buf b p p' 0 v hc h

/-- The node and the offset that the newline search of `buf_copy_lines` yields. -/
theorem copy_lines_scan_some :
    ∀ (chain : List buffer_data) (i0 i k : Nat), copy_lines_scan chain i0 = some (i, k) →
      i0 ≤ i ∧ ∃ d, chain[i - i0]? = some d ∧ memchr (seg_bytes d) 10 = some k := by
  intro chain
  induction chain with
  | nil => intro i0 i k h; cases h
  | cons d rest ih =>
    intro i0 i k h
    unfold copy_lines_scan at h
    split at h
    · rename_i k1 hk
      simp only [Option.some.injEq, Prod.mk.injEq] at h
      obtain ⟨rfl, rfl⟩ := h
      exact ⟨le_refl _, d, by simp, hk⟩
    · obtain ⟨hle, d1, hd1, hk⟩ := ih _ _ _ h
      refine ⟨by omega, d1, ?_, hk⟩
      have : i - i0 = (i - (i0 + 1)) + 1 := by omega
      rw [this, List.getElem?_cons_succ]
      exact hd1

/-- The block of `buf_copy_lines` that moves the nodes before the newline keeps the
capacity invariant; `inbuf` is left with the chain from the node of the newline on. -/
theorem copy_lines_before_chain_ok {σ τ : Type} (B : Nat) (outbuf o : buffer σ)
    (inbuf i1 : buffer τ) (i : Nat) (hco : chain_ok B outbuf.data)
    (hci : chain_ok B inbuf.data) (h : copy_lines_before outbuf inbuf i = result.ok (o, i1)) :
    chain_ok B o.data ∧ chain_ok B i1.data ∧ i1.data = inbuf.data.drop i := by
  unfold copy_lines_before at h
  split at h
  · obtain ⟨o1, ha, h⟩ := result.bind_eq_ok h
    simp only [result.ok.injEq, Prod.mk.injEq] at h
    obtain ⟨rfl, rfl⟩ := h
    exact ⟨(buf_append_data_chain_ok B outbuf o1 _ _ hco (chain_ok_take hci i) ha).1,
      chain_ok_drop hci i, rfl⟩
  · rename_i hi
    simp only [result.ok.injEq, Prod.mk.injEq] at h
    obtain ⟨rfl, rfl⟩ := h
    have : i = 0 := by
      by_contra hne; exact hi hne
    subst this
    exact ⟨hco, hci, by simp⟩

/-- The end of an iteration of `buf_copy_lines` keeps the capacity invariant when the
newline lies inside the first node of `inbuf`. -/
theorem copy_lines_end_chain_ok {σ τ : Type} (B : Nat) (outbuf o : buffer σ)
    (inbuf i1 : buffer τ) (p p' : pool) (k : Nat) (hco : chain_ok B outbuf.data)
    (hci : chain_ok B inbuf.data)
    (hk : ∀ d rest, inbuf.data = d :: rest → (k : Int) + 1 ≤ d.size)
    (h : copy_lines_end B outbuf inbuf p k = result.ok (o, i1, p')) :
    chain_ok B o.data ∧ chain_ok B i1.data := by
  unfold copy_lines_end at h
  split at h
  · cases h
  · rename_i d rest hd
    have hkd := hk d rest hd
    rw [hd, chain_ok_cons] at hci
    obtain ⟨⟨h1, h2, h3, h4⟩, hrest⟩ := hci
    simp only at h
    split at h
    · obtain ⟨o1, ha, h⟩ := result.bind_eq_ok h
      simp only [result.ok.injEq, Prod.mk.injEq] at h
      obtain ⟨rfl, rfl, _⟩ := h
      exact ⟨(buf_append_data_chain_ok B outbuf o1 _ _ hco
        (chain_ok_cons.mpr ⟨⟨h1, h2, h3, h4⟩, chain_ok_nil B⟩) ha).1, hrest⟩
    · obtain ⟨r, ha, h⟩ := result.bind_eq_ok h
      obtain ⟨o1, p1⟩ := r
      simp only [result.ok.injEq, Prod.mk.injEq] at h
      obtain ⟨rfl, rfl, _⟩ := h
      exact ⟨(buf_output_chain_ok B outbuf o1 p p1 _ hco ha).1,
        chain_ok_cons.mpr ⟨⟨h1, by simp only; omega, by simp only; omega,
          by simp only; omega⟩, hrest⟩⟩

/-- The loop of `buf_copy_lines` keeps the capacity invariant of both buffers. -/
theorem buf_copy_lines_loop_chain_ok {σ τ : Type} (B : Nat) :
    ∀ (fuel : Nat) (outbuf o : buffer σ) (inbuf i1 : buffer τ) (p p' : pool) (command : Int),
      chain_ok B outbuf.data → chain_ok B inbuf.data →
      buf_copy_lines_loop B fuel outbuf inbuf p command = result.ok (o, i1, p') →
      chain_ok B o.data ∧ chain_ok B i1.data := by
  intro fuel
  induction fuel with
  | zero => intro outbuf o inbuf i1 p p' command _ _ h; cases h
  | succ n ih =>
    intro outbuf o inbuf i1 p p' command hco hci h
    unfold buf_copy_lines_loop at h
    split at h
    · simp only [result.ok.injEq, Prod.mk.injEq] at h
      obtain ⟨rfl, rfl, _⟩ := h
      exact ⟨hco, hci⟩
    · rename_i i k hscan
      obtain ⟨_, d, hd, hk⟩ := copy_lines_scan_some _ _ _ _ hscan
      simp only [Nat.sub_zero] at hd
      obtain ⟨r1, hr1, h⟩ := result.bind_eq_ok h
      obtain ⟨r2, hr2, h⟩ := result.bind_eq_ok h
      obtain ⟨r3, hr3, h⟩ := result.bind_eq_ok h
      obtain ⟨r4, hr4, h⟩ := result.bind_eq_ok h
      obtain ⟨o1, p1⟩ := r1
      obtain ⟨o2, p2⟩ := r2
      obtain ⟨o3, i3⟩ := r3
      obtain ⟨o4, i4, p4⟩ := r4
      simp only at hr2 hr3 hr4 h
      have hc1 := (buf_append_char_chain_ok B outbuf o1 p p1 _ hco hr1).1
      have hc2 := (buf_append_char_chain_ok B o1 o2 p1 p2 _ hc1 hr2).1
      obtain ⟨hc3, hi3, hdrop⟩ := copy_lines_before_chain_ok B o2 o3 inbuf i3 i hc2 hci hr3
      have hsd : seg_ok B d := hci d (List.getElem?_mem hd)
      have hlen := seg_bytes_length hsd
      have hlt := memchr_lt hk
      have hkk : ∀ d1 rest, i3.data = d1 :: rest → (k : Int) + 1 ≤ d1.size := by
        intro d1 rest he
        rw [hdrop] at he
        have h0 : (inbuf.data.drop i)[0]? = some d1 := by rw [he]; simp
        rw [List.getElem?_drop, Nat.add_zero, hd] at h0
        cases h0
        omega
      obtain ⟨hc4, hi4⟩ := copy_lines_end_chain_ok B o3 o4 i3 i4 p2 p4 k hc3 hi3 hkk hr4
      exact ih o4 o i4 i1 p4 p' command hc4 hi4 h

/-- The function `buf_copy_lines` keeps the capacity invariant of both buffers. -/
theorem buf_copy_lines_chain_ok {σ τ : Type} (B : Nat) (outbuf o : buffer σ)
    (inbuf i1 : buffer τ) (p p' : pool) (command : Int) (hco : chain_ok B outbuf.data)
    (hci : chain_ok B inbuf.data)
    (h : buf_copy_lines B outbuf inbuf p command = result.ok (o, i1, p')) :
    chain_ok B o.data ∧ chain_ok B i1.data :=
  buf_copy_lines_loop_chain_ok B _ outbuf o inbuf i1 p p' command hco hci h

/-- The node and the offset on which the count loop of `buf_copy_counted` stops. -/
theorem copy_counted_count_some :
    ∀ (chain : List buffer_data) (need : Int) (intbuf : List Byte) (i0 s : Nat) (so : Int)
      (ib : List Byte), 0 < need → copy_counted_count chain need intbuf i0 = (some s, so, ib) →
      i0 ≤ s ∧ ∃ sd, chain[s - i0]? = some sd ∧ 0 < so ∧ so ≤ sd.size := by
  intro chain
  induction chain with
  | nil => intro need intbuf i0 s so ib _ h; simp [copy_counted_count] at h
  | cons d rest ih =>
    intro need intbuf i0 s so ib hn h
    unfold copy_counted_count at h
    split at h
    · rename_i hge
      simp only [Prod.mk.injEq, Option.some.injEq] at h
      obtain ⟨rfl, rfl, _⟩ := h
      exact ⟨le_refl _, d, by simp, hn, hge⟩
    · rename_i hlt
      obtain ⟨hle, sd, hsd, h1, h2⟩ := ih _ _ _ _ _ _ (by omega) h
      refine ⟨by omega, sd, ?_, h1, h2⟩
      have : s - i0 = (s - (i0 + 1)) + 1 := by omega
      rw [this, List.getElem?_cons_succ]
      exact hsd

/-- The node and the count on which the second loop of `buf_copy_counted` stops. -/
theorem copy_counted_stop_some :
    ∀ (chain : List buffer_data) (need : Int) (j0 t : Nat) (n1 : Int), 0 < need →
      copy_counted_stop chain need j0 = (some t, n1) →
      j0 ≤ t ∧ ∃ st, chain[t - j0]? = some st ∧ 0 < n1 ∧ n1 ≤ st.size := by
  intro chain
  induction chain with
  | nil => intro need j0 t n1 _ h; simp [copy_counted_stop] at h
  | cons d rest ih =>
    intro need j0 t n1 hn h
    unfold copy_counted_stop at h
    split at h
    · rename_i hle
      simp only [Prod.mk.injEq, Option.some.injEq] at h
      obtain ⟨rfl, rfl⟩ := h
      exact ⟨le_refl _, d, by simp, hn, hle⟩
    · rename_i hlt
      obtain ⟨hle, st, hst, h1, h2⟩ := ih _ _ _ _ (by omega) h
      refine ⟨by omega, st, ?_, h1, h2⟩
      have : t - j0 = (t - (j0 + 1)) + 1 := by omega
      rw [this, List.getElem?_cons_succ]
      exact hst

/-- What `copy_counted_locate` yields when it finds a record: `start` is a node of the
chain with `startoff` inside it, and `stopwant` lies inside the node `stop`. -/
theorem copy_counted_locate_some (big_endian : Bool) (chain : List buffer_data)
    (start stop : Nat) (so count sw : Int)
    (h : copy_counted_locate big_endian chain
      = result.ok (Sum.inr (start, so, count, stop, sw))) :
    ∃ sd, chain[start]? = some sd ∧ 0 ≤ so ∧ so ≤ sd.size ∧ 0 ≤ sw
      ∧ ((stop = start ∧ sw ≤ sd.size - so)
        ∨ (start < stop ∧ ∃ st, chain[stop]? = some st ∧ sw ≤ st.size)) := by
  unfold copy_counted_locate at h
  split at h
  · cases h
  · rename_i s so1 ib hcount
    obtain ⟨_, sd, hsd, h1, h2⟩ := copy_counted_count_some chain sizeof_int [] 0 s so1 ib
      (by decide) hcount
    simp only [Nat.sub_zero] at hsd
    simp only at h
    rw [hsd] at h
    simp only at h
    split at h
    · simp only [result.ok.injEq, Sum.inr.injEq, Prod.mk.injEq] at h
      obtain ⟨rfl, rfl, _, rfl, rfl⟩ := h
      exact ⟨sd, hsd, by omega, h2, le_refl _, Or.inl ⟨rfl, by omega⟩⟩
    · rename_i hnn
      split at h
      · rename_i hle
        simp only [result.ok.injEq, Sum.inr.injEq, Prod.mk.injEq] at h
        obtain ⟨rfl, rfl, hcnt, rfl, rfl⟩ := h
        exact ⟨sd, hsd, by omega, h2, by omega, Or.inl ⟨rfl, by omega⟩⟩
      · rename_i hgt
        split at h
        · cases h
        · rename_i t n1 hstop
          simp only [result.ok.injEq, Sum.inr.injEq, Prod.mk.injEq] at h
          obtain ⟨rfl, rfl, _, rfl, rfl⟩ := h
          obtain ⟨hle, st, hst, h3, h4⟩ := copy_counted_stop_some _ _ _ _ _ (by omega) hstop
          rw [List.getElem?_drop] at hst
          have : s + 1 + (t - (s + 1)) = t := by omega
          rw [this] at hst
          exact ⟨sd, hsd, by omega, h2, by omega, Or.inr ⟨by omega, st, hst, h4⟩⟩

/-- The update of `*start` and of `stop` in `buf_copy_counted` keeps the capacity
invariant, and `stopwant` lies inside the node `stop` afterwards. -/
theorem copy_counted_strip_chain_ok (B : Nat) (chain chain1 : List buffer_data)
    (start stop start1 stop1 : Nat) (so sw sw1 : Int) (sd : buffer_data)
    (hc : chain_ok B chain) (hsd : chain[start]? = some sd) (h0 : 0 ≤ so) (h1 : so ≤ sd.size)
    (hsw : 0 ≤ sw)
    (hstop : (stop = start ∧ sw ≤ sd.size - so)
      ∨ (start < stop ∧ ∃ st, chain[stop]? = some st ∧ sw ≤ st.size))
    (h : copy_counted_strip chain start so stop sw = result.ok (chain1, start1, stop1, sw1)) :
    chain_ok B chain1 ∧ 0 ≤ sw1 ∧ ∀ st, chain1[stop1]? = some st → sw1 ≤ st.size := by
  unfold copy_counted_strip at h
  rw [hsd] at h
  simp only at h
  have hssd : seg_ok B sd := hc sd (List.getElem?_mem hsd)
  have hset : chain_ok B (chain.set start
      { sd with bufp := sd.bufp + so, size := sd.size - so }) := by
    intro x hx
    rcases List.mem_or_eq_of_mem_set hx with hx | rfl
    · exact hc x hx
    · obtain ⟨a1, a2, a3, a4⟩ := hssd
      exact ⟨a1, by simp only; omega, by simp only; omega, by simp only; omega⟩
  split at h
  · cases h
  · rename_i st hst
    have hstsz : sw ≤ st.size := by
      rcases hstop with ⟨rfl, hle⟩ | ⟨hlt, st0, hst0, hle⟩
      · have hlen : stop < chain.length := by
          rcases Nat.lt_or_ge stop chain.length with hl | hl
          · exact hl
          · rw [List.getElem?_eq_none hl] at hsd; cases hsd
        rw [List.getElem?_set_self hlen] at hst
        cases hst
        exact hle
      · rw [List.getElem?_set_ne (by omega)] at hst
        rw [hst0] at hst
        cases hst
        exact hle
    split at h
    · simp only [result.ok.injEq, Prod.mk.injEq] at h
      obtain ⟨rfl, _, rfl, rfl⟩ := h
      refine ⟨hset, le_refl _, ?_⟩
      intro st1 hst1
      exact (hset st1 (List.getElem?_mem hst1)).2.2.1
    · simp only [result.ok.injEq, Prod.mk.injEq] at h
      obtain ⟨rfl, _, rfl, rfl⟩ := h
      refine ⟨hset, hsw, ?_⟩
      intro st1 hst1
      rw [hst] at hst1
      cases hst1
      exact hstsz

/-- The end of an iteration of `buf_copy_counted` keeps the capacity invariant of both
buffers. -/
theorem copy_counted_move_chain_ok {σ τ : Type} (B : Nat) (outbuf o : buffer σ)
    (inbuf i1 : buffer τ) (p p' : pool) (chain : List buffer_data) (start stop : Nat)
    (sw : Int) (hco : chain_ok B outbuf.data) (hci : chain_ok B inbuf.data)
    (hc : chain_ok B chain) (hst : ∀ st, chain[stop]? = some st → sw ≤ st.size)
    (h : copy_counted_move B outbuf inbuf p chain start stop sw = result.ok (o, i1, p')) :
    chain_ok B o.data ∧ chain_ok B i1.data := by
  unfold copy_counted_move at h
  obtain ⟨r, hr, h⟩ := result.bind_eq_ok h
  obtain ⟨o1, i2⟩ := r
  have hsplice : chain_ok B o1.data ∧ chain_ok B i2.data := by
    unfold copy_counted_splice at hr
    split at hr
    · split at hr
      · obtain ⟨o2, ha, hr⟩ := result.bind_eq_ok hr
        simp only [result.ok.injEq, Prod.mk.injEq] at hr
        obtain ⟨rfl, rfl⟩ := hr
        exact ⟨(buf_append_data_chain_ok B outbuf o2 _ _ hco
          (chain_ok_drop (chain_ok_take hc stop) start) ha).1, chain_ok_drop hc stop⟩
      · cases hr
    · simp only [result.ok.injEq, Prod.mk.injEq] at hr
      obtain ⟨rfl, rfl⟩ := hr
      exact ⟨hco, hci⟩
  simp only at h
  unfold copy_counted_copy at h
  split at h
  · split at h
    · cases h
    · rename_i st hstop
      obtain ⟨r, ho, h⟩ := result.bind_eq_ok h
      obtain ⟨o3, p3⟩ := r
      simp only [result.ok.injEq, Prod.mk.injEq] at h
      obtain ⟨rfl, rfl, _⟩ := h
      have hle := hst st hstop
      obtain ⟨a1, a2, a3, a4⟩ := hc st (List.getElem?_mem hstop)
      exact ⟨(buf_output_chain_ok B o1 o3 p p3 _ hsplice.1 ho).1,
        chain_ok_cons.mpr ⟨⟨a1, by simp only; omega, by simp only; omega,
          by simp only; omega⟩, chain_ok_drop hc _⟩⟩
  · simp only [result.ok.injEq, Prod.mk.injEq] at h
    obtain ⟨rfl, rfl, _⟩ := h
    exact hsplice

/-- One iteration of the loop of `buf_copy_counted` keeps the capacity invariant of both
buffers. -/
theorem buf_copy_counted_step_chain_ok {σ τ : Type} (B : Nat) (big_endian : Bool)
    (outbuf o : buffer σ) (inbuf i1 : buffer τ) (p p' : pool) (v : Sum (Int × Int) Unit)
    (hco : chain_ok B outbuf.data) (hci : chain_ok B inbuf.data)
    (h : buf_copy_counted_step B big_endian outbuf inbuf p = result.ok (v, o, i1, p')) :
    chain_ok B o.data ∧ chain_ok B i1.data := by
  unfold buf_copy_counted_step at h
  obtain ⟨loc, hloc, h⟩ := result.bind_eq_ok h
  cases loc with
  | inl need =>
    simp only [result.ok.injEq, Prod.mk.injEq] at h
    obtain ⟨_, rfl, rfl, _⟩ := h
    exact ⟨hco, hci⟩
  | inr q =>
    obtain ⟨start, so, count, stop, sw⟩ := q
    obtain ⟨sd, hsd, h0, h1, hsw, hstop⟩ :=
      copy_counted_locate_some big_endian inbuf.data start stop so count sw hloc
    simp only at h
    obtain ⟨s, hs, h⟩ := result.bind_eq_ok h
    obtain ⟨chain1, start1, stop1, sw1⟩ := s
    obtain ⟨hc1, hsw1, hst1⟩ := copy_counted_strip_chain_ok B inbuf.data chain1 start stop start1
      stop1 so sw sw1 sd hci hsd h0 h1 hsw hstop hs
    simp only at h
    split at h
    · simp only [result.ok.injEq, Prod.mk.injEq] at h
      obtain ⟨_, rfl, rfl, _⟩ := h
      exact ⟨hco, chain_ok_drop hc1 start1⟩
    · obtain ⟨r, hm, h⟩ := result.bind_eq_ok h
      obtain ⟨o2, i2, p2⟩ := r
      simp only [result.ok.injEq, Prod.mk.injEq] at h
      obtain ⟨_, rfl, rfl, _⟩ := h
      exact copy_counted_move_chain_ok B outbuf o2 _ i2 _ p2 chain1 start1 stop1 sw1 hco
        (chain_ok_drop hc1 start1) hc1 hst1 hm

/-- The loop of `buf_copy_counted` keeps the capacity invariant of both buffers. -/
theorem buf_copy_counted_loop_chain_ok {σ τ : Type} (B : Nat) (big_endian : Bool) :
    ∀ (fuel : Nat) (outbuf o : buffer σ) (inbuf i1 : buffer τ) (p p' : pool) (v : Int × Int),
      chain_ok B outbuf.data → chain_ok B inbuf.data →
      buf_copy_counted_loop B big_endian fuel outbuf inbuf p = result.ok (v, o, i1, p') →
      chain_ok B o.data ∧ chain_ok B i1.data := by
  intro fuel
  induction fuel with
  | zero => intro outbuf o inbuf i1 p p' v _ _ h; cases h
  | succ n ih =>
    intro outbuf o inbuf i1 p p' v hco hci h
    unfold buf_copy_counted_loop at h
    obtain ⟨r, hr, h⟩ := result.bind_eq_ok h
    obtain ⟨w, o2, i2, p2⟩ := r
    obtain ⟨hc1, hc2⟩ := buf_copy_counted_step_chain_ok B big_endian outbuf o2 inbuf i2 p p2 w
      hco hci hr
    cases w with
    | inl v1 =>
      simp only [result.ok.injEq, Prod.mk.injEq] at h
      obtain ⟨_, rfl, rfl, _⟩ := h
      exact ⟨hc1, hc2⟩
    | inr u => exact ih o2 o i2 i1 p2 p' v hc1 hc2 h

/-- The loop of `buf_send_output` keeps the capacity invariant when the output backend
reports a number between 0 and the number of bytes it is offered. -/
theorem buf_send_output_loop_chain_ok {σ : Type} (B : Nat)
    (output : σ → List Byte → Int × Int × σ) (hout : output_within output) :
    ∀ (chain : List buffer_data) (buf b : buffer σ) (p p' : pool) (st : Int),
      chain_ok B chain → buf_send_output_loop output chain buf p = result.ok (st, b, p') →
      chain_ok B b.data := by
  intro chain
  induction chain with
  | nil =>
    intro buf b p p' st _ h
    simp only [buf_send_output_loop, result.ok.injEq, Prod.mk.injEq] at h
    obtain ⟨_, rfl, _⟩ := h
    exact chain_ok_nil B
  | cons d rest ih =>
    intro buf b p p' st hc h
    rw [chain_ok_cons] at hc
    obtain ⟨hd, hrest⟩ := hc
    unfold buf_send_output_loop at h
    split at h
    · have hw := hout buf.closure (seg_bytes d)
      have hlen := seg_bytes_length hd
      generalize output buf.closure (seg_bytes d) = r at h hw
      obtain ⟨status, nbytes, cl⟩ := r
      simp only at h hw
      split at h
      · obtain ⟨r, hdis, h⟩ := result.bind_eq_ok h
        simp only [result.ok.injEq, Prod.mk.injEq] at h
        obtain ⟨_, rfl, _⟩ := h
        unfold discard_chain at hdis
        repeat' split at hdis
        all_goals first
          | (cases hdis; done)
          | (simp only [result.ok.injEq] at hdis
             rw [← hdis]
             exact chain_ok_nil B)
      · split at h
        · simp only [result.ok.injEq, Prod.mk.injEq] at h
          obtain ⟨_, rfl, _⟩ := h
          obtain ⟨a1, a2, a3, a4⟩ := hd
          exact chain_ok_cons.mpr ⟨⟨a1, by simp only; omega, by simp only; omega,
            by simp only; omega⟩, hrest⟩
        · exact ih _ b _ p' st hrest h
    · exact ih _ b _ p' st hrest h

/-- The function `buf_send_output` keeps the capacity invariant when the output backend
reports a number between 0 and the number of bytes it is offered. -/
theorem buf_send_output_chain_ok {σ : Type} (B : Nat) (buf b : buffer σ) (p p' : pool)
    (st : Int) (hout : ∀ g, buf.output = some g → output_within g) (hc : chain_ok B buf.data)
    (h : buf_send_output buf p = result.ok (st, b, p')) : chain_ok B b.data := by
  unfold buf_send_output at h
  split at h
  · cases h
  · rename_i output houtput
    exact buf_send_output_loop_chain_ok B output (hout output houtput) buf.data buf b p p' st hc h

theorem memcpy_length_eq (t : List Byte) (off : Int) (s : List Byte) (h0 : 0 ≤ off)
    (h : off + (s.length : Int) ≤ t.length) : (memcpy t off s).length = t.length := by
  unfold memcpy
  exact memcpy_length _ _ _ (by omega)

/-- The end of `packetizing_buffer_output` keeps the capacity invariant of the
underlying buffer when the packet fits the node translated into. -/
theorem packetizing_queue_chain_ok {τ φ : Type} (B : Nat) (pb pb' : packetizing_buffer τ φ)
    (p p' : pool) (outdata : Option buffer_data) (T : List Byte) (have_ : Int) (v : Int × Int)
    (hc : chain_ok B pb.buf.data) (hout : ∀ g, pb.buf.output = some g → output_within g)
    (hod : ∀ od, outdata = some od → od.text.length = B ∧ (T.length : Int) + 2 ≤ B)
    (h : packetizing_queue B pb p outdata T have_ = result.ok (v, pb', p')) :
    chain_ok B pb'.buf.data := by
  unfold packetizing_queue at h
  simp only at h
  obtain ⟨q, hq, h⟩ := result.bind_eq_ok h
  obtain ⟨s, hs, h⟩ := result.bind_eq_ok h
  obtain ⟨b1, p1⟩ := q
  obtain ⟨st, b2, p2⟩ := s
  simp only [result.ok.injEq, Prod.mk.injEq] at h
  obtain ⟨_, rfl, _⟩ := h
  have hq1 : chain_ok B b1.data ∧ b1.output = pb.buf.output := by
    cases outdata with
    | none => exact buf_output_chain_ok B pb.buf b1 p p1 _ hc hq
    | some od =>
      obtain ⟨hlen, hT⟩ := hod od rfl
      simp only at hq
      obtain ⟨b3, ha, hq⟩ := result.bind_eq_ok hq
      simp only [result.ok.injEq, Prod.mk.injEq] at hq
      obtain ⟨rfl, _⟩ := hq
      refine buf_append_data_chain_ok B pb.buf b3 _ _ hc ?_ ha
      refine chain_ok_cons.mpr ⟨⟨?_, le_refl _, by simp only; omega, by simp only; omega⟩,
        chain_ok_nil B⟩
      show (memcpy (memcpy od.text 2 T) 0 (be16 T.length)).length = B
      have h1 : (memcpy od.text 2 T).length = od.text.length :=
        memcpy_length_eq _ _ _ (by omega) (by omega)
      have h2 : (0 : Int) + ((be16 T.length).length : Int) ≤ (memcpy od.text 2 T).length := by
        rw [h1]
        simp only [be16, List.length_cons, List.length_nil]
        omega
      rw [memcpy_length_eq _ _ _ (le_refl _) h2, h1, hlen]
  exact buf_send_output_chain_ok B b1 b2 p1 p2 st (by rw [hq1.2]; exact hout) hq1.1 hs

/-- The call of the translation function in `packetizing_buffer_output` and what
follows it keep the capacity invariant of the underlying buffer. -/
theorem packetizing_translate_chain_ok {τ φ : Type} (B SLOP : Nat)
    (pb pb' : packetizing_buffer τ φ) (p p' : pool) (outdata : Option buffer_data) (room : Int)
    (inbuf : List Byte) (have_ : Int) (v : Int × Int)
    (hc : chain_ok B pb.buf.data) (hout : ∀ g, pb.buf.output = some g → output_within g)
    (hod : ∀ od, outdata = some od → od.text.length = B ∧ room + 2 ≤ B)
    (h : packetizing_translate B SLOP pb p outdata room inbuf have_ = result.ok (v, pb', p')) :
    chain_ok B pb'.buf.data := by
  unfold packetizing_translate at h
  split at h
  · cases h
  · rename_i outfn _
    generalize outfn pb.fnclosure inbuf = r at h
    obtain ⟨status, T, cl⟩ := r
    simp only at h
    split at h
    · cases h
    · rename_i hroom
      split at h
      · simp only [result.ok.injEq, Prod.mk.injEq] at h
        obtain ⟨_, rfl, _⟩ := h
        exact hc
      · split at h
        · cases h
        · refine packetizing_queue_chain_ok B { pb with fnclosure := cl } pb' p p' outdata T have_ v hc
            hout (fun od hod1 => ⟨(hod od hod1).1, ?_⟩) h
          have := (hod od hod1).2
          omega

/-- The function `packetizing_buffer_output` keeps the capacity invariant of the
underlying buffer. -/
theorem packetizing_buffer_output_chain_ok {τ φ : Type} (B SLOP : Nat) (ENOMEM : Int)
    (pb pb' : packetizing_buffer τ φ) (p p' : pool) (data : List Byte) (v : Int × Int)
    (hc : chain_ok B pb.buf.data) (hout : ∀ g, pb.buf.output = some g → output_within g)
    (h : packetizing_buffer_output B SLOP ENOMEM pb p data = result.ok (v, pb', p')) :
    chain_ok B pb'.buf.data := by
  unfold packetizing_buffer_output at h
  simp only at h
  split at h
  · cases h
  · split at h
    · exact packetizing_translate_chain_ok B SLOP pb pb' p p' none _ _ _ v hc hout
        (fun od hod => by cases hod) h
    · cases hg : get_buffer_data B p with
      | mk od p1 =>
        rw [hg] at h
        cases od with
        | none =>
          simp only [result.ok.injEq, Prod.mk.injEq] at h
          obtain ⟨_, rfl, _⟩ := h
          exact hc
        | some nd =>
          obtain ⟨hnd, _, _⟩ := get_buffer_data_seg_ok B p p1 nd hg
          simp only at h
          refine packetizing_translate_chain_ok B SLOP pb pb' p1 p' (some nd) _ _ _ v hc hout
            ?_ h
          intro od hod
          cases hod
          exact ⟨hnd.1, by rw [hnd.1]; omega⟩

/-- The end of `nonpacketizing_buffer_output` keeps the capacity invariant of the
underlying buffer when the translated data fit the node translated into. -/
theorem nonpacketizing_queue_chain_ok {τ φ : Type} (B : Nat) (pb pb' : packetizing_buffer τ φ)
    (p p' : pool) (outdata : Option buffer_data) (T : List Byte) (have_ : Int) (v : Int × Int)
    (hc : chain_ok B pb.buf.data) (hout : ∀ g, pb.buf.output = some g → output_within g)
    (hod : ∀ od, outdata = some od → od.text.length = B ∧ (T.length : Int) ≤ B)
    (h : nonpacketizing_queue B pb p outdata T have_ = result.ok (v, pb', p')) :
    chain_ok B pb'.buf.data := by
  unfold nonpacketizing_queue at h
  simp only at h
  obtain ⟨q, hq, h⟩ := result.bind_eq_ok h
  obtain ⟨s, hs, h⟩ := result.bind_eq_ok h
  obtain ⟨b1, p1⟩ := q
  obtain ⟨st, b2, p2⟩ := s
  simp only [result.ok.injEq, Prod.mk.injEq] at h
  obtain ⟨_, rfl, _⟩ := h
  have hq1 : chain_ok B b1.data ∧ b1.output = pb.buf.output := by
    cases outdata with
    | none => exact buf_output_chain_ok B pb.buf b1 p p1 _ hc hq
    | some od =>
      obtain ⟨hlen, hT⟩ := hod od rfl
      simp only at hq
      obtain ⟨b3, ha, hq⟩ := result.bind_eq_ok hq
      simp only [result.ok.injEq, Prod.mk.injEq] at hq
      obtain ⟨rfl, _⟩ := hq
      refine buf_append_data_chain_ok B pb.buf b3 _ _ hc ?_ ha
      exact chain_ok_cons.mpr ⟨seg_ok_store od 0 T 0 T.length hlen (le_refl _) (by omega)
        (le_refl _) (by omega) (by omega), chain_ok_nil B⟩
  exact buf_send_output_chain_ok B b1 b2 p1 p2 st (by rw [hq1.2]; exact hout) hq1.1 hs

/-- The call of the translation function in `nonpacketizing_buffer_output` and what
follows it keep the capacity invariant of the underlying buffer. -/
theorem nonpacketizing_translate_chain_ok {τ φ : Type} (B SLOP : Nat)
    (pb pb' : packetizing_buffer τ φ) (p p' : pool) (outdata : Option buffer_data) (room : Int)
    (data : List Byte) (have_ : Int) (v : Int × Int)
    (hc : chain_ok B pb.buf.data) (hout : ∀ g, pb.buf.output = some g → output_within g)
    (hod : ∀ od, outdata = some od → od.text.length = B ∧ room ≤ B)
    (h : nonpacketizing_translate B SLOP pb p outdata room data have_
      = result.ok (v, pb', p')) :
    chain_ok B pb'.buf.data := by
  unfold nonpacketizing_translate at h
  split at h
  · cases h
  · rename_i outfn _
    generalize outfn pb.fnclosure data = r at h
    obtain ⟨status, T, cl⟩ := r
    simp only at h
    split at h
    · cases h
    · rename_i hroom
      split at h
      · simp only [result.ok.injEq, Prod.mk.injEq] at h
        obtain ⟨_, rfl, _⟩ := h
        exact hc
      · split at h
        · cases h
        · refine nonpacketizing_queue_chain_ok B { pb with fnclosure := cl } pb' p p' outdata T have_ v hc
            hout (fun od hod1 => ⟨(hod od hod1).1, ?_⟩) h
          have := (hod od hod1).2
          omega

/-- The function `nonpacketizing_buffer_output` keeps the capacity invariant of the
underlying buffer. -/
theorem nonpacketizing_buffer_output_chain_ok {τ φ : Type} (B SLOP : Nat) (ENOMEM : Int)
    (pb pb' : packetizing_buffer τ φ) (p p' : pool) (data : List Byte) (v : Int × Int)
    (hc : chain_ok B pb.buf.data) (hout : ∀ g, pb.buf.output = some g → output_within g)
    (h : nonpacketizing_buffer_output B SLOP ENOMEM pb p data = result.ok (v, pb', p')) :
    chain_ok B pb'.buf.data := by
  unfold nonpacketizing_buffer_output at h
  simp only at h
  split at h
  · cases h
  · split at h
    · exact nonpacketizing_translate_chain_ok B SLOP pb pb' p p' none _ _ _ v hc hout
        (fun od hod => by cases hod) h
    · cases hg : get_buffer_data B p with
      | mk od p1 =>
        rw [hg] at h
        cases od with
        | none =>
          simp only [result.ok.injEq, Prod.mk.injEq] at h
          obtain ⟨_, rfl, _⟩ := h
          exact hc
        | some nd =>
          obtain ⟨hnd, _, _⟩ := get_buffer_data_seg_ok B p p1 nd hg
          simp only at h
          refine nonpacketizing_translate_chain_ok B SLOP pb pb' p1 p' (some nd) _ _ _ v hc
            hout ?_ h
          intro od hod
          cases hod
          exact ⟨hnd.1, by rw [hnd.1]⟩

/-- C35: the segment-capacity invariant (for every node of the chain, the cursor and
the used bytes lie inside the array of `BUFFER_DATA_SIZE` bytes: `0 <= bufp - text`,
`size >= 0` and `(bufp - text) + size <= BUFFER_DATA_SIZE`) is kept by every operation.
If it holds for the buffers handed to `buf_output`, `buf_append_char`, `buf_read_data`
(with `want >= 0`), `buf_read_line`, `buf_input_data`, `buf_copy_lines`,
`buf_copy_counted`, `buf_send_output`, `packetizing_buffer_output` or
`nonpacketizing_buffer_output`, and the operation returns, then it holds for the buffers
the operation leaves.  An input backend is taken to store no more than the bytes it is
offered and an output backend to report between 0 and the number of bytes it is
offered; a translation function that stores more than the array it is given holds, or
breaks the slop bound, makes the packetizing functions not return. -/
theorem capacity_invariant_preserved (BUFFER_DATA_SIZE PACKET_SLOP : Nat) (ENOMEM : Int)
    (big_endian : Bool) (σ τ φ : Type) :
    (∀ (buf b : buffer σ) (p p' : pool) (data : List Byte),
      chain_ok BUFFER_DATA_SIZE buf.data →
      buf_output BUFFER_DATA_SIZE buf p data = result.ok (b, p') →
      chain_ok BUFFER_DATA_SIZE b.data)
    ∧ (∀ (buf b : buffer σ) (p p' : pool) (ch : Int),
      chain_ok BUFFER_DATA_SIZE buf.data →
      buf_append_char BUFFER_DATA_SIZE buf p ch = result.ok (b, p') →
      chain_ok BUFFER_DATA_SIZE b.data)
    ∧ (∀ (buf b : buffer σ) (p p' : pool) (want : Int) (v : Int × List Byte × Int),
      0 ≤ want → (∀ f, buf.input = some f → input_within f) →
      chain_ok BUFFER_DATA_SIZE buf.data →
      buf_read_data BUFFER_DATA_SIZE buf p want = result.ok (v, b, p') →
      chain_ok BUFFER_DATA_SIZE b.data)
    ∧ (∀ (fuel : Nat) (buf b : buffer σ) (p p' : pool)
        (v : Int × Option (List Byte) × Option Int),
      (∀ f, buf.input = some f → input_within f) →
      chain_ok BUFFER_DATA_SIZE buf.data →
      buf_read_line BUFFER_DATA_SIZE fuel buf p = result.ok (v, b, p') →
      chain_ok BUFFER_DATA_SIZE b.data)
    ∧ (∀ (fuel : Nat) (buf b : buffer σ) (p p' : pool) (v : Int × Int),
      (∀ f, buf.input = some f → input_within f) →
      chain_ok BUFFER_DATA_SIZE buf.data →
      buf_input_data BUFFER_DATA_SIZE fuel buf p = result.ok (v, b, p') →
      chain_ok BUFFER_DATA_SIZE b.data)
    ∧ (∀ (outbuf o : buffer σ) (inbuf i : buffer τ) (p p' : pool) (command : Int),
      chain_ok BUFFER_DATA_SIZE outbuf.data → chain_ok BUFFER_DATA_SIZE inbuf.data →
      buf_copy_lines BUFFER_DATA_SIZE outbuf inbuf p command = result.ok (o, i, p') →
      chain_ok BUFFER_DATA_SIZE o.data ∧ chain_ok BUFFER_DATA_SIZE i.data)
    ∧ (∀ (outbuf o : buffer σ) (inbuf i : buffer τ) (p p' : pool) (v : Int × Int),
      chain_ok BUFFER_DATA_SIZE outbuf.data → chain_ok BUFFER_DATA_SIZE inbuf.data →
      buf_copy_counted BUFFER_DATA_SIZE big_endian outbuf inbuf p = result.ok (v, o, i, p') →
      chain_ok BUFFER_DATA_SIZE o.data ∧ chain_ok BUFFER_DATA_SIZE i.data)
    ∧ (∀ (buf b : buffer σ) (p p' : pool) (st : Int),
      (∀ g, buf.output = some g → output_within g) →
      chain_ok BUFFER_DATA_SIZE buf.data →
      buf_send_output buf p = result.ok (st, b, p') →
      chain_ok BUFFER_DATA_SIZE b.data)
    ∧ (∀ (pb pb' : packetizing_buffer τ φ) (p p' : pool) (data : List Byte) (v : Int × Int),
      (∀ g, pb.buf.output = some g → output_within g) →
      chain_ok BUFFER_DATA_SIZE pb.buf.data →
      packetizing_buffer_output BUFFER_DATA_SIZE PACKET_SLOP ENOMEM pb p data
        = result.ok (v, pb', p') →
      chain_ok BUFFER_DATA_SIZE pb'.buf.data)
    ∧ (∀ (pb pb' : packetizing_buffer τ φ) (p p' : pool) (data : List Byte) (v : Int × Int),
      (∀ g, pb.buf.output = some g → output_within g) →
      chain_ok BUFFER_DATA_SIZE pb.buf.data →
      nonpacketizing_buffer_output BUFFER_DATA_SIZE PACKET_SLOP ENOMEM pb p data
        = result.ok (v, pb', p') →
      chain_ok BUFFER_DATA_SIZE pb'.buf.data) := by
  refine ⟨?_, ?_, ?_, ?_, ?_, ?_, ?_, ?_, ?_, ?_⟩
  · intro buf b p p' data hc h
    exact (buf_output_chain_ok BUFFER_DATA_SIZE buf b p p' data hc h).1
  · intro buf b p p' ch hc h
    exact (buf_append_char_chain_ok BUFFER_DATA_SIZE buf b p p' ch hc h).1
  · intro buf b p p' want v hw hin hc h
    exact buf_read_data_chain_ok BUFFER_DATA_SIZE buf b p p' want v hw hin hc h
  · intro fuel buf b p p' v hin hc h
    exact buf_read_line_chain_ok BUFFER_DATA_SIZE fuel buf b p p' v hin hc h
  · intro fuel buf b p p' v hin hc h
    exact buf_input_data_chain_ok BUFFER_DATA_SIZE fuel buf b p p' v hin hc h
  · intro outbuf o inbuf i p p' command hco hci h
    exact buf_copy_lines_chain_ok BUFFER_DATA_SIZE outbuf o inbuf i p p' command hco hci h
  · intro outbuf o inbuf i p p' v hco hci h
    exact buf_copy_counted_loop_chain_ok BUFFER_DATA_SIZE big_endian _ outbuf o inbuf i p p' v
      hco hci h
  · intro buf b p p' st hout hc h
    exact buf_send_output_chain_ok BUFFER_DATA_SIZE buf b p p' st hout hc h
  · intro pb pb' p p' data v hout hc h
    exact packetizing_buffer_output_chain_ok BUFFER_DATA_SIZE PACKET_SLOP ENOMEM pb pb' p p'
      data v hc hout h
  · intro pb pb' p p' data v hout hc h
    exact nonpacketizing_buffer_output_chain_ok BUFFER_DATA_SIZE PACKET_SLOP ENOMEM pb pb' p p'
      data v hc hout h

theorem eof_input_within : input_within eof_input := by
  intro cl need size h
  simpa [eof_input] using h

theorem half_output_within : output_within half_output := by
  intro cl data
  simp only [half_output]
  constructor
  · exact Int.natCast_nonneg _
  · exact Int.ofNat_le.mpr (Nat.div_le_self _ _)

/-- The callbacks of an `io_buffer` keep to the space they are given, whatever its
chain. -/
theorem io_buffer_within (data : List buffer_data) (last : Option Nat)
    (calls : List callback) :
    (∀ f, ({ io_buffer data last with calls := calls } : buffer Unit).input = some f →
        input_within f)
    ∧ (∀ g, ({ io_buffer data last with calls := calls } : buffer Unit).output = some g →
        output_within g) := by
  constructor
  · intro f hf
    cases hf
    exact eof_input_within
  · intro g hg
    cases hg
    exact half_output_within

/-- The theorem `capacity_invariant_preserved` applies to a run of each operation on
buffers of nodes of 4 bytes (8 bytes for the two packetizing functions, so that the
packet is translated into a node of the pool). -/
theorem capacity_invariant_preserved_witness :
    (buf_output 4 (io_buffer [⟨1, [1, 2, 0, 0], 0, 2⟩] (some 1)) ⟨[], 0, none⟩ [7]
        = result.ok (io_buffer [⟨1, [1, 2, 7, 0], 0, 3⟩] (some 1), ⟨[], 0, none⟩)
      ∧ chain_ok 4 [⟨1, [1, 2, 7, 0], 0, 3⟩])
    ∧ (buf_append_char 4 (io_buffer [⟨1, [1, 2, 0, 0], 0, 2⟩] (some 1)) ⟨[], 0, none⟩ 7
        = result.ok (io_buffer [⟨1, [1, 2, 7, 0], 0, 3⟩] (some 1), ⟨[], 0, none⟩)
      ∧ chain_ok 4 [⟨1, [1, 2, 7, 0], 0, 3⟩])
    ∧ (buf_read_data 4 (io_buffer [⟨1, [1, 2, 3, 0], 0, 3⟩] (some 1)) ⟨[], 0, none⟩ 2
        = result.ok ((0, [1, 2], 2), io_buffer [⟨1, [1, 2, 3, 0], 2, 1⟩] (some 1),
            ⟨[], 0, none⟩)
      ∧ chain_ok 4 [⟨1, [1, 2, 3, 0], 2, 1⟩])
    ∧ (buf_read_line 4 1 (io_buffer [⟨1, [65, 10, 66, 0], 0, 3⟩] (some 1)) ⟨[], 0, none⟩
        = result.ok ((0, some [65], some 1), io_buffer [⟨1, [65, 10, 66, 0], 2, 1⟩] (some 1),
            ⟨[], 0, none⟩)
      ∧ chain_ok 4 [⟨1, [65, 10, 66, 0], 2, 1⟩])
    ∧ (buf_input_data 4 1 (io_buffer [⟨1, [1, 2, 0, 0], 0, 2⟩] (some 1)) ⟨[], 0, none⟩
        = result.ok ((-1, 0),
            { io_buffer [⟨1, [1, 2, 0, 0], 0, 2⟩] (some 1) with calls := [callback.input 0 2] },
            ⟨[], 0, none⟩)
      ∧ chain_ok 4 [⟨1, [1, 2, 0, 0], 0, 2⟩])
    ∧ (buf_copy_lines 4 (io_buffer [⟨2, [0, 0, 0, 0], 0, 0⟩] (some 2))
          (io_buffer [⟨1, [65, 10, 0, 0], 0, 2⟩] (some 1)) ⟨[], 0, none⟩ 77
        = result.ok (io_buffer [⟨2, [77, 32, 0, 0], 0, 2⟩, ⟨1, [65, 10, 0, 0], 0, 2⟩] (some 1),
            io_buffer [] none, ⟨[], 0, none⟩)
      ∧ chain_ok 4 [⟨2, [77, 32, 0, 0], 0, 2⟩, ⟨1, [65, 10, 0, 0], 0, 2⟩] ∧ chain_ok 4 [])
    ∧ (buf_copy_counted 4 false (io_buffer [⟨2, [0, 0, 0, 0], 0, 0⟩] (some 2))
          (io_buffer [⟨1, [1, 0, 0, 0], 0, 2⟩] (some 1)) ⟨[], 0, none⟩
        = result.ok ((2, 0), io_buffer [⟨2, [0, 0, 0, 0], 0, 0⟩] (some 2),
            io_buffer [⟨1, [1, 0, 0, 0], 0, 2⟩] (some 1), ⟨[], 0, none⟩)
      ∧ chain_ok 4 [⟨2, [0, 0, 0, 0], 0, 0⟩] ∧ chain_ok 4 [⟨1, [1, 0, 0, 0], 0, 2⟩])
    ∧ (buf_send_output (io_buffer [⟨1, [1, 2, 3, 0], 0, 3⟩] (some 1)) ⟨[], 0, none⟩
        = result.ok (0,
            { io_buffer [⟨1, [1, 2, 3, 0], 1, 2⟩] (some 1) with
              calls := [callback.output [1, 2, 3]] }, ⟨[], 0, none⟩)
      ∧ chain_ok 4 [⟨1, [1, 2, 3, 0], 1, 2⟩])
    ∧ (packetizing_buffer_output 8 2 12
          (⟨io_buffer [] none, none, some identity_transform, (), 0, 0, [], 0, 0⟩ :
            packetizing_buffer Unit Unit) ⟨[⟨9, [0, 0, 0, 0, 0, 0, 0, 0], 0, 0⟩], 10, none⟩ [7]
        = result.ok ((0, 1),
            ⟨{ io_buffer [⟨9, [0, 3, 0, 1, 7, 0, 0, 0], 2, 3⟩] (some 9) with
                calls := [callback.output [0, 3, 0, 1, 7]] },
              none, some identity_transform, (), 0, 0, [], 0, 0⟩, ⟨[], 10, none⟩)
      ∧ chain_ok 8 [⟨9, [0, 3, 0, 1, 7, 0, 0, 0], 2, 3⟩])
    ∧ (nonpacketizing_buffer_output 8 2 12
          (⟨io_buffer [] none, none, some trailer_transform, (), 0, 0, [], 0, 0⟩ :
            packetizing_buffer Unit Unit) ⟨[⟨9, [0, 0, 0, 0, 0, 0, 0, 0], 0, 0⟩], 10, none⟩ [7]
        = result.ok ((0, 1),
            ⟨{ io_buffer [⟨9, [7, 90, 0, 0, 0, 0, 0, 0], 1, 1⟩] (some 9) with
                calls := [callback.output [7, 90]] },
              none, some trailer_transform, (), 0, 0, [], 0, 0⟩, ⟨[], 10, none⟩)
      ∧ chain_ok 8 [⟨9, [7, 90, 0, 0, 0, 0, 0, 0], 1, 1⟩]) :=
  have H4 := capacity_invariant_preserved 4 2 12 false Unit Unit Unit
  have H8 := capacity_invariant_preserved 8 2 12 false Unit Unit Unit
  ⟨⟨rfl, H4.1 (io_buffer [⟨1, [1, 2, 0, 0], 0, 2⟩] (some 1)) _ ⟨[], 0, none⟩ _ [7]
      (by decide) rfl⟩,
   ⟨rfl, H4.2.1 (io_buffer [⟨1, [1, 2, 0, 0], 0, 2⟩] (some 1)) _ ⟨[], 0, none⟩ _ 7
      (by decide) rfl⟩,
   ⟨rfl, H4.2.2.1 (io_buffer [⟨1, [1, 2, 3, 0], 0, 3⟩] (some 1)) _ ⟨[], 0, none⟩ _ 2 _
      (by decide) (io_buffer_within _ _ []).1 (by decide) rfl⟩,
   ⟨rfl, H4.2.2.2.1 1 (io_buffer [⟨1, [65, 10, 66, 0], 0, 3⟩] (some 1)) _ ⟨[], 0, none⟩ _ _
      (io_buffer_within _ _ []).1 (by decide) rfl⟩,
   ⟨rfl, H4.2.2.2.2.1 1 (io_buffer [⟨1, [1, 2, 0, 0], 0, 2⟩] (some 1)) _ ⟨[], 0, none⟩ _ _
      (io_buffer_within _ _ []).1 (by decide) rfl⟩,
   ⟨rfl, H4.2.2.2.2.2.1 (io_buffer [⟨2, [0, 0, 0, 0], 0, 0⟩] (some 2)) _
      (io_buffer [⟨1, [65, 10, 0, 0], 0, 2⟩] (some 1)) _ ⟨[], 0, none⟩ _ 77
      (by decide) (by decide) rfl⟩,
   ⟨rfl, H4.2.2.2.2.2.2.1 (io_buffer [⟨2, [0, 0, 0, 0], 0, 0⟩] (some 2)) _
      (io_buffer [⟨1, [1, 0, 0, 0], 0, 2⟩] (some 1)) _ ⟨[], 0, none⟩ _ _
      (by decide) (by decide) rfl⟩,
   ⟨rfl, H4.2.2.2.2.2.2.2.1 (io_buffer [⟨1, [1, 2, 3, 0], 0, 3⟩] (some 1)) _ ⟨[], 0, none⟩ _ _
      (io_buffer_within _ _ []).2 (by decide) rfl⟩,
   ⟨rfl, H8.2.2.2.2.2.2.2.2.1
      ⟨io_buffer [] none, none, some identity_transform, (), 0, 0, [], 0, 0⟩ _
      ⟨[⟨9, [0, 0, 0, 0, 0, 0, 0, 0], 0, 0⟩], 10, none⟩ _ [7] _
      (io_buffer_within _ _ []).2 (by decide) rfl⟩,
   ⟨rfl, H8.2.2.2.2.2.2.2.2.2
      ⟨io_buffer [] none, none, some trailer_transform, (), 0, 0, [], 0, 0⟩ _
      ⟨[⟨9, [0, 0, 0, 0, 0, 0, 0, 0], 0, 0⟩], 10, none⟩ _ [7] _
      (io_buffer_within _ _ []).2 (by decide) rfl⟩⟩

/-- C39 (the code departs from the claim): on the argument `a,b` the item `a` is followed
by a comma at offset `len = 1`, so `log_parse_list` allocates `len + 1 = 2` bytes for
its key, copies `a` into the first, and then stores the terminating NUL at index
`len + 1 = 2`, one byte past the end of the array: the call is undefined, whatever
`addnode` does.  The byte at index `len`, where the key should be terminated, is never
written.  An argument without a comma takes the `xstrdup` branch and gets its key
terminated at its own length. -/
theorem log_parse_list_key_overrun
    (addnode : List (List (Option Byte)) → List (Option Byte) → Option (List (List (Option Byte)))) :
    log_parse_list addnode none [97, 44, 98] = result.undefined
    ∧ strchr [97, 44, 98] 44 = some 1
    ∧ strncpy (List.replicate (1 + 1) none) [97, 44, 98] 1 = result.ok [some 97, none]
    ∧ store [some 97, none] (1 + 1) 0 = result.undefined
    ∧ log_parse_list (fun l k => some (l ++ [k])) none [97]
      = result.ok (some [[some 97, some 0]]) :=
  ⟨rfl, rfl, rfl, rfl, rfl⟩

theorem strchr_none {s : List Byte} {c : Byte} (h : c ∉ s) : strchr s c = none := by
  induction s with
  | nil => rfl
  | cons b rest ih =>
    simp only [List.mem_cons, not_or] at h
    unfold strchr
    rw [if_neg (fun e => h.1 e.symm), ih h.2]
    rfl

theorem strchr_append {x : List Byte} {c : Byte} (r : List Byte) (h : c ∉ x) :
    strchr (x ++ c :: r) c = some x.length := by
  induction x with
  | nil => simp [strchr]
  | cons b rest ih =>
    simp only [List.mem_cons, not_or] at h
    show (if b = c then some 0 else (strchr (rest ++ c :: r) c).map (fun k => k + 1)) = _
    rw [if_neg (fun e => h.1 e.symm), ih h.2]
    rfl

/-- The loop of `log_parse_revlist` on a comma-separated string: one entry per item,
in order. -/
theorem log_parse_revlist_loop_items :
    ∀ (items : List (List Byte)), items ≠ [] → (∀ it ∈ items, (44 : Byte) ∉ it) →
      ∀ fuel, (comma_join items).length < fuel →
        log_parse_revlist_loop fuel (some (comma_join items))
          = result.ok (items.map log_parse_revlist_item) := by
  intro items
  induction items with
  | nil => intro h; exact absurd rfl h
  | cons x rest ih =>
    intro _ hc fuel hfuel
    obtain ⟨f, rfl⟩ : ∃ f, fuel = f + 1 := ⟨fuel - 1, by omega⟩
    have hx : (44 : Byte) ∉ x := hc x (List.mem_cons_self _ _)
    cases rest with
    | nil =>
      simp only [comma_join, log_parse_revlist_loop, strchr_none hx, result.bind_ok,
        List.map_cons, List.map_nil]
    | cons y rest2 =>
      have hlen : (comma_join (y :: rest2)).length < f := by
        simp only [comma_join, List.length_append, List.length_cons] at hfuel
        omega
      have ih2 := ih (by simp) (fun it hit => hc it (List.mem_cons_of_mem _ hit)) f hlen
      have hd : List.drop (x.length + 1) (x ++ 44 :: comma_join (y :: rest2))
          = comma_join (y :: rest2) := by
        rw [List.drop_append_eq_append_drop]
        simp
      have ht : List.take x.length (x ++ 44 :: comma_join (y :: rest2)) = x := by
        simp
      have hj : comma_join (x :: y :: rest2) = x ++ 44 :: comma_join (y :: rest2) := rfl
      rw [hj]
      unfold log_parse_revlist_loop
      rw [strchr_append _ hx]
      simp only
      rw [hd, ht, ih2]
      rfl

/-- C40: `log_parse_revlist` produces one entry per comma-separated item, in order (a
`NULL` argument is read as the empty string, which is one empty item), and an item is
decoded as follows, `a`, `s` and `t` being free of colons and `b` not starting with
one: `a:b` gives `first = a`, `last = b` and `inclusive_begin = inclusive_end = 1`;
`a::b` gives `inclusive_begin = inclusive_end = 0`; `a:::c` gives `inclusive_begin = 0`
and `inclusive_end = 1`; an item `s` without a colon and without a trailing dot gives
`first = last = s`, both inclusive, with `branchhead = 0`; an item `t.` gives
`first = last = t`, both inclusive, with `branchhead = 1`.  An empty part is stored as
`NULL` in every case. -/
theorem log_parse_revlist_entries (items : List (List Byte)) (a b c s t : List Byte)
    (hne : items ≠ []) (hcomma : ∀ it ∈ items, (44 : Byte) ∉ it)
    (ha : (58 : Byte) ∉ a) (hb : b[0]? ≠ some 58) (hs : (58 : Byte) ∉ s)
    (hdot : s.getLast? ≠ some 46) (ht : (58 : Byte) ∉ t) :
    log_parse_revlist (some (comma_join items))
      = result.ok (items.map log_parse_revlist_item)
    ∧ log_parse_revlist none = result.ok [⟨none, none, 0, 1, 1⟩]
    ∧ log_parse_revlist_item (a ++ 58 :: b)
      = ⟨if a = [] then none else some a, if b = [] then none else some b, 0, 1, 1⟩
    ∧ log_parse_revlist_item (a ++ 58 :: 58 :: b)
      = ⟨if a = [] then none else some a, if b = [] then none else some b, 0, 0, 0⟩
    ∧ log_parse_revlist_item (a ++ 58 :: 58 :: 58 :: c)
      = ⟨if a = [] then none else some a, if c = [] then none else some c, 0, 0, 1⟩
    ∧ log_parse_revlist_item s
      = ⟨if s = [] then none else some s, if s = [] then none else some s, 0, 1, 1⟩
    ∧ log_parse_revlist_item (t ++ [46])
      = ⟨if t = [] then none else some t, if t = [] then none else some t, 1, 1, 1⟩ := by
  refine ⟨?_, rfl, ?_, ?_, ?_, ?_, ?_⟩
  · exact log_parse_revlist_loop_items items hne hcomma _ (Nat.lt_succ_self _)
  · simp [log_parse_revlist_item, strchr_append _ ha, hb]
  · simp [log_parse_revlist_item, strchr_append _ ha, hb]
  · simp [log_parse_revlist_item, strchr_append _ ha]
  · simp [log_parse_revlist_item, strchr_none hs, hdot]
  · have ht2 : (58 : Byte) ∉ t ++ [46] := by
      simp only [List.mem_append, List.mem_singleton, not_or]
      exact ⟨ht, by decide⟩
    simp [log_parse_revlist_item, strchr_none ht2]

/-- The theorem `log_parse_revlist_entries` applies to the argument
`1:2,a::b,x:::y,1.2.,:z` and to the parts `1`, `2`, `3`, `1.2` and `1.2`. -/
theorem log_parse_revlist_entries_witness :
    log_parse_revlist (some [49, 58, 50, 44, 97, 58, 58, 98, 44, 120, 58, 58, 58, 121, 44,
        49, 46, 50, 46, 44, 58, 122])
      = result.ok [⟨some [49], some [50], 0, 1, 1⟩, ⟨some [97], some [98], 0, 0, 0⟩,
          ⟨some [120], some [121], 0, 0, 1⟩, ⟨some [49, 46, 50], some [49, 46, 50], 1, 1, 1⟩,
          ⟨none, some [122], 0, 1, 1⟩]
    ∧ log_parse_revlist none = result.ok [⟨none, none, 0, 1, 1⟩]
    ∧ log_parse_revlist_item [49, 58, 50] = ⟨some [49], some [50], 0, 1, 1⟩
    ∧ log_parse_revlist_item [49, 58, 58, 50] = ⟨some [49], some [50], 0, 0, 0⟩
    ∧ log_parse_revlist_item [49, 58, 58, 58, 51] = ⟨some [49], some [51], 0, 0, 1⟩
    ∧ log_parse_revlist_item [49, 46, 50] = ⟨some [49, 46, 50], some [49, 46, 50], 0, 1, 1⟩
    ∧ log_parse_revlist_item [49, 46, 50, 46]
      = ⟨some [49, 46, 50], some [49, 46, 50], 1, 1, 1⟩ :=
  log_parse_revlist_entries
    [[49, 58, 50], [97, 58, 58, 98], [120, 58, 58, 58, 121], [49, 46, 50, 46], [58, 122]]
    [49] [50] [51] [49, 46, 50] [49, 46, 50] (by decide) (by decide) (by decide) (by decide)
    (by decide) (by decide) (by decide)

theorem isdigit_iff (c : Byte) : isdigit c = true ↔ 48 ≤ c.val ∧ c.val ≤ 57 := by
  simp [isdigit]

theorem skip_zeros_append (f ta : List Byte)
    (hta : ∀ c, ta.head? = some c → isdigit c = false) :
    skip_zeros (f ++ ta) = skip_zeros f ++ ta := by
  induction f with
  | nil =>
    cases ta with
    | nil => rfl
    | cons c t =>
      have hc := hta c rfl
      have hne : c ≠ 48 := by
        intro e; rw [e] at hc; revert hc; decide
      simp [skip_zeros, List.dropWhile_cons, hne]
  | cons c f ih =>
    by_cases h : c = 48
    · simp only [skip_zeros, List.cons_append, List.dropWhile_cons, h, decide_True, if_true]
      exact ih
    · simp [skip_zeros, List.dropWhile_cons, h]

theorem digit_run_append (z ta : List Byte) (hz : ∀ c ∈ z, isdigit c = true)
    (hta : ∀ c, ta.head? = some c → isdigit c = false) :
    digit_run (z ++ ta) = z.length := by
  induction z with
  | nil =>
    cases ta with
    | nil => rfl
    | cons c t => simp [digit_run, List.takeWhile_cons, hta c rfl]
  | cons c z ih =>
    have hc := hz c (List.mem_cons_self _ _)
    have := ih (fun d hd => hz d (List.mem_cons_of_mem _ hd))
    simp only [digit_run] at this ⊢
    simp [List.takeWhile_cons, hc, this]

theorem memcmp_append :
    ∀ (n : Nat) (z z' ta tb : List Byte), n ≤ z.length → n ≤ z'.length →
      memcmp (z ++ ta) (z' ++ tb) n = memcmp z z' n := by
  intro n
  induction n with
  | zero => intro z z' ta tb _ _; rfl
  | succ n ih =>
    intro z z' ta tb h1 h2
    cases z with
    | nil => simp at h1
    | cons c z =>
      cases z' with
      | nil => simp at h2
      | cons c' z' =>
        simp only [List.length_cons, Nat.add_le_add_iff_right] at h1 h2
        simp only [memcmp, List.cons_append, List.headD_cons, List.tail_cons]
        rw [ih z z' ta tb h1 h2]

theorem skip_zeros_mem (f : List Byte) : ∀ c ∈ skip_zeros f, c ∈ f := by
  intro c hc
  exact (List.dropWhile_suffix _).subset hc

theorem skip_zeros_head (f : List Byte) : ∀ c, (skip_zeros f).head? = some c → c ≠ 48 := by
  induction f with
  | nil => intro c h; simp [skip_zeros] at h
  | cons b f ih =>
    intro c h
    by_cases hb : b = 48
    · simp only [skip_zeros, List.dropWhile_cons, hb, decide_True, if_true] at h
      exact ih c h
    · simp only [skip_zeros, List.dropWhile_cons, hb, decide_False, Bool.false_eq_true,
        if_false, List.head?_cons, Option.some.injEq] at h
      rw [← h]; exact hb

theorem field_value_foldl (s : List Byte) :
    ∀ acc : Nat, s.foldl (fun acc c => 10 * acc + (c.val - 48)) acc
      = acc * 10 ^ s.length + field_value s := by
  induction s with
  | nil => intro acc; simp [field_value]
  | cons c s ih =>
    intro acc
    simp only [List.foldl_cons, field_value, List.length_cons]
    rw [ih, ih (10 * 0 + (c.val - 48))]
    simp only [field_value]
    ring

theorem field_value_cons (c : Byte) (s : List Byte) :
    field_value (c :: s) = (c.val - 48) * 10 ^ s.length + field_value s := by
  have := field_value_foldl s (10 * 0 + (c.val - 48))
  simp only [Nat.mul_zero, Nat.zero_add] at this
  simp only [field_value, List.foldl_cons, Nat.mul_zero, Nat.zero_add]
  exact this

theorem field_value_skip_zeros (f : List Byte) : field_value (skip_zeros f) = field_value f := by
  induction f with
  | nil => rfl
  | cons b f ih =>
    by_cases hb : b = 48
    · have h1 : skip_zeros (b :: f) = skip_zeros f := by
        simp [skip_zeros, List.dropWhile_cons, hb]
      have h0 : ((48 : Byte).val - 48) = 0 := rfl
      rw [h1, ih, field_value_cons, hb, h0]
      simp
    · have h1 : skip_zeros (b :: f) = b :: f := by
        simp [skip_zeros, List.dropWhile_cons, hb]
      rw [h1]

theorem field_value_lt (s : List Byte) (hs : ∀ c ∈ s, isdigit c = true) :
    field_value s < 10 ^ s.length := by
  induction s with
  | nil => simp [field_value]
  | cons c s ih =>
    have hc := (isdigit_iff c).mp (hs c (List.mem_cons_self _ _))
    have h1 := ih (fun d hd => hs d (List.mem_cons_of_mem _ hd))
    rw [field_value_cons, List.length_cons, pow_succ]
    have h2 : (c.val - 48) * 10 ^ s.length ≤ 9 * 10 ^ s.length :=
      Nat.mul_le_mul_right _ (by omega)
    omega

theorem field_value_ge (c : Byte) (s : List Byte) (hc : isdigit c = true) (hne : c ≠ 48) :
    10 ^ s.length ≤ field_value (c :: s) := by
  have h := (isdigit_iff c).mp hc
  have hv : c.val ≠ 48 := fun e => hne (Fin.ext e)
  rw [field_value_cons]
  have h2 : 1 * 10 ^ s.length ≤ (c.val - 48) * 10 ^ s.length :=
    Nat.mul_le_mul_right _ (by omega)
  omega

/-- Of two strings of digits without a leading zero, the shorter denotes the smaller
number. -/
theorem field_value_lt_of_length_lt (z z' : List Byte) (hz : ∀ c ∈ z, isdigit c = true)
    (hz' : ∀ c ∈ z', isdigit c = true) (hh : ∀ c, z'.head? = some c → c ≠ 48)
    (hlt : z.length < z'.length) : field_value z < field_value z' := by
  cases z' with
  | nil => simp at hlt
  | cons c s =>
    have h1 := field_value_lt z hz
    have h2 := field_value_ge c s (hz' c (List.mem_cons_self _ _)) (hh c rfl)
    have h3 : 10 ^ z.length ≤ 10 ^ s.length :=
      Nat.pow_le_pow_right (by decide) (by simp only [List.length_cons] at hlt; omega)
    omega

/-- On two strings of digits of the same length, the sign of `memcmp` is the
comparison of the numbers they denote. -/
theorem memcmp_digits :
    ∀ (z z' : List Byte), (∀ c ∈ z, isdigit c = true) → (∀ c ∈ z', isdigit c = true) →
      z.length = z'.length →
      (memcmp z z' z.length < 0 ↔ field_value z < field_value z')
      ∧ (memcmp z z' z.length = 0 ↔ field_value z = field_value z')
      ∧ (0 < memcmp z z' z.length ↔ field_value z' < field_value z) := by
  intro z
  induction z with
  | nil =>
    intro z' _ _ hl
    cases z' with
    | nil => simp [memcmp]
    | cons c s => simp at hl
  | cons c s ih =>
    intro z' hz hz' hl
    cases z' with
    | nil => simp at hl
    | cons c' s' =>
      simp only [List.length_cons, Nat.add_right_cancel_iff] at hl
      have hc := (isdigit_iff c).mp (hz c (List.mem_cons_self _ _))
      have hc' := (isdigit_iff c').mp (hz' c' (List.mem_cons_self _ _))
      have hs := fun d hd => hz d (List.mem_cons_of_mem _ hd)
      have hs' := fun d hd => hz' d (List.mem_cons_of_mem _ hd)
      have h1 := field_value_lt s hs
      have h2 := field_value_lt s' hs'
      rw [field_value_cons, field_value_cons, ← hl]
      simp only [List.length_cons, memcmp, List.headD_cons, List.tail_cons]
      by_cases he : c = c'
      · rw [if_pos he, he]
        have := ih s' hs hs' hl
        omega
      · rw [if_neg he]
        have hv : c.val ≠ c'.val := fun e => he (Fin.ext e)
        rw [← hl] at h2
        rcases Nat.lt_or_gt_of_ne hv with hlt | hgt
        · have h3 : (c.val - 48 + 1) * 10 ^ s.length ≤ (c'.val - 48) * 10 ^ s.length :=
            Nat.mul_le_mul_right _ (by omega)
          rw [Nat.add_mul, Nat.one_mul] at h3
          omega
        · have h3 : (c'.val - 48 + 1) * 10 ^ s.length ≤ (c.val - 48) * 10 ^ s.length :=
            Nat.mul_le_mul_right _ (by omega)
          rw [Nat.add_mul, Nat.one_mul] at h3
          omega

theorem dotted_cons (f : List Byte) (l : List (List Byte)) :
    dotted (f :: l) = f ++ (if l = [] then [] else 46 :: dotted l) := by
  cases l with
  | nil => simp [dotted]
  | cons g r => simp [dotted]

/-- One iteration of the loop of `version_compare` on two revision strings that start
with a decimal field. -/
theorem version_compare_step (fuel : Nat) (f g : List Byte) (la lb : List (List Byte))
    (len : Int) (hf : decimal_field f) (hg : decimal_field g) :
    version_compare (fuel + 1) (dotted (f :: la)) (dotted (g :: lb)) len
      = if (skip_zeros f).length ≠ (skip_zeros g).length then
          result.ok (if (skip_zeros f).length < (skip_zeros g).length then -1 else 1)
        else if memcmp (skip_zeros f) (skip_zeros g) (skip_zeros f).length ≠ 0 then
          result.ok (memcmp (skip_zeros f) (skip_zeros g) (skip_zeros f).length)
        else if len - 1 = 0 then result.ok 0
        else version_compare fuel (dotted la) (dotted lb) (len - 1) := by
  have htail : ∀ l : List (List Byte), ∀ c,
      (if l = [] then ([] : List Byte) else 46 :: dotted l).head? = some c →
        isdigit c = false := by
    intro l c h
    by_cases hl : l = []
    · rw [if_pos hl] at h; cases h
    · rw [if_neg hl] at h
      simp only [List.head?_cons, Option.some.injEq] at h
      rw [← h]; decide
  have hnext : ∀ l : List (List Byte),
      (if (if l = [] then ([] : List Byte) else 46 :: dotted l).headD 0 = 46 then
          (if l = [] then ([] : List Byte) else 46 :: dotted l).tail
        else (if l = [] then ([] : List Byte) else 46 :: dotted l)) = dotted l := by
    intro l
    by_cases hl : l = []
    · subst hl
      simp [dotted]
    · simp [hl]
  have hhead : ∀ (x t : List Byte), decimal_field x → (x ++ t).headD 0 ≠ 0 := by
    intro x t hx
    obtain ⟨hne, hd⟩ := hx
    cases x with
    | nil => exact absurd rfl hne
    | cons c r =>
      have := (isdigit_iff c).mp (hd c (List.mem_cons_self _ _))
      simp only [List.cons_append, List.headD_cons]
      intro e
      rw [e] at this
      simp at this
  have hzf : ∀ c ∈ skip_zeros f, isdigit c = true := fun c hc => hf.2 c (skip_zeros_mem f c hc)
  have hzg : ∀ c ∈ skip_zeros g, isdigit c = true := fun c hc => hg.2 c (skip_zeros_mem g c hc)
  rw [dotted_cons, dotted_cons]
  conv_lhs => rw [version_compare]
  rw [if_neg (hhead f _ hf), if_neg (hhead g _ hg)]
  simp only [skip_zeros_append f _ (htail la), skip_zeros_append g _ (htail lb),
    digit_run_append _ _ hzf (htail la), digit_run_append _ _ hzg (htail lb)]
  by_cases hd : (skip_zeros f).length = (skip_zeros g).length
  · have hne : ¬ (skip_zeros f).length ≠ (skip_zeros g).length := fun h => h hd
    rw [if_neg hne, if_neg hne]
    rw [memcmp_append _ _ _ _ _ (le_refl _) (by omega)]
    have hdg : List.drop (skip_zeros f).length
        (skip_zeros g ++ if lb = [] then [] else 46 :: dotted lb)
        = if lb = [] then [] else 46 :: dotted lb := by
      rw [hd]; exact List.drop_left _ _
    rw [List.drop_left, hdg, hnext la, hnext lb]
  · rw [if_pos hd, if_pos hd]

theorem sign_of_neg_one : sign_of (-1) = Ordering.lt := by decide

theorem sign_of_one : sign_of 1 = Ordering.gt := by decide

theorem sign_of_zero : sign_of 0 = Ordering.eq := by decide

/-- The function `version_compare` on two revision strings with at least `len` decimal
fields each returns, and the sign of its value is the lexicographic comparison of the
tuples of their first `len` fields, read as naturals. -/
theorem version_compare_fields :
    ∀ (len fuel : Nat) (fa fb : List (List Byte)), 1 ≤ len → len ≤ fuel →
      len ≤ fa.length → len ≤ fb.length →
      (∀ f ∈ fa, decimal_field f) → (∀ f ∈ fb, decimal_field f) →
      ∃ r : Int, version_compare fuel (dotted fa) (dotted fb) (len : Int) = result.ok r
        ∧ sign_of r = tuple_compare ((fa.take len).map field_value)
            ((fb.take len).map field_value) := by
  intro len
  induction len with
  | zero => intro fuel fa fb h; omega
  | succ n ih =>
    intro fuel fa fb _ hfuel ha hb hda hdb
    obtain ⟨k, rfl⟩ : ∃ k, fuel = k + 1 := ⟨fuel - 1, by omega⟩
    cases fa with
    | nil => simp at ha
    | cons f la =>
      cases fb with
      | nil => simp at hb
      | cons g lb =>
        have hf := hda f (List.mem_cons_self _ _)
        have hg := hdb g (List.mem_cons_self _ _)
        have hzf : ∀ c ∈ skip_zeros f, isdigit c = true :=
          fun c hc => hf.2 c (skip_zeros_mem f c hc)
        have hzg : ∀ c ∈ skip_zeros g, isdigit c = true :=
          fun c hc => hg.2 c (skip_zeros_mem g c hc)
        rw [version_compare_step k f g la lb _ hf hg]
        simp only [List.take_succ_cons, List.map_cons, tuple_compare]
        rw [← field_value_skip_zeros f, ← field_value_skip_zeros g]
        by_cases hd : (skip_zeros f).length = (skip_zeros g).length
        · have hne : ¬ (skip_zeros f).length ≠ (skip_zeros g).length := fun h => h hd
          rw [if_neg hne]
          obtain ⟨m1, m2, m3⟩ := memcmp_digits (skip_zeros f) (skip_zeros g) hzf hzg hd
          by_cases hr : memcmp (skip_zeros f) (skip_zeros g) (skip_zeros f).length = 0
          · have hnr : ¬ memcmp (skip_zeros f) (skip_zeros g) (skip_zeros f).length ≠ 0 :=
              fun h => h hr
            rw [if_neg hnr]
            have hv := m2.mp hr
            rw [hv, if_neg (lt_irrefl _), if_neg (lt_irrefl _)]
            by_cases hn : n = 0
            · subst hn
              refine ⟨0, ?_, ?_⟩
              · rw [if_pos (by simp)]
              · simp [sign_of_zero, tuple_compare]
            · have hn1 : ¬ ((((n + 1 : Nat) : Int)) - 1 = 0) := by
                push_cast; omega
              rw [if_neg hn1]
              have hcast : (((n + 1 : Nat) : Int)) - 1 = (n : Int) := by push_cast; omega
              rw [hcast]
              simp only [List.length_cons, Nat.add_le_add_iff_right] at ha hb
              exact ih k la lb (by omega) (by omega) ha hb
                (fun x hx => hda x (List.mem_cons_of_mem _ hx))
                (fun x hx => hdb x (List.mem_cons_of_mem _ hx))
          · rw [if_pos hr]
            refine ⟨_, rfl, ?_⟩
            unfold sign_of
            rcases lt_trichotomy (memcmp (skip_zeros f) (skip_zeros g) (skip_zeros f).length) 0
              with hlt | heq | hgt
            · rw [if_pos hlt, if_pos (m1.mp hlt)]
            · exact absurd heq hr
            · have h1 := m3.mp hgt
              rw [if_neg (by omega), if_neg hr, if_neg (by omega), if_pos h1]
        · rw [if_pos hd]
          rcases Nat.lt_or_gt_of_ne hd with hlt | hgt
          · have hv := field_value_lt_of_length_lt _ _ hzf hzg (skip_zeros_head g) hlt
            refine ⟨_, rfl, ?_⟩
            rw [if_pos hlt, if_pos hv]
            exact sign_of_neg_one
          · have hv := field_value_lt_of_length_lt _ _ hzg hzf (skip_zeros_head f) hgt
            refine ⟨_, rfl, ?_⟩
            rw [if_neg (by omega), if_neg (by omega), if_pos hv]
            exact sign_of_one

theorem tuple_compare_self (t : List Nat) : tuple_compare t t = Ordering.eq := by
  induction t with
  | nil => rfl
  | cons x xs ih => simp [tuple_compare, ih]

theorem tuple_compare_swap :
    ∀ (t u : List Nat), tuple_compare u t = (tuple_compare t u).swap := by
  intro t
  induction t with
  | nil =>
    intro u
    cases u <;> rfl
  | cons x xs ih =>
    intro u
    cases u with
    | nil => rfl
    | cons y ys =>
      simp only [tuple_compare]
      rcases lt_trichotomy x y with h | h | h
      · rw [if_neg (by omega), if_pos h, if_pos h]; rfl
      · subst h
        simp only [lt_irrefl, if_false]
        exact ih ys
      · rw [if_pos h, if_neg (by omega), if_pos h]; rfl

theorem sign_of_eq (r : Int) (h : sign_of r = Ordering.eq) : r = 0 := by
  unfold sign_of at h
  by_cases h1 : r < 0
  · rw [if_pos h1] at h; cases h
  · rw [if_neg h1] at h
    by_cases h2 : r = 0
    · exact h2
    · rw [if_neg h2] at h; cases h

/-- C38: for revision strings `a` and `b` that consist of at least `len >= 1`
dot-separated non-empty decimal fields each, `version_compare (a, b, len)` returns, and
its value is negative, zero or positive exactly as the tuple of the first `len` fields
of `a`, read as naturals (so that leading zeros do not count), is lexicographically
less than, equal to or greater than that of `b`.  Hence `version_compare (a, a, len)`
is 0, and the sign of `version_compare (b, a, len)` is the opposite of that of
`version_compare (a, b, len)`. -/
theorem version_compare_sign (fa fb : List (List Byte)) (len fuel : Nat) (hlen : 1 ≤ len)
    (hfuel : len ≤ fuel) (ha : len ≤ fa.length) (hb : len ≤ fb.length)
    (hda : ∀ f ∈ fa, decimal_field f) (hdb : ∀ f ∈ fb, decimal_field f) :
    ∃ r r' : Int,
      version_compare fuel (dotted fa) (dotted fb) (len : Int) = result.ok r
      ∧ sign_of r = tuple_compare ((fa.take len).map field_value)
          ((fb.take len).map field_value)
      ∧ version_compare fuel (dotted fa) (dotted fa) (len : Int) = result.ok 0
      ∧ version_compare fuel (dotted fb) (dotted fa) (len : Int) = result.ok r'
      ∧ sign_of r' = (sign_of r).swap := by
  obtain ⟨r, h1, h2⟩ := version_compare_fields len fuel fa fb hlen hfuel ha hb hda hdb
  obtain ⟨r', h3, h4⟩ := version_compare_fields len fuel fb fa hlen hfuel hb ha hdb hda
  obtain ⟨r0, h5, h6⟩ := version_compare_fields len fuel fa fa hlen hfuel ha ha hda hda
  rw [tuple_compare_self] at h6
  have h7 := sign_of_eq r0 h6
  subst h7
  exact ⟨r, r', h1, h2, h5, h3, by rw [h4, h2]; exact tuple_compare_swap _ _⟩

/-- The theorem `version_compare_sign` applies to the revisions `1.02.5` and `1.10`
compared on their first two fields. -/
theorem version_compare_sign_witness :
    ∃ r r' : Int,
      version_compare 2 [49, 46, 48, 50, 46, 53] [49, 46, 49, 48] 2 = result.ok r
      ∧ sign_of r = tuple_compare [1, 2] [1, 10]
      ∧ version_compare 2 [49, 46, 48, 50, 46, 53] [49, 46, 48, 50, 46, 53] 2 = result.ok 0
      ∧ version_compare 2 [49, 46, 49, 48] [49, 46, 48, 50, 46, 53] 2 = result.ok r'
      ∧ sign_of r' = (sign_of r).swap :=
  version_compare_sign [[49], [48, 50], [53]] [[49], [49, 48]] 2 2 (by decide) (by decide)
    (by decide) (by decide) (by simp [decimal_field, isdigit]; decide)
    (by simp [decimal_field, isdigit]; decide)

theorem read_line_more_idle_then (B : Nat) (hB : 0 < B) (e : Int) (he : e ≠ 0) :
    ∀ (k fuel : Nat) (buf : buffer Nat) (p : pool),
      k < fuel → buf.closure = k →
      chain_ok B buf.data → tail_ok buf.data buf.last → never_exhausted p →
      ∃ buf' p', read_line_more B (idle_then e) fuel buf p = result.ok (some e, buf', p')
        ∧ chain_bytes buf'.data = chain_bytes buf.data
        ∧ buf'.calls.length = buf.calls.length + k + 1 := by
  intro k
  induction k with
  | zero =>
    intro fuel buf p hf hcl hc ht hp
    obtain ⟨n, rfl⟩ : ∃ n, fuel = n + 1 := ⟨fuel - 1, by omega⟩
    obtain ⟨i, l, lst, p1, hroom, hc1, ht1, hfree, hby1, hp1⟩ := tail_room_ok B hB buf p hc ht hp
    obtain ⟨data, last, nb, inp0, out, fl, bl, sh, cl, calls⟩ := buf
    simp only at hroom hby1 hcl ⊢
    subst hcl
    rw [tail_ok_concat_iff] at ht1
    subst ht1
    have hsl : seg_ok B l := hc1 l (by simp)
    have hseg := seg_write_tail hsl []
    refine ⟨{ data := i ++ [{ l with text := memcpy l.text (l.bufp + l.size) [] }],
              last := some l.addr, nonblocking := nb, input := inp0, output := out, flush := fl,
              block := bl, shutdown := sh, closure := 0,
              calls := calls ++ [callback.input 1 (B - (l.bufp + l.size))] }, p1, ?_, ?_, ?_⟩
    · simp [read_line_more, hroom, last_data, idle_then, he, set_last]
    · simp only
      rw [← hby1, chain_bytes_append, chain_bytes_append]
      simp only [chain_bytes, List.append_nil]
      rw [hseg]
    · simp
  | succ k ih =>
    intro fuel buf p hf hcl hc ht hp
    obtain ⟨n, rfl⟩ : ∃ n, fuel = n + 1 := ⟨fuel - 1, by omega⟩
    obtain ⟨i, l, lst, p1, hroom, hc1, ht1, hfree, hby1, hp1⟩ := tail_room_ok B hB buf p hc ht hp
    obtain ⟨data, last, nb, inp, out, fl, bl, sh, cl, calls⟩ := buf
    simp only at hcl hroom hby1 ⊢
    subst hcl
    rw [tail_ok_concat_iff] at ht1
    subst ht1
    have hsl : seg_ok B l := hc1 l (by simp)
    obtain ⟨s1, s2⟩ := seg_append hsl [] (by simp; omega)
    obtain ⟨buf', p2, hrun, hby2, hcalls⟩ :=
      ih n { data := i ++ [{ l with text := memcpy l.text (l.bufp + l.size) [],
                                    size := l.size + (([] : List Byte).length : Int) }],
             last := some l.addr, nonblocking := nb, input := inp, output := out, flush := fl,
             block := bl, shutdown := sh, closure := k,
             calls := calls ++ [callback.input 1 (B - (l.bufp + l.size))] } p1
        (by omega) rfl
        (by rw [chain_ok_append]
            exact ⟨(chain_ok_append.mp hc1).1, by rw [chain_ok_cons]; exact ⟨s1, chain_ok_nil B⟩⟩)
        (by rw [tail_ok_concat_iff]) hp1
    simp only [List.length_nil, Nat.cast_zero, add_zero] at hrun hby2 hcalls
    refine ⟨buf', p2, ?_, ?_, ?_⟩
    · simp [read_line_more, hroom, last_data, idle_then, set_last, memchr, hrun]
    · rw [hby2, ← hby1, chain_bytes_append, chain_bytes_append]
      simp only [chain_bytes, List.append_nil]
      have : seg_bytes { l with text := memcpy l.text (l.bufp + l.size) [], size := l.size }
          = seg_bytes l := by
        have := s2
        simpa using this
      rw [this]
    · rw [hcalls]; simp only [List.length_append, List.length_singleton]; omega

/-- C24, counterexample: the buffer `idle_buffer` is put in nonblocking mode by
`set_nonblock`, and `buf_read_line` does not return from it, whatever the number of iterations its loops are allowed, the
input function reporting success with no byte on every call. -/
theorem buf_read_line_nonblocking_idle :
    set_nonblock idle_buffer
      = result.ok (0, { idle_buffer with nonblocking := 1, calls := [callback.block 0] })
    ∧ ∀ fuel : Nat,
        buf_read_line 4 fuel { idle_buffer with nonblocking := 1, calls := [callback.block 0] }
          ⟨[], 0, none⟩ = result.out_of_fuel :=
  ⟨rfl, fun fuel =>
    buf_read_line_idle 4 (by decide) idle_input (fun _ _ _ => ⟨rfl, rfl⟩) fuel _ _ rfl
      (by simp [idle_buffer, buf_initialize, chain_bytes]) (by decide) (by decide) rfl⟩

/-- C24, as amended: `buf_read_line` waits for data whatever the value of `nonblocking`.
On a buffer that holds no newline and whose input function reports success with no byte
on every call it does not return: whatever the number of iterations its loops are
allowed, it is still inside the loop that calls the input function when they are used
up.  It returns once the input function reports a status other than 0: when the input
function reports success with no byte `k` times and the status `e` after them,
`buf_read_line` returns `e`, with `*line` left `NULL` and the bytes of the buffer kept,
after `k + 1` calls of the input function. -/
theorem buf_read_line_waits {σ : Type} (BUFFER_DATA_SIZE : Nat) (hB : 0 < BUFFER_DATA_SIZE)
    (p : pool) (hp : never_exhausted p) :
    (∀ (inp : σ → Int → Int → Int × List Byte × σ) (buf : buffer σ),
        (∀ cl n s, (inp cl n s).1 = 0 ∧ (inp cl n s).2.1 = []) →
        buf.input = some inp → (10 : Byte) ∉ chain_bytes buf.data →
        chain_ok BUFFER_DATA_SIZE buf.data → tail_ok buf.data buf.last →
        ∀ fuel, buf_read_line BUFFER_DATA_SIZE fuel buf p = result.out_of_fuel)
    ∧ (∀ (e : Int) (b : buffer Nat) (fuel : Nat), e ≠ 0 →
        b.input = some (idle_then e) → (10 : Byte) ∉ chain_bytes b.data →
        chain_ok BUFFER_DATA_SIZE b.data → tail_ok b.data b.last →
        b.closure + 2 ≤ fuel →
        ∃ b' p', buf_read_line BUFFER_DATA_SIZE fuel b p = result.ok ((e, none, none), b', p')
          ∧ chain_bytes b'.data = chain_bytes b.data
          ∧ b'.calls.length = b.calls.length + b.closure + 1) := by
  refine ⟨?_, ?_⟩
  · intro inp buf hidle hin hnl hc ht fuel
    exact buf_read_line_idle BUFFER_DATA_SIZE hB inp hidle fuel buf p hin hnl hc ht hp
  · intro e b fuel he hbin hA hcb htb hf
    obtain ⟨n, rfl⟩ : ∃ n, fuel = n + 1 := ⟨fuel - 1, by omega⟩
    obtain ⟨b', p', hmore, hby, hcalls⟩ :=
      read_line_more_idle_then BUFFER_DATA_SIZE hB e he b.closure n b p (by omega) rfl
        hcb htb hp
    have hnone : read_line_scan b.data 0 0 = none := read_line_scan_none _ _ _ hA
    refine ⟨b', p', ?_, hby, hcalls⟩
    unfold buf_read_line
    rw [hbin]
    simp only [buf_read_line_loop, hnone, hmore, result.bind_ok]

theorem buf_read_line_waits_witness :
    (0 < 4 ∧ never_exhausted ⟨[], 0, none⟩)
    ∧ (∀ fuel, buf_read_line 4 fuel
          { chain_buffer [⟨0, [97, 98, 0, 0], 0, 2⟩] (some 0) (some idle_input) () with
            nonblocking := 1 } ⟨[], 0, none⟩ = result.out_of_fuel)
    ∧ ∃ b' p', buf_read_line 4 5
          { chain_buffer [⟨0, [97, 98, 0, 0], 0, 2⟩] (some 0) (some (idle_then (-1))) 3 with
            nonblocking := 1 } ⟨[], 0, none⟩ = result.ok ((-1, none, none), b', p')
        ∧ chain_bytes b'.data = [97, 98] ∧ b'.calls.length = 4 :=
  ⟨⟨by decide, rfl⟩,
   (buf_read_line_waits 4 (by decide) ⟨[], 0, none⟩ rfl).1 idle_input
      { chain_buffer [⟨0, [97, 98, 0, 0], 0, 2⟩] (some 0) (some idle_input) () with
        nonblocking := 1 } (fun _ _ _ => ⟨rfl, rfl⟩) rfl (by decide) (by decide) (by decide),
   (buf_read_line_waits (σ := Unit) 4 (by decide) ⟨[], 0, none⟩ rfl).2 (-1)
      { chain_buffer [⟨0, [97, 98, 0, 0], 0, 2⟩] (some 0) (some (idle_then (-1))) 3 with
        nonblocking := 1 } 5 (by decide) rfl (by decide) (by decide) (by decide) (by decide)⟩
/-- C28: a packet of declared length `count = 8`, more than `BUFFER_DATA_SIZE +
PACKET_SLOP = 6`, whose translated bytes, the 8 bytes that fill the `outbuf` obtained
from `xmalloc (count)`, start with the count `tcount = 8`.  The test `tcount > count`
lets the packet through, and `packetizing_buffer_input` then reads `tcount` bytes from
`outbuf + 2`, the last two of them past the end of `outbuf`: the call is undefined.  With
`tcount = 6 = count - 2` the same packet is handed over. -/
theorem packetizing_buffer_input_reads_past_outbuf :
    (identity_transform () [0, 8, 1, 2, 3, 4, 5, 6]).2.1.length = 8
    ∧ be16_value 0 8 ≤ 8
    ∧ packetizing_buffer_input 4 2 12 10
        ( packetizing_buffer_initialize 4 2
          (chain_buffer [⟨0, [0, 8, 0, 8], 0, 4⟩, ⟨1, [1, 2, 3, 4], 0, 4⟩, ⟨2, [5, 6, 0, 0], 0, 2⟩]
            (some 2) (some eof_input) ())
          (some identity_transform) none ()).closure ⟨[], 3, none⟩ 1 4 = result.undefined
    ∧ ∃ pb p, packetizing_buffer_input 4 2 12 10
        ( packetizing_buffer_initialize 4 2
          (chain_buffer [⟨0, [0, 8, 0, 6], 0, 4⟩, ⟨1, [1, 2, 3, 4], 0, 4⟩, ⟨2, [5, 6, 0, 0], 0, 2⟩]
            (some 2) (some eof_input) ())
          (some identity_transform) none ()).closure ⟨[], 3, none⟩ 1 8
        = result.ok ((0, [1, 2, 3, 4, 5, 6]), pb, p) :=
  ⟨rfl, by decide, rfl, _, _, rfl⟩
/-- C12, counterexample: the six bytes `1 .. 6` written through a packetizing output
buffer with `BUFFER_DATA_SIZE = 4` and the translation function that copies its input
reach the backend as the packets `0 6 0 4 1 2 3 4` and `0 4 0 2 5 6`.  Read back with
`need = 4` and `size = 4`, as `buf_read_data (buf, 4, ...)` asks, the first call of
`packetizing_buffer_input` hands over `1 2 3 4`; the second stores `5 6` and, as
`need` is still positive, reads the underlying buffer again and returns its status -1,
so that the reader, which takes no byte from a call whose status is not 0, is left with
`1 2 3 4`. -/
theorem packetizing_need_counterexample :
    ∃ ob1 p1 ob2 p2 ib p3 rb1 p4 rb2 p5 rb p6,
        buf_output 4
          ( packetizing_buffer_initialize 4 2 (output_buffer [] none accept_all_output ()) none
            (some identity_transform) ()) ⟨[], 0, none⟩ [1, 2, 3, 4, 5, 6] = result.ok (ob1, p1)
      ∧ packetizing_send_output 4 2 12 ob1 p1 = result.ok (0, ob2, p2)
      ∧ sent_bytes ob2.closure.buf.calls = [0, 6, 0, 4, 1, 2, 3, 4, 0, 4, 0, 2, 5, 6]
      ∧ buf_output 4 (chain_buffer [] none (some eof_input) ()) p2
            [0, 6, 0, 4, 1, 2, 3, 4, 0, 4, 0, 2, 5, 6] = result.ok (ib, p3)
      ∧ packetizing_buffer_input 4 2 12 15
          ( packetizing_buffer_initialize 4 2 ib (some identity_transform) none ()).closure p3
          4 4 = result.ok ((0, [1, 2, 3, 4]), rb1, p4)
      ∧ packetizing_buffer_input 4 2 12 15 rb1 p4 4 4 = result.ok ((-1, [5, 6]), rb2, p5)
      ∧ packetizing_read_all 4 2 12 15 4 4 7
          ( packetizing_buffer_initialize 4 2 ib (some identity_transform) none ()).closure p3
          = result.ok ([1, 2, 3, 4], rb, p6) :=
  ⟨_, _, _, _, _, _, _, _, _, _, _, _, rfl, rfl, rfl, rfl, rfl, rfl, rfl⟩
theorem blocks_loop_stop (xs : List (List Byte)) (acc : List Byte) (need size : Int)
    (h : ¬ (need > 0 ∨ acc = [])) : blocks_loop xs acc need size = (false, acc, [], xs) := by
  cases xs with
  | nil => simp only [blocks_loop, h, decide_False]
  | cons x rest => simp only [blocks_loop, h, if_false]

theorem blocks_loop_dry (acc : List Byte) (need size : Int) (h : need > 0 ∨ acc = []) :
    blocks_loop [] acc need size = (true, acc, [], []) := by
  simp only [blocks_loop, h, decide_True]

theorem blocks_loop_more (x : List Byte) (rest : List (List Byte)) (acc : List Byte)
    (need size : Int) (h : need > 0 ∨ acc = []) (hle : (x.length : Int) ≤ size) :
    blocks_loop (x :: rest) acc need size
      = blocks_loop rest (acc ++ x) (need - x.length) (size - x.length) := by
  simp only [blocks_loop, h, hle, if_true]

theorem blocks_loop_last (x : List Byte) (rest : List (List Byte)) (acc : List Byte)
    (need size : Int) (h : need > 0 ∨ acc = []) (hle : ¬ (x.length : Int) ≤ size) :
    blocks_loop (x :: rest) acc need size
      = (false, acc ++ x.take size.toNat, x.drop size.toNat, rest) := by
  simp only [blocks_loop, h, hle, if_true, if_false]

/-- What the specification side of the loop stores, keeps and leaves is what it was given:
the bytes stored begin with `acc`, and are followed by the bytes kept and those of the
blocks left in the bytes of `acc` and the blocks; the blocks left are the last of the
blocks. -/
theorem blocks_loop_conserve :
    ∀ (xs : List (List Byte)) (acc : List Byte) (need size : Int),
      (blocks_loop xs acc need size).2.1 ++ (blocks_loop xs acc need size).2.2.1
          ++ (blocks_loop xs acc need size).2.2.2.flatten = acc ++ xs.flatten
      ∧ acc <+: (blocks_loop xs acc need size).2.1
      ∧ (blocks_loop xs acc need size).2.2.2 <:+ xs := by
  intro xs
  induction xs with
  | nil =>
    intro acc need size
    simp [blocks_loop]
  | cons x rest ih =>
    intro acc need size
    by_cases h : need > 0 ∨ acc = []
    · by_cases hle : (x.length : Int) ≤ size
      · rw [blocks_loop_more x rest acc need size h hle]
        obtain ⟨h1, h2, h3⟩ := ih (acc ++ x) (need - x.length) (size - x.length)
        refine ⟨?_, (List.prefix_append _ _).trans h2, h3.trans (List.suffix_cons _ _)⟩
        rw [h1]; simp
      · rw [blocks_loop_last x rest acc need size h hle]
        refine ⟨?_, List.prefix_append _ _, List.suffix_cons _ _⟩
        simp only [List.flatten_cons, List.append_assoc]
        rw [← List.append_assoc (x.take size.toNat), List.take_append_drop]
    · rw [blocks_loop_stop _ acc need size h]
      exact ⟨by simp, List.prefix_refl _, List.suffix_refl _⟩

theorem blocks_call_conserve (need size : Int) (y : List Byte) (xs : List (List Byte)) :
    (blocks_call need size y xs).2.1 ++ (blocks_call need size y xs).2.2.1
        ++ (blocks_call need size y xs).2.2.2.flatten = y ++ xs.flatten
    ∧ (blocks_call need size y xs).2.2.2 <:+ xs := by
  unfold blocks_call
  by_cases hy : y = []
  · rw [if_pos hy, hy]
    obtain ⟨h1, _, h3⟩ := blocks_loop_conserve xs [] need size
    exact ⟨h1, h3⟩
  · rw [if_neg hy]
    by_cases hgt : (y.length : Int) > size
    · rw [if_pos hgt]
      exact ⟨by simp, List.suffix_refl _⟩
    · rw [if_neg hgt]
      obtain ⟨h1, _, h3⟩ := blocks_loop_conserve xs y (need - y.length) (size - y.length)
      exact ⟨h1, h3⟩

/-- The bytes the specification side hands over are the first bytes of the stream. -/
theorem blocks_read_prefix (need size : Int) :
    ∀ (n : Nat) (y : List Byte) (xs : List (List Byte)),
      blocks_read need size n y xs <+: y ++ xs.flatten := by
  intro n
  induction n with
  | zero => intro y xs; exact List.nil_prefix
  | succ m ih =>
    intro y xs
    rw [blocks_read]
    by_cases h : (blocks_call need size y xs).1 = true ∨ (blocks_call need size y xs).2.1 = []
    · rw [if_pos h]; exact List.nil_prefix
    · rw [if_neg h]
      obtain ⟨h1, _⟩ := blocks_call_conserve need size y xs
      rw [← h1, List.append_assoc]
      exact (List.prefix_append_right_inj _).mpr (ih _ _)

theorem wire_bytes_suffix (F : List Byte → List Byte) (xs ys : List (List Byte))
    (h : ys <:+ xs) : (wire_bytes F ys).length ≤ (wire_bytes F xs).length := by
  obtain ⟨pre, rfl⟩ := h
  simp [wire_bytes]

theorem packetizing_untranslate_ok0 {τ φ : Type} (B SLOP : Nat) (ENOMEM : Int)
    (pb : packetizing_buffer τ φ) (p : pool) (inbuf x : List Byte) (count size : Int)
    (g : φ → List Byte → Int × List Byte × φ) (hg : pb.inpfn = some g)
    (hG : (g pb.fnclosure inbuf).1 = 0 ∧ (g pb.fnclosure inbuf).2.1 = be16 x.length ++ x)
    (hx : x.length < 65536) (hxc : (x.length : Int) ≤ count)
    (hcap : count ≤ (B : Int) + SLOP → (x.length : Int) + 2 ≤ (B : Int) + SLOP)
    (hcap2 : (B : Int) + SLOP < count → (x.length : Int) + 2 ≤ count)
    (hsize : 0 ≤ size) (hp : never_exhausted p) :
    ∃ cl, packetizing_untranslate B SLOP ENOMEM pb p inbuf count size
      = if (x.length : Int) ≤ size then
          result.ok (packet_step.more x, { pb with fnclosure := cl, holdsize := 0 }, p)
        else
          result.ok (packet_step.last (x.take size.toNat),
            { pb with fnclosure := cl, holdsize := (x.length : Int) - size,
                      holdbuf := memcpy pb.holdbuf 0 (x.drop size.toNat),
                      holddata := 0, translated := 1 }, p) := by
  rcases hcall : g pb.fnclosure inbuf with ⟨status, out, cl⟩
  rw [hcall] at hG
  simp only at hG
  obtain ⟨hs, ho⟩ := hG
  subst hs ho
  refine ⟨cl, ?_⟩
  obtain ⟨p1, hx1, _⟩ := xmalloc_ok p hp
  have hval : be16_value (char_of_int ((x.length : Int) / 256)) (char_of_int (x.length : Int))
      = (x.length : Int) := be16_value_be16 _ (by omega) (by omega)
  have hnf : ¬ ((x.length : Int) > count) := by omega
  have hnb : ¬ ((x.length : Int) < (x.length : Int)) := by omega
  have hoL : ((be16 (x.length : Int) ++ x).length : Int) = (x.length : Int) + 2 := by
    simp only [List.length_append, be16_length]; push_cast; omega
  have htake : List.take (x.length : Int).toNat x = x := by
    rw [Int.toNat_natCast]; exact List.take_length x
  by_cases hroom : count ≤ (B : Int) + SLOP
  · have hfit : ¬ (((be16 (x.length : Int) ++ x).length : Int) > (B : Int) + SLOP) := by
      rw [hoL]; have := hcap hroom; omega
    unfold packetizing_untranslate
    simp only [hroom, if_true, hg, hcall, hfit, if_false, ne_eq, not_true_eq_false]
    simp only [be16, List.cons_append, List.nil_append, hval, hnf, hnb, if_false]
    by_cases hle : (x.length : Int) ≤ size
    · have : ¬ ((x.length : Int) > size) := by omega
      simp only [this, if_false, hle, if_true, htake]
    · have h1 : (x.length : Int) > size := by omega
      have h2 : List.take ((x.length : Int) - size).toNat (List.drop size.toNat x)
          = List.drop size.toNat x := by
        apply List.take_of_length_le
        simp only [List.length_drop]
        omega
      simp only [h1, if_true, hle, if_false, h2]
  · have hfit : ¬ (((be16 (x.length : Int) ++ x).length : Int) > count) := by
      rw [hoL]; have := hcap2 (by omega); omega
    unfold packetizing_untranslate
    simp only [hroom, if_false, hx1, Option.map_some', hg, hcall, hfit, ne_eq,
      not_true_eq_false]
    simp only [be16, List.cons_append, List.nil_append, hval, hnf, hnb, if_false]
    by_cases hle : (x.length : Int) ≤ size
    · have : ¬ ((x.length : Int) > size) := by omega
      simp only [this, if_false, hle, if_true, htake]
    · have h1 : (x.length : Int) > size := by omega
      have h2 : List.take ((x.length : Int) - size).toNat (List.drop size.toNat x)
          = List.drop size.toNat x := by
        apply List.take_of_length_le
        simp only [List.length_drop]
        omega
      simp only [h1, if_true, hle, if_false, h2]

/-- A call of `buf_read_data` on an underlying buffer fed by `chunk_input` from which no
byte is to come returns the status -1 of the end of file. -/
theorem stream_ok_dry (B : Nat) (buf : buffer (List (List Byte))) (p : pool) (want : Int)
    (hI : stream_ok B buf []) (hp : never_exhausted p) :
    ∃ buf' p', buf_read_data B buf p want = result.ok ((-1, [], 0), buf', p') := by
  obtain ⟨hc, hin, hch, hrest⟩ := hI
  obtain ⟨hcb, hfl⟩ := List.append_eq_nil.mp hrest
  have hcl : buf.closure = [] :=
    flatten_eq_nil_of_nonempty buf.closure (fun x hx => (hch x hx).1) hfl
  obtain ⟨lst, p1, hrun, hx⟩ := read_data_skip_dry B buf.data buf p hc hcb
  have hp1 : never_exhausted p1 := by
    unfold never_exhausted at hp ⊢
    rw [hx, hp]
  obtain ⟨a, p2, hget, hp2⟩ := get_buffer_data_ok B p1 hp1
  unfold buf_read_data
  simp only [hin, hrun, hget, hcl, chunk_input]
  exact ⟨_, _, rfl⟩
/-- The loop of `packetizing_buffer_input`, whatever `need` is, entered between two
packets with the bytes `acc` stored, on a packetizing input buffer fed by `chunk_input`,
the packets of the blocks `xs` being still to come: it stores the bytes that the
specification side gives and is left in the state that it gives; its status is not 0
when it reaches the end of the stream still asking for bytes, and 0 otherwise. -/
theorem packetizing_input_loop_blocks {φ : Type} (B SLOP : Nat) (ENOMEM : Int)
    (g : φ → List Byte → Int × List Byte × φ)
    (F G : List Byte → List Byte) (hg : ∀ cl y, (g cl y).1 = 0 ∧ (g cl y).2.1 = G y) :
    ∀ (xs : List (List Byte)) (fuel : Nat) (pb : packetizing_buffer (List (List Byte)) φ)
      (p : pool) (acc : List Byte) (need size : Int),
      pb.inpfn = some g → reader_hold_with (stream_ok B) pb [] (wire_bytes F xs) →
      (∀ x ∈ xs, piece_ok B SLOP F G x) → (wire_bytes F xs).length < fuel → 0 ≤ size →
      never_exhausted p →
      ∃ st pb' p', packetizing_input_loop B SLOP ENOMEM fuel pb p acc need size
          = result.ok ((st, (blocks_loop xs acc need size).2.1), pb', p')
        ∧ ((blocks_loop xs acc need size).1 = true → st ≠ 0)
        ∧ ((blocks_loop xs acc need size).1 = false →
            st = 0 ∧ pb'.inpfn = some g ∧ never_exhausted p'
            ∧ (((blocks_loop xs acc need size).2.2.1 = []
                  ∧ reader_hold_with (stream_ok B) pb' []
                      (wire_bytes F (blocks_loop xs acc need size).2.2.2))
               ∨ ((blocks_loop xs acc need size).2.2.1 ≠ []
                  ∧ reader_translated_with (stream_ok B) pb'
                      (blocks_loop xs acc need size).2.2.1
                      (wire_bytes F (blocks_loop xs acc need size).2.2.2)))) := by
  intro xs
  induction xs with
  | nil =>
    intro fuel pb p acc need size hgf hst _ hfuel _ hp
    obtain ⟨f, rfl⟩ : ∃ f, fuel = f + 1 := ⟨fuel - 1, by omega⟩
    by_cases hcond : need > 0 ∨ acc = []
    · rw [blocks_loop_dry acc need size hcond]
      have hw : wire_bytes F [] = [] := rfl
      rw [hw] at hst
      obtain ⟨hIb, htr, hsz, htk, hlen, h2⟩ := hst
      simp only [List.length_nil, Nat.cast_zero] at hsz
      obtain ⟨buf', p', hrun⟩ := stream_ok_dry B pb.buf p (2 - pb.holdsize) hIb hp
      have hlt : pb.holdsize < 2 := by omega
      refine ⟨input_status ENOMEM (-1), { pb with buf := buf' }, p', ?_, ?_, ?_⟩
      · rw [packetizing_input_loop, if_pos hcond]
        simp [packetizing_count, hlt, hrun, result.bind]
      · intro _
        simp [input_status]
      · intro h; cases h
    · rw [blocks_loop_stop [] acc need size hcond]
      refine ⟨0, pb, p, ?_, ?_, ?_⟩
      · rw [packetizing_input_loop, if_neg hcond]
      · intro h; cases h
      · intro _
        exact ⟨rfl, hgf, hp, Or.inl ⟨rfl, hst⟩⟩
  | cons x rest ih =>
    intro fuel pb p acc need size hgf hst hxs hfuel hsize hp
    obtain ⟨f, hf⟩ : ∃ f, fuel = f + 1 := ⟨fuel - 1, by omega⟩
    by_cases hcond : need > 0 ∨ acc = []
    · have hw : wire_bytes F (x :: rest) = packet_bytes F x ++ wire_bytes F rest := by
        simp [wire_bytes]
      rw [hw] at hst hfuel
      obtain ⟨hx1, hx2, hx3, hx4, hx5, hx6, hx7⟩ := hxs x (List.mem_cons_self _ _)
      have hxpos : 0 < x.length := List.length_pos.mpr hx1
      obtain ⟨q, p2, n, hrun, hq1, hq2, hp2, hqI, hqt, hql, hq22, hqT, hRn⟩ :=
        packetizing_input_loop_with B SLOP ENOMEM (stream_ok B) (stream_ok_reads B)
          (F (be16 x.length ++ x)) (wire_bytes F rest) need size
          (by omega) hx3 fuel pb p acc [] (packet_bytes F x ++ wire_bytes F rest) hst
          (by simp only [List.nil_append, packet_bytes]) (by simp) hfuel hcond hp
      have hqg : q.inpfn = some g := by rw [hq1, hgf]
      obtain ⟨cl', hun⟩ := packetizing_untranslate_ok0 B SLOP ENOMEM q p2
        (F (be16 x.length ++ x)) x
        ((F (be16 x.length ++ x)).length : Int) size g hqg
        (by
          have h := hg q.fnclosure (F (be16 x.length ++ x))
          rw [hx5] at h
          exact h) hx2 (by exact_mod_cast hx4)
        (by intro h; have := hx6 (by exact_mod_cast h); exact_mod_cast this)
        (by intro h; have := hx7 (by exact_mod_cast h); exact_mod_cast this) hsize hp2
      rw [hrun, hun]
      by_cases hle : (x.length : Int) ≤ size
      · rw [if_pos hle, blocks_loop_more x rest acc need size hcond hle]
        simp only [result.bind]
        exact ih n { q with fnclosure := cl', holdsize := 0 } p2 (acc ++ x)
          (need - x.length) (size - x.length) hqg
          ⟨hqI, hqt, by simp, by simp, hql, hq22⟩
          (fun z hz => hxs z (List.mem_cons_of_mem _ hz)) hRn (by omega) hp2
      · rw [if_neg hle, blocks_loop_last x rest acc need size hcond hle]
        simp only [result.bind]
        have hdl : (x.drop size.toNat).length = x.length - size.toNat := List.length_drop _ _
        have hm := memcpy_take q.holdbuf (x.drop size.toNat) 0 (by
          rw [hdl]
          have : x.length ≤ (F (be16 x.length ++ x)).length := hx4
          omega)
        simp only [Nat.cast_zero, zero_add, List.take_zero, List.nil_append] at hm
        have hne : x.drop size.toNat ≠ [] := by
          intro h
          rw [h] at hdl
          simp at hdl
          omega
        refine ⟨0, _, _, rfl, (fun h => by cases h), fun _ => ⟨rfl, hqg, hp2, Or.inr ⟨hne,
          ⟨hqI, by simp, ?_, hne, le_refl _, ?_, by rw [hm.2]; exact hql,
            by rw [hm.2]; exact hq22⟩⟩⟩⟩
        · simp only [hdl]; omega
        · simp only [Int.toNat_zero, List.drop_zero]
          exact hm.1
    · rw [blocks_loop_stop (x :: rest) acc need size hcond]
      refine ⟨0, pb, p, ?_, ?_, ?_⟩
      · rw [hf, packetizing_input_loop, if_neg hcond]
      · intro h; cases h
      · intro _
        exact ⟨rfl, hgf, hp, Or.inl ⟨rfl, hst⟩⟩

/-- One call of `packetizing_buffer_input`, whatever `need` is, on a packetizing input
buffer fed by `chunk_input` that holds the translated bytes `y` (none when `y` is
empty), the packets of the blocks `xs` being still to come: it stores the bytes that
the specification side gives and is left in the state that it gives. -/
theorem packetizing_buffer_input_blocks {φ : Type} (B SLOP : Nat) (ENOMEM : Int)
    (g : φ → List Byte → Int × List Byte × φ)
    (F G : List Byte → List Byte) (hg : ∀ cl y, (g cl y).1 = 0 ∧ (g cl y).2.1 = G y)
    (fuel : Nat) (pb : packetizing_buffer (List (List Byte)) φ) (p : pool) (need size : Int)
    (y : List Byte) (xs : List (List Byte)) (hgf : pb.inpfn = some g)
    (hst : (y = [] ∧ reader_hold_with (stream_ok B) pb [] (wire_bytes F xs))
      ∨ (y ≠ [] ∧ reader_translated_with (stream_ok B) pb y (wire_bytes F xs)))
    (hxs : ∀ x ∈ xs, piece_ok B SLOP F G x) (hfuel : (wire_bytes F xs).length < fuel)
    (hsize : 0 ≤ size) (hp : never_exhausted p) :
    ∃ st pb' p', packetizing_buffer_input B SLOP ENOMEM fuel pb p need size
        = result.ok ((st, (blocks_call need size y xs).2.1), pb', p')
      ∧ ((blocks_call need size y xs).1 = true → st ≠ 0)
      ∧ ((blocks_call need size y xs).1 = false →
          st = 0 ∧ pb'.inpfn = some g ∧ never_exhausted p'
          ∧ (((blocks_call need size y xs).2.2.1 = []
                ∧ reader_hold_with (stream_ok B) pb' []
                    (wire_bytes F (blocks_call need size y xs).2.2.2))
             ∨ ((blocks_call need size y xs).2.2.1 ≠ []
                ∧ reader_translated_with (stream_ok B) pb'
                    (blocks_call need size y xs).2.2.1
                    (wire_bytes F (blocks_call need size y xs).2.2.2)))) := by
  rcases hst with ⟨hy, hst⟩ | ⟨hy, hst⟩
  · have hsz := hst.2.2.1
    simp only [List.length_nil, Nat.cast_zero] at hsz
    have hcond : ¬ (pb.holdsize > 0 ∧ pb.translated ≠ 0) := by
      intro h; rw [hsz] at h; omega
    unfold packetizing_buffer_input blocks_call
    simp only [hcond, if_false, hy, if_true]
    exact packetizing_input_loop_blocks B SLOP ENOMEM g F G hg xs fuel pb p [] need size hgf
      hst hxs hfuel hsize hp
  · obtain ⟨hIb, htr, hsz, _, hd0, htk, hlen, h2⟩ := hst
    have hypos : 0 < y.length := List.length_pos.mpr hy
    have hcond : pb.holdsize > 0 ∧ pb.translated ≠ 0 := ⟨by rw [hsz]; omega, htr⟩
    unfold packetizing_buffer_input blocks_call
    rw [if_pos hcond, if_neg hy]
    by_cases hgt : (y.length : Int) > size
    · obtain ⟨buf, inpfn, outfn, fncl, tr, hs, hb, hbs, hd⟩ := pb
      simp only at hIb htr hsz hd0 htk hlen h2 hgf ⊢
      subst hsz
      rw [if_pos hgt, if_pos hgt]
      have hs : size.toNat ≤ y.length := by omega
      have hout : List.take size.toNat (List.drop hd.toNat hb) = List.take size.toNat y := by
        rw [← htk, List.take_take, Nat.min_eq_left hs]
      rw [hout]
      have hne : y.drop size.toNat ≠ [] := by
        intro h
        have := congrArg List.length h
        simp only [List.length_drop, List.length_nil] at this
        omega
      refine ⟨0, _, p, rfl, (fun h => by cases h), fun _ => ⟨rfl, hgf, hp, Or.inr ⟨hne,
        ⟨hIb, htr, ?_, hne, ?_, ?_, hlen, h2⟩⟩⟩⟩
      · simp only [List.length_drop]; omega
      · simp only; omega
      · simp only [List.length_drop]
        have e : (hd + size).toNat = hd.toNat + size.toNat := by omega
        have h := congrArg (List.drop size.toNat) htk
        rw [List.drop_take] at h
        rw [e, ← List.drop_drop]
        exact h
    · simp only
      rw [if_neg (by rw [hsz]; exact hgt), if_neg hgt, hsz, Int.toNat_natCast, htk]
      exact packetizing_input_loop_blocks B SLOP ENOMEM g F G hg xs fuel
        { pb with holdsize := 0, translated := 0 } p y (need - y.length) (size - y.length) hgf
        ⟨hIb, rfl, by simp, by simp, hlen, h2⟩ hxs hfuel (by omega) hp

/-- Reading to the end, whatever `need` is: repeated calls of `packetizing_buffer_input`
on a packetizing input buffer fed by `chunk_input`, given enough fuel, hand over the
bytes that the specification side gives. -/
theorem packetizing_read_all_blocks {φ : Type} (B SLOP : Nat) (ENOMEM : Int)
    (g : φ → List Byte → Int × List Byte × φ)
    (F G : List Byte → List Byte) (hg : ∀ cl y, (g cl y).1 = 0 ∧ (g cl y).2.1 = G y)
    (need size : Int) (hsize : 0 ≤ size) (fuel : Nat) :
    ∀ (n : Nat) (pb : packetizing_buffer (List (List Byte)) φ) (p : pool) (y : List Byte)
      (xs : List (List Byte)),
      pb.inpfn = some g →
      ((y = [] ∧ reader_hold_with (stream_ok B) pb [] (wire_bytes F xs))
        ∨ (y ≠ [] ∧ reader_translated_with (stream_ok B) pb y (wire_bytes F xs))) →
      (∀ x ∈ xs, piece_ok B SLOP F G x) → (wire_bytes F xs).length < fuel →
      (y ++ xs.flatten).length < n → never_exhausted p →
      ∃ pb' p', packetizing_read_all B SLOP ENOMEM fuel need size n pb p
          = result.ok (blocks_read need size n y xs, pb', p') := by
  intro n
  induction n with
  | zero => intro pb p y xs _ _ _ _ h; omega
  | succ m ih =>
    intro pb p y xs hgf hst hxs hfuel hn hp
    obtain ⟨st, pb1, p1, hrun, hdry, hgo⟩ :=
      packetizing_buffer_input_blocks B SLOP ENOMEM g F G hg fuel pb p need size y xs hgf hst
        hxs hfuel hsize hp
    obtain ⟨hcons, hsuf⟩ := blocks_call_conserve need size y xs
    rw [packetizing_read_all, blocks_read, hrun]
    simp only [result.bind]
    cases hd : (blocks_call need size y xs).1 with
    | true =>
      have hst0 := hdry hd
      simp only [ne_eq, hst0, not_false_eq_true, true_or, if_true]
      exact ⟨pb1, p1, rfl⟩
    | false =>
      obtain ⟨hst0, hg1, hp1, hst1⟩ := hgo hd
      subst hst0
      by_cases hb : (blocks_call need size y xs).2.1 = []
      · simp only [ne_eq, not_true_eq_false, hb, or_true, if_true]
        exact ⟨pb1, p1, rfl⟩
      · simp only [ne_eq, not_true_eq_false, hb, or_false, Bool.false_eq_true, if_false]
        have hlen : ((blocks_call need size y xs).2.2.1
            ++ (blocks_call need size y xs).2.2.2.flatten).length < m := by
          have h1 := congrArg List.length hcons
          have h2 : 0 < (blocks_call need size y xs).2.1.length := List.length_pos.mpr hb
          simp only [List.length_append] at h1 hn ⊢
          omega
        obtain ⟨pb2, p2, hrun2⟩ := ih pb1 p1 _ _ hg1 hst1
          (fun z hz => hxs z (hsuf.subset hz))
          (lt_of_le_of_lt (wire_bytes_suffix F xs _ hsuf) hfuel) hlen hp1
        rw [hrun2]
        exact ⟨pb2, p2, rfl⟩
/-- C30: the packets of the blocks `xs` reach a packetizing input buffer cut into chunks,
each of at least one byte and at most `BUFFER_DATA_SIZE` bytes, wherever the cuts are
(between the two bytes of a count, inside the translated data, or at the end of each
packet): the chunks `arrived` stand on the underlying buffer, one per node, and the
chunks `pending` are stored by its input function, one per call.  Repeated calls of
`packetizing_buffer_input`, for any `need` and any `size >= 0`, given enough fuel, hand
over the bytes `blocks_read need size n [] xs`, which are defined from the blocks as
they are when every packet is read whole and do not mention the chunks: the same bytes
for every way of cutting.  They are first bytes of `xs`, in order, and all of `xs` when
`need <= 1` and `size > 0`. -/
theorem packetizing_input_chunking {ψ : Type} (BUFFER_DATA_SIZE PACKET_SLOP : Nat)
    (ENOMEM : Int) (g : ψ → List Byte → Int × List Byte × ψ) (F G : List Byte → List Byte)
    (cg : ψ) (need size : Int) (xs arrived pending : List (List Byte)) (p : pool)
    (fuel n : Nat)
    (hG : ∀ c y, (g c y).1 = 0 ∧ (g c y).2.1 = G y)
    (hxs : ∀ x ∈ xs, piece_ok BUFFER_DATA_SIZE PACKET_SLOP F G x)
    (harrived : ∀ c ∈ arrived, c ≠ [] ∧ c.length ≤ BUFFER_DATA_SIZE)
    (hpending : ∀ c ∈ pending, c ≠ [] ∧ c.length ≤ BUFFER_DATA_SIZE)
    (hflat : arrived.flatten ++ pending.flatten = wire_bytes F xs)
    (hsize : 0 ≤ size) (hfuel : (wire_bytes F xs).length < fuel)
    (hn : xs.flatten.length < n) (hp : never_exhausted p) :
    (∃ rb p', packetizing_read_all BUFFER_DATA_SIZE PACKET_SLOP ENOMEM fuel need size n
        ( packetizing_buffer_initialize BUFFER_DATA_SIZE PACKET_SLOP
          (chain_buffer (chunk_chain BUFFER_DATA_SIZE 0 arrived)
            ((chunk_chain BUFFER_DATA_SIZE 0 arrived).getLast?.map fun d => d.addr)
            (some chunk_input) pending)
          (some g) none cg).closure p
      = result.ok (blocks_read need size n [] xs, rb, p'))
    ∧ blocks_read need size n [] xs <+: xs.flatten
    ∧ (need ≤ 1 → 0 < size → blocks_read need size n [] xs = xs.flatten) := by
  obtain ⟨hc, hb⟩ := chunk_chain_ok BUFFER_DATA_SIZE arrived 0 (fun c h => (harrived c h).2)
  have hst : reader_hold_with (stream_ok BUFFER_DATA_SIZE)
      ( packetizing_buffer_initialize BUFFER_DATA_SIZE PACKET_SLOP
        (chain_buffer (chunk_chain BUFFER_DATA_SIZE 0 arrived)
          ((chunk_chain BUFFER_DATA_SIZE 0 arrived).getLast?.map fun d => d.addr)
          (some chunk_input) pending)
        (some g) none cg).closure [] (wire_bytes F xs) :=
    ⟨⟨hc, rfl, hpending, by rw [← hflat, ← hb]; rfl⟩, rfl, rfl, rfl, by
      simp [ packetizing_buffer_initialize, buf_initialize], by
      simp [ packetizing_buffer_initialize, buf_initialize]⟩
  obtain ⟨rb, p', hres⟩ := packetizing_read_all_blocks BUFFER_DATA_SIZE PACKET_SLOP ENOMEM
    g F G hG need size hsize fuel n _ p [] xs rfl (Or.inl ⟨rfl, hst⟩) hxs hfuel
    (by rw [List.nil_append]; exact hn) hp
  refine ⟨⟨rb, p', hres⟩, ?_, ?_⟩
  · have := blocks_read_prefix need size n [] xs
    rwa [List.nil_append] at this
  · intro hneed hpos
    obtain ⟨rb2, p2, hres2⟩ := packetizing_read_all_with BUFFER_DATA_SIZE PACKET_SLOP ENOMEM
      (stream_ok BUFFER_DATA_SIZE) (stream_ok_reads BUFFER_DATA_SIZE) g F G hG
      need size hneed hpos fuel n _ p [] xs rfl (Or.inl ⟨rfl, hst⟩)
      hxs hfuel (by rw [List.nil_append]; exact hn) hp
    rw [hres] at hres2
    simp only [result.ok.injEq, Prod.mk.injEq, List.nil_append] at hres2
    exact hres2.1

theorem packetizing_input_chunking_witness :
    ((∀ c ∈ ([[0]] : List (List Byte)), c ≠ [] ∧ c.length ≤ 4)
      ∧ (∀ c ∈ ([[5, 0, 3, 1], [2, 3, 0], [4, 0, 2, 4], [5]] : List (List Byte)),
          c ≠ [] ∧ c.length ≤ 4)
      ∧ ([[0]] : List (List Byte)).flatten
          ++ ([[5, 0, 3, 1], [2, 3, 0], [4, 0, 2, 4], [5]] : List (List Byte)).flatten
          = wire_bytes (fun i => i) [[1, 2, 3], [4, 5]]
      ∧ (0 : Int) ≤ 4 ∧ never_exhausted ⟨[], 0, none⟩)
    ∧ blocks_read 2 4 6 [] [[1, 2, 3], [4, 5]] = [1, 2, 3, 4, 5]
    ∧ ∃ rb p', packetizing_read_all 4 2 12 14 2 4 6
        ( packetizing_buffer_initialize 4 2
          (chain_buffer (chunk_chain 4 0 [[0]])
            ((chunk_chain 4 0 [[0]]).getLast?.map fun d => d.addr)
            (some chunk_input) [[5, 0, 3, 1], [2, 3, 0], [4, 0, 2, 4], [5]])
          (some identity_transform) none ()).closure ⟨[], 0, none⟩
      = result.ok (blocks_read 2 4 6 [] [[1, 2, 3], [4, 5]], rb, p') :=
  ⟨⟨by decide, by decide, by decide, by decide, rfl⟩, by decide,
   (packetizing_input_chunking 4 2 12 identity_transform (fun i => i) (fun y => y)
     () 2 4 [[1, 2, 3], [4, 5]] [[0]] [[5, 0, 3, 1], [2, 3, 0], [4, 0, 2, 4], [5]]
     ⟨[], 0, none⟩ 14 6
     (fun _ _ => ⟨rfl, rfl⟩)
     (fun x hx => by
       rcases List.mem_cons.mp hx with h | h
       · rw [h]
         exact ⟨by decide, by decide, by decide, by decide, rfl, fun _ => by decide,
           fun _ => by decide⟩
       · rw [List.mem_singleton.mp h]
         exact ⟨by decide, by decide, by decide, by decide, rfl, fun _ => by decide,
           fun _ => by decide⟩)
     (by decide) (by decide) (by decide) (by decide) (by decide) (by decide) rfl).1⟩

end cvsnt
